import Mathlib

/-!
# Wren lexer: a shallow embedding of `src/vm/wren_lexer.c`

The source text is a list of bytes (`Nat` below 256).  The C source is
NUL-terminated; the model reads the byte 0 at every index from
`source.length` on, so the terminator is implicit.  Pointers into the source
(`tokenStart`, `currentChar`, `Token.start`) are indices.

Every `for (;;)` / `while` loop of the C code is a function that is
structurally recursive on a `fuel` argument and returns `none` when the fuel
runs out; `some` results are the results of the C loop.

Character codes used below:
`\0` 0, `\a` 7, `\b` 8, `\t` 9, `\n` 10, `\v` 11, `\f` 12, `\r` 13, `\33` 27,
space 32, `!` 33, `"` 34, `#` 35, `%` 37, `&` 38, `(` 40, `)` 41, `*` 42,
`+` 43, `,` 44, `-` 45, `.` 46, `/` 47, `0` 48, `9` 57, `:` 58, `<` 60,
`=` 61, `>` 62, `?` 63, `A` 65, `E` 69, `F` 70, `U` 85, `Z` 90, `[` 91,
`\\` 92, `]` 93, `^` 94, `_` 95, `a` 97, `b` 98, `e` 101, `f` 102, `n` 110,
`r` 114, `t` 116, `u` 117, `v` 118, `x` 120, `z` 122, `\x7b` 123, `|` 124,
`\x7d` 125, `~` 126.
-/

namespace Wren

/-! ## Data model (wren_lexer.h) -/

/-- Token kinds, in the order of the enum `TokenType` of wren_lexer.h. -/
inductive TokenType where
  | TOKEN_LEFT_PAREN
  | TOKEN_RIGHT_PAREN
  | TOKEN_LEFT_BRACKET
  | TOKEN_RIGHT_BRACKET
  | TOKEN_LEFT_BRACE
  | TOKEN_RIGHT_BRACE
  | TOKEN_COLON
  | TOKEN_DOT
  | TOKEN_DOTDOT
  | TOKEN_DOTDOTDOT
  | TOKEN_COMMA
  | TOKEN_STAR
  | TOKEN_SLASH
  | TOKEN_PERCENT
  | TOKEN_HASH
  | TOKEN_PLUS
  | TOKEN_MINUS
  | TOKEN_LTLT
  | TOKEN_GTGT
  | TOKEN_PIPE
  | TOKEN_PIPEPIPE
  | TOKEN_CARET
  | TOKEN_AMP
  | TOKEN_AMPAMP
  | TOKEN_BANG
  | TOKEN_TILDE
  | TOKEN_QUESTION
  | TOKEN_EQ
  | TOKEN_LT
  | TOKEN_GT
  | TOKEN_LTEQ
  | TOKEN_GTEQ
  | TOKEN_EQEQ
  | TOKEN_BANGEQ
  | TOKEN_BREAK
  | TOKEN_CONTINUE
  | TOKEN_CLASS
  | TOKEN_CONSTRUCT
  | TOKEN_ELSE
  | TOKEN_FALSE
  | TOKEN_FOR
  | TOKEN_FOREIGN
  | TOKEN_IF
  | TOKEN_IMPORT
  | TOKEN_AS
  | TOKEN_IN
  | TOKEN_IS
  | TOKEN_NULL
  | TOKEN_RETURN
  | TOKEN_STATIC
  | TOKEN_SUPER
  | TOKEN_THIS
  | TOKEN_TRUE
  | TOKEN_VAR
  | TOKEN_WHILE
  | TOKEN_FIELD
  | TOKEN_STATIC_FIELD
  | TOKEN_NAME
  | TOKEN_NUMBER
  | TOKEN_STRING
  | TOKEN_INTERPOLATION
  | TOKEN_LINE
  | TOKEN_ERROR
  | TOKEN_EOF
  deriving DecidableEq

open TokenType

/-- A number value (`WrenNum`, a C double) as the lexer builds it: the
conversion of an integer, or the result of the C library's `strtod` on the
subject sequence `text` that it reads.  Doubles are kept symbolic. -/
inductive WrenNum where
  | ofInt (v : Int)
  | strtod (text : List Nat)
  deriving DecidableEq

/-- The literal value stored in a token: `NUM_VAL(n)`, or the string object
made by `wrenNewStringLength` from the given bytes; `NULL_VAL` stands for a
value field that no literal has been stored in. -/
inductive Value where
  | NULL_VAL
  | NUM_VAL (n : WrenNum)
  | OBJ_STRING (bytes : List Nat)
  deriving DecidableEq

/-- The struct `Token` of wren_lexer.h. -/
structure Token where
  type : TokenType
  start : Nat
  length : Int
  line : Int
  value : Value
  deriving DecidableEq

/-- The enum `WrenErrorType` of the public header. -/
inductive WrenErrorType where
  | WREN_ERROR_COMPILE
  | WREN_ERROR_RUNTIME
  | WREN_ERROR_STACK_TRACE
  deriving DecidableEq

/-- One call of the host callback `config.errorFn(vm, type, module, line,
message)`; `module = none` is the NULL pointer. -/
structure ErrorCall where
  type : WrenErrorType
  module : Option String
  line : Int
  message : String
  deriving DecidableEq

/-- What the lexer uses of the VM: whether `config.errorFn` is non-NULL, and
the calls made to it so far, oldest first. -/
structure WrenVM where
  errorFn : Bool
  errorCalls : List ErrorCall
  deriving DecidableEq

/-- What the lexer uses of `ObjModule`: its name (`none` is NULL). -/
structure ObjModule where
  name : Option String
  deriving DecidableEq

/-- The depth limit of wren_lexer.h. -/
def MAX_INTERPOLATION_NESTING : Nat := 8

/-- The struct `sParser` of wren_lexer.h.  `parens` is the array
`int parens[MAX_INTERPOLATION_NESTING]`; an access outside the list reads 0
and a store outside it is dropped. -/
structure Parser where
  vm : WrenVM
  module : ObjModule
  source : List Nat
  tokenStart : Nat
  currentChar : Nat
  currentLine : Int
  next : Token
  current : Token
  previous : Token
  parens : List Int
  numParens : Nat
  printErrors : Bool
  hasError : Bool
  deriving DecidableEq

/-- What the lexer needs of the C library and platform, which are not part
of the repository: whether `strtod` sets `errno` to `ERANGE` on the subject
sequence it reads, and `sizeof(long int)`. -/
structure Libc where
  strtodERANGE : List Nat → Bool
  sizeofLong : Nat

/-- The bytes of an ASCII string. -/
def ascii (s : String) : List Nat := s.toList.map Char.toNat

/-- The C `%c` conversion of a byte: the character written into the buffer
of the message.  A byte 0 ends the C string held in the buffer (`cText`). -/
def fmtChar (c : Nat) : String := String.singleton (Char.ofNat c)

/-- The C string held in a buffer of formatted text, which is what the error
callback receives as the message: the characters in front of the first NUL.
Only a `%c` conversion of the byte 0 puts a NUL into a message. -/
def cText (text : String) : String :=
  String.mk (text.data.takeWhile (fun c => c ≠ Char.ofNat 0))

/-- The C `%d` conversion of a non-negative integer. -/
def fmtDec (n : Nat) : String := String.mk (Nat.toDigits 10 n)

/-- The C `%x` conversion. -/
def fmtHex (n : Nat) : String := String.mk (Nat.toDigits 16 n)

/-! ## Errors -/

/-- Function `wrenPrintError`; `text` is the message already formatted from
`format` and `args`. -/
def wrenPrintError (parser : Parser) (line : Int) (label : String) (text : String) : Parser :=
  let parser := { parser with hasError := true }
  if !parser.printErrors then parser
  else if !parser.vm.errorFn then parser
  else
    let message := label ++ ": " ++ text
    let module_name := match parser.module.name with
      | some value => value
      | none => "<unknown>"
    { parser with vm := { parser.vm with errorCalls := parser.vm.errorCalls ++
        [⟨WrenErrorType.WREN_ERROR_COMPILE, some module_name, line, message⟩] } }

/-- Function `lexError`. -/
def lexError (parser : Parser) (text : String) : Parser :=
  wrenPrintError parser parser.currentLine "Error" text

/-! ## Characters -/

/-- One entry of the table `keywords`. -/
structure Keyword where
  identifier : String
  length : Nat
  tokenType : TokenType

/-- The table `keywords` (without its NULL sentinel). -/
def keywords : List Keyword :=
  [ ⟨"break", 5, TOKEN_BREAK⟩,
    ⟨"continue", 8, TOKEN_CONTINUE⟩,
    ⟨"class", 5, TOKEN_CLASS⟩,
    ⟨"construct", 9, TOKEN_CONSTRUCT⟩,
    ⟨"else", 4, TOKEN_ELSE⟩,
    ⟨"false", 5, TOKEN_FALSE⟩,
    ⟨"for", 3, TOKEN_FOR⟩,
    ⟨"foreign", 7, TOKEN_FOREIGN⟩,
    ⟨"if", 2, TOKEN_IF⟩,
    ⟨"import", 6, TOKEN_IMPORT⟩,
    ⟨"as", 2, TOKEN_AS⟩,
    ⟨"in", 2, TOKEN_IN⟩,
    ⟨"is", 2, TOKEN_IS⟩,
    ⟨"null", 4, TOKEN_NULL⟩,
    ⟨"return", 6, TOKEN_RETURN⟩,
    ⟨"static", 6, TOKEN_STATIC⟩,
    ⟨"super", 5, TOKEN_SUPER⟩,
    ⟨"this", 4, TOKEN_THIS⟩,
    ⟨"true", 4, TOKEN_TRUE⟩,
    ⟨"var", 3, TOKEN_VAR⟩,
    ⟨"while", 5, TOKEN_WHILE⟩ ]

/-- Function `isName`. -/
def isName (c : Nat) : Bool :=
  (97 ≤ c && c ≤ 122) || (65 ≤ c && c ≤ 90) || c = 95

/-- Function `isDigit`. -/
def isDigit (c : Nat) : Bool :=
  48 ≤ c && c ≤ 57

/-- The byte at index `i` of the memory that holds the NUL-terminated source.
The list `source` gives the bytes of that memory from the first character of
the source on: the text and, where a run reads on behind the text, its
terminating NUL and the bytes behind it.  A list without NUL stands for a
text whose terminator is the first byte outside the list; what lies further
outside the list is not modelled (the C read there is not defined) and reads
as 0, so that a fact about reads outside the list says nothing of the C
program. -/
def charAt (source : List Nat) (i : Nat) : Nat := source.getD i 0

/-- Function `peekChar`. -/
def peekChar (parser : Parser) : Nat := charAt parser.source parser.currentChar

/-- Function `peekNextChar`. -/
def peekNextChar (parser : Parser) : Nat :=
  if peekChar parser = 0 then 0
  else charAt parser.source (parser.currentChar + 1)

/-- Function `nextChar`: the character read and the advanced parser. -/
def nextChar (parser : Parser) : Nat × Parser :=
  let c := peekChar parser
  (c, { parser with
          currentChar := parser.currentChar + 1
          currentLine := if c = 10 then parser.currentLine + 1 else parser.currentLine })

/-- Function `matchChar`. -/
def matchChar (parser : Parser) (c : Nat) : Bool × Parser :=
  if peekChar parser ≠ c then (false, parser)
  else (true, (nextChar parser).2)

/-- The statement `parser->currentChar--`. -/
def unreadChar (parser : Parser) : Parser :=
  { parser with currentChar := parser.currentChar - 1 }

/-- Function `makeToken`. -/
def makeToken (parser : Parser) (type : TokenType) : Parser :=
  { parser with next :=
    { parser.next with
        type := type
        start := parser.tokenStart
        length := (parser.currentChar : Int) - (parser.tokenStart : Int)
        line := if type = TOKEN_LINE then parser.currentLine - 1 else parser.currentLine } }

/-- Function `twoCharToken`. -/
def twoCharToken (parser : Parser) (c : Nat) (two one : TokenType) : Parser :=
  let m := matchChar parser c
  makeToken m.2 (if m.1 then two else one)

/-- A loop of the shape `while (cond(peekChar(parser))) nextChar(parser);`. -/
def skipWhile (cond : Nat → Bool) : Nat → Parser → Option Parser
  | 0, _ => none
  | fuel + 1, parser =>
    if cond (peekChar parser) then skipWhile cond fuel (nextChar parser).2
    else some parser

/-- Function `skipLineComment`. -/
def skipLineComment (fuel : Nat) (parser : Parser) : Option Parser :=
  skipWhile (fun c => c ≠ 10 && c ≠ 0) fuel parser

/-- The loop of `skipBlockComment`, with its local `nesting`. -/
def skipBlockCommentLoop : Nat → Parser → Int → Option Parser
  | 0, _, _ => none
  | fuel + 1, parser, nesting =>
    if nesting > 0 then
      if peekChar parser = 0 then
        some (lexError parser "Unterminated block comment.")
      else if peekChar parser = 47 ∧ peekNextChar parser = 42 then
        skipBlockCommentLoop fuel (nextChar (nextChar parser).2).2 (nesting + 1)
      else if peekChar parser = 42 ∧ peekNextChar parser = 47 then
        skipBlockCommentLoop fuel (nextChar (nextChar parser).2).2 (nesting - 1)
      else
        skipBlockCommentLoop fuel (nextChar parser).2 nesting
    else some parser

/-- Function `skipBlockComment`. -/
def skipBlockComment (fuel : Nat) (parser : Parser) : Option Parser :=
  skipBlockCommentLoop fuel parser 1

/-- Function `readHexDigit`: the digit value, or -1, and the parser. -/
def readHexDigit (parser : Parser) : Int × Parser :=
  let r := nextChar parser
  let c := r.1
  if 48 ≤ c ∧ c ≤ 57 then ((c : Int) - 48, r.2)
  else if 97 ≤ c ∧ c ≤ 102 then ((c : Int) - 97 + 10, r.2)
  else if 65 ≤ c ∧ c ≤ 70 then ((c : Int) - 65 + 10, r.2)
  else (-1, unreadChar r.2)

/-! ## Numbers -/

/-- The characters of the token being lexed, from `tokenStart` up to
`currentChar`. -/
def tokenText (parser : Parser) : List Nat :=
  (List.range (parser.currentChar - parser.tokenStart)).map
    (fun i => charAt parser.source (parser.tokenStart + i))

/-- The value of a hexadecimal digit character, if it is one. -/
def hexDigitValue (c : Nat) : Option Nat :=
  if 48 ≤ c ∧ c ≤ 57 then some (c - 48)
  else if 97 ≤ c ∧ c ≤ 102 then some (c - 97 + 10)
  else if 65 ≤ c ∧ c ≤ 70 then some (c - 65 + 10)
  else none

/-- The integer denoted by the leading hexadecimal digits of `text`, on top
of the accumulator `acc`. -/
def hexPrefixValue : List Nat → Nat → Nat
  | [], acc => acc
  | c :: rest, acc =>
    match hexDigitValue c with
    | some d => hexPrefixValue rest (acc * 16 + d)
    | none => acc

/-- The C library call `strtoll(text, NULL, 16)` on a text that starts with
a digit: an optional `0x` in front of a hexadecimal digit is skipped, the
leading hexadecimal digits are read, and a value above `LLONG_MAX` is
returned as `LLONG_MAX` with `errno = ERANGE` (the flag). -/
def strtoll16 (text : List Nat) : Int × Bool :=
  let digits := match text with
    | 48 :: x :: d :: rest =>
      if (x = 120 ∨ x = 88) ∧ (hexDigitValue d).isSome then d :: rest else text
    | _ => text
  let v := hexPrefixValue digits 0
  if v > 2 ^ 63 - 1 then (2 ^ 63 - 1, true) else (v, false)

/-- The digits at the start of a text, with at most one radix character `.`
among them, as `strtod` reads them. -/
def strtodDigits (digit : Nat → Bool) (text : List Nat) : List Nat :=
  match text.dropWhile digit with
  | 46 :: r => text.takeWhile digit ++ 46 :: r.takeWhile digit
  | _ => text.takeWhile digit

/-- The sign `+` or `-` at the start of a text, if it has one. -/
def strtodSign : List Nat → List Nat
  | s :: _ => if s = 43 ∨ s = 45 then [s] else []
  | [] => []

/-- The exponent part at the start of a text, as `strtod` reads it: a marker
(`e` or `E`; `p` or `P` in a hexadecimal number), an optional sign and one or
more decimal digits.  Empty when the text does not start with such a part. -/
def strtodExponent (lower upper : Nat) : List Nat → List Nat
  | m :: r =>
    if m = lower ∨ m = upper then
      let sign := strtodSign r
      let digits := (r.drop sign.length).takeWhile isDigit
      if digits.isEmpty then [] else m :: (sign ++ digits)
    else []
  | [] => []

/-- The subject sequence of the C library call `strtod(text, NULL)` on a text
that starts with a digit: the longest text at its start that has the form of
a floating-point number.  That is `0x` or `0X`, hexadecimal digits with at
most one `.` among them (at least one digit) and optionally `p` or `P`, an
optional sign and decimal digits (at least one); or else decimal digits with
at most one `.` among them and optionally `e` or `E`, an optional sign and
decimal digits (at least one).  The value `strtod` returns, and whether it
sets `errno` to `ERANGE`, depend on the subject sequence alone. -/
def strtodSubject (text : List Nat) : List Nat :=
  let hex : List Nat :=
    match text with
    | 48 :: x :: r =>
      if x = 120 ∨ x = 88 then
        let digits := strtodDigits (fun c => (hexDigitValue c).isSome) r
        if digits.any (fun c => (hexDigitValue c).isSome) then
          48 :: x :: (digits ++ strtodExponent 112 80 (r.drop digits.length))
        else []
      else []
    | _ => []
  if !hex.isEmpty then hex
  else
    let digits := strtodDigits isDigit text
    if digits.any isDigit then digits ++ strtodExponent 101 69 (text.drop digits.length)
    else []

/-- Function `makeNumber`.  `strtod` is called on `parser->tokenStart`, the
text of the source from the first character of the token on, of which it
reads its subject sequence (`strtodSubject`); that can be more than the
token.  `strtoll` is applied to the characters of the token, which are all it
reads of the source: the token was scanned to the last hexadecimal digit. -/
def makeNumber (libc : Libc) (parser : Parser) (isHex : Bool) : Parser :=
  let text := tokenText parser
  let subject := strtodSubject (parser.source.drop parser.tokenStart)
  let r : WrenNum × Bool :=
    if isHex then (WrenNum.ofInt (strtoll16 text).1, (strtoll16 text).2)
    else (WrenNum.strtod subject, libc.strtodERANGE subject)
  let parser := { parser with next := { parser.next with value := Value.NUM_VAL r.1 } }
  let parser :=
    if r.2 then
      let parser := lexError parser
        ("Number literal was too large (" ++ fmtDec libc.sizeofLong ++ ").")
      { parser with next := { parser.next with value := Value.NUM_VAL (WrenNum.ofInt 0) } }
    else parser
  makeToken parser TOKEN_NUMBER

/-- The loop `while (readHexDigit(parser) != -1) continue;`. -/
def readHexDigits : Nat → Parser → Option Parser
  | 0, _ => none
  | fuel + 1, parser =>
    let r := readHexDigit parser
    if r.1 ≠ -1 then readHexDigits fuel r.2 else some r.2

/-- Function `readHexNumber`. -/
def readHexNumber (libc : Libc) (fuel : Nat) (parser : Parser) : Option Parser :=
  let parser := (nextChar parser).2
  (readHexDigits fuel parser).map (fun parser => makeNumber libc parser true)

/-- Function `readNumber`. -/
def readNumber (libc : Libc) (fuel : Nat) (parser : Parser) : Option Parser :=
  (skipWhile isDigit fuel parser).bind fun parser =>
  (if peekChar parser = 46 ∧ isDigit (peekNextChar parser) then
      skipWhile isDigit fuel (nextChar parser).2
    else some parser).bind fun parser =>
  let m1 := matchChar parser 101
  let m2 := if m1.1 then m1 else matchChar m1.2 69
  (if m2.1 then
      let m3 := matchChar m2.2 43
      let parser := if !m3.1 then (matchChar m3.2 45).2 else m3.2
      let parser :=
        if !isDigit (peekChar parser) then lexError parser "Unterminated scientific notation."
        else parser
      skipWhile isDigit fuel parser
    else some m2.2).map fun parser =>
  makeNumber libc parser false

/-! ## Names -/

/-- The loop of `readName`, with the byte buffer `string`. -/
def readNameLoop : Nat → Parser → List Nat → Option (Parser × List Nat)
  | 0, _, _ => none
  | fuel + 1, parser, string =>
    if isName (peekChar parser) || isDigit (peekChar parser) then
      let r := nextChar parser
      readNameLoop fuel r.2 (string ++ [r.1])
    else some (parser, string)

/-- The keyword search of `readName`: the type of the first table entry whose
length and bytes are those of the token, or `type` when there is none. -/
def keywordType (text : List Nat) (type : TokenType) : List Keyword → TokenType
  | [] => type
  | k :: rest =>
    if text.length = k.length ∧ text = (ascii k.identifier).take text.length then k.tokenType
    else keywordType text type rest

/-- Function `readName`. -/
def readName (fuel : Nat) (parser : Parser) (type : TokenType) (firstChar : Nat) :
    Option Parser :=
  (readNameLoop fuel parser [firstChar]).map fun r =>
    let parser := r.1
    let type := keywordType (tokenText parser) type keywords
    let parser := { parser with next := { parser.next with value := Value.OBJ_STRING r.2 } }
    makeToken parser type

/-! ## String literals -/

/-- Function `readHexEscape`.  The local `value` (a C int) is held as its
32-bit two's-complement pattern, which is also the result; `description` is
the word printed in the error messages. -/
def readHexEscape : Nat → Parser → Nat → String → Nat × Parser
  | 0, parser, value, _ => (value, parser)
  | digits + 1, parser, value, description =>
    if peekChar parser = 34 ∨ peekChar parser = 0 then
      (value, unreadChar (lexError parser ("Incomplete " ++ description ++ " escape sequence.")))
    else
      let r := readHexDigit parser
      if r.1 = -1 then
        (value, lexError r.2 ("Invalid " ++ description ++ " escape sequence."))
      else
        readHexEscape digits r.2 (((value * 16) ||| r.1.toNat) % 2 ^ 32) description

/-- The C int with the given 32-bit two's-complement pattern. -/
def int32OfBits (bits : Nat) : Int :=
  if bits % 2 ^ 32 < 2 ^ 31 then (bits % 2 ^ 32 : Nat) else ((bits % 2 ^ 32 : Nat) : Int) - 2 ^ 32

/-- Modelled from the spec: `wrenUtf8EncodeNumBytes` and `wrenUtf8Encode`
(wren_utils.c is not among the sources).  The UTF-8 encoding of a code point
from 0 to 0x10ffff; no byte for any other value. -/
def wrenUtf8Encode (value : Int) : List Nat :=
  let v := value.toNat
  if value < 0 then []
  else if v ≤ 0x7f then [v]
  else if v ≤ 0x7ff then [0xc0 ||| (v >>> 6), 0x80 ||| (v &&& 0x3f)]
  else if v ≤ 0xffff then
    [0xe0 ||| (v >>> 12), 0x80 ||| ((v >>> 6) &&& 0x3f), 0x80 ||| (v &&& 0x3f)]
  else if v ≤ 0x10ffff then
    [0xf0 ||| (v >>> 18), 0x80 ||| ((v >>> 12) &&& 0x3f), 0x80 ||| ((v >>> 6) &&& 0x3f),
      0x80 ||| (v &&& 0x3f)]
  else []

/-- Function `readUnicodeEscape`: the parser and the extended buffer. -/
def readUnicodeEscape (parser : Parser) (string : List Nat) (length : Nat) :
    Parser × List Nat :=
  let r := readHexEscape length parser 0 "Unicode"
  (r.2, string ++ wrenUtf8Encode (int32OfBits r.1))

/-- The locals of `readRawString`. -/
structure RawLocals where
  string : List Nat
  skipStart : Int
  firstNewline : Int
  skipEnd : Int
  lastNewline : Int
  deriving DecidableEq

/-- The `for (;;)` loop of `readRawString`. -/
def readRawStringLoop : Nat → Parser → RawLocals → Option (Parser × RawLocals)
  | 0, _, _ => none
  | fuel + 1, parser, l =>
    let r := nextChar parser
    let c := r.1
    let parser := r.2
    let c1 := peekChar parser
    let c2 := peekNextChar parser
    if c = 13 then readRawStringLoop fuel parser l
    else
      let l : RawLocals :=
        if c = 10 then
          { l with
              lastNewline := l.string.length
              skipEnd := l.string.length
              firstNewline := if l.firstNewline = -1 then l.string.length else l.firstNewline }
        else l
      if c = 34 ∧ c1 = 34 ∧ c2 = 34 then some (parser, l)
      else
        let isWhitespace : Bool := c = 32 || c = 9
        let l := { l with skipEnd := if c = 10 || isWhitespace then l.skipEnd else -1 }
        let skippable : Bool := l.skipStart ≠ -1 && isWhitespace && l.firstNewline = -1
        let l := { l with skipStart := if skippable then (l.string.length : Int) + 1 else l.skipStart }
        let l := if l.firstNewline = -1 ∧ !isWhitespace ∧ c ≠ 10 then { l with skipStart := -1 } else l
        if c = 0 ∨ c1 = 0 ∨ c2 = 0 then
          some (unreadChar (lexError parser "Unterminated raw string."), l)
        else
          readRawStringLoop fuel parser { l with string := l.string ++ [c] }

/-- Function `readRawString`. -/
def readRawString (fuel : Nat) (parser : Parser) : Option Parser :=
  let type := TOKEN_STRING
  let parser := (nextChar (nextChar parser).2).2
  (readRawStringLoop fuel parser ⟨[], 0, -1, -1, -1⟩).map fun r =>
    let parser := (nextChar (nextChar r.1).2).2
    let l := r.2
    let offset : Int := 0
    let count : Int := l.string.length
    let offset := if l.firstNewline ≠ -1 ∧ l.skipStart = l.firstNewline then l.firstNewline + 1 else offset
    let count := if l.lastNewline ≠ -1 ∧ l.skipEnd = l.lastNewline then l.lastNewline else count
    let count := count - (if offset > count then count else offset)
    let parser := { parser with next := { parser.next with
      value := Value.OBJ_STRING ((l.string.drop offset.toNat).take count.toNat) } }
    makeToken parser type

/-- How one round of the loop of `readString` ends: `again` is `continue`
(or the end of the loop body), `done` is `break`. -/
inductive StringStep where
  | again (parser : Parser) (string : List Nat)
  | done (parser : Parser) (string : List Nat) (type : TokenType)

/-- The `switch` on the character after a backslash in `readString`.  In the
default case the character is formatted with `%c`; it can be the byte 0 (a
backslash in front of the terminating NUL), at which the C string of the
message ends (`cText`). -/
def readEscape (parser : Parser) (string : List Nat) (c : Nat) : Parser × List Nat :=
  if c = 34 then (parser, string ++ [34])
  else if c = 92 then (parser, string ++ [92])
  else if c = 37 then (parser, string ++ [37])
  else if c = 48 then (parser, string ++ [0])
  else if c = 97 then (parser, string ++ [7])
  else if c = 98 then (parser, string ++ [8])
  else if c = 101 then (parser, string ++ [27])
  else if c = 102 then (parser, string ++ [12])
  else if c = 110 then (parser, string ++ [10])
  else if c = 114 then (parser, string ++ [13])
  else if c = 116 then (parser, string ++ [9])
  else if c = 117 then readUnicodeEscape parser string 4
  else if c = 85 then readUnicodeEscape parser string 8
  else if c = 118 then (parser, string ++ [11])
  else if c = 120 then
    let r := readHexEscape 2 parser 0 "byte"
    (r.2, string ++ [r.1 % 256])
  else
    (lexError parser (cText ("Invalid escape character '" ++
      fmtChar (charAt parser.source (parser.currentChar - 1)) ++ "'.")), string)

/-- One round of the `for (;;)` loop of `readString`. -/
def readStringStep (parser : Parser) (string : List Nat) : StringStep :=
  let r := nextChar parser
  let c := r.1
  let parser := r.2
  if c = 34 then StringStep.done parser string TOKEN_STRING
  else if c = 13 then StringStep.again parser string
  else if c = 0 then
    StringStep.done (unreadChar (lexError parser "Unterminated string.")) string TOKEN_STRING
  else if c = 37 ∧ parser.numParens < MAX_INTERPOLATION_NESTING then
    let r := nextChar parser
    let parser := if r.1 ≠ 40 then lexError r.2 "Expect '(' after '%'." else r.2
    let parser := { parser with
      parens := parser.parens.set parser.numParens 1
      numParens := parser.numParens + 1 }
    StringStep.done parser string TOKEN_INTERPOLATION
  else
    let parser :=
      if c = 37 then
        lexError parser ("Interpolation may only nest " ++ fmtDec MAX_INTERPOLATION_NESTING ++
          " levels deep.")
      else parser
    if c = 92 then
      let r := nextChar parser
      let e := readEscape r.2 string r.1
      StringStep.again e.1 e.2
    else
      StringStep.again parser (string ++ [c])

/-- The `for (;;)` loop of `readString`. -/
def readStringLoop : Nat → Parser → List Nat → Option (Parser × List Nat × TokenType)
  | 0, _, _ => none
  | fuel + 1, parser, string =>
    match readStringStep parser string with
    | StringStep.done parser string type => some (parser, string, type)
    | StringStep.again parser string => readStringLoop fuel parser string

/-- Function `readString`. -/
def readString (fuel : Nat) (parser : Parser) : Option Parser :=
  (readStringLoop fuel parser []).map fun r =>
    let parser := r.1
    let parser := { parser with next := { parser.next with value := Value.OBJ_STRING r.2.1 } }
    makeToken parser r.2.2

/-! ## The token loop -/

/-- How the `switch` of `wrenNextToken` is left: `ret` is `return`, `brk` is
`break` (the enclosing `while` goes on). -/
inductive SwitchExit where
  | ret (parser : Parser)
  | brk (parser : Parser)

/-- The `switch (c)` of `wrenNextToken`, entered after `nextChar` has
returned `c`. -/
def lexSwitch (libc : Libc) (fuel : Nat) (parser : Parser) (c : Nat) : Option SwitchExit :=
  if c = 40 then
    let parser :=
      if parser.numParens > 0 then
        let top := parser.parens.getD (parser.numParens - 1) 0 + 1
        { parser with parens := parser.parens.set (parser.numParens - 1) top }
      else parser
    some (SwitchExit.ret (makeToken parser TOKEN_LEFT_PAREN))
  else if c = 41 then
    if parser.numParens > 0 then
      let top := parser.parens.getD (parser.numParens - 1) 0 - 1
      let parser := { parser with parens := parser.parens.set (parser.numParens - 1) top }
      if parser.parens.getD (parser.numParens - 1) 0 = 0 then
        let parser := { parser with numParens := parser.numParens - 1 }
        (readString fuel parser).map SwitchExit.ret
      else some (SwitchExit.ret (makeToken parser TOKEN_RIGHT_PAREN))
    else some (SwitchExit.ret (makeToken parser TOKEN_RIGHT_PAREN))
  else if c = 91 then some (SwitchExit.ret (makeToken parser TOKEN_LEFT_BRACKET))
  else if c = 93 then some (SwitchExit.ret (makeToken parser TOKEN_RIGHT_BRACKET))
  else if c = 123 then some (SwitchExit.ret (makeToken parser TOKEN_LEFT_BRACE))
  else if c = 125 then some (SwitchExit.ret (makeToken parser TOKEN_RIGHT_BRACE))
  else if c = 58 then some (SwitchExit.ret (makeToken parser TOKEN_COLON))
  else if c = 44 then some (SwitchExit.ret (makeToken parser TOKEN_COMMA))
  else if c = 42 then some (SwitchExit.ret (makeToken parser TOKEN_STAR))
  else if c = 37 then some (SwitchExit.ret (makeToken parser TOKEN_PERCENT))
  else if c = 35 then
    if parser.currentLine = 1 ∧ peekChar parser = 33 ∧ peekNextChar parser = 47 then
      (skipLineComment fuel parser).map SwitchExit.brk
    else some (SwitchExit.ret (makeToken parser TOKEN_HASH))
  else if c = 94 then some (SwitchExit.ret (makeToken parser TOKEN_CARET))
  else if c = 43 then some (SwitchExit.ret (makeToken parser TOKEN_PLUS))
  else if c = 45 then some (SwitchExit.ret (makeToken parser TOKEN_MINUS))
  else if c = 126 then some (SwitchExit.ret (makeToken parser TOKEN_TILDE))
  else if c = 63 then some (SwitchExit.ret (makeToken parser TOKEN_QUESTION))
  else if c = 124 then some (SwitchExit.ret (twoCharToken parser 124 TOKEN_PIPEPIPE TOKEN_PIPE))
  else if c = 38 then some (SwitchExit.ret (twoCharToken parser 38 TOKEN_AMPAMP TOKEN_AMP))
  else if c = 61 then some (SwitchExit.ret (twoCharToken parser 61 TOKEN_EQEQ TOKEN_EQ))
  else if c = 33 then some (SwitchExit.ret (twoCharToken parser 61 TOKEN_BANGEQ TOKEN_BANG))
  else if c = 46 then
    let m := matchChar parser 46
    if m.1 then some (SwitchExit.ret (twoCharToken m.2 46 TOKEN_DOTDOTDOT TOKEN_DOTDOT))
    else some (SwitchExit.ret (makeToken m.2 TOKEN_DOT))
  else if c = 47 then
    let m := matchChar parser 47
    if m.1 then (skipLineComment fuel m.2).map SwitchExit.brk
    else
      let m := matchChar m.2 42
      if m.1 then (skipBlockComment fuel m.2).map SwitchExit.brk
      else some (SwitchExit.ret (makeToken m.2 TOKEN_SLASH))
  else if c = 60 then
    let m := matchChar parser 60
    if m.1 then some (SwitchExit.ret (makeToken m.2 TOKEN_LTLT))
    else some (SwitchExit.ret (twoCharToken m.2 61 TOKEN_LTEQ TOKEN_LT))
  else if c = 62 then
    let m := matchChar parser 62
    if m.1 then some (SwitchExit.ret (makeToken m.2 TOKEN_GTGT))
    else some (SwitchExit.ret (twoCharToken m.2 61 TOKEN_GTEQ TOKEN_GT))
  else if c = 10 then some (SwitchExit.ret (makeToken parser TOKEN_LINE))
  else if c = 32 ∨ c = 13 ∨ c = 9 then
    (skipWhile (fun c => c = 32 || c = 13 || c = 9) fuel parser).map SwitchExit.brk
  else if c = 34 then
    if peekChar parser = 34 ∧ peekNextChar parser = 34 then
      (readRawString fuel parser).map SwitchExit.ret
    else (readString fuel parser).map SwitchExit.ret
  else if c = 95 then
    (readName fuel parser (if peekChar parser = 95 then TOKEN_STATIC_FIELD else TOKEN_FIELD) c).map
      SwitchExit.ret
  else if c = 48 then
    if peekChar parser = 120 then (readHexNumber libc fuel parser).map SwitchExit.ret
    else (readNumber libc fuel parser).map SwitchExit.ret
  else if isName c then (readName fuel parser TOKEN_NAME c).map SwitchExit.ret
  else if isDigit c then (readNumber libc fuel parser).map SwitchExit.ret
  else
    let parser :=
      if 32 ≤ c ∧ c ≤ 126 then lexError parser ("Invalid character '" ++ fmtChar c ++ "'.")
      else lexError parser ("Invalid byte 0x" ++ fmtHex (c % 256) ++ ".")
    some (SwitchExit.ret { parser with next := { parser.next with type := TOKEN_ERROR, length := 0 } })

/-- The `while` loop of `wrenNextToken` and the EOF token after it. -/
def lexToken (libc : Libc) : Nat → Parser → Option Parser
  | 0, _ => none
  | fuel + 1, parser =>
    if peekChar parser ≠ 0 then
      let parser := { parser with tokenStart := parser.currentChar }
      let r := nextChar parser
      match lexSwitch libc fuel r.2 r.1 with
      | none => none
      | some (SwitchExit.ret parser) => some parser
      | some (SwitchExit.brk parser) => lexToken libc fuel parser
    else
      let parser := { parser with tokenStart := parser.currentChar }
      some (makeToken parser TOKEN_EOF)

/-- Function `wrenNextToken`. -/
def wrenNextToken (libc : Libc) (fuel : Nat) (parser : Parser) : Option Parser :=
  let parser := { parser with previous := parser.current }
  let parser := { parser with current := parser.next }
  if parser.next.type = TOKEN_EOF then some parser
  else if parser.current.type = TOKEN_EOF then some parser
  else lexToken libc fuel parser

/-- The tokens stored in `next` by `n` successive calls of `wrenNextToken`,
and the parser after the last call. -/
def wrenNextTokens (libc : Libc) (fuel : Nat) : Nat → Parser → Option (List Token × Parser)
  | 0, parser => some ([], parser)
  | n + 1, parser =>
    (wrenNextToken libc fuel parser).bind fun parser =>
    (wrenNextTokens libc fuel n parser).map fun r => (parser.next :: r.1, r.2)

/-! ## Definitions used to state the properties -/

/-- The part of the source that has not been read: the characters from
`currentChar` on. -/
def Parser.rest (p : Parser) : List Nat := p.source.drop p.currentChar

/-- A C library whose `strtod` never reports a range error, on a platform
where `long int` has 8 bytes. -/
def exampleLibc : Libc := ⟨fun _ => false, 8⟩

/-- A parser at the start of `source`: line 1, no token lexed yet, an empty
interpolation stack, errors printed through a host callback, module "main". -/
def startParser (source : List Nat) : Parser :=
  { vm := ⟨true, []⟩
    module := ⟨some "main"⟩
    source := source
    tokenStart := 0
    currentChar := 0
    currentLine := 1
    next := ⟨TOKEN_ERROR, 0, 0, 0, Value.NULL_VAL⟩
    current := ⟨TOKEN_ERROR, 0, 0, 0, Value.NULL_VAL⟩
    previous := ⟨TOKEN_ERROR, 0, 0, 0, Value.NULL_VAL⟩
    parens := List.replicate MAX_INTERPOLATION_NESTING 0
    numParens := 0
    printErrors := true
    hasError := false }

/-- The operator lexemes of the lexer: the lexeme, its token type, and the
characters that would extend it to a longer operator. -/
def operatorTable : List (String × TokenType × List Nat) :=
  [ ("==", TOKEN_EQEQ, []),
    ("!=", TOKEN_BANGEQ, []),
    ("<=", TOKEN_LTEQ, []),
    (">=", TOKEN_GTEQ, []),
    ("<<", TOKEN_LTLT, []),
    (">>", TOKEN_GTGT, []),
    ("||", TOKEN_PIPEPIPE, []),
    ("&&", TOKEN_AMPAMP, []),
    ("..", TOKEN_DOTDOT, [46]),
    ("...", TOKEN_DOTDOTDOT, []),
    ("=", TOKEN_EQ, [61]),
    ("!", TOKEN_BANG, [61]),
    ("<", TOKEN_LT, [60, 61]),
    (">", TOKEN_GT, [62, 61]),
    ("|", TOKEN_PIPE, [124]),
    ("&", TOKEN_AMP, [38]),
    (".", TOKEN_DOT, [46]) ]

/-- The simple escapes of an ordinary string literal: the character after the
backslash, and the byte the escape stands for. -/
def simpleEscapes : List (Nat × Nat) :=
  [ (34, 0x22), (92, 0x5C), (37, 0x25), (48, 0x00), (97, 0x07), (98, 0x08), (101, 0x1B),
    (102, 0x0C), (110, 0x0A), (114, 0x0D), (116, 0x09), (118, 0x0B) ]

/-- One element of the body of an ordinary string literal: a plain character,
a simple escape (a backslash and the character `c`), or a byte escape (a
backslash, `x` and two characters). -/
inductive StrItem where
  | plain (c : Nat)
  | escape (c : Nat)
  | hex (h1 h2 : Nat)
  deriving DecidableEq

/-- A plain character is any byte other than double quote, backslash,
percent, CR and NUL; a simple escape has one of the characters of
`simpleEscapes`; a byte escape has two hexadecimal digits. -/
def StrItem.ok : StrItem → Bool
  | StrItem.plain c => c ≠ 34 && c ≠ 92 && c ≠ 37 && c ≠ 13 && c ≠ 0
  | StrItem.escape c => decide (c ∈ simpleEscapes.map Prod.fst)
  | StrItem.hex h1 h2 => (hexDigitValue h1).isSome && (hexDigitValue h2).isSome

/-- Whether the element is a plain character or a simple escape. -/
def StrItem.simple : StrItem → Bool
  | StrItem.hex _ _ => false
  | _ => true

/-- The source characters of an element. -/
def StrItem.text : StrItem → List Nat
  | StrItem.plain c => [c]
  | StrItem.escape c => [92, c]
  | StrItem.hex h1 h2 => [92, 120, h1, h2]

/-- The bytes an element stands for. -/
def StrItem.bytes : StrItem → List Nat
  | StrItem.plain c => [c]
  | StrItem.escape c => [(simpleEscapes.lookup c).getD 0]
  | StrItem.hex h1 h2 => [16 * (hexDigitValue h1).getD 0 + (hexDigitValue h2).getD 0]

/-- The source characters of a body. -/
def bodyText (items : List StrItem) : List Nat := items.flatMap StrItem.text

/-- The bytes a body stands for. -/
def bodyValue (items : List StrItem) : List Nat := items.flatMap StrItem.bytes

/-- The characters that `readString` accepts after a backslash: those of the
simple escapes, and `u`, `U` and `x`. -/
def escapeLetters : List Nat := simpleEscapes.map Prod.fst ++ [117, 85, 120]

/-- The parser after `n` more characters of the source, `k` of them newlines,
have been read. -/
def Parser.advance (p : Parser) (n k : Nat) : Parser :=
  { p with currentChar := p.currentChar + n, currentLine := p.currentLine + (k : Int) }

/-- The number of newline characters in a text. -/
def newlines (text : List Nat) : Nat := text.count 10

/-- A string literal with 8 nested levels of interpolation. -/
def nested8 : List Nat :=
  ascii "\"%(\"%(\"%(\"%(\"%(\"%(\"%(\"%(1)\")\")\")\")\")\")\")\""

/-- A string literal with 9 nested levels of interpolation. -/
def nested9 : List Nat :=
  ascii "\"%(\"%(\"%(\"%(\"%(\"%(\"%(\"%(\"%(1)\")\")\")\")\")\")\")\")\""

/-- The fields that reading escapes and reporting errors never change. -/
def SameFrame (p q : Parser) : Prop :=
  q.source = p.source ∧ q.numParens = p.numParens ∧ q.parens = p.parens ∧
  q.tokenStart = p.tokenStart


/-- A parser at the start of `source` inside `depth` open interpolations, each
with one unmatched parenthesis. -/
def interpParser (source : List Nat) (depth : Nat) : Parser :=
  { startParser source with
    numParens := depth
    parens := List.replicate depth 1 ++ List.replicate (MAX_INTERPOLATION_NESTING - depth) 0 }

/-- Whether a character is a space or a tab. -/
def isBlank (c : Nat) : Bool := c = 32 || c = 9

/-- A text with every CR removed. -/
def dropCR (text : List Nat) : List Nat := text.filter (fun c => c ≠ 13)

/-- The characters before the first newline of a text (the whole text when it
has no newline). -/
def firstLine (text : List Nat) : List Nat := text.takeWhile (fun c => c ≠ 10)

/-- The characters after the last newline of a text (the whole text when it
has no newline). -/
def lastLine (text : List Nat) : List Nat :=
  (text.reverse.takeWhile (fun c => c ≠ 10)).reverse

/-- The two trims of a raw string: when the text has a newline and its first
line is blank, the first line and its newline are removed; when the text has
a newline and its last line is blank, the last newline and what follows it
are removed. -/
def rawTrim (text : List Nat) : List Nat :=
  let trimFirst : Bool := decide (10 ∈ text) && (firstLine text).all isBlank
  let trimLast : Bool := decide (10 ∈ text) && (lastLine text).all isBlank
  let kept := if trimLast then text.take (text.length - (lastLine text).length - 1) else text
  kept.drop (if trimFirst then (firstLine text).length + 1 else 0)

/-- Whether a text starts with three double quotes. -/
def startsWithTripleQuote : List Nat → Bool
  | 34 :: 34 :: 34 :: _ => true
  | _ => false

/-- The body of a terminated raw string: it has no NUL, and the three quotes
after it are the first three consecutive quotes. -/
def RawBody (body : List Nat) : Prop :=
  0 ∉ body ∧ ∀ i < body.length, startsWithTripleQuote ((body ++ [34, 34, 34]).drop i) = false

/-- What the locals of `readRawString` hold when the buffer holds `string`. -/
def RawInv (l : RawLocals) : Prop :=
  l.firstNewline = (if 10 ∈ l.string then ((firstLine l.string).length : Int) else -1) ∧
  l.lastNewline =
    (if 10 ∈ l.string then (l.string.length : Int) - 1 - (lastLine l.string).length else -1) ∧
  l.skipStart =
    (if (firstLine l.string).all isBlank = true then ((firstLine l.string).length : Int) else -1) ∧
  l.skipEnd =
    (if 10 ∈ l.string ∧ (lastLine l.string).all isBlank = true then
      (l.string.length : Int) - 1 - (lastLine l.string).length
    else -1)

/-! ### Interpolated strings -/

/-- Whether the lexer stores a literal value in tokens of this type: the
tokens made by `readName`, `makeNumber` and `readString`. -/
def TokenType.hasValue (t : TokenType) : Bool :=
  decide (t ∈ keywords.map (fun k => k.tokenType) ++
    [TOKEN_FIELD, TOKEN_STATIC_FIELD, TOKEN_NAME, TOKEN_NUMBER, TOKEN_STRING, TOKEN_INTERPOLATION])

/-- What a token says: its type, slice, line and, when its type carries one,
its literal value (the `value` field of every other token is left over from
an earlier token). -/
structure TokenView where
  type : TokenType
  start : Nat
  length : Int
  line : Int
  value : Option Value
  deriving DecidableEq

/-- The view of a token. -/
def Token.view (t : Token) : TokenView :=
  ⟨t.type, t.start, t.length, t.line, if t.type.hasValue then some t.value else none⟩

/-- A view moved `offset` characters and `lines` lines further on. -/
def TokenView.shift (v : TokenView) (offset : Nat) (lines : Int) : TokenView :=
  { v with start := offset + v.start, line := v.line + lines }

/-- The whitespace characters that the lexer skips: space, CR and tab. -/
def isSpace (c : Nat) : Bool := c = 32 || c = 13 || c = 9

/-- Whether the characters of `e` at the indices from `a` up to `b` are all
whitespace. -/
def allSpace (e : List Nat) (a b : Nat) : Bool :=
  (List.range (b - a)).all (fun i => isSpace (charAt e (a + i)))

/-- Whether the text `e` from index `pos` on is made of the slices of the
tokens `ts`, in order, with nothing but whitespace before, between and after
them. -/
def tiles (e : List Nat) : Nat → List Token → Bool
  | pos, [] => allSpace e pos e.length
  | pos, t :: ts =>
    decide (pos ≤ t.start) && allSpace e pos t.start && tiles e (t.start + t.length.toNat) ts

/-- Whether the parentheses of a list of token types are balanced, `depth`
being the number of parentheses already open. -/
def balanced : Nat → List TokenType → Bool
  | depth, [] => depth = 0
  | depth, TOKEN_LEFT_PAREN :: ts => balanced (depth + 1) ts
  | depth, TOKEN_RIGHT_PAREN :: ts => decide (0 < depth) && balanced (depth - 1) ts
  | depth, _ :: ts => balanced depth ts

/-- The token types of an expression without a string literal: any type but
STRING, INTERPOLATION, ERROR and EOF. -/
def exprType (t : TokenType) : Bool :=
  t ≠ TOKEN_STRING && t ≠ TOKEN_INTERPOLATION && t ≠ TOKEN_ERROR && t ≠ TOKEN_EOF

/-- The text `e` is a token sequence with balanced parentheses and no string
literal, and `ts` are its tokens: lexing `e` on its own gives the tokens
`ts`, none of them a string, an error or EOF; `e` is made of their slices
and whitespace; and their parentheses are balanced. -/
def IsTokenSeq (libc : Libc) (fuel : Nat) (e : List Nat) (ts : List Token) : Prop :=
  0 ∉ e ∧
  (wrenNextTokens libc fuel ts.length (startParser e)).map Prod.fst = some ts ∧
  (∀ t ∈ ts, exprType t.type = true) ∧
  tiles e 0 ts = true ∧
  balanced 0 (ts.map (fun t => t.type)) = true

/-- One interpolation of a string literal: the section `s` of the string in
front of it (plain characters and escapes), and the expression `e` between
`%(` and `)`, with its tokens. -/
structure Piece where
  s : List StrItem
  e : List Nat
  ts : List Token

/-- The text of a string literal after its opening quote: each section is
followed by `%(`, the expression and `)`; the last section by the closing
quote. -/
def sectionText : List Piece → List StrItem → List Nat
  | [], last => bodyText last ++ [34]
  | pc :: rest, last => bodyText pc.s ++ 37 :: 40 :: pc.e ++ 41 :: sectionText rest last

/-- The line the lexer is on after the tokens `ts` of an expression that
started on line 1 (a LINE token is made on the line before). -/
def endLine (ts : List Token) : Int :=
  match ts.getLast? with
  | none => 1
  | some t => if t.type = TOKEN_LINE then t.line + 1 else t.line

/-- The tokens expected for the text `sectionText pieces last` after a quote
or closing parenthesis at index `start` read on line `line`: for each piece
an INTERPOLATION token with the bytes of the section as its value, then the
tokens of the expression, moved to where the expression stands; at the end a
STRING token with the bytes of the last section. -/
def expectedViews : Nat → Int → List Piece → List StrItem → List TokenView
  | start, line, [], last =>
    [⟨TOKEN_STRING, start, ((bodyText last).length : Int) + 2,
      line + (newlines (bodyText last) : Nat), some (Value.OBJ_STRING (bodyValue last))⟩]
  | start, line, pc :: rest, last =>
    (⟨TOKEN_INTERPOLATION, start, ((bodyText pc.s).length : Int) + 3,
        line + (newlines (bodyText pc.s) : Nat),
        some (Value.OBJ_STRING (bodyValue pc.s))⟩ : TokenView) ::
      (pc.ts.map (fun t => t.view.shift (start + (bodyText pc.s).length + 3)
        (line + (newlines (bodyText pc.s) : Nat) - 1)) ++
      expectedViews (start + (bodyText pc.s).length + 3 + pc.e.length)
        (line + (newlines (bodyText pc.s) : Nat) + (endLine pc.ts - 1)) rest last)

/-- Where an expression `e` stands in a larger source: after the text `pre`
and in front of a closing parenthesis and the text `post`, in a parser that
is `dl` lines further on and has the given interpolation stack. -/
structure Frame where
  pre : List Nat
  e : List Nat
  post : List Nat
  dl : Int
  numParens : Nat
  parens : List Int

/-- The parser `a` reads the expression of the frame on its own, outside any
interpolation, and the parser `b` reads it at the same place inside the
larger source. -/
def Embedded (F : Frame) (a b : Parser) : Prop :=
  a.source = F.e ∧ b.source = F.pre ++ F.e ++ 41 :: F.post ∧ 0 ∉ F.e ∧
  b.currentChar = F.pre.length + a.currentChar ∧
  b.tokenStart = F.pre.length + a.tokenStart ∧
  b.currentLine = a.currentLine + F.dl ∧
  a.currentChar ≤ F.e.length ∧ a.tokenStart ≤ a.currentChar ∧
  1 ≤ a.currentLine ∧ 0 ≤ F.dl ∧
  a.numParens = 0 ∧ b.numParens = F.numParens ∧ b.parens = F.parens

/-- The parser `q` is further on in the same token as `p`. -/
def Onward (p q : Parser) : Prop :=
  q.tokenStart = p.tokenStart ∧ p.currentChar ≤ q.currentChar

/-- The parser `q` has made a token that starts where the token of `p` starts
and ends at the current character of `q`, on the current line of `q`. -/
def TokenAt (p q : Parser) : Prop :=
  Onward p q ∧ q.next.start = p.tokenStart ∧
    q.next.length = (q.currentChar : Int) - (p.tokenStart : Int) ∧
    q.next.line = (if q.next.type = TOKEN_LINE then q.currentLine - 1 else q.currentLine)

/-- The frame after a token of type `T` has been lexed inside the
interpolation: a parenthesis changes the count on top of the stack. -/
def Frame.after (F : Frame) (T : TokenType) : Frame :=
  { F with parens :=
      if T = TOKEN_LEFT_PAREN then
        F.parens.set (F.numParens - 1) (F.parens.getD (F.numParens - 1) 0 + 1)
      else if T = TOKEN_RIGHT_PAREN then
        F.parens.set (F.numParens - 1) (F.parens.getD (F.numParens - 1) 0 - 1)
      else F.parens }

/-- What the switch does to a parser `p`, for a result `r`: a token of an
expression is made from `p` on, and a skip moves further on. -/
def SwitchShape (p : Parser) (r : Option SwitchExit) : Prop :=
  (∀ q, r = some (SwitchExit.ret q) → exprType q.next.type = true → TokenAt p q) ∧
  (∀ q, r = some (SwitchExit.brk q) → Onward p q)

/-- The results `ra` and `rb` of the switch in the two parsers of a frame, on
the character `c`: a token of the expression is made by both, and a skip is
made by both unless it starts at a character that is not whitespace. -/
def SwitchSim (F : Frame) (c : Nat) (ra rb : Option SwitchExit) : Prop :=
  (∀ a', ra = some (SwitchExit.ret a') → exprType a'.next.type = true →
    (a'.next.type = TOKEN_RIGHT_PAREN → F.parens.getD (F.numParens - 1) 0 - 1 ≠ 0) →
    ∃ b', rb = some (SwitchExit.ret b') ∧ Embedded (F.after a'.next.type) a' b' ∧
      b'.next.view = a'.next.view.shift F.pre.length F.dl) ∧
  (∀ a2, ra = some (SwitchExit.brk a2) →
    (∃ b2, rb = some (SwitchExit.brk b2) ∧ Embedded F a2 b2) ∨ isSpace c = false)

/-- The types of the tokens that are only punctuation: they carry no value
and are not parentheses. -/
def TokenType.plain (T : TokenType) : Bool :=
  !T.hasValue && T ≠ TOKEN_LEFT_PAREN && T ≠ TOKEN_RIGHT_PAREN

/-- The pieces of the string literal `"a %(b) c %(d) e"`: the sections `a `
and ` c ` and the expressions `b` and `d`, each lexed on its own as one
name. -/
def examplePieces : List Piece :=
  [ ⟨(ascii "a ").map StrItem.plain, ascii "b",
      [⟨TOKEN_NAME, 0, 1, 1, Value.OBJ_STRING (ascii "b")⟩]⟩,
    ⟨(ascii " c ").map StrItem.plain, ascii "d",
      [⟨TOKEN_NAME, 0, 1, 1, Value.OBJ_STRING (ascii "d")⟩]⟩ ]

/-! ## Stack traces (wren_debug.c)

The types `ObjFn`, `FnDebug`, `CallFrame` and `ObjFiber` are declared in
wren_value.h, which is not among the sources; the structures below hold the
fields that `wrenDebugPrintStackTrace` reads. -/

/-- The struct `FnDebug`: the name of the function and the source line of each
byte of its code (`sourceLines.data`). -/
structure FnDebug where
  name : String
  sourceLines : List Int
  deriving DecidableEq

/-- The struct `ObjFn`: the module of the function (`none` is NULL) and its
debug information. -/
structure ObjFn where
  module : Option ObjModule
  debug : FnDebug
  deriving DecidableEq

/-- The struct `CallFrame`: `ip` is the offset `frame->ip - fn->code.data` of
the instruction pointer in the code of the function, `fn` is
`frame->closure->fn`. -/
structure CallFrame where
  ip : Nat
  fn : ObjFn
  deriving DecidableEq

/-- The struct `ObjFiber`: the error value, the array `frames` and the number
`numFrames` of frames in use. -/
structure ObjFiber where
  error : Value
  frames : List CallFrame
  numFrames : Nat
  deriving DecidableEq

/-- The C string of a string object, as `AS_CSTRING` hands it to the
callback: the characters in front of the first NUL byte, if the string has
one. -/
def cString (bytes : List Nat) : String :=
  String.mk ((bytes.takeWhile (fun c => c ≠ 0)).map Char.ofNat)

/-- The element `data[i]` of an `IntBuffer`; the model reads 0 outside the
buffer, where the C read is not defined. -/
def intBufferAt (data : List Int) (i : Int) : Int :=
  if i < 0 then 0 else data.getD i.toNat 0

/-- One call `vm->config.errorFn(vm, type, module, line, message)`. -/
def callErrorFn (vm : WrenVM) (type : WrenErrorType) (module : Option String) (line : Int)
    (message : String) : WrenVM :=
  { vm with errorCalls := vm.errorCalls ++ [⟨type, module, line, message⟩] }

/-- The loop `for (int i = fiber->numFrames - 1; i >= 0; i--)` of
`wrenDebugPrintStackTrace`; the argument is `i + 1`.  A frame outside the
array is passed over. -/
def stackTraceLoop (fiber : ObjFiber) : Nat → WrenVM → WrenVM
  | 0, vm => vm
  | i + 1, vm =>
    match fiber.frames[i]? with
    | none => stackTraceLoop fiber i vm
    | some frame =>
      let fn := frame.fn
      match fn.module with
      | none => stackTraceLoop fiber i vm
      | some module =>
        match module.name with
        | none => stackTraceLoop fiber i vm
        | some name =>
          let line := intBufferAt fn.debug.sourceLines ((frame.ip : Int) - 1)
          stackTraceLoop fiber i
            (callErrorFn vm WrenErrorType.WREN_ERROR_STACK_TRACE (some name) line fn.debug.name)

/-- Function `wrenDebugPrintStackTrace`; the fiber is `vm->fiber`. -/
def wrenDebugPrintStackTrace (vm : WrenVM) (fiber : ObjFiber) : WrenVM :=
  if !vm.errorFn then vm
  else
    let vm :=
      match fiber.error with
      | Value.OBJ_STRING bytes =>
        callErrorFn vm WrenErrorType.WREN_ERROR_RUNTIME none (-1) (cString bytes)
      | _ => callErrorFn vm WrenErrorType.WREN_ERROR_RUNTIME none (-1) "[error object]"
    stackTraceLoop fiber fiber.numFrames vm

/-- The message of the runtime error event of a fiber. -/
def runtimeMessage (fiber : ObjFiber) : String :=
  match fiber.error with
  | Value.OBJ_STRING bytes => cString bytes
  | _ => "[error object]"

/-- The stack trace event of a frame: none for a frame whose function has no
module or whose module has no name. -/
def traceEvent (frame : CallFrame) : Option ErrorCall :=
  match frame.fn.module with
  | none => none
  | some module =>
    match module.name with
    | none => none
    | some name =>
      some ⟨WrenErrorType.WREN_ERROR_STACK_TRACE, some name,
        intBufferAt frame.fn.debug.sourceLines ((frame.ip : Int) - 1), frame.fn.debug.name⟩

/-- A fiber with the error string `boom` and four frames in use: a function
`f` of module `main`, an API stub without module, a function of the unnamed
core module, and a function `g` of module `main`; a fifth slot of the array
is not in use. -/
def exampleFiber : ObjFiber :=
  { error := Value.OBJ_STRING (ascii "boom")
    frames :=
      [ ⟨2, ⟨some ⟨some "main"⟩, ⟨"f", [1, 3, 3, 4]⟩⟩⟩,
        ⟨1, ⟨none, ⟨"stub", [0]⟩⟩⟩,
        ⟨1, ⟨some ⟨none⟩, ⟨"core", [9]⟩⟩⟩,
        ⟨3, ⟨some ⟨some "main"⟩, ⟨"g", [5, 6, 7, 8]⟩⟩⟩,
        ⟨1, ⟨some ⟨some "old"⟩, ⟨"h", [2]⟩⟩⟩ ]
    numFrames := 4 }

/-! ## What the lexer leaves unchanged -/

/-- What no function of the lexer changes between a parser `p` and a later
parser `q`: the source, the tokens `previous` and `current`, the module, the
error settings; the error flag is never reset, the calls of the error
callback are only added to, and the line counter never decreases. -/
def Kept (p q : Parser) : Prop :=
  q.source = p.source ∧ q.previous = p.previous ∧ q.current = p.current ∧
  q.module = p.module ∧ q.printErrors = p.printErrors ∧ q.vm.errorFn = p.vm.errorFn ∧
  (p.hasError = true → q.hasError = true) ∧
  (∃ l, q.vm.errorCalls = p.vm.errorCalls ++ l) ∧
  q.parens.length = p.parens.length ∧ p.currentLine ≤ q.currentLine

/-- The parser at the end of a round of the loop of `readString`. -/
def StringStep.parser : StringStep → Parser
  | StringStep.again p _ => p
  | StringStep.done p _ _ => p

/-- The parser with which the switch of the token loop is left. -/
def SwitchExit.parser : SwitchExit → Parser
  | SwitchExit.ret p => p
  | SwitchExit.brk p => p

/-! ## Number literals -/

/-- The integer that a sequence of hexadecimal digit characters denotes. -/
def hexValue (digits : List Nat) : Nat :=
  digits.foldl (fun acc c => acc * 16 + (hexDigitValue c).getD 0) 0

/-- The parts of a text of the form: digits, optionally followed by a dot and
one or more digits, optionally followed by `e` or `E`, an optional single
`+` or `-`, and zero or more digits.  `exponent` holds the marker, the sign
and the digits. -/
structure NumberForm where
  whole : List Nat
  fraction : Option (List Nat)
  exponent : Option (Nat × Option Nat × List Nat)
  deriving DecidableEq

/-- Whether the parts are of the form: one or more digits; one or more digits
after the dot; a marker `e` or `E`, a sign `+` or `-`, digits. -/
def NumberForm.ok (n : NumberForm) : Bool :=
  !n.whole.isEmpty && n.whole.all isDigit &&
  (match n.fraction with
    | none => true
    | some f => !f.isEmpty && f.all isDigit) &&
  (match n.exponent with
    | none => true
    | some (m, s, d) =>
      (m = 101 || m = 69) &&
      (match s with
        | none => true
        | some c => c = 43 || c = 45) &&
      d.all isDigit)

/-- The text of a fraction: a dot and the digits. -/
def fractionText : Option (List Nat) → List Nat
  | none => []
  | some f => 46 :: f

/-- The text of an exponent: the marker, the sign and the digits. -/
def exponentText : Option (Nat × Option Nat × List Nat) → List Nat
  | none => []
  | some (m, s, d) => m :: (s.toList ++ d)

/-- The text of the parts. -/
def NumberForm.text (n : NumberForm) : List Nat :=
  n.whole ++ fractionText n.fraction ++ exponentText n.exponent

/-- Whether the parts have an exponent marker with no digit after it. -/
def NumberForm.unterminated (n : NumberForm) : Bool :=
  match n.exponent with
  | some (_, _, []) => true
  | _ => false

/-- The fraction at the start of a text: a dot followed by a digit, with the
digits that follow. -/
def fractionOf : List Nat → Option (List Nat)
  | 46 :: c :: r => if isDigit c then some ((c :: r).takeWhile isDigit) else none
  | _ => none

/-- The text after the fraction at its start, if it has one. -/
def afterFraction : List Nat → List Nat
  | 46 :: c :: r => if isDigit c then (c :: r).dropWhile isDigit else 46 :: c :: r
  | l => l

/-- The sign at the start of a text. -/
def signOf : List Nat → Option Nat
  | s :: _ => if s = 43 ∨ s = 45 then some s else none
  | [] => none

/-- The text after the sign at its start, if it has one. -/
def afterSign : List Nat → List Nat
  | s :: r => if s = 43 ∨ s = 45 then r else s :: r
  | [] => []

/-- The exponent at the start of a text: a marker, an optional sign and the
digits that follow. -/
def exponentOf : List Nat → Option (Nat × Option Nat × List Nat)
  | m :: r => if m = 101 ∨ m = 69 then some (m, signOf r, (afterSign r).takeWhile isDigit) else none
  | [] => none

/-- The number at the start of a text, as `readNumber` scans it. -/
def scanNumber (l : List Nat) : NumberForm :=
  ⟨l.takeWhile isDigit, fractionOf (l.dropWhile isDigit),
    exponentOf (afterFraction (l.dropWhile isDigit))⟩

/-! ## Whole runs of the lexer -/

/-- The characters of a text from index `a` up to index `b`. -/
def slice (src : List Nat) (a b : Nat) : List Nat := (src.drop a).take (b - a)

/-- Whether a token type is that of a string literal or of a section of an
interpolated string. -/
def stringType (t : TokenType) : Bool := t = TOKEN_STRING || t = TOKEN_INTERPOLATION

/-- Whether a character is a hexadecimal digit. -/
def isHexChar (c : Nat) : Bool := (hexDigitValue c).isSome

/-- Whether a character is not a newline. -/
def notNewline (c : Nat) : Bool := c ≠ 10

/-- The parser `q` is further on than `p` in the same token of the same
source, inside the source if `p` is, and the characters between them satisfy
`P`. -/
def Reach (P : Nat → Bool) (p q : Parser) : Prop :=
  q.source = p.source ∧ q.tokenStart = p.tokenStart ∧ q.numParens = p.numParens ∧
  p.currentChar ≤ q.currentChar ∧
  (p.currentChar ≤ p.source.length → q.currentChar ≤ p.source.length) ∧
  ∀ i, p.currentChar ≤ i → i < q.currentChar → P (charAt p.source i) = true

/-- The line counter of `q` is that of `p` plus the number of newlines between
them. -/
def Counted (p q : Parser) : Prop :=
  q.currentLine = p.currentLine + (newlines (slice p.source p.currentChar q.currentChar) : Nat)

/-- The parser `q` is further on than `p`, over characters that satisfy `P`,
and has counted the newlines. -/
def Span (P : Nat → Bool) (p q : Parser) : Prop := Reach P p q ∧ Counted p q

/-- What reading a string literal does, from `p` to `q`: unless an error has
been reported, `q` is further on, inside the source if `p` is, and has counted
the newlines. -/
def Tidy (p q : Parser) : Prop :=
  q.hasError = false →
    p.currentChar ≤ q.currentChar ∧
    (p.currentChar ≤ p.source.length → q.currentChar ≤ p.source.length) ∧ Counted p q

/-- The parser `q` reads the same token of the same source as `p`, and is
further on unless an error has been reported. -/
def Fine (p q : Parser) : Prop :=
  q.source = p.source ∧ q.tokenStart = p.tokenStart ∧ Tidy p q

/-- Whether a source has no comment: nowhere a `/` followed by `/` or `*`, and
nowhere `#!/`. -/
def noComment (src : List Nat) : Bool :=
  (List.range src.length).all fun i =>
    !(charAt src i = 47 && (charAt src (i + 1) = 47 || charAt src (i + 1) = 42)) &&
    !(charAt src i = 35 && charAt src (i + 1) = 33 && charAt src (i + 2) = 47)

/-- Whether a source has no block comment: nowhere a `/` followed by `*`. -/
def noBlockComment (src : List Nat) : Bool :=
  (List.range src.length).all fun i => !(charAt src i = 47 && charAt src (i + 1) = 42)

/-- Whether a token is a hexadecimal literal that is directly followed by a
newline in the source. -/
def hexThenNewline (src : List Nat) (t : Token) : Bool :=
  t.type = TOKEN_NUMBER && charAt src t.start = 48 && charAt src (t.start + 1) = 120 &&
    charAt src (t.start + t.length.toNat) = 10

/-- One more line when the token just made is a hexadecimal literal directly
followed by a newline. -/
def hexSlip (q : Parser) : Int := if hexThenNewline q.source q.next then 1 else 0

/-- The line of a token made when the line counter is `line`: a LINE token is
made on the line before. -/
def tokenLine (type : TokenType) (line : Int) : Int :=
  if type = TOKEN_LINE then line - 1 else line

/-- What the parser `q` says of the token it has just made, the token starting
at index `s`: the slice of the token goes from `s` to `currentChar`, its line
is that of the line counter; an ERROR token is made after one character that
is not a newline; a LINE token is one newline; an EOF token is empty and
stands at a NUL; no other token than a string holds a newline. -/
def TokenShape (q : Parser) (s : Nat) : Prop :=
  (q.next.type ≠ TOKEN_ERROR →
    q.next.start = s ∧ q.next.length = (q.currentChar : Int) - (s : Int) ∧
    q.next.line = tokenLine q.next.type q.currentLine) ∧
  (q.next.type = TOKEN_ERROR → q.currentChar = s + 1 ∧ charAt q.source s ≠ 10 ∧
    q.hasError = true) ∧
  (q.next.type = TOKEN_LINE → q.currentChar = s + 1 ∧ charAt q.source s = 10) ∧
  (q.next.type = TOKEN_EOF → q.currentChar = s ∧ charAt q.source s = 0) ∧
  (q.next.type ≠ TOKEN_EOF → s < q.currentChar) ∧
  (stringType q.next.type = false → q.next.type ≠ TOKEN_LINE →
    ∀ i, s ≤ i → i < q.currentChar → charAt q.source i ≠ 10)

/-- What one run of the token loop does, from `p` to `q`.  Unless the token
is a string literal with an error reported, the token starts at an index `s`
after skipped characters, which are whitespace if the source has no comment
and hold no newline if it has no block comment, and the line counter has
counted the newlines read, and one more after a hexadecimal literal directly
followed by a newline. -/
def LexStep (p q : Parser) : Prop :=
  q.source = p.source ∧
  (stringType q.next.type = false → q.numParens = p.numParens) ∧
  (stringType q.next.type = true → 0 < p.numParens ∨ 34 ∈ p.source) ∧
  ((stringType q.next.type = true → q.hasError = false) →
    ∃ s, p.currentChar ≤ s ∧ s ≤ q.currentChar ∧
      (p.currentChar ≤ p.source.length → q.currentChar ≤ p.source.length) ∧
      (noComment p.source = true →
        ∀ i, p.currentChar ≤ i → i < s → isSpace (charAt p.source i) = true) ∧
      (noBlockComment p.source = true →
        ∀ i, p.currentChar ≤ i → i < s → charAt p.source i ≠ 10) ∧
      TokenShape q s ∧
      q.currentLine = p.currentLine +
        (newlines (slice p.source p.currentChar q.currentChar) : Nat) + hexSlip q)

/-- The types of the punctuation tokens made by the switch of the token loop:
no value, no parenthesis, not ERROR and not EOF. -/
def TokenType.punct (T : TokenType) : Bool :=
  T.plain && T ≠ TOKEN_ERROR && T ≠ TOKEN_EOF

/-- The types of the tokens made by `readName`: keywords, fields and names. -/
def TokenType.word (T : TokenType) : Bool :=
  T.hasValue && T ≠ TOKEN_NUMBER && T ≠ TOKEN_STRING && T ≠ TOKEN_INTERPOLATION

/-- What the switch of the token loop does, entered in the parser `p` after
the character `c` has been read, when it is left with `r`: a skip leaves the
parser further on, over whitespace if the source has no comment and over no
newline if it has no block comment; a token is made as `LexStep` says. -/
def SwitchStep (p : Parser) (c : Nat) : SwitchExit → Prop
  | SwitchExit.brk q =>
    Span (fun _ => true) p q ∧
    (noComment p.source = true → isSpace c = true ∧ Reach isSpace p q) ∧
    (noBlockComment p.source = true → c ≠ 10 ∧ Reach notNewline p q)
  | SwitchExit.ret q =>
    q.source = p.source ∧
    (stringType q.next.type = false → q.numParens = p.numParens) ∧
    (stringType q.next.type = true → 0 < p.numParens ∨ c = 34) ∧
    ((stringType q.next.type = true → q.hasError = false) →
      p.currentChar ≤ q.currentChar ∧
      (p.currentChar ≤ p.source.length → q.currentChar ≤ p.source.length) ∧
      (q.next.type ≠ TOKEN_ERROR →
        q.next.start = p.tokenStart ∧
        q.next.length = (q.currentChar : Int) - (p.tokenStart : Int) ∧
        q.next.line = tokenLine q.next.type q.currentLine) ∧
      (q.next.type = TOKEN_ERROR → q.currentChar = p.currentChar ∧ c ≠ 10 ∧ q.hasError = true) ∧
      (q.next.type = TOKEN_LINE → q.currentChar = p.currentChar ∧ c = 10) ∧
      q.next.type ≠ TOKEN_EOF ∧
      (stringType q.next.type = false → q.next.type ≠ TOKEN_LINE →
        c ≠ 10 ∧ ∀ i, p.currentChar ≤ i → i < q.currentChar → charAt p.source i ≠ 10) ∧
      q.currentLine = p.currentLine +
        (newlines (slice p.source p.currentChar q.currentChar) : Nat) + hexSlip q)

/-- A parser at the start of its source, before the first call of
`wrenNextToken`: nothing read, line 1, no interpolation open, and no EOF
token in `next`. -/
def Parser.fresh (p : Parser) : Prop :=
  p.currentChar = 0 ∧ p.currentLine = 1 ∧ p.numParens = 0 ∧ p.next.type ≠ TOKEN_EOF

/-- The slice of a token: the `length` characters of the source from `start`
on. -/
def Token.text (src : List Nat) (t : Token) : List Nat :=
  (List.range t.length.toNat).map (fun i => charAt src (t.start + i))

/-- The number of LINE tokens among the tokens. -/
def lineCount (ts : List Token) : Nat := ts.countP (fun t => t.type = TOKEN_LINE)

/-- The number of newlines inside the slices of the string tokens (STRING and
INTERPOLATION) among the tokens. -/
def stringNewlines (src : List Nat) : List Token → Nat
  | [] => 0
  | t :: ts =>
    (if stringType t.type then newlines (Token.text src t) else 0) + stringNewlines src ts

/-- In the first `n` calls of `wrenNextToken` from `p`, no error has been
reported by the time a string token is made. -/
def OkRun (libc : Libc) (fuel : Nat) : Nat → Parser → Prop
  | 0, _ => True
  | n + 1, p =>
    ∀ p1, wrenNextToken libc fuel p = some p1 →
      (stringType p1.next.type = true → p1.hasError = false) ∧ OkRun libc fuel n p1

/-- The line of a token is the line on which it ends: 1 plus the number of
newlines in front of its first character, plus, for a string token, the
number of newlines inside its slice. -/
def lineRight (src : List Nat) (t : Token) : Prop :=
  t.line = 1 + (newlines (src.take t.start) : Nat) +
    (if stringType t.type then (newlines (Token.text src t) : Nat) else 0)

/-! ## Frames of a stack trace -/

/-- Whether a frame is shown in a stack trace: its function has a module
(`fn->module != NULL`) and the module has a name (`fn->module->name != NULL`). -/
def CallFrame.named (frame : CallFrame) : Bool :=
  match frame.fn.module with
  | none => false
  | some module => module.name.isSome

/-- A fiber with the error string `boom` whose two frames in use are an API
stub without module and a function of the unnamed core module. -/
def coreFiber : ObjFiber :=
  { error := Value.OBJ_STRING (ascii "boom")
    frames :=
      [ ⟨1, ⟨none, ⟨"stub", [0]⟩⟩⟩,
        ⟨1, ⟨some ⟨none⟩, ⟨"core", [9]⟩⟩⟩ ]
    numFrames := 2 }

/-! ## Opcodes (wren_opcodes.h) -/

/-- The macro `NO_ARG`. -/
def NO_ARG : Int := 1

/-- The macro `BYTE_ARG`. -/
def BYTE_ARG : Int := 2

/-- The macro `SHORT_ARG`. -/
def SHORT_ARG : Int := 3

/-- The macro `SHORT_ARG2`. -/
def SHORT_ARG2 : Int := 5

/-- The macro `VARIABLE_ARG`. -/
def VARIABLE_ARG : Int := -1

/-- One line `OPCODE(name, size, effect)` of wren_opcodes.h. -/
structure Opcode where
  name : String
  size : Int
  effect : Int
  deriving DecidableEq

/-- The macro `OPCODE(name, size, effect)`, read as the line of a table. -/
def OPCODE (name : String) (size effect : Int) : Opcode := ⟨name, size, effect⟩

/-- The lines `OPCODE(name, size, effect)` of wren_opcodes.h, in the order of
the file. -/
def opcodes : List Opcode :=
  [ OPCODE "CONSTANT" SHORT_ARG 1,
    OPCODE "ICONSTANT" SHORT_ARG 1,
    OPCODE "NULL" NO_ARG 1,
    OPCODE "FALSE" NO_ARG 1,
    OPCODE "TRUE" NO_ARG 1,
    OPCODE "LOAD_LOCAL_0" NO_ARG 1,
    OPCODE "LOAD_LOCAL_1" NO_ARG 1,
    OPCODE "LOAD_LOCAL_2" NO_ARG 1,
    OPCODE "LOAD_LOCAL_3" NO_ARG 1,
    OPCODE "LOAD_LOCAL_4" NO_ARG 1,
    OPCODE "LOAD_LOCAL_5" NO_ARG 1,
    OPCODE "LOAD_LOCAL_6" NO_ARG 1,
    OPCODE "LOAD_LOCAL_7" NO_ARG 1,
    OPCODE "LOAD_LOCAL_8" NO_ARG 1,
    OPCODE "LOAD_LOCAL" BYTE_ARG 1,
    OPCODE "STORE_LOCAL" BYTE_ARG 0,
    OPCODE "LOAD_UPVALUE" BYTE_ARG 1,
    OPCODE "STORE_UPVALUE" BYTE_ARG 0,
    OPCODE "LOAD_MODULE_VAR" SHORT_ARG 1,
    OPCODE "STORE_MODULE_VAR" SHORT_ARG 0,
    OPCODE "LOAD_FIELD_THIS" BYTE_ARG 1,
    OPCODE "STORE_FIELD_THIS" BYTE_ARG 0,
    OPCODE "LOAD_FIELD" BYTE_ARG 0,
    OPCODE "STORE_FIELD" BYTE_ARG (-1),
    OPCODE "POP" NO_ARG (-1),
    OPCODE "CALL_0" SHORT_ARG 0,
    OPCODE "CALL_1" SHORT_ARG (-1),
    OPCODE "CALL_2" SHORT_ARG (-2),
    OPCODE "CALL_3" SHORT_ARG (-3),
    OPCODE "CALL_4" SHORT_ARG (-4),
    OPCODE "CALL_5" SHORT_ARG (-5),
    OPCODE "CALL_6" SHORT_ARG (-6),
    OPCODE "CALL_7" SHORT_ARG (-7),
    OPCODE "CALL_8" SHORT_ARG (-8),
    OPCODE "CALL_9" SHORT_ARG (-9),
    OPCODE "CALL_10" SHORT_ARG (-10),
    OPCODE "CALL_11" SHORT_ARG (-11),
    OPCODE "CALL_12" SHORT_ARG (-12),
    OPCODE "CALL_13" SHORT_ARG (-13),
    OPCODE "CALL_14" SHORT_ARG (-14),
    OPCODE "CALL_15" SHORT_ARG (-15),
    OPCODE "CALL_16" SHORT_ARG (-16),
    OPCODE "SUPER_0" SHORT_ARG2 0,
    OPCODE "SUPER_1" SHORT_ARG2 (-1),
    OPCODE "SUPER_2" SHORT_ARG2 (-2),
    OPCODE "SUPER_3" SHORT_ARG2 (-3),
    OPCODE "SUPER_4" SHORT_ARG2 (-4),
    OPCODE "SUPER_5" SHORT_ARG2 (-5),
    OPCODE "SUPER_6" SHORT_ARG2 (-6),
    OPCODE "SUPER_7" SHORT_ARG2 (-7),
    OPCODE "SUPER_8" SHORT_ARG2 (-8),
    OPCODE "SUPER_9" SHORT_ARG2 (-9),
    OPCODE "SUPER_10" SHORT_ARG2 (-10),
    OPCODE "SUPER_11" SHORT_ARG2 (-11),
    OPCODE "SUPER_12" SHORT_ARG2 (-12),
    OPCODE "SUPER_13" SHORT_ARG2 (-13),
    OPCODE "SUPER_14" SHORT_ARG2 (-14),
    OPCODE "SUPER_15" SHORT_ARG2 (-15),
    OPCODE "SUPER_16" SHORT_ARG2 (-16),
    OPCODE "JUMP" SHORT_ARG 0,
    OPCODE "LOOP" SHORT_ARG 0,
    OPCODE "JUMP_IF" SHORT_ARG (-1),
    OPCODE "ADD" SHORT_ARG (-1),
    OPCODE "SUB" SHORT_ARG (-1),
    OPCODE "MUL" SHORT_ARG (-1),
    OPCODE "DIV" SHORT_ARG (-1),
    OPCODE "MOD" SHORT_ARG (-1),
    OPCODE "AND" SHORT_ARG (-1),
    OPCODE "OR" SHORT_ARG (-1),
    OPCODE "CLOSE_UPVALUE" NO_ARG (-1),
    OPCODE "RETURN" NO_ARG 0,
    OPCODE "CLOSURE" VARIABLE_ARG 1,
    OPCODE "CONSTRUCT" NO_ARG 0,
    OPCODE "FOREIGN_CONSTRUCT" NO_ARG 0,
    OPCODE "CLASS" BYTE_ARG (-1),
    OPCODE "END_CLASS" NO_ARG (-2),
    OPCODE "FOREIGN_CLASS" NO_ARG (-1),
    OPCODE "METHOD_INSTANCE" SHORT_ARG (-2),
    OPCODE "METHOD_STATIC" SHORT_ARG (-2),
    OPCODE "END_MODULE" NO_ARG 1,
    OPCODE "IMPORT_MODULE" SHORT_ARG 1,
    OPCODE "IMPORT_VARIABLE" SHORT_ARG 1,
    OPCODE "END" NO_ARG 0 ]

/-- The enum constant `CODE_name`: the opcodes are numbered from 0 in the
order of wren_opcodes.h (a name that is not in the file gets the number of
lines). -/
def CODE (name : String) : Nat := (opcodes.map Opcode.name).indexOf name

/-- The line of the table for an opcode byte. -/
def opcodeAt (code : Nat) : Option Opcode := opcodes[code]?

/-- The declared size of the opcode `name`. -/
def declaredSize (name : String) : Option Int := (opcodes[CODE name]?).map Opcode.size

/-- The declared stack effect of the opcode `name`. -/
def declaredEffect (name : String) : Option Int := (opcodes[CODE name]?).map Opcode.effect

/-! ## The disassembler (wren_debug.c)

`dumpInstruction` prints with `printf` and `wrenDumpValue`; the model keeps
what is printed as a list of calls.  Of `ObjFn` and of the VM it holds the
fields that `dumpInstruction` reads. -/

/-- A constant of a function as far as `dumpInstruction` uses it: the value
that `wrenDumpValue` prints and, read through `AS_FN`, the field
`numUpvalues` (an `int`; the model gives one to every constant, where the C
read of a constant that is not a function is not defined). -/
structure Constant where
  value : Value
  numUpvalues : Int
  deriving DecidableEq

/-- The fields of `ObjFn` that `dumpInstruction` reads: `code.data`,
`debug->sourceLines.data`, `constants.data` and `module->variableNames.data`. -/
structure FnCode where
  code : List Nat
  sourceLines : List Int
  constants : List Constant
  variableNames : List String
  deriving DecidableEq

/-- An argument of `printf`. -/
inductive PrintArg where
  | int (n : Int)
  | str (s : String)
  deriving DecidableEq

/-- One call that prints: `printf(format, args...)` or `wrenDumpValue(value)`. -/
inductive Printed where
  | printf (format : String) (args : List PrintArg)
  | dumpValue (value : Value)
  deriving DecidableEq

/-- The byte `bytecode[i]`; the model reads 0 outside the buffer. -/
def byteAt (bytecode : List Nat) (i : Nat) : Nat := bytecode.getD i 0

/-- The array `opcodeName` of wren_debug.c: the names of the opcodes in the
order of wren_opcodes.h. -/
def opcodeName (code : Nat) : String := (opcodes.map Opcode.name).getD code ""

/-- The macro `READ_BYTE()`: the byte read and the new offset. -/
def READ_BYTE (bytecode : List Nat) (i : Nat) : Nat × Nat := (byteAt bytecode i, i + 1)

/-- The macro `READ_SHORT()`: the big-endian short read and the new offset. -/
def READ_SHORT (bytecode : List Nat) (i : Nat) : Nat × Nat :=
  ((byteAt bytecode i <<< 8) ||| byteAt bytecode (i + 1), i + 2)

/-- The loop `for (int j = 0; j < loadedFn->numUpvalues; j++)` of the case
`CODE_CLOSURE`; `n` is the number of rounds left, `j` the counter. -/
def dumpUpvalues (bytecode : List Nat) : Nat → Nat → Nat → List Printed → Nat × List Printed
  | 0, _, i, out => (i, out)
  | n + 1, j, i, out =>
    let isLocal := READ_BYTE bytecode i
    let index := READ_BYTE bytecode isLocal.2
    let out := if j > 0 then out ++ [Printed.printf ", " []] else out
    let out := out ++ [Printed.printf "%s %d"
      [PrintArg.str (if isLocal.1 ≠ 0 then "local" else "upvalue"), PrintArg.int index.1]]
    dumpUpvalues bytecode n (j + 1) index.2 out

/-- The result of `dumpInstruction`: the value returned, the line stored
through `lastLine` (`none` when the pointer is NULL) and what was printed. -/
structure Dumped where
  result : Int
  lastLine : Option Int
  out : List Printed
  deriving DecidableEq

/-- The `switch (code)` of `dumpInstruction`, entered with the offset `i`
just after the opcode: the offset after the arguments, and what is printed. -/
def dumpSwitch (methodNames : List String) (fn : FnCode) (code : Nat) (i : Nat) :
    Nat × List Printed :=
  let bytecode := fn.code
  let name := PrintArg.str (opcodeName code)
  let BARE_INSTRUCTION : Nat × List Printed := (i, [Printed.printf "%s\n" [name]])
  let BYTE_INSTRUCTION : Nat × List Printed :=
    let r := READ_BYTE bytecode i
    (r.2, [Printed.printf "%-16s %5d\n" [name, PrintArg.int r.1]])
  let symbolInstruction : Nat × List Printed :=
    let symbol := READ_SHORT bytecode i
    (symbol.2, [Printed.printf "%-16s %5d '%s'\n"
      [name, PrintArg.int symbol.1, PrintArg.str (methodNames.getD symbol.1 "")]])
  let constantInstruction : Nat × List Printed :=
    let constant := READ_SHORT bytecode i
    (constant.2, [Printed.printf "%-16s %5d '" [name, PrintArg.int constant.1],
      Printed.dumpValue (fn.constants.getD constant.1 ⟨Value.NULL_VAL, 0⟩).value,
      Printed.printf "'\n" []])
  if code = CODE "CONSTANT" then constantInstruction
  else if code = CODE "ICONSTANT" then
    let num := READ_SHORT bytecode i
    (num.2, [Printed.printf "%-16s %5d '%u'\n" [name, PrintArg.int num.1, PrintArg.int num.1]])
  else if code = CODE "NULL" ∨ code = CODE "FALSE" ∨ code = CODE "TRUE" then BARE_INSTRUCTION
  else if code = CODE "LOAD_LOCAL_0" ∨ code = CODE "LOAD_LOCAL_1" ∨ code = CODE "LOAD_LOCAL_2" ∨
      code = CODE "LOAD_LOCAL_3" ∨ code = CODE "LOAD_LOCAL_4" ∨ code = CODE "LOAD_LOCAL_5" ∨
      code = CODE "LOAD_LOCAL_6" ∨ code = CODE "LOAD_LOCAL_7" ∨ code = CODE "LOAD_LOCAL_8" then
    BARE_INSTRUCTION
  else if code = CODE "LOAD_LOCAL" ∨ code = CODE "STORE_LOCAL" ∨ code = CODE "LOAD_UPVALUE" ∨
      code = CODE "STORE_UPVALUE" then
    BYTE_INSTRUCTION
  else if code = CODE "LOAD_MODULE_VAR" ∨ code = CODE "STORE_MODULE_VAR" then
    let slot := READ_SHORT bytecode i
    (slot.2, [Printed.printf "%-16s %5d '%s'\n"
      [name, PrintArg.int slot.1, PrintArg.str (fn.variableNames.getD slot.1 "")]])
  else if code = CODE "LOAD_FIELD_THIS" ∨ code = CODE "STORE_FIELD_THIS" ∨
      code = CODE "LOAD_FIELD" ∨ code = CODE "STORE_FIELD" then
    BYTE_INSTRUCTION
  else if code = CODE "POP" then BARE_INSTRUCTION
  else if code = CODE "CALL_0" ∨ code = CODE "CALL_1" ∨ code = CODE "CALL_2" ∨
      code = CODE "CALL_3" ∨ code = CODE "CALL_4" ∨ code = CODE "CALL_5" ∨
      code = CODE "CALL_6" ∨ code = CODE "CALL_7" ∨ code = CODE "CALL_8" ∨
      code = CODE "CALL_9" ∨ code = CODE "CALL_10" ∨ code = CODE "CALL_11" ∨
      code = CODE "CALL_12" ∨ code = CODE "CALL_13" ∨ code = CODE "CALL_14" ∨
      code = CODE "CALL_15" ∨ code = CODE "CALL_16" then
    symbolInstruction
  else if code = CODE "SUPER_0" ∨ code = CODE "SUPER_1" ∨ code = CODE "SUPER_2" ∨
      code = CODE "SUPER_3" ∨ code = CODE "SUPER_4" ∨ code = CODE "SUPER_5" ∨
      code = CODE "SUPER_6" ∨ code = CODE "SUPER_7" ∨ code = CODE "SUPER_8" ∨
      code = CODE "SUPER_9" ∨ code = CODE "SUPER_10" ∨ code = CODE "SUPER_11" ∨
      code = CODE "SUPER_12" ∨ code = CODE "SUPER_13" ∨ code = CODE "SUPER_14" ∨
      code = CODE "SUPER_15" ∨ code = CODE "SUPER_16" then
    let symbol := READ_SHORT bytecode i
    let superclass := READ_SHORT bytecode symbol.2
    (superclass.2, [Printed.printf "%-16s %5d '%s' %5d\n"
      [name, PrintArg.int symbol.1, PrintArg.str (methodNames.getD symbol.1 ""),
        PrintArg.int superclass.1]])
  else if code = CODE "LOOP" then
    let offset := READ_SHORT bytecode i
    (offset.2, [Printed.printf "%-16s %5d to %d\n"
      [name, PrintArg.int offset.1, PrintArg.int ((offset.2 : Int) - offset.1)]])
  else if code = CODE "JUMP" ∨ code = CODE "JUMP_IF" ∨ code = CODE "AND" ∨ code = CODE "OR" then
    let offset := READ_SHORT bytecode i
    (offset.2, [Printed.printf "%-16s %5d to %d\n"
      [name, PrintArg.int offset.1, PrintArg.int ((offset.2 : Int) + offset.1)]])
  else if code = CODE "ADD" ∨ code = CODE "SUB" ∨ code = CODE "MUL" ∨ code = CODE "DIV" ∨
      code = CODE "MOD" then
    symbolInstruction
  else if code = CODE "CLOSE_UPVALUE" ∨ code = CODE "RETURN" then BARE_INSTRUCTION
  else if code = CODE "CLOSURE" then
    let constant := READ_SHORT bytecode i
    let loadedFn := fn.constants.getD constant.1 ⟨Value.NULL_VAL, 0⟩
    let out := [Printed.printf "%-16s %5d " [name, PrintArg.int constant.1],
      Printed.dumpValue loadedFn.value, Printed.printf " " []]
    let r := dumpUpvalues bytecode loadedFn.numUpvalues.toNat 0 constant.2 out
    (r.1, r.2 ++ [Printed.printf "\n" []])
  else if code = CODE "CONSTRUCT" ∨ code = CODE "FOREIGN_CONSTRUCT" then BARE_INSTRUCTION
  else if code = CODE "CLASS" then
    let numFields := READ_BYTE bytecode i
    (numFields.2, [Printed.printf "%-16s %5d fields\n" [name, PrintArg.int numFields.1]])
  else if code = CODE "FOREIGN_CLASS" ∨ code = CODE "END_CLASS" then BARE_INSTRUCTION
  else if code = CODE "METHOD_INSTANCE" ∨ code = CODE "METHOD_STATIC" then symbolInstruction
  else if code = CODE "END_MODULE" then BARE_INSTRUCTION
  else if code = CODE "IMPORT_MODULE" ∨ code = CODE "IMPORT_VARIABLE" then constantInstruction
  else if code = CODE "END" then (i, [Printed.printf "END\n" []])
  else (i, [Printed.printf "UKNOWN! [%d]\n" [PrintArg.int (byteAt bytecode (i - 1))]])

/-- Function `dumpInstruction`.  The offsets are natural numbers; `lastLine`
is `none` for the NULL pointer and otherwise the line it points to. -/
def dumpInstruction (methodNames : List String) (fn : FnCode) (i : Nat) (lastLine : Option Int) :
    Dumped :=
  let start := i
  let code := byteAt fn.code i
  let line := intBufferAt fn.sourceLines i
  let head : List Printed × Option Int :=
    if lastLine = none ∨ lastLine ≠ some line then
      ([Printed.printf "%4d:" [PrintArg.int line]], lastLine.map fun _ => line)
    else ([Printed.printf "     " []], lastLine)
  let out := head.1 ++ [Printed.printf " %04d  " [PrintArg.int i]]
  let i := i + 1
  let r := dumpSwitch methodNames fn code i
  let out := out ++ r.2
  if code = CODE "END" then ⟨-1, head.2, out⟩
  else ⟨(r.1 : Int) - (start : Int), head.2, out⟩

/-- Function `wrenDumpInstruction`. -/
def wrenDumpInstruction (methodNames : List String) (fn : FnCode) (i : Nat) : Int :=
  (dumpInstruction methodNames fn i none).result

/-- A function whose code is `CLOSURE 0` with two upvalues, `CALL_2 7`,
`RETURN`, `END`; its constant 0 is a function with two upvalues. -/
def exampleCode : FnCode :=
  { code := [71, 0, 0, 1, 0, 0, 3, 27, 0, 7, 70, 82]
    sourceLines := [1, 1, 1, 1, 1, 1, 1, 2, 2, 2, 3, 3]
    constants := [⟨Value.NULL_VAL, 2⟩]
    variableNames := [] }

/-! ## Foreign classes of the API test (test/api/foreign_class.c) -/

/-- The functions that are stored as `allocate`: the allocators of the test,
or any other function. -/
inductive AllocateFn where
  | counterAllocate
  | pointAllocate
  | resourceAllocate
  | badClassAllocate
  | other (address : Nat)
  deriving DecidableEq

/-- The functions that are stored as `finalize`: the finalizer of the test, or
any other function. -/
inductive FinalizeFn where
  | resourceFinalize
  | other (address : Nat)
  deriving DecidableEq

/-- The struct `WrenForeignClassMethods` of wren.h; `none` is NULL. -/
structure WrenForeignClassMethods where
  allocate : Option AllocateFn
  finalize : Option FinalizeFn
  deriving DecidableEq

/-- The C string held in a buffer: the bytes in front of the first NUL. -/
def cstr (bytes : List Nat) : List Nat := bytes.takeWhile (fun c => c ≠ 0)

/-- The library function `strcmp` on two buffers, each read up to its first
NUL (or its end): 0 when the two strings are equal, else the difference of
the first two bytes that differ. -/
def strcmp : List Nat → List Nat → Int
  | [], b => -((b.headD 0 : Nat) : Int)
  | x :: a, b =>
    if x ≠ b.headD 0 then (x : Int) - ((b.headD 0 : Nat) : Int)
    else if x = 0 then 0
    else strcmp a b.tail

/-- Function `foreignClassBindClass`: the record `*methods` after the call. -/
def foreignClassBindClass (className : List Nat) (methods : WrenForeignClassMethods) :
    WrenForeignClassMethods :=
  if strcmp className (ascii "Counter") = 0 then
    { methods with allocate := some AllocateFn.counterAllocate }
  else if strcmp className (ascii "Point") = 0 then
    { methods with allocate := some AllocateFn.pointAllocate }
  else if strcmp className (ascii "Resource") = 0 then
    { methods with
        allocate := some AllocateFn.resourceAllocate
        finalize := some FinalizeFn.resourceFinalize }
  else if strcmp className (ascii "BadClass") = 0 then
    { methods with allocate := some AllocateFn.badClassAllocate }
  else methods

/-! ## Progress and the stack of open interpolations -/

/-- The invariant of the stack of open interpolations: at most
`MAX_INTERPOLATION_NESTING` levels are open, and the count of each open level
is at least 1. -/
def ParensOk (p : Parser) : Prop :=
  p.numParens ≤ MAX_INTERPOLATION_NESTING ∧ ∀ i, i < p.numParens → 1 ≤ p.parens.getD i 0

/-- The parser `q` is at least as far in the source as `p`, with the same
stack of open interpolations. -/
def Ahead (p q : Parser) : Prop :=
  p.currentChar ≤ q.currentChar ∧ q.numParens = p.numParens ∧ q.parens = p.parens

/-- What a step of the lexer from `p` to `q` does to the position and to the
stack of open interpolations: `q` is at least as far as `p`, the array
`parens` keeps its size, and if the invariant of the stack holds in `p`, whose
array has at least the 8 entries of the C array, it holds in `q` and no entry
outside the indices 0 to 7 has changed. -/
def Moved (p q : Parser) : Prop :=
  p.currentChar ≤ q.currentChar ∧ q.parens.length = p.parens.length ∧
  (ParensOk p → MAX_INTERPOLATION_NESTING ≤ p.parens.length → ParensOk q ∧
    ∀ i, MAX_INTERPOLATION_NESTING ≤ i → q.parens.getD i 0 = p.parens.getD i 0)

/-! ## Nested block comments -/

/-- The text `s`, read just after an opening `/*`, holds the `*/` that
balances that opening, and `t` is the text after this `*/`.  The text is read
from the left: at `*/` the comment is closed; at `/*` an inner comment opens,
which has to be closed by its own `*/` (after it, at `u`) before the outer
one is; any other character that is not NUL is part of the comment. -/
inductive Closes : List Nat → List Nat → Prop where
  | close (t : List Nat) : Closes (42 :: 47 :: t) t
  | nest {s u t : List Nat} : Closes s u → Closes u t → Closes (47 :: 42 :: s) t
  | char {c : Nat} {s t : List Nat} : c ≠ 0 → ¬(c = 47 ∧ s.headD 0 = 42) →
      ¬(c = 42 ∧ s.headD 0 = 47) → Closes s t → Closes (c :: s) t

/-- The text `s`, read inside `n` open block comments, holds the `*/` that
closes the outermost of them, and `t` is the text after it. -/
def ClosesN : Nat → List Nat → List Nat → Prop
  | 0, s, t => s = t
  | n + 1, s, t => ∃ u, Closes s u ∧ ClosesN n u t

/-! ## Characters that start no token -/

/-- The characters that have a `case` of their own in the `switch` of
`wrenNextToken`, in the order of the code. -/
def switchChars : List Nat :=
  [40, 41, 91, 93, 123, 125, 58, 44, 42, 37, 35, 94, 43, 45, 126, 63, 124, 38, 61, 33, 46, 47,
    60, 62, 10, 32, 13, 9, 34, 95, 48]

/-- Whether the byte `c` can start no token: it is not NUL, has no `case` in
the `switch`, and is neither a letter or underscore (`isName`) nor a digit. -/
def startsNoToken (c : Nat) : Bool :=
  c ≠ 0 && decide (c ∉ switchChars) && !isName c && !isDigit c

/-- The message of the `default` case of the `switch` for such a byte. -/
def invalidMessage (c : Nat) : String :=
  if 32 ≤ c ∧ c ≤ 126 then "Invalid character '" ++ fmtChar c ++ "'."
  else "Invalid byte 0x" ++ fmtHex (c % 256) ++ "."

/-! ## Numbers as bits (wren_math.h, the default 64-bit configuration)

A `double` is taken to be an IEEE 754 binary64 value that shares its 8 bytes
with a `uint64_t` in the same byte order, as on the platforms Wren is built
for: bit 63 is the sign, bits 62 to 52 the exponent, bits 51 to 0 the
mantissa. -/

/-- A `double`, by its sign bit, its 11 exponent bits and its 52 mantissa
bits. -/
structure Double where
  sign : Nat
  exponent : Nat
  mantissa : Nat
  deriving DecidableEq

/-- Whether the fields of a double are in their ranges. -/
def Double.valid (d : Double) : Prop := d.sign < 2 ∧ d.exponent < 2 ^ 11 ∧ d.mantissa < 2 ^ 52

/-- Whether a double is a positive quiet NaN: sign bit 0, all 11 exponent
bits set, top mantissa bit set. -/
def Double.positiveQuietNaN (d : Double) : Prop :=
  d.sign = 0 ∧ d.exponent = 2 ^ 11 - 1 ∧ 2 ^ 51 ≤ d.mantissa

/-- The union `WrenDoubleBits`: its 8 bytes of storage, held as the 64-bit
pattern that the member `bits64` reads. -/
structure WrenDoubleBits where
  bits64 : Nat
  deriving DecidableEq

/-- The statement `data.bits64 = bits` for a `uint64_t` argument. -/
def WrenDoubleBits.setBits64 (bits : Nat) : WrenDoubleBits := ⟨bits % 2 ^ 64⟩

/-- The member `num` of the union, read from the stored pattern. -/
def WrenDoubleBits.num (data : WrenDoubleBits) : Double :=
  ⟨data.bits64 / 2 ^ 63 % 2, data.bits64 / 2 ^ 52 % 2 ^ 11, data.bits64 % 2 ^ 52⟩

/-- The statement `data.num = num`: the pattern stored for a double. -/
def WrenDoubleBits.setNum (num : Double) : WrenDoubleBits :=
  ⟨num.sign % 2 * 2 ^ 63 + num.exponent % 2 ^ 11 * 2 ^ 52 + num.mantissa % 2 ^ 52⟩

/-- The macro `WREN_DOUBLE_QNAN_POS_MIN_BITS`. -/
def WREN_DOUBLE_QNAN_POS_MIN_BITS : Nat := 0x7FF8000000000000

/-- The macro `WREN_DOUBLE_QNAN_POS_MAX_BITS`. -/
def WREN_DOUBLE_QNAN_POS_MAX_BITS : Nat := 0x7FFFFFFFFFFFFFFF

/-- Function `wrenNumberFromBits` (64-bit configuration). -/
def wrenNumberFromBits (bits : Nat) : Double :=
  let data := WrenDoubleBits.setBits64 bits
  data.num

/-- Function `wrenNumberToBits` (64-bit configuration). -/
def wrenNumberToBits (num : Double) : Nat :=
  let data := WrenDoubleBits.setNum num
  data.bits64

/-- The macro `WREN_NUMBER_NAN`. -/
def WREN_NUMBER_NAN : Double := wrenNumberFromBits WREN_DOUBLE_QNAN_POS_MIN_BITS

/-! ## Jumps in the disassembler -/

/-- A function whose code is `JUMP 0x0102` at offset 0 and `LOOP 0x0003` at
offset 3, followed by `END`. -/
def jumpCode : FnCode :=
  { code := [59, 1, 2, 60, 0, 3, 82]
    sourceLines := [1, 1, 1, 2, 2, 2, 2]
    constants := []
    variableNames := [] }

/-! ## What the token loop skips -/

/-- One stretch of text that the token loop skips in front of a token: a
whitespace character, a line comment, a block comment, or a block comment
that is left open up to the end of the source. -/
inductive Skip where
  | space (c : Nat)
  | lineComment (text : List Nat)
  | blockComment (text : List Nat)
  | openComment (text : List Nat)

/-- The characters of a skipped stretch. -/
def Skip.text : Skip → List Nat
  | Skip.space c => [c]
  | Skip.lineComment t => t
  | Skip.blockComment t => t
  | Skip.openComment t => t

/-- What a skipped stretch is made of.  A whitespace character is a space, a
CR or a tab.  A line comment starts with `//` (or with `#!/`, the first line
of a script) and has no newline in it.  A block comment is `/*` followed by a
text that ends with the `*/` balancing that opening (`Closes`).  A block
comment left open is `/*` followed by a text without NUL that holds no
balancing `*/`. -/
def Skip.ok : Skip → Prop
  | Skip.space c => isSpace c = true
  | Skip.lineComment t => (∃ b, t = 47 :: 47 :: b ∨ t = 35 :: 33 :: 47 :: b) ∧ 10 ∉ t ∧ 0 ∉ t
  | Skip.blockComment t => ∃ b, t = 47 :: 42 :: b ∧ Closes b []
  | Skip.openComment t => ∃ b, t = 47 :: 42 :: b ∧ (∀ u, ¬Closes b u) ∧ 0 ∉ b

/-- Whether a skipped stretch is not a block comment left open. -/
def Skip.ended : Skip → Bool
  | Skip.openComment _ => false
  | _ => true

/-- The number of newlines inside a skipped stretch when it is a block
comment (closed or left open), 0 for whitespace and line comments. -/
def Skip.commentNewlines : Skip → Nat
  | Skip.blockComment t => newlines t
  | Skip.openComment t => newlines t
  | _ => 0

/-- The text of skipped stretches that follow each other. -/
def gapText (items : List Skip) : List Nat := items.flatMap Skip.text

/-- The number of newlines inside the block comments among skipped
stretches. -/
def commentNewlines (items : List Skip) : Nat := (items.map Skip.commentNewlines).sum

/-- The token `t` is made of the text `text`: the text is the slice of the
token, and for an ERROR token, whose slice is empty, the one character that
the token reports, which is not a newline. -/
def Token.madeOf (src : List Nat) (t : Token) (text : List Nat) : Prop :=
  (t.type ≠ TOKEN_ERROR → text = Token.text src t) ∧
  (t.type = TOKEN_ERROR → ∃ c, text = [c] ∧ c ≠ 10)

/-- The pieces of a lexed text: for each token the stretches skipped in
front of it and the text it is made of. -/
def Pieces (src : List Nat) (pieces : List (List Skip × List Nat)) (ts : List Token) : Prop :=
  List.Forall₂ (fun x t => (∀ it ∈ x.1, it.ok) ∧ Token.madeOf src t x.2) pieces ts

/-- The text of the pieces, in order. -/
def piecesText (pieces : List (List Skip × List Nat)) : List Nat :=
  pieces.flatMap (fun x => gapText x.1 ++ x.2)

/-- The number of newlines inside the block comments of the pieces. -/
def piecesCommentNewlines (pieces : List (List Skip × List Nat)) : Nat :=
  (pieces.map (fun x => commentNewlines x.1)).sum

/-! ## Reading characters -/

theorem charAt_add (src : List Nat) (i k : Nat) :
    charAt src (i + k) = (src.drop i).getD k 0 := by
  simp [charAt, List.getD_eq_getElem?_getD, List.getElem?_drop]

theorem charAt_rest (p : Parser) (k : Nat) :
    charAt p.source (p.currentChar + k) = p.rest.getD k 0 :=
  charAt_add p.source p.currentChar k

theorem peekChar_eq (p : Parser) : peekChar p = p.rest.getD 0 0 :=
  charAt_rest p 0

theorem peekChar_cons {p : Parser} {c : Nat} {r : List Nat} (h : p.rest = c :: r) :
    peekChar p = c := by
  rw [peekChar_eq, h]; rfl

theorem peekChar_nil {p : Parser} (h : p.rest = []) : peekChar p = 0 := by
  rw [peekChar_eq, h]; rfl

theorem peekNextChar_eq (p : Parser) :
    peekNextChar p = if p.rest.getD 0 0 = 0 then 0 else p.rest.getD 1 0 := by
  rw [peekNextChar, peekChar_eq, charAt_rest]

theorem peekNextChar_cons {p : Parser} {c d : Nat} {r : List Nat} (h : p.rest = c :: d :: r)
    (hc : c ≠ 0) : peekNextChar p = d := by
  rw [peekNextChar_eq, h]; simp [hc]

theorem nextChar_rest (p : Parser) : (nextChar p).2.rest = p.rest.tail := by
  simp [nextChar, Parser.rest, List.tail_drop]

theorem nextChar_rest_cons {p : Parser} {c : Nat} {r : List Nat} (h : p.rest = c :: r) :
    (nextChar p).2.rest = r := by
  rw [nextChar_rest, h]; rfl

theorem wrenNextToken_lex (libc : Libc) (fuel : Nat) (p : Parser) (h : p.next.type ≠ TOKEN_EOF) :
    wrenNextToken libc fuel p =
      lexToken libc fuel { p with previous := p.current, current := p.next } := by
  simp [wrenNextToken, h]

/-! ## Operators -/

/-- C9: each operator lexeme of `operatorTable` (the two- and
three-character operators, and the one-character operators when the next
character does not extend them) is lexed by one call of `wrenNextToken` as
one token of the listed type whose slice is the whole lexeme. -/
theorem operators_longest_match (libc : Libc) (p : Parser) (lexeme : String)
    (type : TokenType) (extend : List Nat) (rest : List Nat) (fuel : Nat)
    (hmem : (lexeme, type, extend) ∈ operatorTable)
    (hne : p.next.type ≠ TOKEN_EOF)
    (hsrc : p.rest = ascii lexeme ++ rest)
    (hext : ∀ c ∈ extend, rest.head? ≠ some c)
    (hfuel : 1 ≤ fuel) :
    ∃ q, wrenNextToken libc fuel p = some q ∧ q.next.type = type ∧
      q.next.start = p.currentChar ∧ q.next.length = (ascii lexeme).length ∧
      q.currentChar = p.currentChar + (ascii lexeme).length := by
  obtain ⟨f, rfl⟩ : ∃ f, fuel = f + 1 := ⟨fuel - 1, by omega⟩
  have h0 := charAt_rest p 0
  have h1 := charAt_rest p 1
  have h2 := charAt_rest p 2
  have h3 := charAt_rest p 3
  simp only [operatorTable, List.mem_cons, Prod.mk.injEq, List.mem_nil_iff, or_false] at hmem
  rcases hmem with h | h | h | h | h | h | h | h | h | h | h | h | h | h | h | h | h <;>
    obtain ⟨rfl, rfl, rfl⟩ := h <;>
    simp [ascii] at hsrc hext ⊢ <;>
    rw [hsrc] at h0 h1 h2 h3 <;>
    rcases rest with _ | ⟨c, r⟩ <;>
    simp at h0 h1 h2 h3 hext <;>
    simp [wrenNextToken, hne, lexToken, peekChar, nextChar, h0, h1, h2, h3, lexSwitch,
      twoCharToken, matchChar, makeToken, hext] <;>
    omega

/-- Witness for C9: the three dots of the source `...x` are one DOTDOTDOT token. -/
theorem operators_longest_match_witness :
    ("...", TOKEN_DOTDOTDOT, []) ∈ operatorTable ∧
    (startParser (ascii "...x")).next.type ≠ TOKEN_EOF ∧
    (startParser (ascii "...x")).rest = ascii "..." ++ ascii "x" ∧
    ∃ q, wrenNextToken exampleLibc 1 (startParser (ascii "...x")) = some q ∧
      q.next.type = TOKEN_DOTDOTDOT ∧
      q.next.start = (startParser (ascii "...x")).currentChar ∧
      q.next.length = (ascii "...").length ∧
      q.currentChar = (startParser (ascii "...x")).currentChar + (ascii "...").length :=
  ⟨by decide, by decide, by decide,
    operators_longest_match exampleLibc (startParser (ascii "...x")) "..." TOKEN_DOTDOTDOT []
      (ascii "x") 1 (by decide) (by decide) (by decide) (by simp) (by decide)⟩

/-! ## The token loop, one character at a time -/

theorem lexToken_cons (libc : Libc) (fuel : Nat) {p : Parser} {c : Nat} {r : List Nat}
    (h : p.rest = c :: r) (hc : c ≠ 0) :
    lexToken libc (fuel + 1) p =
      match lexSwitch libc fuel (nextChar { p with tokenStart := p.currentChar }).2 c with
      | none => none
      | some (SwitchExit.ret q) => some q
      | some (SwitchExit.brk q) => lexToken libc fuel q := by
  have hp : peekChar p = c := peekChar_cons h
  have hp2 : peekChar { p with tokenStart := p.currentChar } = c := hp
  simp only [lexToken, hp, hc, ne_eq, not_false_eq_true, if_true, nextChar, hp2]

theorem tokenText_eq {p : Parser} {text : List Nat} (tail : List Nat)
    (hsrc : p.source.drop p.tokenStart = text ++ tail)
    (hlen : p.currentChar = p.tokenStart + text.length) : tokenText p = text := by
  unfold tokenText
  have : p.currentChar - p.tokenStart = text.length := by omega
  rw [this]
  apply List.ext_getElem
  · simp
  · intro i h1 h2
    simp only [List.getElem_map, List.getElem_range]
    rw [charAt_add, hsrc]
    simp [List.getD_eq_getElem?_getD, List.getElem?_append_left h2, List.getElem?_eq_getElem h2]

/-- The parser after `n` more characters, `k` of them newlines, have been read. -/
theorem nextChar_snd (p : Parser) {c : Nat} {r : List Nat} (h : p.rest = c :: r) :
    (nextChar p).2 = { p with currentChar := p.currentChar + 1,
                              currentLine := if c = 10 then p.currentLine + 1 else p.currentLine } := by
  simp [nextChar, peekChar_cons h]

theorem nextChar_fst (p : Parser) {c : Nat} {r : List Nat} (h : p.rest = c :: r) :
    (nextChar p).1 = c := peekChar_cons h

theorem hexDigitValue_lt {h v : Nat} (hv : hexDigitValue h = some v) : v < 16 := by
  unfold hexDigitValue at hv
  split_ifs at hv <;> simp at hv <;> omega

theorem hexDigitValue_char {h v : Nat} (hv : hexDigitValue h = some v) :
    h ≠ 0 ∧ h ≠ 10 ∧ h ≠ 34 := by
  unfold hexDigitValue at hv
  split_ifs at hv <;> omega

theorem readHexDigit_hex (p : Parser) {h v : Nat} {r : List Nat} (hsrc : p.rest = h :: r)
    (hv : hexDigitValue h = some v) :
    readHexDigit p = ((v : Int), { p with currentChar := p.currentChar + 1 }) := by
  have h10 := (hexDigitValue_char hv).2.1
  unfold hexDigitValue at hv
  simp only [readHexDigit, nextChar_fst p hsrc, nextChar_snd p hsrc, h10, if_false]
  split_ifs at hv ⊢ <;> simp at hv <;> simp <;> omega

theorem hex_byte (v1 v2 : Nat) (h1 : v1 < 16) (h2 : v2 < 16) :
    ((((0 * 16) ||| v1) % 2 ^ 32 * 16) ||| v2) % 2 ^ 32 % 256 = 16 * v1 + v2 := by
  interval_cases v1 <;> interval_cases v2 <;> rfl

theorem advance_rest (p : Parser) (text r : List Nat) (k : Nat) (h : p.rest = text ++ r) :
    (p.advance text.length k).rest = r := by
  have : List.drop (p.currentChar + text.length) p.source =
      List.drop text.length (List.drop p.currentChar p.source) := by
    rw [List.drop_drop, Nat.add_comm]
  simp only [Parser.rest, Parser.advance] at h ⊢
  rw [this, h, List.drop_left]

theorem advance_advance (p : Parser) (a b c d : Nat) :
    (p.advance a b).advance c d = p.advance (a + c) (b + d) := by
  simp [Parser.advance, Nat.add_assoc, Int.add_assoc]

theorem nextChar_advance (p : Parser) {c : Nat} {r : List Nat} (h : p.rest = c :: r) :
    (nextChar p).2 = p.advance 1 (newlines [c]) := by
  rw [nextChar_snd p h]
  by_cases h10 : c = 10
  · subst h10; simp [Parser.advance, newlines]
  · simp [Parser.advance, newlines, h10, List.count_singleton]

theorem nextChar_advance0 (p : Parser) {c : Nat} {r : List Nat} (h : p.rest = c :: r)
    (hc : c ≠ 10) : (nextChar p).2 = p.advance 1 0 := by
  rw [nextChar_advance p h]; simp [newlines, hc, List.count_singleton]

theorem readHexDigit_hex0 (p : Parser) {h v : Nat} {r : List Nat} (hsrc : p.rest = h :: r)
    (hv : hexDigitValue h = some v) :
    readHexDigit p = ((v : Int), p.advance 1 0) := by
  rw [readHexDigit_hex p hsrc hv]; simp [Parser.advance]

theorem readHexEscape_two (p : Parser) {h1 h2 v1 v2 : Nat} {r : List Nat}
    (hsrc : p.rest = h1 :: h2 :: r)
    (hv1 : hexDigitValue h1 = some v1) (hv2 : hexDigitValue h2 = some v2) :
    readHexEscape 2 p 0 "byte" =
      ((((0 * 16) ||| v1) % 2 ^ 32 * 16 ||| v2) % 2 ^ 32, p.advance 2 0) := by
  have c1 := hexDigitValue_char hv1
  have c2 := hexDigitValue_char hv2
  have hr1 : (p.advance 1 0).rest = h2 :: r := advance_rest p [h1] _ _ hsrc
  have e1 := readHexDigit_hex0 p hsrc hv1
  have e2 := readHexDigit_hex0 _ hr1 hv2
  have pk1 : peekChar p = h1 := peekChar_cons hsrc
  have pk2 : peekChar (p.advance 1 0) = h2 := peekChar_cons hr1
  simp only [readHexEscape, pk1, c1.1, c1.2.2, or_self, if_false, e1, pk2, c2.1, c2.2.2, e2]
  simp [advance_advance]

theorem readStringStep_item (p : Parser) (s : List Nat) (it : StrItem) (r : List Nat)
    (hsrc : p.rest = it.text ++ r) (hok : it.ok = true) :
    readStringStep p s =
      StringStep.again (p.advance it.text.length (newlines it.text)) (s ++ it.bytes) := by
  cases it with
  | plain c =>
    simp [StrItem.ok] at hok
    obtain ⟨⟨⟨⟨h34, h92⟩, h37⟩, h13⟩, h0⟩ := hok
    simp only [StrItem.text, List.singleton_append] at hsrc
    simp only [readStringStep, nextChar_fst p hsrc, nextChar_advance p hsrc, h34, h92, h37, h13, h0,
      if_false, false_and, StrItem.text, StrItem.bytes, List.length_singleton]
  | escape c =>
    simp only [StrItem.text, List.cons_append, List.nil_append] at hsrc
    have e1 := nextChar_advance0 p hsrc (by decide)
    have hr1 : (p.advance 1 0).rest = c :: r := advance_rest p [92] _ _ hsrc
    have f2 := nextChar_fst _ hr1
    simp [StrItem.ok, simpleEscapes] at hok
    rcases hok with h | h | h | h | h | h | h | h | h | h | h | h <;> subst h <;>
      simp [readStringStep, nextChar_fst p hsrc, e1, MAX_INTERPOLATION_NESTING,
        nextChar_advance0 _ hr1, f2, readEscape, StrItem.text, StrItem.bytes, simpleEscapes,
        List.lookup, advance_advance, newlines]
  | hex h1 h2 =>
    simp only [StrItem.text, List.cons_append, List.nil_append] at hsrc
    simp only [StrItem.ok, Bool.and_eq_true, Option.isSome_iff_exists] at hok
    obtain ⟨⟨v1, hv1⟩, ⟨v2, hv2⟩⟩ := hok
    have e1 := nextChar_advance0 p hsrc (by decide)
    have hr1 : (p.advance 1 0).rest = 120 :: h1 :: h2 :: r := advance_rest p [92] _ _ hsrc
    have e2 := nextChar_advance0 _ hr1 (by decide)
    have f2 := nextChar_fst _ hr1
    have hr2 : ((p.advance 1 0).advance 1 0).rest = h1 :: h2 :: r :=
      advance_rest _ [120] _ _ hr1
    have e3 := readHexEscape_two _ hr2 hv1 hv2
    have c1 := hexDigitValue_char hv1
    have c2 := hexDigitValue_char hv2
    have hb := hex_byte v1 v2 (hexDigitValue_lt hv1) (hexDigitValue_lt hv2)
    simp only [Nat.zero_mul, advance_advance] at e3
    simp only [Nat.zero_mul, Nat.zero_or, Nat.reducePow] at hb
    simp [readStringStep, nextChar_fst p hsrc, e1, e2, f2, readEscape, MAX_INTERPOLATION_NESTING,
      e3, hb, StrItem.text, StrItem.bytes, hv1, hv2, c1, c2, List.count_cons, newlines,
      advance_advance]

theorem readStringLoop_items (items : List StrItem) :
    ∀ (fuel : Nat) (p : Parser) (s tail : List Nat),
      p.rest = bodyText items ++ 34 :: tail →
      (∀ it ∈ items, it.ok = true) →
      items.length + 1 ≤ fuel →
      readStringLoop fuel p s =
        some (p.advance ((bodyText items).length + 1) (newlines (bodyText items)),
              s ++ bodyValue items, TOKEN_STRING) := by
  induction items with
  | nil =>
    intro fuel p s tail hsrc _ hfuel
    obtain ⟨f, rfl⟩ : ∃ f, fuel = f + 1 := ⟨fuel - 1, by omega⟩
    simp only [bodyText, List.flatMap_nil, List.nil_append] at hsrc
    simp [readStringLoop, readStringStep, nextChar_fst p hsrc, nextChar_advance p hsrc, bodyText,
      bodyValue, newlines]
  | cons it items ih =>
    intro fuel p s tail hsrc hok hfuel
    obtain ⟨f, rfl⟩ : ∃ f, fuel = f + 1 := ⟨fuel - 1, by simp at hfuel; omega⟩
    have hsrc2 : p.rest = it.text ++ (bodyText items ++ 34 :: tail) := by
      rw [hsrc]; simp [bodyText, List.flatMap_cons]
    have hstep := readStringStep_item p s it _ hsrc2 (hok it (List.mem_cons_self _ _))
    have hrest := advance_rest p it.text _ (newlines it.text) hsrc2
    have := ih f _ (s ++ it.bytes) tail hrest (fun i hi => hok i (List.mem_cons_of_mem _ hi))
      (by simp at hfuel; omega)
    simp only [readStringLoop, hstep, this, advance_advance]
    simp [bodyText, bodyValue, List.flatMap_cons, Nat.add_assoc, List.count_append, newlines]

theorem nextChar_advance_peek (p : Parser) :
    (nextChar p).2 = p.advance 1 (newlines [peekChar p]) := by
  by_cases h10 : peekChar p = 10
  · simp [nextChar, Parser.advance, newlines, h10]
  · simp [nextChar, Parser.advance, newlines, h10, List.count_singleton]

theorem bodyText_head (items : List StrItem) (hok : ∀ it ∈ items, it.ok = true)
    (hne : items ≠ []) : ∃ c t, bodyText items = c :: t ∧ c ≠ 34 ∧ c ≠ 0 := by
  cases items with
  | nil => exact absurd rfl hne
  | cons it items =>
    have h := hok it (List.mem_cons_self _ _)
    cases it with
    | plain c =>
      simp [StrItem.ok] at h
      exact ⟨c, bodyText items, by simp [bodyText, StrItem.text], h.1.1.1.1, h.2⟩
    | escape c =>
      exact ⟨92, c :: bodyText items, by simp [bodyText, StrItem.text], by decide, by decide⟩
    | hex h1 h2 =>
      exact ⟨92, 120 :: h1 :: h2 :: bodyText items, by simp [bodyText, StrItem.text],
        by decide, by decide⟩

/-- From the opening quote of an ordinary string literal, the token loop
calls `readString`. -/
theorem lexToken_quote (libc : Libc) (fuel : Nat) (p : Parser) (r : List Nat)
    (hsrc : p.rest = 34 :: r) (hraw : ∀ t, r ≠ 34 :: 34 :: t) :
    lexToken libc (fuel + 1) p =
      readString fuel ({ p with tokenStart := p.currentChar }.advance 1 0) := by
  rw [lexToken_cons libc fuel hsrc (by decide)]
  have hr0 : ({ p with tokenStart := p.currentChar } : Parser).rest = 34 :: r := hsrc
  rw [nextChar_advance0 _ hr0 (by decide)]
  have hr1 := advance_rest _ [34] r 0 hr0
  simp only [List.length_singleton] at hr1
  have hnot : ¬(peekChar ({ p with tokenStart := p.currentChar }.advance 1 0) = 34 ∧
      peekNextChar ({ p with tokenStart := p.currentChar }.advance 1 0) = 34) := by
    rw [peekChar_eq, peekNextChar_eq, hr1]
    rcases r with _ | ⟨a, _ | ⟨b, t⟩⟩
    · simp
    · simp
    · intro h
      simp at h
      obtain ⟨h1, h2⟩ := h
      subst h1
      simp at h2
      exact hraw t (by rw [h2])
  simp only [lexSwitch, hnot]
  simp
  cases readString fuel ({ p with tokenStart := p.currentChar }.advance 1 0) <;> rfl

theorem lexToken_items (libc : Libc) (fuel : Nat) (p : Parser) (items : List StrItem)
    (tail : List Nat)
    (hsrc : p.rest = 34 :: bodyText items ++ 34 :: tail)
    (hok : ∀ it ∈ items, it.ok = true)
    (hraw : items = [] → tail.head? ≠ some 34)
    (hfuel : items.length + 2 ≤ fuel) :
    lexToken libc fuel p =
      some { p with
        tokenStart := p.currentChar
        currentChar := p.currentChar + (bodyText items).length + 2
        currentLine := p.currentLine + (newlines (bodyText items) : Nat)
        next := ⟨TOKEN_STRING, p.currentChar, ((bodyText items).length : Int) + 2,
          p.currentLine + (newlines (bodyText items) : Nat), Value.OBJ_STRING (bodyValue items)⟩ } := by
  obtain ⟨f, rfl⟩ : ∃ f, fuel = f + 1 := ⟨fuel - 1, by omega⟩
  have hsrc' : p.rest = 34 :: (bodyText items ++ 34 :: tail) := by simpa using hsrc
  have hnr : ∀ t, bodyText items ++ 34 :: tail ≠ 34 :: 34 :: t := by
    intro t ht
    by_cases hi : items = []
    · subst hi
      simp [bodyText] at ht
      have := hraw rfl
      rw [ht] at this
      simp at this
    · obtain ⟨c, u, hb, hc, _⟩ := bodyText_head items hok hi
      rw [hb] at ht
      simp at ht
      exact hc ht.1
  rw [lexToken_quote libc f p _ hsrc' hnr]
  have hr0 : ({ p with tokenStart := p.currentChar } : Parser).rest =
      34 :: (bodyText items ++ 34 :: tail) := hsrc'
  have hr1 := advance_rest _ [34] _ 0 hr0
  simp only [List.length_singleton] at hr1
  have hloop := readStringLoop_items items f _ [] tail hr1 hok (by omega)
  simp only [readString, hloop, Option.map_some', advance_advance]
  simp [makeToken, Parser.advance]
  refine ⟨by omega, by omega⟩

/-- C4: an ordinary string literal whose body is made of plain characters and
simple escapes is lexed by one call of `wrenNextToken` as one TOKEN_STRING
whose value is the body with each escape replaced by its byte of
`simpleEscapes` and each plain character copied; no error is reported (the
error flag and the VM are unchanged, as is the interpolation stack). -/
theorem simple_escapes_decode (libc : Libc) (p : Parser) (items : List StrItem)
    (tail : List Nat) (fuel : Nat)
    (hne : p.next.type ≠ TOKEN_EOF)
    (hsrc : p.rest = 34 :: bodyText items ++ 34 :: tail)
    (hok : ∀ it ∈ items, it.ok = true ∧ it.simple = true)
    (hraw : items = [] → tail.head? ≠ some 34)
    (hfuel : items.length + 2 ≤ fuel) :
    wrenNextToken libc fuel p =
      some { p with
        previous := p.current
        current := p.next
        tokenStart := p.currentChar
        currentChar := p.currentChar + (bodyText items).length + 2
        currentLine := p.currentLine + (newlines (bodyText items) : Nat)
        next := ⟨TOKEN_STRING, p.currentChar, ((bodyText items).length : Int) + 2,
          p.currentLine + (newlines (bodyText items) : Nat), Value.OBJ_STRING (bodyValue items)⟩ } := by
  rw [wrenNextToken_lex libc _ p hne]
  exact lexToken_items libc fuel _ items tail hsrc (fun it h => (hok it h).1) hraw hfuel

/-- Witness for C4: the literal whose body is the four escapes backslash-n,
backslash-t, backslash-backslash, backslash-quote has the value
`[0x0A, 0x09, 0x5C, 0x22]`. -/
theorem simple_escapes_decode_witness :
    (startParser (ascii "\"\\n\\t\\\\\\\"\"")).next.type ≠ TOKEN_EOF ∧
    (startParser (ascii "\"\\n\\t\\\\\\\"\"")).rest =
      34 :: bodyText [StrItem.escape 110, StrItem.escape 116, StrItem.escape 92,
        StrItem.escape 34] ++ 34 :: [] ∧
    (∃ q, wrenNextToken exampleLibc 6 (startParser (ascii "\"\\n\\t\\\\\\\"\"")) = some q ∧
      q.next.type = TOKEN_STRING ∧ q.next.value = Value.OBJ_STRING [0x0A, 0x09, 0x5C, 0x22] ∧
      q.hasError = false ∧ q.vm.errorCalls = []) :=
  ⟨by decide, by decide,
    ⟨_, simple_escapes_decode exampleLibc (startParser (ascii "\"\\n\\t\\\\\\\"\""))
      [StrItem.escape 110, StrItem.escape 116, StrItem.escape 92, StrItem.escape 34] [] 6
      (by decide) (by decide) (by decide) (by decide) (by decide),
      rfl, by decide, rfl, rfl⟩⟩

/-- C8: inside an ordinary string literal the escape backslash-x-h1-h2 with
two hexadecimal digits is read in one round of the loop of `readString`: it
appends the one byte 16*val(h1) + val(h2), consumes exactly the four
characters of the escape and reports no error (nothing else of the parser
changes); and a literal made of plain characters, simple escapes and such
byte escapes is lexed as one TOKEN_STRING with the decoded value and no
error. -/
theorem hex_byte_escape (libc : Libc) (p : Parser) (h1 h2 v1 v2 : Nat)
    (hv1 : hexDigitValue h1 = some v1) (hv2 : hexDigitValue h2 = some v2) :
    (∀ (s r : List Nat), p.rest = 92 :: 120 :: h1 :: h2 :: r →
      readStringStep p s =
        StringStep.again { p with currentChar := p.currentChar + 4 } (s ++ [16 * v1 + v2])) ∧
    (∀ (pre post : List StrItem) (tail : List Nat) (fuel : Nat),
      p.next.type ≠ TOKEN_EOF →
      p.rest = 34 :: bodyText (pre ++ StrItem.hex h1 h2 :: post) ++ 34 :: tail →
      (∀ it ∈ pre ++ post, it.ok = true) →
      pre.length + post.length + 3 ≤ fuel →
      wrenNextToken libc fuel p =
        some { p with
          previous := p.current
          current := p.next
          tokenStart := p.currentChar
          currentChar := p.currentChar + ((bodyText pre).length + 4 + (bodyText post).length) + 2
          currentLine := p.currentLine + (newlines (bodyText pre ++ bodyText post) : Nat)
          next := ⟨TOKEN_STRING, p.currentChar,
            (((bodyText pre).length + 4 + (bodyText post).length : Nat) : Int) + 2,
            p.currentLine + (newlines (bodyText pre ++ bodyText post) : Nat),
            Value.OBJ_STRING (bodyValue pre ++ [16 * v1 + v2] ++ bodyValue post)⟩ }) := by
  have hokh : (StrItem.hex h1 h2).ok = true := by simp [StrItem.ok, hv1, hv2]
  have c1 := hexDigitValue_char hv1
  have c2 := hexDigitValue_char hv2
  constructor
  · intro s r hsrc
    have := readStringStep_item p s (StrItem.hex h1 h2) r (by simpa [StrItem.text] using hsrc) hokh
    rw [this]
    simp [StrItem.text, StrItem.bytes, hv1, hv2, Parser.advance, newlines, List.count_cons, c1, c2]
  · intro pre post tail fuel hne hsrc hok hfuel
    rw [wrenNextToken_lex libc _ p hne]
    have hall : ∀ it ∈ pre ++ StrItem.hex h1 h2 :: post, it.ok = true := by
      intro it hit
      simp only [List.mem_append, List.mem_cons] at hit
      rcases hit with h | h | h
      · exact hok it (List.mem_append_left _ h)
      · rw [h]; exact hokh
      · exact hok it (List.mem_append_right _ h)
    have hlex := lexToken_items libc fuel { p with previous := p.current, current := p.next }
      (pre ++ StrItem.hex h1 h2 :: post) tail hsrc hall (by simp) (by simp; omega)
    rw [hlex]
    simp [bodyText, bodyValue, StrItem.text, StrItem.bytes, hv1, hv2, newlines, List.count_cons,
      c1, c2, List.flatMap_append, List.flatMap_cons]
    refine ⟨by omega, by omega⟩

/-- Witness for C8: the escape backslash-x-4-1 in the literal with body
`a\x41` contributes the byte 0x41. -/
theorem hex_byte_escape_witness :
    hexDigitValue 52 = some 4 ∧ hexDigitValue 49 = some 1 ∧
    (startParser (ascii "\"a\\x41\"")).rest =
      34 :: bodyText ([StrItem.plain 97] ++ StrItem.hex 52 49 :: []) ++ 34 :: [] ∧
    (∃ q, wrenNextToken exampleLibc 4 (startParser (ascii "\"a\\x41\"")) = some q ∧
      q.next.value = Value.OBJ_STRING [97, 0x41] ∧ q.hasError = false) :=
  ⟨by decide, by decide, by decide,
    ⟨_, (hex_byte_escape exampleLibc (startParser (ascii "\"a\\x41\"")) 52 49 4 1 (by decide)
      (by decide)).2 [StrItem.plain 97] [] [] 4 (by decide) (by decide) (by decide) (by decide),
      by decide, rfl⟩⟩

theorem ofNat_ne_nul {q : Nat} (h0 : q ≠ 0) (h8 : q < 256) : Char.ofNat q ≠ Char.ofNat 0 := by
  intro h
  have hv : q.isValidChar := Or.inl (by omega)
  have h1 : (Char.ofNat q).val.toNat = q := by
    simp only [Char.ofNat, dif_pos hv, Char.ofNatAux]
    simp [UInt32.toNat]
  have := congrArg (fun c : Char => c.val.toNat) h
  simp only [] at this
  rw [h1] at this
  exact h0 (by simpa using this)

/-- The message of an invalid escape with a byte other than 0 holds no NUL:
the callback receives all of it. -/
theorem cText_escape {q : Nat} (h0 : q ≠ 0) (h8 : q < 256) :
    cText ("Invalid escape character '" ++ fmtChar q ++ "'.") =
      "Invalid escape character '" ++ fmtChar q ++ "'." := by
  have h := ofNat_ne_nul h0 h8
  unfold cText
  rw [List.takeWhile_eq_self_iff.mpr]
  intro c hc
  simp only [fmtChar, String.data_append, String.singleton, List.mem_append] at hc
  rcases hc with (hc | hc) | hc
  · have : ∀ c ∈ "Invalid escape character '".data, c ≠ Char.ofNat 0 := by decide
    simpa using this c hc
  · have : c = Char.ofNat q := by simpa [String.push] using hc
    rw [this]; simpa using h
  · have : ∀ c ∈ "'.".data, c ≠ Char.ofNat 0 := by decide
    simpa using this c hc

theorem readStringStep_bad (p : Parser) (s : List Nat) (q : Nat) (r : List Nat)
    (hsrc : p.rest = 92 :: q :: r) (hq : q ∉ escapeLetters) (hq0 : q ≠ 0)
    (hq8 : q < 256) :
    readStringStep p s =
      StringStep.again
        (lexError (p.advance 2 (newlines [q])) ("Invalid escape character '" ++ fmtChar q ++ "'."))
        s := by
  have e1 := nextChar_advance0 p hsrc (by decide)
  have hr1 : (p.advance 1 0).rest = q :: r := advance_rest p [92] _ _ hsrc
  have f2 := nextChar_fst _ hr1
  have e2 := nextChar_advance _ hr1
  have hch : charAt p.source (p.currentChar + 1) = q := by
    rw [charAt_rest, hsrc]; rfl
  simp [escapeLetters, simpleEscapes] at hq
  obtain ⟨a1, a2, a3, a4, a5, a6, a7, a8, a9, a10, a11, a12, a13, a14, a15⟩ := hq
  have hch2 : charAt (p.advance 2 (newlines [q])).source
      ((p.advance 2 (newlines [q])).currentChar - 1) = q := by
    simpa [Parser.advance] using hch
  simp [readStringStep, nextChar_fst p hsrc, e1, e2, f2, readEscape, a1, a2, a3, a4, a5,
    a6, a7, a8, a9, a10, a11, a12, a13, a14, a15, advance_advance, hch2, cText_escape hq0 hq8]

theorem lexError_rest (p : Parser) (msg : String) : (lexError p msg).rest = p.rest := by
  simp only [lexError, wrenPrintError, Parser.rest]
  split_ifs <;> rfl

theorem readStringLoop_bad (pre post : List StrItem) (q : Nat) (fuel : Nat) (p : Parser)
    (s tail : List Nat)
    (hsrc : p.rest = bodyText pre ++ 92 :: q :: bodyText post ++ 34 :: tail)
    (hpre : ∀ it ∈ pre, it.ok = true) (hpost : ∀ it ∈ post, it.ok = true)
    (hq : q ∉ escapeLetters) (hq0 : q ≠ 0) (hq8 : q < 256)
    (hfuel : pre.length + post.length + 2 ≤ fuel) :
    readStringLoop fuel p s =
      some ((lexError (p.advance ((bodyText pre).length + 2) (newlines (bodyText pre ++ [q])))
          ("Invalid escape character '" ++ fmtChar q ++ "'.")).advance
            ((bodyText post).length + 1) (newlines (bodyText post)),
        s ++ bodyValue pre ++ bodyValue post, TOKEN_STRING) := by
  induction pre generalizing fuel p s with
  | nil =>
    obtain ⟨f, rfl⟩ : ∃ f, fuel = f + 1 := ⟨fuel - 1, by omega⟩
    simp only [bodyText, List.flatMap_nil, List.nil_append, List.length_nil, Nat.zero_add] at hsrc ⊢
    have hsrc' : p.rest = 92 :: q :: (bodyText post ++ 34 :: tail) := by
      simpa [bodyText] using hsrc
    have hstep := readStringStep_bad p s q _ hsrc' hq hq0 hq8
    have hr2 : (p.advance 2 (newlines [q])).rest = bodyText post ++ 34 :: tail :=
      advance_rest p [92, q] _ _ hsrc'
    have hr3 := (lexError_rest (p.advance 2 (newlines [q]))
      ("Invalid escape character '" ++ fmtChar q ++ "'.")).trans hr2
    have hloop := readStringLoop_items post f _ s tail hr3 hpost (by simp at hfuel; omega)
    simp only [readStringLoop, hstep, hloop]
    simp [bodyValue, bodyText]
  | cons it pre ih =>
    obtain ⟨f, rfl⟩ : ∃ f, fuel = f + 1 := ⟨fuel - 1, by omega⟩
    have hsrc2 : p.rest = it.text ++ (bodyText pre ++ 92 :: q :: bodyText post ++ 34 :: tail) := by
      rw [hsrc]; simp [bodyText, List.flatMap_cons]
    have hstep := readStringStep_item p s it _ hsrc2 (hpre it (List.mem_cons_self _ _))
    have hrest := advance_rest p it.text _ (newlines it.text) hsrc2
    have := ih f _ (s ++ it.bytes) hrest (fun i hi => hpre i (List.mem_cons_of_mem _ hi))
      (by simp at hfuel; omega)
    simp only [readStringLoop, hstep, this, advance_advance]
    simp [bodyText, bodyValue, List.flatMap_cons, Nat.add_assoc, List.count_append, newlines]

theorem lexToken_bad (libc : Libc) (p : Parser) (pre post : List StrItem)
    (q : Nat) (tail : List Nat) (fuel : Nat)
    (hsrc : p.rest = 34 :: bodyText pre ++ 92 :: q :: bodyText post ++ 34 :: tail)
    (hpre : ∀ it ∈ pre, it.ok = true) (hpost : ∀ it ∈ post, it.ok = true)
    (hq : q ∉ escapeLetters) (hq0 : q ≠ 0) (hq8 : q < 256)
    (hfuel : pre.length + post.length + 3 ≤ fuel) :
    ∃ r, lexToken libc fuel p = some r ∧
      r.next.type = TOKEN_STRING ∧
      r.next.value = Value.OBJ_STRING (bodyValue pre ++ bodyValue post) ∧
      r.next.start = p.currentChar ∧
      r.next.length = (bodyText pre).length + 2 + (bodyText post).length + 2 ∧
      r.currentChar = p.currentChar + ((bodyText pre).length + 2 + (bodyText post).length + 2) ∧
      r.hasError = true ∧
      r.vm.errorCalls = p.vm.errorCalls ++
        (if p.printErrors = true ∧ p.vm.errorFn = true then
          [⟨WrenErrorType.WREN_ERROR_COMPILE, some (p.module.name.getD "<unknown>"),
            p.currentLine + (newlines (bodyText pre ++ [q]) : Nat),
            "Error: Invalid escape character '" ++ fmtChar q ++ "'."⟩]
        else []) ∧
      r.numParens = p.numParens ∧ r.parens = p.parens ∧
      r.current = p.current ∧ r.previous = p.previous := by
  obtain ⟨f, rfl⟩ : ∃ f, fuel = f + 1 := ⟨fuel - 1, by omega⟩
  have hsrc' : p.rest = 34 :: (bodyText pre ++ 92 :: q :: bodyText post ++ 34 :: tail) := by
    simpa using hsrc
  have hnr : ∀ t, bodyText pre ++ 92 :: q :: bodyText post ++ 34 :: tail ≠ 34 :: 34 :: t := by
    intro t ht
    by_cases hi : pre = []
    · subst hi
      simp [bodyText] at ht
    · obtain ⟨c, u, hb, hc, _⟩ := bodyText_head pre hpre hi
      rw [hb] at ht
      simp at ht
      exact hc ht.1
  rw [lexToken_quote libc f _ _ hsrc' hnr]
  have hr0 : ({ p with tokenStart := p.currentChar } : Parser).rest =
      34 :: (bodyText pre ++ 92 :: q :: bodyText post ++ 34 :: tail) := hsrc'
  have hr1 := advance_rest _ [34] _ 0 hr0
  simp only [List.length_singleton, List.append_assoc] at hr1
  have hloop := readStringLoop_bad pre post q f _ [] tail (by simpa using hr1) hpre hpost hq hq0 hq8
    (by omega)
  simp only [readString, hloop, Option.map_some']
  have hmsg : "Error: " ++ ("Invalid escape character '" ++ fmtChar q ++ "'.") =
      "Error: Invalid escape character '" ++ fmtChar q ++ "'." := by
    have e : "Error: " ++ "Invalid escape character '" = "Error: Invalid escape character '" := by
      decide
    rw [← String.append_assoc, ← String.append_assoc, e]
  refine ⟨_, rfl, ?_⟩
  cases hm : p.module.name <;> cases hpe : p.printErrors <;> cases hfn : p.vm.errorFn <;>
    simp [makeToken, Parser.advance, lexError, wrenPrintError, hm, hpe, hfn] <;>
    first
    | exact ⟨by omega, by omega⟩
    | exact ⟨by omega, by omega, hmsg⟩

/-- C7: in an ordinary string literal a backslash followed by a character `q`
of the source (a byte other than the terminating NUL) that is not an escape
letter reports the lex error "Invalid escape character", sets `hasError` and
adds no byte to the value, and the literal is still lexed to its closing
quote as one TOKEN_STRING whose value is made of the decoded elements before
and after the bad escape. -/
theorem invalid_escape_continues (libc : Libc) (p : Parser) (pre post : List StrItem)
    (q : Nat) (tail : List Nat) (fuel : Nat)
    (hne : p.next.type ≠ TOKEN_EOF)
    (hsrc : p.rest = 34 :: bodyText pre ++ 92 :: q :: bodyText post ++ 34 :: tail)
    (hpre : ∀ it ∈ pre, it.ok = true) (hpost : ∀ it ∈ post, it.ok = true)
    (hq : q ∉ escapeLetters) (hq0 : q ≠ 0) (hq8 : q < 256)
    (hfuel : pre.length + post.length + 3 ≤ fuel) :
    ∃ r, wrenNextToken libc fuel p = some r ∧
      r.next.type = TOKEN_STRING ∧
      r.next.value = Value.OBJ_STRING (bodyValue pre ++ bodyValue post) ∧
      r.next.start = p.currentChar ∧
      r.next.length = (bodyText pre).length + 2 + (bodyText post).length + 2 ∧
      r.currentChar = p.currentChar + ((bodyText pre).length + 2 + (bodyText post).length + 2) ∧
      r.hasError = true ∧
      r.vm.errorCalls = p.vm.errorCalls ++
        (if p.printErrors = true ∧ p.vm.errorFn = true then
          [⟨WrenErrorType.WREN_ERROR_COMPILE, some (p.module.name.getD "<unknown>"),
            p.currentLine + (newlines (bodyText pre ++ [q]) : Nat),
            "Error: Invalid escape character '" ++ fmtChar q ++ "'."⟩]
        else []) ∧
      r.numParens = p.numParens ∧ r.parens = p.parens := by
  rw [wrenNextToken_lex libc _ p hne]
  obtain ⟨r, h1, h2, h3, h4, h5, h6, h7, h8, h9, h10, _⟩ :=
    lexToken_bad libc { p with previous := p.current, current := p.next } pre post q tail fuel
      hsrc hpre hpost hq hq0 hq8 hfuel
  exact ⟨r, h1, h2, h3, h4, h5, h6, h7, h8, h9, h10⟩

/-- Witness for C7: the literal with body `a\qb` has the value `ab` and
reports the error. -/
theorem invalid_escape_continues_witness :
    (startParser (ascii "\"a\\qb\"")).next.type ≠ TOKEN_EOF ∧
    (startParser (ascii "\"a\\qb\"")).rest =
      34 :: bodyText [StrItem.plain 97] ++ 92 :: 113 :: bodyText [StrItem.plain 98] ++ 34 :: [] ∧
    113 ∉ escapeLetters ∧ 113 ≠ 0 ∧ 113 < 256 ∧
    (∃ r, wrenNextToken exampleLibc 5 (startParser (ascii "\"a\\qb\"")) = some r ∧
      r.next.type = TOKEN_STRING ∧ r.next.value = Value.OBJ_STRING (ascii "ab") ∧
      r.hasError = true ∧
      r.vm.errorCalls = [⟨WrenErrorType.WREN_ERROR_COMPILE, some "main", 1,
        "Error: Invalid escape character 'q'."⟩]) := by
  obtain ⟨r, h1, h2, h3, _, _, _, h7, h8, _⟩ :=
    invalid_escape_continues exampleLibc (startParser (ascii "\"a\\qb\"")) [StrItem.plain 97]
      [StrItem.plain 98] 113 [] 5 (by decide) (by decide) (by decide) (by decide) (by decide)
      (by decide) (by decide) (by decide)
  refine ⟨by decide, by decide, by decide, by decide, by decide, r, h1, h2, ?_, h7, ?_⟩
  · rw [h3]; decide
  · rw [h8]; decide

/-- The message of an invalid escape whose character is the byte 0 (a
backslash right in front of the terminating NUL): the callback receives the C
string, which ends at that byte. -/
theorem invalid_escape_nul :
    (wrenNextToken exampleLibc 5 (startParser [34, 92, 0, 34])).map
        (fun r => r.vm.errorCalls) =
      some [⟨WrenErrorType.WREN_ERROR_COMPILE, some "main", 1,
        "Error: Invalid escape character '"⟩] := by
  decide

/-! ## Interpolation -/

theorem error_message_assoc (a : String) : "Error" ++ ": " ++ a = "Error: " ++ a := by
  have e : "Error" ++ ": " = "Error: " := by decide
  rw [e]

theorem lexError_fields (p : Parser) (m : String) :
    (lexError p m).numParens = p.numParens ∧ (lexError p m).parens = p.parens ∧
    (lexError p m).currentChar = p.currentChar ∧ (lexError p m).currentLine = p.currentLine ∧
    (lexError p m).source = p.source ∧ (lexError p m).tokenStart = p.tokenStart ∧
    (lexError p m).next = p.next ∧ (lexError p m).current = p.current ∧
    (lexError p m).previous = p.previous ∧ (lexError p m).printErrors = p.printErrors ∧
    (lexError p m).module = p.module ∧ (lexError p m).vm.errorFn = p.vm.errorFn ∧
    (lexError p m).hasError = true := by
  simp only [lexError, wrenPrintError]
  split_ifs <;> simp

@[simp] theorem lexError_numParens (p : Parser) (m : String) :
    (lexError p m).numParens = p.numParens := (lexError_fields p m).1

@[simp] theorem lexError_parens (p : Parser) (m : String) :
    (lexError p m).parens = p.parens := (lexError_fields p m).2.1

@[simp] theorem lexError_currentChar (p : Parser) (m : String) :
    (lexError p m).currentChar = p.currentChar := (lexError_fields p m).2.2.1

@[simp] theorem lexError_currentLine (p : Parser) (m : String) :
    (lexError p m).currentLine = p.currentLine := (lexError_fields p m).2.2.2.1

@[simp] theorem lexError_source (p : Parser) (m : String) :
    (lexError p m).source = p.source := (lexError_fields p m).2.2.2.2.1

@[simp] theorem lexError_tokenStart (p : Parser) (m : String) :
    (lexError p m).tokenStart = p.tokenStart := (lexError_fields p m).2.2.2.2.2.1

@[simp] theorem lexError_next (p : Parser) (m : String) :
    (lexError p m).next = p.next := (lexError_fields p m).2.2.2.2.2.2.1

@[simp] theorem lexError_current (p : Parser) (m : String) :
    (lexError p m).current = p.current := (lexError_fields p m).2.2.2.2.2.2.2.1

@[simp] theorem lexError_previous (p : Parser) (m : String) :
    (lexError p m).previous = p.previous := (lexError_fields p m).2.2.2.2.2.2.2.2.1

@[simp] theorem lexError_printErrors (p : Parser) (m : String) :
    (lexError p m).printErrors = p.printErrors := (lexError_fields p m).2.2.2.2.2.2.2.2.2.1

@[simp] theorem lexError_module (p : Parser) (m : String) :
    (lexError p m).module = p.module := (lexError_fields p m).2.2.2.2.2.2.2.2.2.2.1

@[simp] theorem lexError_errorFn (p : Parser) (m : String) :
    (lexError p m).vm.errorFn = p.vm.errorFn := (lexError_fields p m).2.2.2.2.2.2.2.2.2.2.2.1

@[simp] theorem lexError_hasError (p : Parser) (m : String) :
    (lexError p m).hasError = true := (lexError_fields p m).2.2.2.2.2.2.2.2.2.2.2.2

theorem lexError_errorCalls (p : Parser) (m : String) :
    (lexError p m).vm.errorCalls = p.vm.errorCalls ++
      (if p.printErrors = true ∧ p.vm.errorFn = true then
        [⟨WrenErrorType.WREN_ERROR_COMPILE, some (p.module.name.getD "<unknown>"),
          p.currentLine, "Error: " ++ m⟩]
      else []) := by
  cases hn : p.module.name <;> cases hpe : p.printErrors <;> cases hfn : p.vm.errorFn <;>
    simp [lexError, wrenPrintError, hn, hpe, hfn, error_message_assoc]

set_option maxRecDepth 100000 in
/-- C3: when a round of the loop of `readString` meets `%` while fewer than 8
levels are open it pushes a new level with count 1, ends the token as a
TOKEN_INTERPOLATION and reports no nesting error (no error at all when the
next character is `(`); when it meets `%` while 8 levels are open it reports
"Interpolation may only nest 8 levels deep.", sets `hasError`, pushes
nothing (`numParens` and `parens` are unchanged) and goes on with the `%` as
an ordinary character.  The literal `nested8` with 8 nested levels lexes
without error and the literal `nested9` reports the error at its 9th level. -/
theorem interpolation_nesting_limit (p : Parser) (s r : List Nat)
    (hsrc : p.rest = 37 :: r)
    (hlen : p.parens.length = MAX_INTERPOLATION_NESTING) :
    (p.numParens < MAX_INTERPOLATION_NESTING →
      ∃ q, readStringStep p s = StringStep.done q s TOKEN_INTERPOLATION ∧
        q.numParens = p.numParens + 1 ∧
        q.parens = p.parens.set p.numParens 1 ∧
        q.parens.getD p.numParens 0 = 1 ∧
        (∀ e ∈ q.vm.errorCalls,
          e ∈ p.vm.errorCalls ∨ e.message = "Error: Expect '(' after '%'.") ∧
        (r.head? = some 40 → q.hasError = p.hasError ∧ q.vm = p.vm)) ∧
    (p.numParens = MAX_INTERPOLATION_NESTING →
      ∃ q, readStringStep p s = StringStep.again q (s ++ [37]) ∧
        q.hasError = true ∧
        q.numParens = p.numParens ∧
        q.parens = p.parens ∧
        q.vm.errorCalls = p.vm.errorCalls ++
          (if p.printErrors = true ∧ p.vm.errorFn = true then
            [⟨WrenErrorType.WREN_ERROR_COMPILE, some (p.module.name.getD "<unknown>"),
              p.currentLine, "Error: Interpolation may only nest 8 levels deep."⟩]
          else [])) ∧
    (wrenNextTokens exampleLibc 45 18 (startParser nested8)).map
        (fun r => (r.1.map Token.type, r.2.hasError, r.2.vm.errorCalls, r.2.numParens)) =
      some ([TOKEN_INTERPOLATION, TOKEN_INTERPOLATION, TOKEN_INTERPOLATION, TOKEN_INTERPOLATION,
        TOKEN_INTERPOLATION, TOKEN_INTERPOLATION, TOKEN_INTERPOLATION, TOKEN_INTERPOLATION,
        TOKEN_NUMBER, TOKEN_STRING, TOKEN_STRING, TOKEN_STRING, TOKEN_STRING, TOKEN_STRING,
        TOKEN_STRING, TOKEN_STRING, TOKEN_STRING, TOKEN_EOF], false, [], 0) ∧
    (wrenNextTokens exampleLibc 50 18 (startParser nested9)).map
        (fun r => (r.1.map Token.type, r.2.hasError, r.2.vm.errorCalls, r.2.numParens)) =
      some ([TOKEN_INTERPOLATION, TOKEN_INTERPOLATION, TOKEN_INTERPOLATION, TOKEN_INTERPOLATION,
        TOKEN_INTERPOLATION, TOKEN_INTERPOLATION, TOKEN_INTERPOLATION, TOKEN_INTERPOLATION,
        TOKEN_STRING, TOKEN_STRING, TOKEN_STRING, TOKEN_STRING, TOKEN_STRING, TOKEN_STRING,
        TOKEN_STRING, TOKEN_STRING, TOKEN_STRING, TOKEN_EOF], true,
        [⟨WrenErrorType.WREN_ERROR_COMPILE, some "main", 1,
          "Error: Interpolation may only nest 8 levels deep."⟩], 0) := by
  have e1 := nextChar_advance0 p hsrc (by decide)
  have f1 := nextChar_fst p hsrc
  refine ⟨?_, ?_, by decide, by decide⟩
  · intro hlt
    have hlt' : (p.advance 1 0).numParens < MAX_INTERPOLATION_NESTING := hlt
    have hidx : p.numParens < p.parens.length := by rw [hlen]; exact hlt
    have hget : (p.parens.set p.numParens 1).getD p.numParens 0 = 1 := by
      simp [List.getD_eq_getElem?_getD, List.getElem?_set, hidx]
    simp only [readStringStep, f1, e1, hlt', and_self, if_true]
    simp only [show (37 : Nat) ≠ 34 from by decide, show (37 : Nat) ≠ 13 from by decide,
      show (37 : Nat) ≠ 0 from by decide, if_false]
    have hr1 : (p.advance 1 0).rest = r := advance_rest p [37] r 0 hsrc
    have hd : (nextChar (p.advance 1 0)).1 = r.head?.getD 0 := by
      rw [show (nextChar (p.advance 1 0)).1 = peekChar (p.advance 1 0) from rfl, peekChar_eq, hr1]
      cases r <;> rfl
    rw [nextChar_advance_peek (p.advance 1 0), advance_advance, hd]
    by_cases h40 : r.head?.getD 0 = 40
    · simp only [h40, ne_eq, not_true_eq_false, if_false]
      refine ⟨_, rfl, rfl, rfl, hget, fun e he => Or.inl he, fun _ => ⟨rfl, rfl⟩⟩
    · simp only [h40, ne_eq, not_false_eq_true, if_true]
      refine ⟨_, rfl, ?_, ?_, ?_, ?_, ?_⟩
      · simp [Parser.advance]
      · simp [Parser.advance]
      · simpa [Parser.advance] using hget
      · intro e he
        simp only [lexError_errorCalls] at he
        split_ifs at he
        · simp only [List.mem_append, List.mem_singleton] at he
          rcases he with he | he
          · exact Or.inl he
          · right; rw [he]; show "Error: " ++ "Expect '(' after '%'." = _; decide
        · simp only [List.append_nil] at he
          exact Or.inl he
      · intro h
        rw [h] at h40
        exact absurd rfl h40
  · intro heq
    have hnlt : ¬((p.advance 1 0).numParens < MAX_INTERPOLATION_NESTING) := by
      show ¬(p.numParens < MAX_INTERPOLATION_NESTING)
      omega
    simp only [readStringStep, f1, e1, hnlt, and_false, if_false, if_true]
    simp only [show (37 : Nat) ≠ 34 from by decide, show (37 : Nat) ≠ 13 from by decide,
      show (37 : Nat) ≠ 0 from by decide, show (37 : Nat) ≠ 92 from by decide, if_false]
    have hm : "Interpolation may only nest " ++ fmtDec MAX_INTERPOLATION_NESTING ++
        " levels deep." = "Interpolation may only nest 8 levels deep." := by decide
    rw [hm]
    refine ⟨_, rfl, ?_, ?_, ?_, ?_⟩
    · simp
    · simp [Parser.advance]
    · simp [Parser.advance]
    · rw [lexError_errorCalls]
      have : "Error: " ++ "Interpolation may only nest 8 levels deep." =
          "Error: Interpolation may only nest 8 levels deep." := by decide
      rw [this]
      simp [Parser.advance]

/-- Witness for C3: with 8 levels open, the `%` of the source `%(1)"` reports
the nesting error and pushes nothing. -/
theorem interpolation_nesting_limit_witness :
    (interpParser (ascii "%(1)\"") 8).rest = 37 :: ascii "(1)\"" ∧
    (interpParser (ascii "%(1)\"") 8).parens.length = MAX_INTERPOLATION_NESTING ∧
    (interpParser (ascii "%(1)\"") 8).numParens = MAX_INTERPOLATION_NESTING ∧
    ∃ q, readStringStep (interpParser (ascii "%(1)\"") 8) [] = StringStep.again q ([] ++ [37]) ∧
      q.hasError = true ∧
      q.numParens = (interpParser (ascii "%(1)\"") 8).numParens ∧
      q.parens = (interpParser (ascii "%(1)\"") 8).parens ∧
      q.vm.errorCalls = (interpParser (ascii "%(1)\"") 8).vm.errorCalls ++
        (if (interpParser (ascii "%(1)\"") 8).printErrors = true ∧
            (interpParser (ascii "%(1)\"") 8).vm.errorFn = true then
          [⟨WrenErrorType.WREN_ERROR_COMPILE,
            some ((interpParser (ascii "%(1)\"") 8).module.name.getD "<unknown>"),
            (interpParser (ascii "%(1)\"") 8).currentLine,
            "Error: Interpolation may only nest 8 levels deep."⟩]
        else []) :=
  ⟨by decide, by decide, by decide,
    (interpolation_nesting_limit (interpParser (ascii "%(1)\"") 8) [] (ascii "(1)\"") (by decide)
      (by decide)).2.1 (by decide)⟩

/-! ## What `readString` leaves unchanged, and its termination -/

theorem SameFrame.refl (p : Parser) : SameFrame p p := ⟨rfl, rfl, rfl, rfl⟩

theorem SameFrame.trans {p q r : Parser} (h1 : SameFrame p q) (h2 : SameFrame q r) :
    SameFrame p r :=
  ⟨h2.1.trans h1.1, h2.2.1.trans h1.2.1, h2.2.2.1.trans h1.2.2.1, h2.2.2.2.trans h1.2.2.2⟩

theorem sameFrame_lexError (p : Parser) (m : String) : SameFrame p (lexError p m) :=
  ⟨by simp, by simp, by simp, by simp⟩

theorem sameFrame_nextChar (p : Parser) : SameFrame p (nextChar p).2 := ⟨rfl, rfl, rfl, rfl⟩

theorem sameFrame_unreadChar (p : Parser) : SameFrame p (unreadChar p) := ⟨rfl, rfl, rfl, rfl⟩

theorem readHexDigit_frame (p : Parser) :
    SameFrame p (readHexDigit p).2 ∧ p.currentChar ≤ (readHexDigit p).2.currentChar := by
  simp only [readHexDigit]
  split_ifs <;> simp [SameFrame, nextChar, unreadChar]

theorem readHexEscape_frame (n : Nat) :
    ∀ (p : Parser) (v : Nat) (d : String),
      SameFrame p (readHexEscape n p v d).2 ∧
        p.currentChar ≤ (readHexEscape n p v d).2.currentChar + 1 := by
  induction n with
  | zero => intro p v d; exact ⟨SameFrame.refl p, by simp [readHexEscape]⟩
  | succ n ih =>
    intro p v d
    simp only [readHexEscape]
    split_ifs with h1 h2
    · exact ⟨(sameFrame_lexError p _).trans (sameFrame_unreadChar _), by simp [unreadChar]; omega⟩
    · have := readHexDigit_frame p
      exact ⟨this.1.trans (sameFrame_lexError _ _), by simp; omega⟩
    · have h := readHexDigit_frame p
      have := ih (readHexDigit p).2 (((v * 16) ||| (readHexDigit p).1.toNat) % 2 ^ 32) d
      exact ⟨h.1.trans this.1, by omega⟩

theorem ite_elim {α : Type} (P : α → Prop) (c : Prop) [Decidable c] (a b : α)
    (ha : c → P a) (hb : ¬c → P b) : P (if c then a else b) := by
  by_cases h : c
  · rw [if_pos h]; exact ha h
  · rw [if_neg h]; exact hb h

/-- Case analysis on the `switch` of `readEscape`. -/
theorem readEscape_elim (P : Parser × List Nat → Prop) (p : Parser) (s : List Nat) (c : Nat)
    (h1 : ∀ b, P (p, s ++ [b]))
    (h2 : ∀ n, P (readUnicodeEscape p s n))
    (h3 : P ((readHexEscape 2 p 0 "byte").2, s ++ [(readHexEscape 2 p 0 "byte").1 % 256]))
    (h4 : ∀ m, P (lexError p m, s)) :
    P (readEscape p s c) := by
  unfold readEscape
  iterate 15
    refine ite_elim P _ _ _ (fun _ => ?_) (fun _ => ?_)
    · first
        | exact h1 _
        | exact h2 _
        | exact h3
  exact h4 _

theorem readEscape_frame (p : Parser) (s : List Nat) (c : Nat) :
    SameFrame p (readEscape p s c).1 ∧ p.currentChar ≤ (readEscape p s c).1.currentChar + 1 := by
  apply readEscape_elim (fun r => SameFrame p r.1 ∧ p.currentChar ≤ r.1.currentChar + 1)
  · intro b; exact ⟨SameFrame.refl p, Nat.le_succ _⟩
  · intro n; exact readHexEscape_frame n p 0 _
  · exact readHexEscape_frame 2 p 0 _
  · intro m
    exact ⟨sameFrame_lexError p _, by simp⟩

theorem currentChar_lt_length {p : Parser} (hne : peekChar p ≠ 0) :
    p.currentChar < p.source.length := by
  by_contra hge
  apply hne
  simp [peekChar, charAt, List.getD_eq_getElem?_getD,
    List.getElem?_eq_none (by omega : p.source.length ≤ p.currentChar)]

theorem readStringStep_again {p q : Parser} {s s' : List Nat}
    (h : readStringStep p s = StringStep.again q s') :
    SameFrame p q ∧ p.currentChar < q.currentChar ∧ p.currentChar < p.source.length := by
  simp only [readStringStep, show (nextChar p).1 = peekChar p from rfl] at h
  have hn : (nextChar p).2.currentChar = p.currentChar + 1 := rfl
  by_cases h1 : peekChar p = 34
  · simp [h1] at h
  by_cases h2 : peekChar p = 13
  · simp only [h1, h2, if_false, if_true] at h
    cases h
    exact ⟨sameFrame_nextChar p, by omega, currentChar_lt_length (by omega)⟩
  by_cases h3 : peekChar p = 0
  · simp [h1, h2, h3] at h
  have hlen := currentChar_lt_length h3
  by_cases h4 : peekChar p = 37
  · by_cases h5 : (nextChar p).2.numParens < MAX_INTERPOLATION_NESTING
    · simp [h4, h5] at h
    · simp only [h4, h5, and_false, if_false, if_true, show (37 : Nat) ≠ 34 from by decide,
        show (37 : Nat) ≠ 13 from by decide, show (37 : Nat) ≠ 0 from by decide,
        show (37 : Nat) ≠ 92 from by decide] at h
      cases h
      exact ⟨(sameFrame_nextChar p).trans (sameFrame_lexError _ _), by simp [nextChar], hlen⟩
  · by_cases h6 : peekChar p = 92
    · simp only [h1, h2, h3, h4, h6, false_and, if_false, if_true,
        show (92 : Nat) ≠ 37 from by decide] at h
      cases h
      have := readEscape_frame (nextChar (nextChar p).2).2 s (nextChar (nextChar p).2).1
      refine ⟨((sameFrame_nextChar p).trans (sameFrame_nextChar _)).trans this.1, ?_, hlen⟩
      have h2 := this.2
      have : (nextChar (nextChar p).2).2.currentChar = p.currentChar + 2 := rfl
      omega
    · simp only [h1, h2, h3, h4, h6, false_and, if_false] at h
      cases h
      exact ⟨sameFrame_nextChar p, by omega, hlen⟩

theorem readStringStep_done {p q : Parser} {s s' : List Nat} {t : TokenType}
    (h : readStringStep p s = StringStep.done q s' t) :
    q.source = p.source ∧ q.tokenStart = p.tokenStart ∧
      ((t = TOKEN_STRING ∧ q.numParens = p.numParens ∧ q.parens = p.parens) ∨
       (t = TOKEN_INTERPOLATION ∧ q.numParens = p.numParens + 1 ∧
          q.parens = p.parens.set p.numParens 1)) := by
  simp only [readStringStep, show (nextChar p).1 = peekChar p from rfl] at h
  split_ifs at h with h1 h2 h3 h4 h5 h6 <;> cases h
  · exact ⟨rfl, rfl, Or.inl ⟨rfl, rfl, rfl⟩⟩
  · exact ⟨by simp [unreadChar, nextChar], by simp [unreadChar, nextChar],
      Or.inl ⟨rfl, by simp [unreadChar, nextChar], by simp [unreadChar, nextChar]⟩⟩
  · exact ⟨by simp [nextChar], by simp [nextChar],
      Or.inr ⟨rfl, by simp [nextChar], by simp [nextChar]⟩⟩
  · exact ⟨rfl, rfl, Or.inr ⟨rfl, rfl, rfl⟩⟩

/-- With enough fuel the loop of `readString` returns; the token is a STRING
with the interpolation stack unchanged, or an INTERPOLATION with one more
level, whose count is 1. -/
theorem readStringLoop_returns (fuel : Nat) :
    ∀ (p : Parser) (s : List Nat), p.source.length - p.currentChar + 1 ≤ fuel →
      ∃ q s' t, readStringLoop fuel p s = some (q, s', t) ∧
        q.source = p.source ∧ q.tokenStart = p.tokenStart ∧
        ((t = TOKEN_STRING ∧ q.numParens = p.numParens ∧ q.parens = p.parens) ∨
         (t = TOKEN_INTERPOLATION ∧ q.numParens = p.numParens + 1 ∧
            q.parens = p.parens.set p.numParens 1)) := by
  induction fuel with
  | zero => intro p s h; omega
  | succ f ih =>
    intro p s hf
    simp only [readStringLoop]
    cases hstep : readStringStep p s with
    | done q s' t =>
      exact ⟨q, s', t, rfl, readStringStep_done hstep⟩
    | again q s' =>
      obtain ⟨hfr, hlt, hlen⟩ := readStringStep_again hstep
      obtain ⟨q', s'', t, h1, h2, h3, h4⟩ := ih q s' (by rw [hfr.1]; omega)
      refine ⟨q', s'', t, h1, h2.trans hfr.1, h3.trans hfr.2.2.2, ?_⟩
      rw [hfr.2.1, hfr.2.2.1] at h4
      exact h4

theorem readString_returns (fuel : Nat) (p : Parser)
    (hfuel : p.source.length - p.currentChar + 1 ≤ fuel) :
    ∃ q, readString fuel p = some q ∧ q.next.start = p.tokenStart ∧
      ((q.next.type = TOKEN_STRING ∧ q.numParens = p.numParens ∧ q.parens = p.parens) ∨
       (q.next.type = TOKEN_INTERPOLATION ∧ q.numParens = p.numParens + 1 ∧
          q.parens = p.parens.set p.numParens 1)) := by
  obtain ⟨q, s', t, h1, _, h3, h4⟩ := readStringLoop_returns fuel p [] hfuel
  simp only [readString, h1, Option.map_some']
  refine ⟨_, rfl, ?_, ?_⟩
  · simp [makeToken, h3]
  · simpa [makeToken] using h4

/-! ## Parentheses inside interpolation -/

/-- The token loop on a character that is neither NUL nor a newline. -/
theorem lexToken_cons0 (libc : Libc) (fuel : Nat) {p : Parser} {c : Nat} {r : List Nat}
    (h : p.rest = c :: r) (hc : c ≠ 0) (hc10 : c ≠ 10) :
    lexToken libc (fuel + 1) p =
      match lexSwitch libc fuel
        { p with tokenStart := p.currentChar, currentChar := p.currentChar + 1 } c with
      | none => none
      | some (SwitchExit.ret q) => some q
      | some (SwitchExit.brk q) => lexToken libc fuel q := by
  rw [lexToken_cons libc fuel h hc]
  have : (nextChar { p with tokenStart := p.currentChar }).2 =
      { p with tokenStart := p.currentChar, currentChar := p.currentChar + 1 } := by
    have hp : peekChar { p with tokenStart := p.currentChar } = c := peekChar_cons h
    simp [nextChar, hp, hc10]
  rw [this]

theorem lexToken_paren (libc : Libc) (p : Parser) (r : List Nat) (fuel : Nat)
    (hlen : p.numParens ≤ p.parens.length)
    (hfuel : p.source.length - p.currentChar + 1 ≤ fuel) :
    (p.rest = 40 :: r →
      ∃ q, lexToken libc fuel p = some q ∧ q.next.type = TOKEN_LEFT_PAREN ∧
        q.currentChar = p.currentChar + 1 ∧ q.numParens = p.numParens ∧
        (0 < p.numParens →
          q.parens = p.parens.set (p.numParens - 1) (p.parens.getD (p.numParens - 1) 0 + 1) ∧
          q.parens.getD (p.numParens - 1) 0 = p.parens.getD (p.numParens - 1) 0 + 1) ∧
        (p.numParens = 0 → q.parens = p.parens)) ∧
    (p.rest = 41 :: r →
      (0 < p.numParens → 1 < p.parens.getD (p.numParens - 1) 0 →
        ∃ q, lexToken libc fuel p = some q ∧ q.next.type = TOKEN_RIGHT_PAREN ∧
          q.currentChar = p.currentChar + 1 ∧ q.numParens = p.numParens ∧
          q.parens = p.parens.set (p.numParens - 1) (p.parens.getD (p.numParens - 1) 0 - 1) ∧
          q.parens.getD (p.numParens - 1) 0 = p.parens.getD (p.numParens - 1) 0 - 1) ∧
      (0 < p.numParens → p.parens.getD (p.numParens - 1) 0 = 1 →
        lexToken libc fuel p =
          readString (fuel - 1)
            { p with
              tokenStart := p.currentChar
              currentChar := p.currentChar + 1
              parens := p.parens.set (p.numParens - 1) 0
              numParens := p.numParens - 1 } ∧
        ∃ q, lexToken libc fuel p = some q ∧ q.next.start = p.currentChar ∧
          ((q.next.type = TOKEN_STRING ∧ q.numParens = p.numParens - 1 ∧
              q.parens = p.parens.set (p.numParens - 1) 0) ∨
           (q.next.type = TOKEN_INTERPOLATION ∧ q.numParens = p.numParens ∧
              q.parens = p.parens.set (p.numParens - 1) 1))) ∧
      (p.numParens = 0 →
        ∃ q, lexToken libc fuel p = some q ∧ q.next.type = TOKEN_RIGHT_PAREN ∧
          q.currentChar = p.currentChar + 1 ∧ q.numParens = 0 ∧ q.parens = p.parens)) := by
  obtain ⟨f, rfl⟩ : ∃ f, fuel = f + 1 := ⟨fuel - 1, by omega⟩
  have hget : ∀ (v : Int), 0 < p.numParens →
      (p.parens.set (p.numParens - 1) v).getD (p.numParens - 1) 0 = v := by
    intro v h0
    have : p.numParens - 1 < p.parens.length := by omega
    simp [List.getD_eq_getElem?_getD, List.getElem?_set, this]
  constructor
  · intro hsrc
    rw [lexToken_cons0 libc f hsrc (by decide) (by decide)]
    by_cases h0 : 0 < p.numParens
    · have e : lexSwitch libc f
          { p with tokenStart := p.currentChar, currentChar := p.currentChar + 1 } 40 =
          some (SwitchExit.ret (makeToken
            { p with
              tokenStart := p.currentChar
              currentChar := p.currentChar + 1
              parens := p.parens.set (p.numParens - 1) (p.parens.getD (p.numParens - 1) 0 + 1) }
            TOKEN_LEFT_PAREN)) := by
        simp [lexSwitch, h0]
      rw [e]
      exact ⟨_, rfl, rfl, rfl, rfl, fun _ => ⟨rfl, hget _ h0⟩, fun h => by omega⟩
    · have e : lexSwitch libc f
          { p with tokenStart := p.currentChar, currentChar := p.currentChar + 1 } 40 =
          some (SwitchExit.ret (makeToken
            { p with tokenStart := p.currentChar, currentChar := p.currentChar + 1 }
            TOKEN_LEFT_PAREN)) := by
        simp [lexSwitch, h0]
      rw [e]
      exact ⟨_, rfl, rfl, rfl, rfl, fun h => absurd h h0, fun _ => rfl⟩
  · intro hsrc
    rw [lexToken_cons0 libc f hsrc (by decide) (by decide)]
    have hcc : p.currentChar < p.source.length := by
      have : peekChar p = 41 := peekChar_cons hsrc
      exact currentChar_lt_length (by rw [this]; decide)
    refine ⟨?_, ?_, ?_⟩
    · intro h0 htop
      have hne0 : p.parens.getD (p.numParens - 1) 0 - 1 ≠ 0 := by omega
      have e : lexSwitch libc f
          { p with tokenStart := p.currentChar, currentChar := p.currentChar + 1 } 41 =
          some (SwitchExit.ret (makeToken
            { p with
              tokenStart := p.currentChar
              currentChar := p.currentChar + 1
              parens := p.parens.set (p.numParens - 1) (p.parens.getD (p.numParens - 1) 0 - 1) }
            TOKEN_RIGHT_PAREN)) := by
        have := hget (p.parens.getD (p.numParens - 1) 0 - 1) h0
        simp only [lexSwitch, show (41 : Nat) ≠ 40 from by decide, if_false, if_true, h0, this,
          hne0]
      rw [e]
      exact ⟨_, rfl, rfl, rfl, rfl, rfl, hget _ h0⟩
    · intro h0 htop
      have h1 : p.parens.getD (p.numParens - 1) 0 - 1 = 0 := by omega
      have e : lexSwitch libc f
          { p with tokenStart := p.currentChar, currentChar := p.currentChar + 1 } 41 =
          (readString f
            { p with
              tokenStart := p.currentChar
              currentChar := p.currentChar + 1
              parens := p.parens.set (p.numParens - 1) 0
              numParens := p.numParens - 1 }).map SwitchExit.ret := by
        have := hget 0 h0
        simp only [lexSwitch, show (41 : Nat) ≠ 40 from by decide, if_false, if_true, h0, h1,
          this]
      rw [e]
      obtain ⟨q, hq, hstart, htype⟩ := readString_returns f
        { p with
          tokenStart := p.currentChar
          currentChar := p.currentChar + 1
          parens := p.parens.set (p.numParens - 1) 0
          numParens := p.numParens - 1 } (by simp; omega)
      simp only [Nat.add_sub_cancel, hq, Option.map_some']
      refine ⟨trivial, q, rfl, hstart, ?_⟩
      rcases htype with ⟨ht, hn, hp⟩ | ⟨ht, hn, hp⟩
      · exact Or.inl ⟨ht, hn, hp⟩
      · refine Or.inr ⟨ht, ?_, ?_⟩
        · rw [hn]; simp; omega
        · rw [hp]; simp [List.set_set]
    · intro h0
      have e : lexSwitch libc f
          { p with tokenStart := p.currentChar, currentChar := p.currentChar + 1 } 41 =
          some (SwitchExit.ret (makeToken
            { p with tokenStart := p.currentChar, currentChar := p.currentChar + 1 }
            TOKEN_RIGHT_PAREN)) := by
        simp [lexSwitch, h0]
      rw [e]
      exact ⟨_, rfl, rfl, rfl, h0, rfl⟩

/-- C2: on `(` the lexer yields TOKEN_LEFT_PAREN and, while `numParens > 0`,
increments the top entry of the parens stack; on `)` while `numParens > 0` it
decrements the top entry and yields TOKEN_RIGHT_PAREN if the entry stays
positive; if the entry reaches zero it pops it and hands the `)` to
`readString`, so the token is a TOKEN_STRING (the stack stays popped) or a
TOKEN_INTERPOLATION (a new level is pushed) that starts at the `)`.  While
`numParens = 0` both parentheses leave the stack unchanged. -/
theorem paren_tracking (libc : Libc) (p : Parser) (r : List Nat) (fuel : Nat)
    (hne : p.next.type ≠ TOKEN_EOF)
    (hlen : p.numParens ≤ p.parens.length)
    (hfuel : p.source.length - p.currentChar + 1 ≤ fuel) :
    (p.rest = 40 :: r →
      ∃ q, wrenNextToken libc fuel p = some q ∧ q.next.type = TOKEN_LEFT_PAREN ∧
        q.currentChar = p.currentChar + 1 ∧ q.numParens = p.numParens ∧
        (0 < p.numParens →
          q.parens = p.parens.set (p.numParens - 1) (p.parens.getD (p.numParens - 1) 0 + 1) ∧
          q.parens.getD (p.numParens - 1) 0 = p.parens.getD (p.numParens - 1) 0 + 1) ∧
        (p.numParens = 0 → q.parens = p.parens)) ∧
    (p.rest = 41 :: r →
      (0 < p.numParens → 1 < p.parens.getD (p.numParens - 1) 0 →
        ∃ q, wrenNextToken libc fuel p = some q ∧ q.next.type = TOKEN_RIGHT_PAREN ∧
          q.currentChar = p.currentChar + 1 ∧ q.numParens = p.numParens ∧
          q.parens = p.parens.set (p.numParens - 1) (p.parens.getD (p.numParens - 1) 0 - 1) ∧
          q.parens.getD (p.numParens - 1) 0 = p.parens.getD (p.numParens - 1) 0 - 1) ∧
      (0 < p.numParens → p.parens.getD (p.numParens - 1) 0 = 1 →
        wrenNextToken libc fuel p =
          readString (fuel - 1)
            { p with
              previous := p.current
              current := p.next
              tokenStart := p.currentChar
              currentChar := p.currentChar + 1
              parens := p.parens.set (p.numParens - 1) 0
              numParens := p.numParens - 1 } ∧
        ∃ q, wrenNextToken libc fuel p = some q ∧ q.next.start = p.currentChar ∧
          ((q.next.type = TOKEN_STRING ∧ q.numParens = p.numParens - 1 ∧
              q.parens = p.parens.set (p.numParens - 1) 0) ∨
           (q.next.type = TOKEN_INTERPOLATION ∧ q.numParens = p.numParens ∧
              q.parens = p.parens.set (p.numParens - 1) 1))) ∧
      (p.numParens = 0 →
        ∃ q, wrenNextToken libc fuel p = some q ∧ q.next.type = TOKEN_RIGHT_PAREN ∧
          q.currentChar = p.currentChar + 1 ∧ q.numParens = 0 ∧ q.parens = p.parens)) := by
  rw [wrenNextToken_lex libc _ p hne]
  exact lexToken_paren libc { p with previous := p.current, current := p.next } r fuel hlen hfuel

/-- Witness for C2: inside one interpolation whose count is 1, the `)` of the
source `) c"` pops the level and the token is the final section of the
string. -/
theorem paren_tracking_witness :
    (interpParser (ascii ") c\"") 1).next.type ≠ TOKEN_EOF ∧
    (interpParser (ascii ") c\"") 1).numParens ≤ (interpParser (ascii ") c\"") 1).parens.length ∧
    (interpParser (ascii ") c\"") 1).rest = 41 :: ascii " c\"" ∧
    0 < (interpParser (ascii ") c\"") 1).numParens ∧
    (interpParser (ascii ") c\"") 1).parens.getD ((interpParser (ascii ") c\"") 1).numParens - 1) 0
      = 1 ∧
    ∃ q, wrenNextToken exampleLibc 5 (interpParser (ascii ") c\"") 1) = some q ∧
      q.next.start = (interpParser (ascii ") c\"") 1).currentChar ∧
      ((q.next.type = TOKEN_STRING ∧
          q.numParens = (interpParser (ascii ") c\"") 1).numParens - 1 ∧
          q.parens = (interpParser (ascii ") c\"") 1).parens.set
            ((interpParser (ascii ") c\"") 1).numParens - 1) 0) ∨
       (q.next.type = TOKEN_INTERPOLATION ∧
          q.numParens = (interpParser (ascii ") c\"") 1).numParens ∧
          q.parens = (interpParser (ascii ") c\"") 1).parens.set
            ((interpParser (ascii ") c\"") 1).numParens - 1) 1)) :=
  ⟨by decide, by decide, by decide, by decide, by decide,
    (((paren_tracking exampleLibc (interpParser (ascii ") c\"") 1) (ascii " c\"") 5 (by decide)
      (by decide) (by decide)).2 (by decide)).2.1 (by decide) (by decide)).2⟩

/-! ## Raw strings -/

theorem firstLine_append (B : List Nat) (c : Nat) :
    firstLine (B ++ [c]) = if 10 ∈ B then firstLine B else if c = 10 then B else B ++ [c] := by
  induction B with
  | nil =>
    by_cases hc : c = 10 <;> simp [firstLine, List.takeWhile, hc]
  | cons b B ih =>
    by_cases hb : b = 10
    · subst hb; simp [firstLine, List.takeWhile]
    · have hb' : ¬ (10 = b) := fun h => hb h.symm
      simp only [firstLine] at ih
      simp only [firstLine, List.cons_append, List.takeWhile_cons, hb, ne_eq, not_false_eq_true,
        decide_True, if_true, List.mem_cons, hb', false_or, ih]
      split_ifs <;> rfl

theorem lastLine_append (B : List Nat) (c : Nat) :
    lastLine (B ++ [c]) = if c = 10 then [] else lastLine B ++ [c] := by
  by_cases hc : c = 10 <;> simp [lastLine, List.takeWhile, hc]

theorem firstLine_of_not_mem (B : List Nat) (h : 10 ∉ B) : firstLine B = B := by
  induction B with
  | nil => rfl
  | cons b B ih =>
    simp only [List.mem_cons, not_or] at h
    have hb : b ≠ 10 := fun e => h.1 e.symm
    simp [firstLine, List.takeWhile, hb]
    intro x hx hx10
    subst hx10
    exact h.2 hx

theorem firstLine_length_lt (B : List Nat) (h : 10 ∈ B) : (firstLine B).length < B.length := by
  induction B with
  | nil => simp at h
  | cons b B ih =>
    by_cases hb : b = 10
    · subst hb; simp [firstLine, List.takeWhile]
    · have : 10 ∈ B := by
        simp only [List.mem_cons] at h
        rcases h with h | h
        · exact absurd h.symm hb
        · exact h
      have := ih this
      simp [firstLine] at this
      simp [firstLine, List.takeWhile, hb]
      omega

theorem lastLine_length_lt (B : List Nat) (h : 10 ∈ B) : (lastLine B).length < B.length := by
  have := firstLine_length_lt B.reverse (by simpa using h)
  simpa [lastLine, firstLine] using this

theorem rawInv_init : RawInv ⟨[], 0, -1, -1, -1⟩ := by
  simp [RawInv, firstLine, lastLine]

theorem rawInv_step (l : RawLocals) (c : Nat) (hinv : RawInv l) (hc : c ≠ 13) :
    RawInv
      (let l1 : RawLocals :=
        if c = 10 then
          { l with
              lastNewline := l.string.length
              skipEnd := l.string.length
              firstNewline := if l.firstNewline = -1 then l.string.length else l.firstNewline }
        else l
      let isWhitespace : Bool := c = 32 || c = 9
      let l2 := { l1 with skipEnd := if c = 10 || isWhitespace then l1.skipEnd else -1 }
      let skippable : Bool := l2.skipStart ≠ -1 && isWhitespace && l2.firstNewline = -1
      let l3 := { l2 with skipStart := if skippable then (l2.string.length : Int) + 1 else l2.skipStart }
      let l4 := if l3.firstNewline = -1 ∧ !isWhitespace ∧ c ≠ 10 then { l3 with skipStart := -1 } else l3
      { l4 with string := l4.string ++ [c] }) := by
  obtain ⟨h1, h2, h3, h4⟩ := hinv
  have h10' : c = 10 ↔ 10 = c := eq_comm
  by_cases h10 : c = 10
  · subst h10
    by_cases hm : 10 ∈ l.string
    · have hf := firstLine_length_lt _ hm
      simp [RawInv, firstLine_append, lastLine_append, hm, h1, h2, h3, h4]
    · simp [RawInv, firstLine_append, lastLine_append, hm, h1, h2, h3, h4,
        firstLine_of_not_mem _ hm]
  · have h10s : ¬(10 = c) := fun h => h10 h.symm
    by_cases hb : c = 32 ∨ c = 9
    · have hbl : isBlank c = true := by simp [isBlank, hb]
      have hcases : ∀ d : Nat, (d = 32 ∨ d = 9) → d = c → True := fun _ _ _ => trivial
      by_cases hm : 10 ∈ l.string
      · have hf := firstLine_length_lt _ hm
        have hl := lastLine_length_lt _ hm
        rcases hb with rfl | rfl <;>
          simp [RawInv, firstLine_append, lastLine_append, hm, h1, h2, h3, h4, isBlank] <;>
          refine ⟨by omega, ?_⟩ <;>
          split_ifs <;> omega
      · by_cases hall : ∀ x ∈ l.string, isBlank x = true
        · rcases hb with rfl | rfl <;>
            simp [RawInv, firstLine_append, lastLine_append, hm, h1, h2, h3, h4,
              firstLine_of_not_mem _ hm, hall] <;>
            simp [isBlank] <;>
            split_ifs <;> rfl
        · have hall' : ∃ x, x ∈ l.string ∧ isBlank x = false := by
            by_contra hcon
            apply hall
            intro x hx
            by_contra hxb
            exact hcon ⟨x, hx, by simpa using hxb⟩
          obtain ⟨x, hx, hxb⟩ := hall'
          have hex : ∀ d, ∃ y, (y ∈ l.string ∨ y = d) ∧ isBlank y = false :=
            fun d => ⟨x, Or.inl hx, hxb⟩
          rcases hb with rfl | rfl <;>
            simp [RawInv, firstLine_append, lastLine_append, hm, h1, h2, h3, h4,
              firstLine_of_not_mem _ hm, hall, hex]
    · have hbl : isBlank c = false := by simpa [isBlank] using hb
      have hb1 : c ≠ 32 := fun h => hb (Or.inl h)
      have hb2 : c ≠ 9 := fun h => hb (Or.inr h)
      by_cases hm : 10 ∈ l.string
      · have hf := firstLine_length_lt _ hm
        have hl := lastLine_length_lt _ hm
        simp [RawInv, firstLine_append, lastLine_append, hm, h1, h2, h3, h4, h10, h10s, hb1, hb2,
          hbl]
        omega
      · simp [RawInv, firstLine_append, lastLine_append, hm, h1, h2, h3, h4, h10, h10s, hb1, hb2,
          hbl, firstLine_of_not_mem _ hm]

theorem rawCut (B : List Nat) (o k : Nat) :
    (B.drop ((o : Int)).toNat).take (((k : Int) - (if (o : Int) > k then (k : Int) else o)).toNat) =
      (B.take k).drop o := by
  rw [List.drop_take]
  by_cases h : (o : Int) > k
  · have h' : k - o = 0 := by omega
    simp [h, h']
  · have e : ((k : Int) - (o : Int)).toNat = k - o := by omega
    simp only [h, if_false, e, Int.toNat_ofNat]

/-- The value `readRawString` cuts out of its buffer is the trimmed buffer. -/
theorem rawValue_eq (l : RawLocals) (hinv : RawInv l) :
    (let offset : Int := 0
     let count : Int := l.string.length
     let offset := if l.firstNewline ≠ -1 ∧ l.skipStart = l.firstNewline then l.firstNewline + 1 else offset
     let count := if l.lastNewline ≠ -1 ∧ l.skipEnd = l.lastNewline then l.lastNewline else count
     let count := count - (if offset > count then count else offset)
     (l.string.drop offset.toNat).take count.toNat) = rawTrim l.string := by
  obtain ⟨h1, h2, h3, h4⟩ := hinv
  have hoff : (if l.firstNewline ≠ -1 ∧ l.skipStart = l.firstNewline then l.firstNewline + 1
      else (0 : Int)) =
      ((if (decide (10 ∈ l.string) && (firstLine l.string).all isBlank) = true then
        (firstLine l.string).length + 1 else 0 : Nat) : Int) := by
    rw [h1, h3]
    by_cases hm : 10 ∈ l.string <;> by_cases ha : (firstLine l.string).all isBlank = true <;>
      simp [hm, ha]
  have hcnt : (if l.lastNewline ≠ -1 ∧ l.skipEnd = l.lastNewline then l.lastNewline
      else (l.string.length : Int)) =
      ((if (decide (10 ∈ l.string) && (lastLine l.string).all isBlank) = true then
        l.string.length - (lastLine l.string).length - 1 else l.string.length : Nat) : Int) := by
    rw [h2, h4]
    by_cases hm : 10 ∈ l.string
    · have hl := lastLine_length_lt _ hm
      by_cases hb : (lastLine l.string).all isBlank = true <;> simp [hm, hb] <;> omega
    · simp [hm]
  simp only [hoff, hcnt, rawCut, rawTrim]
  by_cases hb : (decide (10 ∈ l.string) && (lastLine l.string).all isBlank) = true
  · simp only [hb, if_true]
  · simp [hb]

theorem rawBody_cons {c : Nat} {X : List Nat} (h : RawBody (c :: X)) :
    c ≠ 0 ∧ startsWithTripleQuote (c :: X ++ [34, 34, 34]) = false ∧ RawBody X := by
  obtain ⟨h0, h3⟩ := h
  simp only [List.mem_cons, not_or] at h0
  refine ⟨fun e => h0.1 e.symm, ?_, h0.2, ?_⟩
  · have := h3 0 (by simp)
    simpa using this
  · intro i hi
    have := h3 (i + 1) (by simp; omega)
    simpa using this

theorem rawBody_next {X : List Nat} (tail : List Nat) (h0 : 0 ∉ X) :
    ∃ c1 c2 r, X ++ 34 :: 34 :: 34 :: tail = c1 :: c2 :: r ∧ c1 ≠ 0 ∧ c2 ≠ 0 ∧
      ∀ c, startsWithTripleQuote (c :: X ++ [34, 34, 34]) = decide (c = 34 ∧ c1 = 34 ∧ c2 = 34) := by
  rcases X with _ | ⟨a, _ | ⟨b, X⟩⟩
  · refine ⟨34, 34, 34 :: tail, rfl, by decide, by decide, ?_⟩
    intro c
    by_cases hc : c = 34
    · subst hc; rfl
    · simp [startsWithTripleQuote, hc]
  · simp only [List.mem_cons, List.mem_nil_iff, or_false] at h0
    refine ⟨a, 34, 34 :: 34 :: tail, rfl, fun e => h0 e.symm, by decide, ?_⟩
    intro c
    by_cases hc : c = 34
    · subst hc
      by_cases ha : a = 34
      · subst ha; rfl
      · simp [startsWithTripleQuote, ha]
    · simp [startsWithTripleQuote, hc]
  · simp only [List.mem_cons, not_or] at h0
    refine ⟨a, b, X ++ 34 :: 34 :: 34 :: tail, rfl, fun e => h0.1 e.symm,
      fun e => h0.2.1 e.symm, ?_⟩
    intro c
    by_cases hc : c = 34
    · subst hc
      by_cases ha : a = 34
      · subst ha
        by_cases hb : b = 34
        · subst hb; rfl
        · simp [startsWithTripleQuote, hb]
      · simp [startsWithTripleQuote, ha]
    · simp [startsWithTripleQuote, hc]

theorem readRawStringLoop_body (X : List Nat) :
    ∀ (fuel : Nat) (p : Parser) (l : RawLocals) (tail : List Nat),
      p.rest = X ++ 34 :: 34 :: 34 :: tail → RawBody X → X.length + 1 ≤ fuel → RawInv l →
      ∃ l', readRawStringLoop fuel p l = some (p.advance (X.length + 1) (newlines X), l') ∧
        l'.string = l.string ++ dropCR X ∧ RawInv l' := by
  induction X with
  | nil =>
    intro fuel p l tail hsrc _ hfuel hinv
    obtain ⟨f, rfl⟩ : ∃ f, fuel = f + 1 := ⟨fuel - 1, by omega⟩
    simp only [List.nil_append] at hsrc
    have e1 := nextChar_advance0 p hsrc (by decide)
    have f1 := nextChar_fst p hsrc
    have hr1 : (p.advance 1 0).rest = 34 :: 34 :: tail := advance_rest p [34] _ _ hsrc
    have hp1 : peekChar (p.advance 1 0) = 34 := peekChar_cons hr1
    have hp2 : peekNextChar (p.advance 1 0) = 34 := peekNextChar_cons hr1 (by decide)
    refine ⟨l, ?_, by simp [dropCR], hinv⟩
    simp [readRawStringLoop, e1, f1, hp1, hp2, newlines]
  | cons c X ih =>
    intro fuel p l tail hsrc hbody hfuel hinv
    obtain ⟨f, rfl⟩ : ∃ f, fuel = f + 1 := ⟨fuel - 1, by omega⟩
    obtain ⟨hc0, hq, hbody'⟩ := rawBody_cons hbody
    obtain ⟨c1, c2, r, hnext, h10, h20, hstart⟩ := rawBody_next tail hbody'.1
    have hsrc' : p.rest = c :: (X ++ 34 :: 34 :: 34 :: tail) := by simpa using hsrc
    have e1 := nextChar_advance p hsrc'
    have f1 := nextChar_fst p hsrc'
    have hr1 : (p.advance 1 (newlines [c])).rest = X ++ 34 :: 34 :: 34 :: tail :=
      advance_rest p [c] _ _ hsrc'
    have hr1' : (p.advance 1 (newlines [c])).rest = c1 :: c2 :: r := hr1.trans hnext
    have hp1 : peekChar (p.advance 1 (newlines [c])) = c1 := peekChar_cons hr1'
    have hp2 : peekNextChar (p.advance 1 (newlines [c])) = c2 := peekNextChar_cons hr1' h10
    have hnq : ¬(c = 34 ∧ c1 = 34 ∧ c2 = 34) := by
      have := hstart c
      rw [hq] at this
      simpa using this.symm
    simp only [List.length_cons] at hfuel
    by_cases h13 : c = 13
    · subst h13
      obtain ⟨l', hl', hs', hi'⟩ := ih f _ l tail hr1 hbody' (by omega) hinv
      refine ⟨l', ?_, ?_, hi'⟩
      · simp only [readRawStringLoop, e1, f1, if_true, hl', advance_advance]
        simp [newlines, Nat.add_comm]
      · rw [hs']; simp [dropCR]
    · have hstep := rawInv_step l c hinv h13
      obtain ⟨l', hl', hs', hi'⟩ := ih f _ _ tail hr1 hbody' (by omega) hstep
      refine ⟨l', ?_, ?_, hi'⟩
      · simp only [readRawStringLoop, e1, f1, hp1, hp2, h13, hnq, hc0, h10, h20, if_false, or_self]
        rw [hl']
        simp [advance_advance, newlines, Nat.add_comm, List.count_cons]
      · rw [hs']
        simp [dropCR, h13]
        split_ifs <;> rfl

theorem lexToken_raw (libc : Libc) (fuel : Nat) (p : Parser) (X tail : List Nat)
    (hsrc : p.rest = 34 :: 34 :: 34 :: X ++ 34 :: 34 :: 34 :: tail)
    (hbody : RawBody X) (hfuel : X.length + 2 ≤ fuel) :
    lexToken libc fuel p =
      some { p with
        tokenStart := p.currentChar
        currentChar := p.currentChar + X.length + 6
        currentLine := p.currentLine + (newlines X : Nat)
        next := ⟨TOKEN_STRING, p.currentChar, (X.length : Int) + 6,
          p.currentLine + (newlines X : Nat), Value.OBJ_STRING (rawTrim (dropCR X))⟩ } := by
  obtain ⟨f, rfl⟩ : ∃ f, fuel = f + 1 := ⟨fuel - 1, by omega⟩
  have hsrc' : p.rest = 34 :: 34 :: 34 :: (X ++ 34 :: 34 :: 34 :: tail) := by simpa using hsrc
  rw [lexToken_cons0 libc f hsrc' (by decide) (by decide)]
  obtain ⟨p1, hp1⟩ : ∃ p1 : Parser,
      p1 = { p with tokenStart := p.currentChar, currentChar := p.currentChar + 1 } := ⟨_, rfl⟩
  rw [← hp1]
  have hr1 : p1.rest = 34 :: 34 :: (X ++ 34 :: 34 :: 34 :: tail) := by
    have := advance_rest p [34] _ 0 hsrc'
    rw [hp1]
    simpa [Parser.rest, Parser.advance] using this
  have hpk1 : peekChar p1 = 34 := peekChar_cons hr1
  have hpk2 : peekNextChar p1 = 34 := peekNextChar_cons hr1 (by decide)
  have hsw : lexSwitch libc f p1 34 = (readRawString f p1).map SwitchExit.ret := by
    simp [lexSwitch, hpk1, hpk2]
  rw [hsw]
  have e1 := nextChar_advance0 p1 hr1 (by decide)
  have hr2 : (p1.advance 1 0).rest = 34 :: (X ++ 34 :: 34 :: 34 :: tail) :=
    advance_rest p1 [34] _ _ hr1
  have e2 := nextChar_advance0 _ hr2 (by decide)
  have hr3 : ((p1.advance 1 0).advance 1 0).rest = X ++ 34 :: 34 :: 34 :: tail :=
    advance_rest _ [34] _ _ hr2
  obtain ⟨l', hl', hs', hi'⟩ := readRawStringLoop_body X f _ ⟨[], 0, -1, -1, -1⟩ tail hr3 hbody
    (by omega) rawInv_init
  have hr4 : (((p1.advance 1 0).advance 1 0).advance (X.length + 1) (newlines X)).rest =
      34 :: 34 :: tail := by
    have := advance_rest ((p1.advance 1 0).advance 1 0) (X ++ [34]) (34 :: 34 :: tail)
      (newlines X) (by simpa using hr3)
    simpa using this
  have e3 := nextChar_advance0 _ hr4 (by decide)
  have hr5 : ((((p1.advance 1 0).advance 1 0).advance (X.length + 1) (newlines X)).advance 1 0).rest
      = 34 :: tail := advance_rest _ [34] _ 0 hr4
  have e4 := nextChar_advance0 _ hr5 (by decide)
  have hval := rawValue_eq l' hi'
  simp only [List.nil_append] at hs'
  dsimp only at hval
  simp only [readRawString, e1, e2, hl', Option.map_some', e3, e4, hs']
  rw [hp1]
  rw [hs'] at hval
  simp [makeToken, Parser.advance]
  refine ⟨by omega, by omega, ?_⟩
  simpa using hval

/-! ### What the trims remove -/

theorem firstLine_split (B : List Nat) (h : 10 ∈ B) :
    ∃ rest, B = firstLine B ++ 10 :: rest := by
  induction B with
  | nil => simp at h
  | cons b B ih =>
    by_cases hb : b = 10
    · subst hb; exact ⟨B, by simp [firstLine, List.takeWhile]⟩
    · have : 10 ∈ B := by
        simp only [List.mem_cons] at h
        rcases h with h | h
        · exact absurd h.symm hb
        · exact h
      obtain ⟨rest, hr⟩ := ih this
      refine ⟨rest, ?_⟩
      have e : firstLine (b :: B) = b :: firstLine B := by simp [firstLine, List.takeWhile, hb]
      rw [e, List.cons_append, ← hr]

theorem lastLine_split (B : List Nat) (h : 10 ∈ B) :
    ∃ front, B = front ++ 10 :: lastLine B := by
  obtain ⟨rest, hr⟩ := firstLine_split B.reverse (by simpa using h)
  refine ⟨rest.reverse, ?_⟩
  have := congrArg List.reverse hr
  simpa [lastLine, firstLine] using this

theorem firstLine_no_newline (B : List Nat) : 10 ∉ firstLine B := by
  intro h
  have := List.mem_takeWhile_imp h
  simp at this

theorem lastLine_no_newline (B : List Nat) : 10 ∉ lastLine B := by
  intro h
  simp only [lastLine, List.mem_reverse] at h
  have := List.mem_takeWhile_imp h
  simp at this

/-- The characters at the front that `rawTrim` drops are blanks and a newline. -/
theorem rawTrim_front (B : List Nat) :
    ∀ c ∈ B.take (if (decide (10 ∈ B) && (firstLine B).all isBlank) = true then
        (firstLine B).length + 1 else 0), isBlank c = true ∨ c = 10 := by
  intro c hc
  by_cases h : (decide (10 ∈ B) && (firstLine B).all isBlank) = true
  · simp only [h, if_true] at hc
    simp only [Bool.and_eq_true, decide_eq_true_eq, List.all_eq_true] at h
    obtain ⟨rest, hr⟩ := firstLine_split B h.1
    have hc' : c ∈ (firstLine B ++ 10 :: rest).take ((firstLine B).length + 1) := by
      rw [← hr]; exact hc
    rw [List.take_append_eq_append_take] at hc'
    have e : (firstLine B).length + 1 - (firstLine B).length = 1 := by omega
    simp only [List.take_of_length_le (Nat.le_succ _), List.mem_append, e, List.take_succ_cons,
      List.take_zero, List.mem_singleton] at hc'
    rcases hc' with hc' | hc'
    · exact Or.inl (h.2 c hc')
    · exact Or.inr hc'
  · simp [h] at hc

/-- The characters at the end that `rawTrim` drops are a newline and blanks. -/
theorem rawTrim_back (B : List Nat) :
    ∀ c ∈ B.drop (if (decide (10 ∈ B) && (lastLine B).all isBlank) = true then
        B.length - (lastLine B).length - 1 else B.length), isBlank c = true ∨ c = 10 := by
  intro c hc
  by_cases h : (decide (10 ∈ B) && (lastLine B).all isBlank) = true
  · simp only [h, if_true] at hc
    simp only [Bool.and_eq_true, decide_eq_true_eq, List.all_eq_true] at h
    obtain ⟨front, hr⟩ := lastLine_split B h.1
    have hlen : B.length - (lastLine B).length - 1 = front.length := by
      have := congrArg List.length hr
      simp at this
      omega
    rw [hlen] at hc
    have hd : B.drop front.length = 10 :: lastLine B := by
      conv_lhs => rw [hr]
      simp
    rw [hd] at hc
    simp only [List.mem_cons] at hc
    rcases hc with hc | hc
    · exact Or.inr hc
    · exact Or.inl (h.2 c hc)
  · simp [h] at hc

theorem filter_eq_nil_of_forall {f : Nat → Bool} (l : List Nat) (h : ∀ c ∈ l, f c = false) :
    l.filter f = [] := by
  rw [List.filter_eq_nil_iff]
  intro c hc
  simp [h c hc]

/-- The trims only remove blanks and newlines. -/
theorem rawTrim_filter (B : List Nat) :
    (rawTrim B).filter (fun c => !(isBlank c || c = 10)) =
      B.filter (fun c => !(isBlank c || c = 10)) := by
  have hfront := rawTrim_front B
  have hback := rawTrim_back B
  have key : ∀ (o k : Nat),
      (∀ c ∈ B.take o, isBlank c = true ∨ c = 10) →
      (∀ c ∈ B.drop k, isBlank c = true ∨ c = 10) →
      ((B.take k).drop o).filter (fun c => !(isBlank c || c = 10)) =
        B.filter (fun c => !(isBlank c || c = 10)) := by
    intro o k ho hk
    have hz : ∀ l : List Nat, (∀ c ∈ l, isBlank c = true ∨ c = 10) →
        l.filter (fun c => !(isBlank c || c = 10)) = [] := by
      intro l hl
      apply filter_eq_nil_of_forall
      intro c hc
      rcases hl c hc with h | h <;> simp [h]
    have h1 : B.filter (fun c => !(isBlank c || c = 10)) =
        (B.take k).filter (fun c => !(isBlank c || c = 10)) := by
      conv_lhs => rw [← List.take_append_drop k B]
      rw [List.filter_append, hz _ hk, List.append_nil]
    have h2 : (B.take k).filter (fun c => !(isBlank c || c = 10)) =
        ((B.take k).drop o).filter (fun c => !(isBlank c || c = 10)) := by
      conv_lhs => rw [← List.take_append_drop o (B.take k)]
      rw [List.filter_append]
      have : ∀ c ∈ (B.take k).take o, isBlank c = true ∨ c = 10 := by
        intro c hc
        apply ho c
        rw [List.take_take] at hc
        exact List.mem_of_mem_take (by
          have : B.take (min o k) = (B.take o).take (min o k) := by
            rw [List.take_take]; congr 1; omega
          rw [this] at hc
          exact hc)
      rw [hz _ this, List.nil_append]
    rw [h1, h2]
  have := key (if (decide (10 ∈ B) && (firstLine B).all isBlank) = true then
        (firstLine B).length + 1 else 0)
      (if (decide (10 ∈ B) && (lastLine B).all isBlank) = true then
        B.length - (lastLine B).length - 1 else B.length) hfront hback
  rw [← this]
  simp only [rawTrim]
  by_cases hb : (decide (10 ∈ B) && (lastLine B).all isBlank) = true
  · simp only [hb, if_true]
  · simp [hb]

theorem rawTrim_no_newline (B : List Nat) (h : 10 ∉ B) : rawTrim B = B := by
  simp [rawTrim, h]

/-- A single newline with only blanks around it is trimmed to nothing. -/
theorem rawTrim_overlap (pre post : List Nat) (hpre : ∀ c ∈ pre, isBlank c = true)
    (hpost : ∀ c ∈ post, isBlank c = true) : rawTrim (pre ++ 10 :: post) = [] := by
  have h10 : ∀ l : List Nat, (∀ c ∈ l, isBlank c = true) → ∀ c ∈ l, ¬c = 10 := by
    intro l hl c hc e
    have := hl c hc
    rw [e] at this
    simp [isBlank] at this
  have hf : firstLine (pre ++ 10 :: post) = pre := by
    simp only [firstLine]
    rw [List.takeWhile_append_of_pos (by simpa using h10 pre hpre)]
    simp [List.takeWhile]
  have hl : lastLine (pre ++ 10 :: post) = post := by
    simp only [lastLine, List.reverse_append, List.reverse_cons, List.append_assoc,
      List.singleton_append]
    rw [List.takeWhile_append_of_pos (by simpa using h10 post hpost)]
    simp [List.takeWhile]
  have ha : (pre.all isBlank) = true := by simpa using hpre
  have hb : (post.all isBlank) = true := by simpa using hpost
  simp only [rawTrim, hf, hl, ha, hb]
  simp
  exact Or.inl (by omega)

/-- C5: a terminated raw string is lexed as one TOKEN_STRING whose value is
`rawTrim` of the body without its CRs: the first line and its newline are
removed when the text has a newline and that line is blank, and the last
newline and what follows it are removed when the text has a newline and what
follows its last newline is blank.  A body without a newline is not trimmed,
and a single newline with only blanks around it gives the empty string. -/
theorem raw_string_trim (libc : Libc) (p : Parser) (X tail : List Nat) (fuel : Nat)
    (hne : p.next.type ≠ TOKEN_EOF)
    (hsrc : p.rest = 34 :: 34 :: 34 :: X ++ 34 :: 34 :: 34 :: tail)
    (hbody : RawBody X)
    (hfuel : X.length + 2 ≤ fuel) :
    (∃ q, wrenNextToken libc fuel p = some q ∧ q.next.type = TOKEN_STRING ∧
      q.next.value = Value.OBJ_STRING (rawTrim (dropCR X))) ∧
    (10 ∉ X → rawTrim (dropCR X) = dropCR X) ∧
    (∀ pre post, dropCR X = pre ++ 10 :: post → (∀ c ∈ pre, isBlank c = true) →
      (∀ c ∈ post, isBlank c = true) → rawTrim (dropCR X) = []) := by
  refine ⟨?_, ?_, ?_⟩
  · rw [wrenNextToken_lex libc _ p hne]
    have := lexToken_raw libc fuel { p with previous := p.current, current := p.next } X tail
      hsrc hbody hfuel
    rw [this]
    exact ⟨_, rfl, rfl, rfl⟩
  · intro h
    apply rawTrim_no_newline
    intro h'
    exact h (List.mem_of_mem_filter h')
  · intro pre post he hpre hpost
    rw [he]
    exact rawTrim_overlap pre post hpre hpost

/-- Witness for C5: the raw string whose body is two spaces, a newline, two
spaces, `hello`, a newline and two spaces has the value of two spaces and
`hello`. -/
theorem raw_string_trim_witness :
    (startParser (ascii "\"\"\"  \n  hello\n  \"\"\"")).next.type ≠ TOKEN_EOF ∧
    (startParser (ascii "\"\"\"  \n  hello\n  \"\"\"")).rest =
      34 :: 34 :: 34 :: ascii "  \n  hello\n  " ++ 34 :: 34 :: 34 :: [] ∧
    ∃ q, wrenNextToken exampleLibc 15 (startParser (ascii "\"\"\"  \n  hello\n  \"\"\"")) = some q ∧
      q.next.type = TOKEN_STRING ∧ q.next.value = Value.OBJ_STRING (ascii "  hello") := by
  have hbody : RawBody (ascii "  \n  hello\n  ") := by
    constructor
    · decide
    · decide
  obtain ⟨q, h1, h2, h3⟩ := (raw_string_trim exampleLibc
    (startParser (ascii "\"\"\"  \n  hello\n  \"\"\"")) (ascii "  \n  hello\n  ") [] 15
    (by decide) (by decide) hbody (by decide)).1
  refine ⟨by decide, by decide, q, h1, h2, ?_⟩
  rw [h3]
  decide

/-- C6: in a terminated raw string the literal ends at the first three
consecutive double quotes, which are consumed and are not part of the value;
no error is reported and the interpolation stack is unchanged (backslash and
percent are ordinary characters); every CR is dropped; and the value keeps, in
order, every character of the body other than CRs and the blanks and newlines
that the trims may remove: so a double quote that is not followed by two more,
a backslash and a percent are part of the value. -/
theorem raw_string_quotes (libc : Libc) (p : Parser) (X tail : List Nat) (fuel : Nat)
    (hne : p.next.type ≠ TOKEN_EOF)
    (hsrc : p.rest = 34 :: 34 :: 34 :: X ++ 34 :: 34 :: 34 :: tail)
    (hbody : RawBody X)
    (hfuel : X.length + 2 ≤ fuel) :
    ∃ q v, wrenNextToken libc fuel p = some q ∧ q.next.type = TOKEN_STRING ∧
      q.next.value = Value.OBJ_STRING v ∧
      q.next.start = p.currentChar ∧ q.next.length = X.length + 6 ∧
      q.currentChar = p.currentChar + X.length + 6 ∧ q.rest = tail ∧
      q.hasError = p.hasError ∧ q.vm = p.vm ∧
      q.numParens = p.numParens ∧ q.parens = p.parens ∧
      v.filter (fun c => !(isBlank c || c = 10)) =
        X.filter (fun c => !(isBlank c || c = 10 || c = 13)) ∧
      (10 ∉ X → v = X.filter (fun c => c ≠ 13)) := by
  rw [wrenNextToken_lex libc _ p hne]
  have := lexToken_raw libc fuel { p with previous := p.current, current := p.next } X tail
    hsrc hbody hfuel
  rw [this]
  refine ⟨_, _, rfl, rfl, rfl, rfl, rfl, rfl, ?_, rfl, rfl, rfl, rfl, ?_, ?_⟩
  · have h := advance_rest p (34 :: 34 :: 34 :: X ++ [34, 34, 34]) tail 0 (by simpa using hsrc)
    simp only [Parser.rest, Parser.advance] at h ⊢
    rw [← h]
    congr 1
    simp
    omega
  · rw [rawTrim_filter, dropCR, List.filter_filter]
    congr 1
    funext c
    by_cases h13 : c = 13 <;> simp [h13, isBlank]
  · intro h
    apply rawTrim_no_newline
    intro h'
    exact h (List.mem_of_mem_filter h')

/-- Witness for C6: the raw string with body `a"b` has the 3-byte value
`a"b`; and in a source of seven double quotes the literal is closed by the
fourth to sixth quotes, its value is empty and one quote is left unread. -/
theorem raw_string_quotes_witness :
    (startParser (ascii "\"\"\"a\"b\"\"\"")).next.type ≠ TOKEN_EOF ∧
    (startParser (ascii "\"\"\"a\"b\"\"\"")).rest =
      34 :: 34 :: 34 :: [97, 34, 98] ++ 34 :: 34 :: 34 :: [] ∧
    (∃ q, wrenNextToken exampleLibc 5 (startParser (ascii "\"\"\"a\"b\"\"\"")) = some q ∧
      q.next.type = TOKEN_STRING ∧ q.next.value = Value.OBJ_STRING [97, 34, 98] ∧
      q.currentChar = 9 ∧ q.hasError = false) ∧
    (startParser (ascii "\"\"\"\"\"\"\"")).rest = 34 :: 34 :: 34 :: [] ++ 34 :: 34 :: 34 :: [34] ∧
    (∃ q, wrenNextToken exampleLibc 2 (startParser (ascii "\"\"\"\"\"\"\"")) = some q ∧
      q.next.type = TOKEN_STRING ∧ q.next.value = Value.OBJ_STRING [] ∧
      q.currentChar = 6 ∧ q.rest = [34]) := by
  have hbody : RawBody [97, 34, 98] := by
    constructor
    · decide
    · decide
  have hbody0 : RawBody [] := by
    constructor
    · decide
    · decide
  obtain ⟨q, v, h1, h2, h3, _, _, h6, _, h8, _, _, _, _, h13⟩ := raw_string_quotes exampleLibc
    (startParser (ascii "\"\"\"a\"b\"\"\"")) [97, 34, 98] [] 5
    (by decide) (by decide) hbody (by decide)
  obtain ⟨q', v', k1, k2, k3, _, _, k6, k7, _, _, _, _, _, k13⟩ := raw_string_quotes exampleLibc
    (startParser (ascii "\"\"\"\"\"\"\"")) [] [34] 2
    (by decide) (by decide) hbody0 (by decide)
  refine ⟨by decide, by decide, ⟨q, h1, h2, ?_, ?_, ?_⟩, by decide, ⟨q', k1, k2, ?_, ?_, k7⟩⟩
  · rw [h3, h13 (by decide)]; rfl
  · rw [h6]; rfl
  · rw [h8]; rfl
  · rw [k3, k13 (by decide)]; rfl
  · rw [k6]; rfl

/-! ## An expression inside an interpolation -/

theorem charAt_embedded (pre e post : List Nat) (i : Nat) :
    charAt (pre ++ e ++ 41 :: post) (pre.length + i) =
      if i < e.length then charAt e i else (41 :: post).getD (i - e.length) 0 := by
  unfold charAt
  rw [List.append_assoc, List.getD_eq_getElem?_getD, List.getD_eq_getElem?_getD,
    List.getD_eq_getElem?_getD, List.getElem?_append_right (by omega)]
  simp only [Nat.add_sub_cancel_left]
  split_ifs with h
  · rw [List.getElem?_append_left h]
  · rw [List.getElem?_append_right (by omega)]

theorem charAt_ne_zero {e : List Nat} (h0 : 0 ∉ e) {i : Nat} (hi : i < e.length) :
    charAt e i ≠ 0 := by
  unfold charAt
  rw [List.getD_eq_getElem?_getD, List.getElem?_eq_getElem hi]
  intro h
  exact h0 (by simpa using h ▸ List.getElem_mem hi)

theorem charAt_length (e : List Nat) {i : Nat} (hi : e.length ≤ i) : charAt e i = 0 := by
  unfold charAt
  rw [List.getD_eq_getElem?_getD, List.getElem?_eq_none hi]; rfl

/-- Inside the expression both parsers see the same character. -/
theorem Embedded.peek_in {F : Frame} {a b : Parser} (h : Embedded F a b)
    (hi : a.currentChar < F.e.length) : peekChar b = peekChar a ∧ peekChar a ≠ 0 := by
  obtain ⟨ha, hb, h0, hc, -⟩ := h
  refine ⟨?_, ?_⟩
  · rw [peekChar, peekChar, hb, hc, charAt_embedded, if_pos hi, ha]
  · rw [peekChar, ha]; exact charAt_ne_zero h0 hi

/-- At the end of the expression one parser sees the end of its source and the
other the closing parenthesis. -/
theorem Embedded.peek_end {F : Frame} {a b : Parser} (h : Embedded F a b)
    (hi : ¬ a.currentChar < F.e.length) : peekChar a = 0 ∧ peekChar b = 41 := by
  obtain ⟨ha, hb, h0, hc, -, -, hle, -⟩ := h
  have : a.currentChar = F.e.length := by omega
  refine ⟨?_, ?_⟩
  · rw [peekChar, ha]; exact charAt_length _ (by omega)
  · rw [peekChar, hb, hc, charAt_embedded, if_neg hi, this]; simp

theorem Embedded.peek_cond {F : Frame} {a b : Parser} (h : Embedded F a b) (cond : Nat → Bool)
    (hc : cond 41 = cond 0) : cond (peekChar b) = cond (peekChar a) := by
  by_cases hi : a.currentChar < F.e.length
  · rw [(h.peek_in hi).1]
  · rw [(h.peek_end hi).1, (h.peek_end hi).2, hc]

theorem Embedded.peek_eq {F : Frame} {a b : Parser} (h : Embedded F a b) (c : Nat)
    (h0 : c ≠ 0) (h41 : c ≠ 41) : peekChar b = c ↔ peekChar a = c := by
  have := h.peek_cond (fun x => decide (x = c)) (by simp [h0.symm, h41.symm])
  simpa using this

theorem Embedded.peek_two {F : Frame} {a b : Parser} (h : Embedded F a b) (c : Nat)
    (cond : Nat → Bool) (h0 : c ≠ 0) (h41 : c ≠ 41) (hc : cond 41 = cond 0) :
    (peekChar b = c ∧ cond (peekNextChar b) = true) ↔
      (peekChar a = c ∧ cond (peekNextChar a) = true) := by
  by_cases hi : a.currentChar < F.e.length
  · have hp := h.peek_in hi
    obtain ⟨ha, hb, h0e, hcc, -⟩ := h
    have hn : cond (peekNextChar b) = cond (peekNextChar a) := by
      rw [peekNextChar, peekNextChar, hp.1, if_neg hp.2, if_neg hp.2, hb, hcc, Nat.add_assoc,
        charAt_embedded, ha]
      split_ifs with h1
      · rfl
      · have : a.currentChar + 1 - F.e.length = 0 := by omega
        rw [this, charAt_length _ (by omega)]; simpa using hc
    rw [hp.1, hn]
  · have hp := h.peek_end hi
    rw [hp.1, hp.2]
    constructor
    · rintro ⟨h1, -⟩; exact absurd h1.symm h41
    · rintro ⟨h1, -⟩; exact absurd h1.symm h0

/-- Reading a character of the expression keeps the two parsers together. -/
theorem Embedded.nextChar {F : Frame} {a b : Parser} (h : Embedded F a b)
    (hi : peekChar a ≠ 0) :
    (Wren.nextChar b).1 = (Wren.nextChar a).1 ∧ Embedded F (Wren.nextChar a).2 (Wren.nextChar b).2 := by
  have hlt : a.currentChar < F.e.length := by
    by_contra hn; exact hi (h.peek_end hn).1
  have hp := h.peek_in hlt
  obtain ⟨ha, hb, h0e, hcc, hts, hl, hle, htc, h1, hdl, hna, hnb, hpb⟩ := h
  refine ⟨hp.1, ?_⟩
  simp only [Wren.nextChar, hp.1]
  refine ⟨ha, hb, h0e, ?_, hts, ?_, ?_, ?_, ?_, hdl, hna, hnb, hpb⟩
  · show b.currentChar + 1 = F.pre.length + (a.currentChar + 1); omega
  · show (if peekChar a = 10 then b.currentLine + 1 else b.currentLine) =
      (if peekChar a = 10 then a.currentLine + 1 else a.currentLine) + F.dl
    split_ifs <;> omega
  · show a.currentChar + 1 ≤ F.e.length; omega
  · show a.tokenStart ≤ a.currentChar + 1; omega
  · show 1 ≤ (if peekChar a = 10 then a.currentLine + 1 else a.currentLine)
    split_ifs <;> omega

theorem Embedded.matchChar {F : Frame} {a b : Parser} (h : Embedded F a b) (c : Nat)
    (h0 : c ≠ 0) (h41 : c ≠ 41) :
    (Wren.matchChar b c).1 = (Wren.matchChar a c).1 ∧
      Embedded F (Wren.matchChar a c).2 (Wren.matchChar b c).2 := by
  unfold Wren.matchChar
  by_cases hc : peekChar a = c
  · have hb := (h.peek_eq c h0 h41).2 hc
    have hn := h.nextChar (by rw [hc]; exact h0)
    simp only [hc, hb, ne_eq, not_true_eq_false, if_false]
    exact ⟨trivial, hn.2⟩
  · have hb : ¬ peekChar b = c := fun hb => hc ((h.peek_eq c h0 h41).1 hb)
    simp only [hc, hb, ne_eq, not_false_eq_true, if_true]
    exact ⟨trivial, h⟩

theorem Embedded.lexError {F : Frame} {a b : Parser} (h : Embedded F a b) (m n : String) :
    Embedded F (Wren.lexError a m) (Wren.lexError b n) := by
  unfold Embedded at h ⊢
  simpa using h

theorem Embedded.lexError_left {F : Frame} {a b : Parser} (h : Embedded F a b) (m : String) :
    Embedded F (Wren.lexError a m) b := by
  unfold Embedded at h ⊢
  simpa using h

theorem Embedded.tokenText {F : Frame} {a b : Parser} (h : Embedded F a b) :
    Wren.tokenText b = Wren.tokenText a := by
  obtain ⟨ha, hb, h0e, hcc, hts, hl, hle, htc, -⟩ := h
  unfold Wren.tokenText
  have hlen : b.currentChar - b.tokenStart = a.currentChar - a.tokenStart := by omega
  rw [hlen]
  apply List.map_congr_left
  intro i hi
  have hi' : i < a.currentChar - a.tokenStart := List.mem_range.mp hi
  rw [hb, hts, Nat.add_assoc, charAt_embedded, if_pos (by omega), ha]

/-! ### Onward -/

theorem Onward.here (p : Parser) : Onward p p := ⟨rfl, le_refl _⟩

theorem Onward.andThen {p q r : Parser} (h1 : Onward p q) (h2 : Onward q r) : Onward p r :=
  ⟨h2.1.trans h1.1, le_trans h1.2 h2.2⟩

theorem onward_nextChar (p : Parser) : Onward p (nextChar p).2 :=
  ⟨rfl, Nat.le_succ _⟩

theorem onward_matchChar (p : Parser) (c : Nat) : Onward p (matchChar p c).2 := by
  unfold matchChar
  split_ifs
  · exact Onward.here p
  · exact onward_nextChar p

theorem onward_lexError (p : Parser) (m : String) : Onward p (lexError p m) := by
  unfold Onward; simp

theorem onward_makeToken (p : Parser) (T : TokenType) : Onward p (makeToken p T) :=
  ⟨rfl, le_refl _⟩

/-- The token made at the same place by both parsers. -/
theorem Embedded.makeToken {F : Frame} {a b : Parser} (h : Embedded F a b) (T : TokenType)
    (hv : T.hasValue = true → b.next.value = a.next.value) :
    Embedded F (Wren.makeToken a T) (Wren.makeToken b T) ∧
      (Wren.makeToken b T).next.view = (Wren.makeToken a T).next.view.shift F.pre.length F.dl := by
  refine ⟨?_, ?_⟩
  · unfold Embedded at h ⊢
    simpa [Wren.makeToken] using h
  · obtain ⟨ha, hb, h0e, hcc, hts, hl, hle, htc, h1, hdl, hna, hnb, hpb⟩ := h
    simp only [Wren.makeToken, Token.view, TokenView.shift, TokenView.mk.injEq, true_and]
    refine ⟨hts, ?_, ?_, ?_⟩
    · rw [hcc, hts]; push_cast; ring
    · split_ifs <;> rw [hl]
      ring
    · by_cases hT : T.hasValue = true
      · simp [hT, hv hT]
      · simp [hT]

/-- Facts about the token made by `makeToken`. -/
theorem makeToken_next (p : Parser) (T : TokenType) :
    (makeToken p T).next.type = T ∧ (makeToken p T).next.start = p.tokenStart ∧
      (makeToken p T).next.length = (p.currentChar : Int) - p.tokenStart ∧
      (makeToken p T).currentChar = p.currentChar ∧ (makeToken p T).tokenStart = p.tokenStart :=
  ⟨rfl, rfl, rfl, rfl, rfl⟩

/-! ### Loops -/

theorem skipWhile_onward (cond : Nat → Bool) :
    ∀ (f : Nat) (p q : Parser), skipWhile cond f p = some q → Onward p q
  | 0, _, _, h => by simp [skipWhile] at h
  | f + 1, p, q, h => by
    rw [skipWhile] at h
    split_ifs at h with hc
    · exact (onward_nextChar p).andThen (skipWhile_onward cond f _ _ h)
    · cases h; exact Onward.here p

theorem Embedded.skipWhile {F : Frame} (cond : Nat → Bool) (h0 : cond 0 = false)
    (h41 : cond 41 = false) :
    ∀ (f : Nat) (a b a' : Parser), Embedded F a b → Wren.skipWhile cond f a = some a' →
      ∃ b', Wren.skipWhile cond f b = some b' ∧ Embedded F a' b' ∧ b'.next = b.next ∧
        a'.next = a.next
  | 0, _, _, _, _, h => by simp [Wren.skipWhile] at h
  | f + 1, a, b, a', he, h => by
    rw [Wren.skipWhile] at h ⊢
    have hc := he.peek_cond cond (by rw [h0, h41])
    rw [hc]
    split_ifs at h ⊢ with hca
    · have hne : peekChar a ≠ 0 := by
        intro hz; rw [hz, h0] at hca; exact absurd hca (by simp)
      obtain ⟨b', hb', he', hn, hn'⟩ :=
        Embedded.skipWhile cond h0 h41 f _ _ a' (he.nextChar hne).2 h
      exact ⟨b', hb', he', hn, hn'⟩
    · cases h; exact ⟨b, rfl, he, rfl, rfl⟩

theorem readHexDigit_onward (p : Parser) : Onward p (readHexDigit p).2 := by
  simp only [readHexDigit]
  split_ifs
  · exact onward_nextChar p
  · exact onward_nextChar p
  · exact onward_nextChar p
  · exact ⟨rfl, by simp [unreadChar, nextChar]⟩

theorem readHexDigits_onward :
    ∀ (f : Nat) (p q : Parser), readHexDigits f p = some q → Onward p q
  | 0, _, _, h => by simp [readHexDigits] at h
  | f + 1, p, q, h => by
    rw [readHexDigits] at h
    split_ifs at h with hc
    · exact (readHexDigit_onward p).andThen (readHexDigits_onward f _ _ h)
    · cases h; exact readHexDigit_onward p

/-! ### Names and numbers inside an interpolation -/

theorem Embedded.setNext {F : Frame} {a b : Parser} (h : Embedded F a b) (s t : Token) :
    Embedded F { a with next := s } { b with next := t } := by
  unfold Embedded at h ⊢
  simpa using h

theorem Embedded.unread {F : Frame} {a b : Parser} (h : Embedded F a b) :
    Embedded F (unreadChar (Wren.nextChar a).2) (unreadChar (Wren.nextChar b).2) ∧
      ((Wren.nextChar b).1 = (Wren.nextChar a).1 ∨ ((Wren.nextChar a).1 = 0 ∧ (Wren.nextChar b).1 = 41)) := by
  by_cases hi : a.currentChar < F.e.length
  · have hp := h.peek_in hi
    have hn := h.nextChar hp.2
    refine ⟨?_, Or.inl hn.1⟩
    obtain ⟨ha, hb, h0e, hcc, hts, hl, hle, htc, h1, hdl, hna, hnb, hpb⟩ := hn.2
    obtain ⟨-, -, -, hcc', -, -, hle', htc', -⟩ := h
    refine ⟨ha, hb, h0e, ?_, hts, hl, ?_, ?_, h1, hdl, hna, hnb, hpb⟩
    · show b.currentChar + 1 - 1 = F.pre.length + (a.currentChar + 1 - 1); omega
    · show a.currentChar + 1 - 1 ≤ F.e.length; omega
    · show a.tokenStart ≤ a.currentChar + 1 - 1
      have : (unreadChar (Wren.nextChar a).2).tokenStart = a.tokenStart := rfl
      omega
  · have hp := h.peek_end hi
    refine ⟨?_, Or.inr ⟨hp.1, hp.2⟩⟩
    have ea : unreadChar (Wren.nextChar a).2 = a := by
      simp [unreadChar, Wren.nextChar, hp.1]
    have eb : unreadChar (Wren.nextChar b).2 = b := by
      simp [unreadChar, Wren.nextChar, hp.2]
    rw [ea, eb]; exact h

theorem Embedded.readHexDigit {F : Frame} {a b : Parser} (h : Embedded F a b) :
    (Wren.readHexDigit b).1 = (Wren.readHexDigit a).1 ∧
      Embedded F (Wren.readHexDigit a).2 (Wren.readHexDigit b).2 := by
  obtain ⟨hu, hc⟩ := h.unread
  rcases hc with hc | ⟨hc0, hc41⟩
  · have hne : (Wren.nextChar a).1 ≠ 0 ∨ (Wren.nextChar a).1 = 0 := by omega
    rcases hne with hne | hz
    · have hn := h.nextChar hne
      simp only [Wren.readHexDigit, hc]
      split_ifs
      · exact ⟨rfl, hn.2⟩
      · exact ⟨rfl, hn.2⟩
      · exact ⟨rfl, hn.2⟩
      · exact ⟨rfl, hu⟩
    · simp only [Wren.readHexDigit, hc, hz]
      simpa using hu
  · simp only [Wren.readHexDigit, hc0, hc41]
    simpa using hu

theorem Embedded.readHexDigits {F : Frame} :
    ∀ (f : Nat) (a b a' : Parser), Embedded F a b → Wren.readHexDigits f a = some a' →
      ∃ b', Wren.readHexDigits f b = some b' ∧ Embedded F a' b'
  | 0, _, _, _, _, h => by simp [Wren.readHexDigits] at h
  | f + 1, a, b, a', he, h => by
    rw [Wren.readHexDigits] at h ⊢
    have hd := he.readHexDigit
    simp only [hd.1]
    split_ifs at h ⊢ with hc
    · exact Embedded.readHexDigits f _ _ a' hd.2 h
    · cases h; exact ⟨_, rfl, hd.2⟩

theorem readNameLoop_onward :
    ∀ (f : Nat) (p q : Parser) (s t : List Nat), readNameLoop f p s = some (q, t) → Onward p q
  | 0, _, _, _, _, h => by simp [readNameLoop] at h
  | f + 1, p, q, s, t, h => by
    rw [readNameLoop] at h
    split_ifs at h with hc
    · exact (onward_nextChar p).andThen (readNameLoop_onward f _ _ _ _ h)
    · cases h; exact Onward.here p

theorem Embedded.readNameLoop {F : Frame} :
    ∀ (f : Nat) (a b a' : Parser) (s t : List Nat), Embedded F a b →
      Wren.readNameLoop f a s = some (a', t) →
      ∃ b', Wren.readNameLoop f b s = some (b', t) ∧ Embedded F a' b'
  | 0, _, _, _, _, _, _, h => by simp [Wren.readNameLoop] at h
  | f + 1, a, b, a', s, t, he, h => by
    rw [Wren.readNameLoop] at h ⊢
    have hc := he.peek_cond (fun c => isName c || isDigit c) (by decide)
    simp only at hc
    rw [hc]
    split_ifs at h ⊢ with hca
    · have hne : peekChar a ≠ 0 := by
        intro hz; rw [hz] at hca; exact absurd hca (by decide)
      have hn := he.nextChar hne
      show ∃ b', Wren.readNameLoop f (Wren.nextChar b).2 (s ++ [(Wren.nextChar b).1]) = some (b', t) ∧ _
      rw [hn.1]
      exact Embedded.readNameLoop f _ _ a' _ t hn.2 h
    · cases h; exact ⟨b, rfl, he⟩

theorem tokenAt_makeToken {p x : Parser} (h : Onward p x) (T : TokenType) :
    TokenAt p (makeToken x T) := by
  refine ⟨⟨h.1, h.2⟩, ?_, ?_, rfl⟩
  · show x.tokenStart = p.tokenStart; exact h.1
  · show (x.currentChar : Int) - x.tokenStart = (x.currentChar : Int) - p.tokenStart
    rw [h.1]

theorem readName_tokenAt {f : Nat} {p q : Parser} {T : TokenType} {c : Nat}
    (h : readName f p T c = some q) : TokenAt p q := by
  simp only [readName, Option.map_eq_some'] at h
  obtain ⟨⟨p1, s1⟩, h1, rfl⟩ := h
  have ho := readNameLoop_onward f _ _ _ _ h1
  exact tokenAt_makeToken (x := { p1 with next := { p1.next with value := Value.OBJ_STRING s1 } })
    ⟨ho.1, ho.2⟩ _

theorem Embedded.readName {F : Frame} {a b a' : Parser} (h : Embedded F a b) (f : Nat)
    (T : TokenType) (c : Nat) (hr : Wren.readName f a T c = some a') :
    ∃ b', Wren.readName f b T c = some b' ∧ Embedded F a' b' ∧
      b'.next.view = a'.next.view.shift F.pre.length F.dl := by
  simp only [Wren.readName, Option.map_eq_some'] at hr
  obtain ⟨⟨a1, s1⟩, h1, rfl⟩ := hr
  obtain ⟨b1, hb1, he1⟩ := Embedded.readNameLoop f a b a1 [c] s1 h h1
  have hm := (he1.setNext { a1.next with value := Value.OBJ_STRING s1 }
    { b1.next with value := Value.OBJ_STRING s1 }).makeToken
    (keywordType (Wren.tokenText a1) T keywords) (fun _ => rfl)
  refine ⟨_, ?_, hm.1, hm.2⟩
  simp only [Wren.readName, hb1, Option.map_some', he1.tokenText]

theorem makeNumber_tokenAt (libc : Libc) (p : Parser) (isHex : Bool) :
    TokenAt p (makeNumber libc p isHex) := by
  unfold TokenAt Onward
  simp only [makeNumber, makeToken]
  split_ifs <;> simp

/-! ### What `strtod` reads in front of a closing parenthesis -/

theorem takeWhile_paren (P : Nat → Bool) (h : P 41 = false) (x y : List Nat) :
    (x ++ 41 :: y).takeWhile P = x.takeWhile P := by
  induction x with
  | nil => simp [List.takeWhile, h]
  | cons c x ih =>
    simp only [List.cons_append, List.takeWhile_cons]
    split <;> simp [ih]

theorem dropWhile_paren (P : Nat → Bool) (h : P 41 = false) (x y : List Nat) :
    (x ++ 41 :: y).dropWhile P = x.dropWhile P ++ 41 :: y := by
  induction x with
  | nil => simp [List.dropWhile, h]
  | cons c x ih =>
    simp only [List.cons_append, List.dropWhile_cons]
    split <;> simp [ih]

theorem strtodDigits_paren (P : Nat → Bool) (h : P 41 = false) (x y : List Nat) :
    strtodDigits P (x ++ 41 :: y) = strtodDigits P x := by
  unfold strtodDigits
  rw [dropWhile_paren P h, takeWhile_paren P h]
  cases hd : x.dropWhile P with
  | nil => simp
  | cons c r =>
    by_cases hc : c = 46
    · subst hc
      simp [takeWhile_paren P h]
    · simp only [List.cons_append]
      split
      · rename_i heq; simp at heq; exact absurd heq.1 hc
      · split
        · rename_i heq; simp at heq; exact absurd heq.1 hc
        · rfl

theorem strtodDigits_length (P : Nat → Bool) (x : List Nat) :
    (strtodDigits P x).length ≤ x.length := by
  have h1 : (x.takeWhile P).length + (x.dropWhile P).length = x.length := by
    rw [← List.length_append, List.takeWhile_append_dropWhile]
  unfold strtodDigits
  split
  · rename_i r heq
    rw [heq] at h1
    have : (r.takeWhile P).length ≤ r.length := (List.takeWhile_sublist P).length_le
    simp only [List.length_append, List.length_cons] at h1 ⊢
    omega
  · omega

theorem strtodExponent_paren (l u : Nat) (hl : l ≠ 41) (hu : u ≠ 41) (x y : List Nat) :
    strtodExponent l u (x ++ 41 :: y) = strtodExponent l u x := by
  cases x with
  | nil =>
    simp only [List.nil_append, strtodExponent]
    rw [if_neg (by omega)]
  | cons m r =>
    have hs : strtodSign (r ++ 41 :: y) = strtodSign r := by
      cases r <;> simp [strtodSign]
    have hlen : (strtodSign r).length ≤ r.length := by
      cases r with
      | nil => simp [strtodSign]
      | cons s r' =>
        simp only [strtodSign]
        split_ifs <;> simp
    simp only [List.cons_append, strtodExponent, hs, List.drop_append_of_le_length hlen,
      takeWhile_paren isDigit (by decide)]

theorem strtodSubject_paren (x y : List Nat) :
    strtodSubject (x ++ 41 :: y) = strtodSubject x := by
  have hdec : (if (strtodDigits isDigit (x ++ 41 :: y)).any isDigit = true then
        strtodDigits isDigit (x ++ 41 :: y) ++
          strtodExponent 101 69 ((x ++ 41 :: y).drop (strtodDigits isDigit (x ++ 41 :: y)).length)
      else []) =
      (if (strtodDigits isDigit x).any isDigit = true then
        strtodDigits isDigit x ++ strtodExponent 101 69 (x.drop (strtodDigits isDigit x).length)
      else []) := by
    rw [strtodDigits_paren isDigit (by decide), List.drop_append_of_le_length
      (strtodDigits_length isDigit x), strtodExponent_paren 101 69 (by decide) (by decide)]
  unfold strtodSubject
  simp only [hdec]
  rcases x with _ | ⟨a, _ | ⟨b, r⟩⟩
  · simp
  · by_cases ha : a = 48
    · subst ha; simp
    · simp [ha]
  · by_cases ha : a = 48
    · subst ha
      simp only [List.cons_append]
      rw [strtodDigits_paren _ (by decide), List.drop_append_of_le_length
        (strtodDigits_length _ r), strtodExponent_paren 112 80 (by decide) (by decide)]
    · simp [ha]

/-- What `strtod` reads from the start of the token is the same in the
expression on its own and inside the larger source, where the expression is
followed by a closing parenthesis. -/
theorem Embedded.subject {F : Frame} {a b : Parser} (h : Embedded F a b) :
    strtodSubject (b.source.drop b.tokenStart) = strtodSubject (a.source.drop a.tokenStart) := by
  obtain ⟨ha, hb, h0e, hcc, hts, hl, hle, htc, -⟩ := h
  rw [hb, hts, ha, List.append_assoc, ← List.drop_drop, List.drop_left,
    List.drop_append_of_le_length (by omega), strtodSubject_paren]

theorem Embedded.makeNumber {F : Frame} {a b : Parser} (h : Embedded F a b) (libc : Libc)
    (isHex : Bool) :
    Embedded F (Wren.makeNumber libc a isHex) (Wren.makeNumber libc b isHex) ∧
      (Wren.makeNumber libc b isHex).next.view =
        (Wren.makeNumber libc a isHex).next.view.shift F.pre.length F.dl := by
  simp only [Wren.makeNumber, h.tokenText, h.subject]
  split_ifs
  all_goals first
    | exact Embedded.makeToken (((h.setNext _ _).lexError _ _).setNext _ _) _ (fun _ => rfl)
    | exact Embedded.makeToken (h.setNext _ _) _ (fun _ => rfl)

theorem tokenAt_of_onward {p x q : Parser} (h : Onward p x) (ht : TokenAt x q) : TokenAt p q := by
  obtain ⟨ho, hs, hl, hn⟩ := ht
  exact ⟨h.andThen ho, hs.trans h.1, by rw [hl, h.1], hn⟩

theorem readHexNumber_tokenAt {libc : Libc} {f : Nat} {p q : Parser}
    (h : readHexNumber libc f p = some q) : TokenAt p q := by
  simp only [readHexNumber, Option.map_eq_some'] at h
  obtain ⟨p1, h1, rfl⟩ := h
  exact tokenAt_of_onward ((onward_nextChar p).andThen (readHexDigits_onward f _ _ h1))
    (makeNumber_tokenAt libc p1 true)

theorem Embedded.readHexNumber {F : Frame} {a b a' : Parser} (h : Embedded F a b) (libc : Libc)
    (f : Nat) (hx : peekChar a ≠ 0) (hr : Wren.readHexNumber libc f a = some a') :
    ∃ b', Wren.readHexNumber libc f b = some b' ∧ Embedded F a' b' ∧
      b'.next.view = a'.next.view.shift F.pre.length F.dl := by
  simp only [Wren.readHexNumber, Option.map_eq_some'] at hr
  obtain ⟨a1, h1, rfl⟩ := hr
  obtain ⟨b1, hb1, he1⟩ := Embedded.readHexDigits f _ _ a1 (h.nextChar hx).2 h1
  have hm := he1.makeNumber libc true
  refine ⟨_, ?_, hm.1, hm.2⟩
  simp only [Wren.readHexNumber, hb1, Option.map_some']

/-- The exponent of a number literal, read by both parsers. -/
theorem Embedded.exponent {F : Frame} {a b a' : Parser} (h : Embedded F a b) (f : Nat)
    (hr : (let m1 := Wren.matchChar a 101
      let m2 := if m1.1 then m1 else Wren.matchChar m1.2 69
      if m2.1 then
        let m3 := Wren.matchChar m2.2 43
        let parser := if !m3.1 then (Wren.matchChar m3.2 45).2 else m3.2
        let parser :=
          if !isDigit (peekChar parser) then Wren.lexError parser "Unterminated scientific notation."
          else parser
        Wren.skipWhile isDigit f parser
      else some m2.2) = some a') :
    ∃ b', (let m1 := Wren.matchChar b 101
      let m2 := if m1.1 then m1 else Wren.matchChar m1.2 69
      if m2.1 then
        let m3 := Wren.matchChar m2.2 43
        let parser := if !m3.1 then (Wren.matchChar m3.2 45).2 else m3.2
        let parser :=
          if !isDigit (peekChar parser) then Wren.lexError parser "Unterminated scientific notation."
          else parser
        Wren.skipWhile isDigit f parser
      else some m2.2) = some b' ∧ Embedded F a' b' := by
  dsimp only at hr ⊢
  have e1 := h.matchChar 101 (by decide) (by decide)
  have e2 : (if (Wren.matchChar b 101).1 then Wren.matchChar b 101 else Wren.matchChar (Wren.matchChar b 101).2 69).1 =
        (if (Wren.matchChar a 101).1 then Wren.matchChar a 101 else Wren.matchChar (Wren.matchChar a 101).2 69).1 ∧
      Embedded F (if (Wren.matchChar a 101).1 then Wren.matchChar a 101
          else Wren.matchChar (Wren.matchChar a 101).2 69).2
        (if (Wren.matchChar b 101).1 then Wren.matchChar b 101 else Wren.matchChar (Wren.matchChar b 101).2 69).2 := by
    rw [e1.1]
    by_cases h1 : (Wren.matchChar a 101).1 = true
    · rw [if_pos h1, if_pos h1]; exact e1
    · rw [if_neg h1, if_neg h1]; exact e1.2.matchChar 69 (by decide) (by decide)
  generalize (if (Wren.matchChar a 101).1 then Wren.matchChar a 101
    else Wren.matchChar (Wren.matchChar a 101).2 69) = ma at hr e2
  generalize (if (Wren.matchChar b 101).1 then Wren.matchChar b 101
    else Wren.matchChar (Wren.matchChar b 101).2 69) = mb at e2 ⊢
  rw [e2.1]
  by_cases hm : ma.1 = true
  · rw [if_pos hm] at hr ⊢
    have e3 := e2.2.matchChar 43 (by decide) (by decide)
    have e4 : Embedded F (if !(Wren.matchChar ma.2 43).1 then (Wren.matchChar (Wren.matchChar ma.2 43).2 45).2
          else (Wren.matchChar ma.2 43).2)
        (if !(Wren.matchChar mb.2 43).1 then (Wren.matchChar (Wren.matchChar mb.2 43).2 45).2
          else (Wren.matchChar mb.2 43).2) := by
      rw [e3.1]
      by_cases h3 : (!(Wren.matchChar ma.2 43).1) = true
      · rw [if_pos h3, if_pos h3]; exact (e3.2.matchChar 45 (by decide) (by decide)).2
      · rw [if_neg h3, if_neg h3]; exact e3.2
    generalize (if !(Wren.matchChar ma.2 43).1 then (Wren.matchChar (Wren.matchChar ma.2 43).2 45).2
      else (Wren.matchChar ma.2 43).2) = xa at hr e4
    generalize (if !(Wren.matchChar mb.2 43).1 then (Wren.matchChar (Wren.matchChar mb.2 43).2 45).2
      else (Wren.matchChar mb.2 43).2) = xb at e4 ⊢
    have e5 : Embedded F
        (if !isDigit (peekChar xa) then Wren.lexError xa "Unterminated scientific notation." else xa)
        (if !isDigit (peekChar xb) then Wren.lexError xb "Unterminated scientific notation." else xb) := by
      rw [e4.peek_cond isDigit (by decide)]
      by_cases h5 : (!isDigit (peekChar xa)) = true
      · rw [if_pos h5, if_pos h5]; exact e4.lexError _ _
      · rw [if_neg h5, if_neg h5]; exact e4
    obtain ⟨b', hb', he', -⟩ := Embedded.skipWhile isDigit (by decide) (by decide) f _ _ a' e5 hr
    exact ⟨b', hb', he'⟩
  · rw [if_neg hm] at hr ⊢
    cases hr; exact ⟨_, rfl, e2.2⟩

theorem exponent_onward {f : Nat} {p q : Parser}
    (hr : (let m1 := matchChar p 101
      let m2 := if m1.1 then m1 else matchChar m1.2 69
      if m2.1 then
        let m3 := matchChar m2.2 43
        let parser := if !m3.1 then (matchChar m3.2 45).2 else m3.2
        let parser :=
          if !isDigit (peekChar parser) then lexError parser "Unterminated scientific notation."
          else parser
        skipWhile isDigit f parser
      else some m2.2) = some q) : Onward p q := by
  dsimp only at hr
  have o1 := onward_matchChar p 101
  have o2 : Onward p (if (matchChar p 101).1 then matchChar p 101
      else matchChar (matchChar p 101).2 69).2 := by
    split_ifs
    · exact o1
    · exact o1.andThen (onward_matchChar _ 69)
  generalize (if (matchChar p 101).1 then matchChar p 101
    else matchChar (matchChar p 101).2 69) = m at hr o2
  by_cases hm : m.1 = true
  · rw [if_pos hm] at hr
    have o3 := o2.andThen (onward_matchChar m.2 43)
    have o4 : Onward p (if !(matchChar m.2 43).1 then (matchChar (matchChar m.2 43).2 45).2
        else (matchChar m.2 43).2) := by
      split_ifs
      · exact o3.andThen (onward_matchChar _ 45)
      · exact o3
    generalize (if !(matchChar m.2 43).1 then (matchChar (matchChar m.2 43).2 45).2
      else (matchChar m.2 43).2) = x at hr o4
    have o5 : Onward p
        (if !isDigit (peekChar x) then lexError x "Unterminated scientific notation." else x) := by
      split_ifs
      · exact o4.andThen (onward_lexError _ _)
      · exact o4
    exact o5.andThen (skipWhile_onward _ f _ _ hr)
  · rw [if_neg hm] at hr
    cases hr; exact o2

theorem readNumber_tokenAt {libc : Libc} {f : Nat} {p q : Parser}
    (h : readNumber libc f p = some q) : TokenAt p q := by
  simp only [readNumber, Option.bind_eq_some, Option.map_eq_some'] at h
  obtain ⟨p1, h1, p2, h2, p3, h3, rfl⟩ := h
  have o1 := skipWhile_onward _ f _ _ h1
  have o2 : Onward p1 p2 := by
    split_ifs at h2
    · exact (onward_nextChar p1).andThen (skipWhile_onward _ f _ _ h2)
    · cases h2; exact Onward.here _
  exact tokenAt_of_onward ((o1.andThen o2).andThen (exponent_onward h3)) (makeNumber_tokenAt libc p3 false)

theorem Embedded.readNumber {F : Frame} {a b a' : Parser} (h : Embedded F a b) (libc : Libc)
    (f : Nat) (hr : Wren.readNumber libc f a = some a') :
    ∃ b', Wren.readNumber libc f b = some b' ∧ Embedded F a' b' ∧
      b'.next.view = a'.next.view.shift F.pre.length F.dl := by
  simp only [Wren.readNumber, Option.bind_eq_some, Option.map_eq_some'] at hr
  obtain ⟨a1, h1, a2, h2, a3, h3, rfl⟩ := hr
  obtain ⟨b1, hb1, he1, -⟩ := Embedded.skipWhile isDigit (by decide) (by decide) f _ _ a1 h h1
  have hc := he1.peek_two 46 isDigit (by decide) (by decide) (by decide)
  obtain ⟨b2, hb2, he2⟩ : ∃ b2, (if peekChar b1 = 46 ∧ isDigit (peekNextChar b1) = true then
      Wren.skipWhile isDigit f (Wren.nextChar b1).2 else some b1) = some b2 ∧ Embedded F a2 b2 := by
    by_cases hca : peekChar a1 = 46 ∧ isDigit (peekNextChar a1) = true
    · rw [if_pos hca] at h2
      rw [if_pos (hc.2 hca)]
      have hn := he1.nextChar (by rw [hca.1]; decide)
      obtain ⟨b2, hb2, he2, -⟩ :=
        Embedded.skipWhile isDigit (by decide) (by decide) f _ _ a2 hn.2 h2
      exact ⟨b2, hb2, he2⟩
    · rw [if_neg hca] at h2
      rw [if_neg (fun hb => hca (hc.1 hb))]
      cases h2; exact ⟨b1, rfl, he1⟩
  obtain ⟨b3, hb3, he3⟩ := he2.exponent f h3
  have hm := he3.makeNumber libc false
  refine ⟨_, ?_, hm.1, hm.2⟩
  simp only [Wren.readNumber, Option.bind_eq_some, Option.map_eq_some']
  exact ⟨b1, hb1, b2, hb2, b3, hb3, rfl⟩

theorem Embedded.twoCharToken {F : Frame} {a b : Parser} (h : Embedded F a b) (c : Nat)
    (two one : TokenType) (h0 : c ≠ 0) (h41 : c ≠ 41) (h2 : two.hasValue = false)
    (h1 : one.hasValue = false) :
    Embedded F (Wren.twoCharToken a c two one) (Wren.twoCharToken b c two one) ∧
      (Wren.twoCharToken b c two one).next.view =
        (Wren.twoCharToken a c two one).next.view.shift F.pre.length F.dl := by
  have hm := h.matchChar c h0 h41
  unfold Wren.twoCharToken
  simp only [hm.1]
  refine hm.2.makeToken _ (fun hv => ?_)
  split_ifs at hv
  · rw [h2] at hv; exact absurd hv (by simp)
  · rw [h1] at hv; exact absurd hv (by simp)

theorem twoCharToken_tokenAt (p : Parser) (c : Nat) (two one : TokenType) :
    TokenAt p (twoCharToken p c two one) :=
  tokenAt_makeToken (onward_matchChar p c) _

/-! ### The switch of the token loop -/

theorem ite_elim_fun {α β : Type} (P : (α → β) → Prop) (c : Prop) [Decidable c] (X Y : α → β)
    (hx : c → P X) (hy : ¬c → P Y) : P (fun p => if c then X p else Y p) := by
  by_cases h : c
  · simp only [if_pos h]; exact hx h
  · simp only [if_neg h]; exact hy h

/-- Case analysis on the `switch` of `wrenNextToken`, as a function of the
parser. -/
theorem lexSwitch_elim (P : (Parser → Option SwitchExit) → Prop) (libc : Libc) (f : Nat) (c : Nat)
    (hLeft : c = 40 → P (fun p => some (SwitchExit.ret (makeToken
      (if p.numParens > 0 then
        { p with parens := p.parens.set (p.numParens - 1) (p.parens.getD (p.numParens - 1) 0 + 1) }
      else p) TOKEN_LEFT_PAREN))))
    (hRight : c = 41 → P (fun p =>
      if p.numParens > 0 then
        let top := p.parens.getD (p.numParens - 1) 0 - 1
        let parser := { p with parens := p.parens.set (p.numParens - 1) top }
        if parser.parens.getD (parser.numParens - 1) 0 = 0 then
          let parser := { parser with numParens := parser.numParens - 1 }
          (readString f parser).map SwitchExit.ret
        else some (SwitchExit.ret (makeToken parser TOKEN_RIGHT_PAREN))
      else some (SwitchExit.ret (makeToken p TOKEN_RIGHT_PAREN))))
    (hOne : ∀ T : TokenType, T.plain = true →
      P (fun p => some (SwitchExit.ret (makeToken p T))))
    (hHash : c = 35 → P (fun p =>
      if p.currentLine = 1 ∧ peekChar p = 33 ∧ peekNextChar p = 47 then
        (skipLineComment f p).map SwitchExit.brk
      else some (SwitchExit.ret (makeToken p TOKEN_HASH))))
    (hTwo : ∀ (d : Nat) (two one : TokenType), d ≠ 0 → d ≠ 41 → two.plain = true →
      one.plain = true → P (fun p => some (SwitchExit.ret (twoCharToken p d two one))))
    (hDot : c = 46 → P (fun p =>
      let m := matchChar p 46
      if m.1 then some (SwitchExit.ret (twoCharToken m.2 46 TOKEN_DOTDOTDOT TOKEN_DOTDOT))
      else some (SwitchExit.ret (makeToken m.2 TOKEN_DOT))))
    (hSlash : c = 47 → P (fun p =>
      let m := matchChar p 47
      if m.1 then (skipLineComment f m.2).map SwitchExit.brk
      else
        let m := matchChar m.2 42
        if m.1 then (skipBlockComment f m.2).map SwitchExit.brk
        else some (SwitchExit.ret (makeToken m.2 TOKEN_SLASH))))
    (hAngle : ∀ (d : Nat) (T two one : TokenType), d ≠ 0 → d ≠ 41 → T.plain = true →
      two.plain = true → one.plain = true → P (fun p =>
      let m := matchChar p d
      if m.1 then some (SwitchExit.ret (makeToken m.2 T))
      else some (SwitchExit.ret (twoCharToken m.2 61 two one))))
    (hSpace : (c = 32 ∨ c = 13 ∨ c = 9) → P (fun p =>
      (skipWhile (fun c => c = 32 || c = 13 || c = 9) f p).map SwitchExit.brk))
    (hQuote : c = 34 → P (fun p =>
      if peekChar p = 34 ∧ peekNextChar p = 34 then (readRawString f p).map SwitchExit.ret
      else (readString f p).map SwitchExit.ret))
    (hField : c = 95 → P (fun p =>
      (readName f p (if peekChar p = 95 then TOKEN_STATIC_FIELD else TOKEN_FIELD) c).map
        SwitchExit.ret))
    (hZero : c = 48 → P (fun p =>
      if peekChar p = 120 then (readHexNumber libc f p).map SwitchExit.ret
      else (readNumber libc f p).map SwitchExit.ret))
    (hName : isName c = true → P (fun p => (readName f p TOKEN_NAME c).map SwitchExit.ret))
    (hDigit : isDigit c = true → P (fun p => (readNumber libc f p).map SwitchExit.ret))
    (hOther : ∀ g : Parser → Parser, (∀ p, (g p).next.type = TOKEN_ERROR) →
      P (fun p => some (SwitchExit.ret (g p)))) :
    P (fun p => lexSwitch libc f p c) := by
  unfold lexSwitch
  refine ite_elim_fun P _ _ _ (fun h => hLeft h) (fun _ => ?_)
  refine ite_elim_fun P _ _ _ (fun h => hRight h) (fun _ => ?_)
  iterate 8 refine ite_elim_fun P _ _ _ (fun _ => hOne _ rfl) (fun _ => ?_)
  refine ite_elim_fun P _ _ _ (fun h => hHash h) (fun _ => ?_)
  iterate 5 refine ite_elim_fun P _ _ _ (fun _ => hOne _ rfl) (fun _ => ?_)
  iterate 4 refine ite_elim_fun P _ _ _ (fun _ => hTwo _ _ _ (by decide) (by decide) rfl rfl) (fun _ => ?_)
  refine ite_elim_fun P _ _ _ (fun h => hDot h) (fun _ => ?_)
  refine ite_elim_fun P _ _ _ (fun h => hSlash h) (fun _ => ?_)
  iterate 2
    refine ite_elim_fun P _ _ _ (fun _ => hAngle _ _ _ _ (by decide) (by decide) rfl rfl rfl) ?_
    intro _
  refine ite_elim_fun P _ _ _ (fun _ => hOne _ rfl) (fun _ => ?_)
  refine ite_elim_fun P _ _ _ (fun h => hSpace h) (fun _ => ?_)
  refine ite_elim_fun P _ _ _ (fun h => hQuote h) (fun _ => ?_)
  refine ite_elim_fun P _ _ _ (fun h => hField h) (fun _ => ?_)
  refine ite_elim_fun P _ _ _ (fun h => hZero h) (fun _ => ?_)
  refine ite_elim_fun P _ _ _ (fun h => hName h) (fun _ => ?_)
  refine ite_elim_fun P _ _ _ (fun h => hDigit h) (fun _ => ?_)
  exact hOther _ (fun p => rfl)

/-! ### Where a token starts -/

theorem switchShape_token {p x : Parser} (h : Onward p x) (T : TokenType) :
    SwitchShape p (some (SwitchExit.ret (makeToken x T))) := by
  refine ⟨fun q hq _ => ?_, fun q hq => by cases hq⟩
  cases hq; exact tokenAt_makeToken h T

theorem switchShape_ret {p : Parser} {g : Option Parser}
    (h : ∀ q, g = some q → exprType q.next.type = true → TokenAt p q) :
    SwitchShape p (g.map SwitchExit.ret) := by
  refine ⟨fun q hq ht => ?_, fun q hq => ?_⟩
  · cases g with
    | none => cases hq
    | some x => cases hq; exact h _ rfl ht
  · cases g with
    | none => cases hq
    | some x => cases hq

theorem switchShape_brk {p : Parser} {g : Option Parser} (h : ∀ q, g = some q → Onward p q) :
    SwitchShape p (g.map SwitchExit.brk) := by
  refine ⟨fun q hq ht => ?_, fun q hq => ?_⟩
  · cases g with
    | none => cases hq
    | some x => cases hq
  · cases g with
    | none => cases hq
    | some x => cases hq; exact h _ rfl

theorem switchShape_error {p q : Parser} (h : q.next.type = TOKEN_ERROR) :
    SwitchShape p (some (SwitchExit.ret q)) := by
  refine ⟨fun q' hq ht => ?_, fun q' hq => by cases hq⟩
  cases hq; rw [h] at ht; exact absurd ht (by decide)

theorem readStringLoop_type :
    ∀ (f : Nat) (p q : Parser) (s s' : List Nat) (t : TokenType),
      readStringLoop f p s = some (q, s', t) → t = TOKEN_STRING ∨ t = TOKEN_INTERPOLATION
  | 0, _, _, _, _, _, h => by simp [readStringLoop] at h
  | f + 1, p, q, s, s', t, h => by
    rw [readStringLoop] at h
    cases hstep : readStringStep p s with
    | done q1 s1 t1 =>
      rw [hstep] at h
      cases h
      rcases (readStringStep_done hstep).2.2 with h1 | h1
      · exact Or.inl h1.1
      · exact Or.inr h1.1
    | again q1 s1 =>
      rw [hstep] at h
      exact readStringLoop_type f _ _ _ _ _ h

theorem readString_type {f : Nat} {p q : Parser} (h : readString f p = some q) :
    exprType q.next.type = false := by
  simp only [readString, Option.map_eq_some'] at h
  obtain ⟨⟨p1, s1, t1⟩, h1, rfl⟩ := h
  rcases readStringLoop_type f _ _ _ _ _ h1 with ht | ht
  · show exprType t1 = false; rw [ht]; rfl
  · show exprType t1 = false; rw [ht]; rfl

theorem readRawString_type {f : Nat} {p q : Parser} (h : readRawString f p = some q) :
    exprType q.next.type = false := by
  simp only [readRawString, Option.map_eq_some'] at h
  obtain ⟨r, -, rfl⟩ := h
  rfl

theorem skipBlockCommentLoop_onward :
    ∀ (f : Nat) (p q : Parser) (n : Int), skipBlockCommentLoop f p n = some q → Onward p q
  | 0, _, _, _, h => by simp [skipBlockCommentLoop] at h
  | f + 1, p, q, n, h => by
    rw [skipBlockCommentLoop] at h
    split_ifs at h
    · cases h; exact onward_lexError p _
    · exact ((onward_nextChar p).andThen (onward_nextChar _)).andThen
        (skipBlockCommentLoop_onward f _ _ _ h)
    · exact ((onward_nextChar p).andThen (onward_nextChar _)).andThen
        (skipBlockCommentLoop_onward f _ _ _ h)
    · exact (onward_nextChar p).andThen (skipBlockCommentLoop_onward f _ _ _ h)
    · cases h; exact Onward.here p

/-- What the switch of the token loop does to the parser. -/
theorem lexSwitch_shape (libc : Libc) (f : Nat) (p : Parser) (c : Nat) :
    SwitchShape p (lexSwitch libc f p c) := by
  refine lexSwitch_elim (fun g => SwitchShape p (g p)) libc f c ?_ ?_ ?_ ?_ ?_ ?_ ?_ ?_ ?_ ?_ ?_
    ?_ ?_ ?_ ?_
  · intro _
    refine switchShape_token ?_ _
    split_ifs
    · exact ⟨rfl, le_refl _⟩
    · exact Onward.here p
  · intro _
    dsimp only
    split_ifs
    · exact switchShape_ret (fun q hq ht => by rw [readString_type hq] at ht; cases ht)
    · exact switchShape_token ⟨rfl, le_refl _⟩ _
    · exact switchShape_token (Onward.here p) _
  · intro T _; exact switchShape_token (Onward.here p) T
  · intro _
    dsimp only
    split_ifs
    · exact switchShape_brk (fun q hq => skipWhile_onward _ f _ _ hq)
    · exact switchShape_token (Onward.here p) _
  · intro d two one _ _ _ _
    exact switchShape_token (onward_matchChar p d) _
  · intro _
    dsimp only
    split_ifs
    · exact switchShape_token ((onward_matchChar p 46).andThen (onward_matchChar _ 46)) _
    · exact switchShape_token (onward_matchChar p 46) _
  · intro _
    dsimp only
    split_ifs
    · exact switchShape_brk (fun q hq =>
        (onward_matchChar p 47).andThen (skipWhile_onward _ f _ _ hq))
    · exact switchShape_brk (fun q hq =>
        ((onward_matchChar p 47).andThen (onward_matchChar _ 42)).andThen
          (skipBlockCommentLoop_onward f _ _ _ hq))
    · exact switchShape_token ((onward_matchChar p 47).andThen (onward_matchChar _ 42)) _
  · intro d T two one _ _ _ _ _
    dsimp only
    split_ifs
    · exact switchShape_token (onward_matchChar p d) _
    · exact switchShape_token ((onward_matchChar p d).andThen (onward_matchChar _ 61)) _
  · intro _
    exact switchShape_brk (fun q hq => skipWhile_onward _ f _ _ hq)
  · intro _
    dsimp only
    split_ifs
    · exact switchShape_ret (fun q hq ht => by rw [readRawString_type hq] at ht; cases ht)
    · exact switchShape_ret (fun q hq ht => by rw [readString_type hq] at ht; cases ht)
  · intro _
    exact switchShape_ret (fun q hq _ => readName_tokenAt hq)
  · intro _
    dsimp only
    split_ifs
    · exact switchShape_ret (fun q hq _ => readHexNumber_tokenAt hq)
    · exact switchShape_ret (fun q hq _ => readNumber_tokenAt hq)
  · intro _
    exact switchShape_ret (fun q hq _ => readName_tokenAt hq)
  · intro _
    exact switchShape_ret (fun q hq _ => readNumber_tokenAt hq)
  · intro g hg
    exact switchShape_error (hg p)

/-- A token of an expression made by the token loop starts at or after the
character the loop started at, and ends at the current character. -/
theorem lexToken_start (libc : Libc) :
    ∀ (f : Nat) (p q : Parser), lexToken libc f p = some q → exprType q.next.type = true →
      p.currentChar ≤ q.next.start ∧ q.next.start ≤ q.currentChar ∧
        q.next.length = (q.currentChar : Int) - (q.next.start : Int) ∧
        q.next.line = (if q.next.type = TOKEN_LINE then q.currentLine - 1 else q.currentLine) ∧
        (∀ r, lexSwitch libc (f - 1) (nextChar { p with tokenStart := p.currentChar }).2
          (peekChar p) = some (SwitchExit.brk r) → p.currentChar < q.next.start)
  | 0, _, _, h, _ => by simp [lexToken] at h
  | f + 1, p, q, h, ht => by
    rw [lexToken] at h
    split_ifs at h with hp
    · dsimp only at h
      have hs := lexSwitch_shape libc f (nextChar { p with tokenStart := p.currentChar }).2
        (nextChar { p with tokenStart := p.currentChar }).1
      cases hr : lexSwitch libc f (nextChar { p with tokenStart := p.currentChar }).2
          (nextChar { p with tokenStart := p.currentChar }).1 with
      | none => rw [hr] at h; cases h
      | some r =>
        rw [hr] at h hs
        cases r with
        | ret q1 =>
          cases h
          obtain ⟨ho, h1, h2, h3⟩ := hs.1 q rfl ht
          have e1 : (nextChar { p with tokenStart := p.currentChar }).2.tokenStart =
            p.currentChar := rfl
          have e2 : (nextChar { p with tokenStart := p.currentChar }).2.currentChar =
            p.currentChar + 1 := rfl
          rw [e1] at h1 h2
          have := ho.2
          rw [e2] at this
          refine ⟨by omega, by omega, by rw [h2, h1], h3, fun r hr2 => ?_⟩
          rw [show f + 1 - 1 = f from rfl] at hr2
          rw [show (nextChar { p with tokenStart := p.currentChar }).1 = peekChar p from rfl] at hr
          rw [hr] at hr2; cases hr2
        | brk q1 =>
          have ho := hs.2 q1 rfl
          have e2 : (nextChar { p with tokenStart := p.currentChar }).2.currentChar =
            p.currentChar + 1 := rfl
          have := ho.2
          rw [e2] at this
          obtain ⟨h1, h2, h3, h4, -⟩ := lexToken_start libc f q1 q h ht
          exact ⟨by omega, h2, h3, h4, fun _ _ => by omega⟩
    · cases h
      exact absurd ht (by simp [makeToken, exprType])

/-! ### The switch inside an interpolation -/

theorem keywordType_cases (text : List Nat) (T : TokenType) :
    ∀ ks : List Keyword, keywordType text T ks = T ∨ ∃ k ∈ ks, keywordType text T ks = k.tokenType
  | [] => Or.inl rfl
  | k :: ks => by
    rw [keywordType]
    split_ifs
    · exact Or.inr ⟨k, List.mem_cons_self _ _, rfl⟩
    · rcases keywordType_cases text T ks with h | ⟨k', hk, h⟩
      · exact Or.inl h
      · exact Or.inr ⟨k', List.mem_cons_of_mem _ hk, h⟩

theorem keywordType_hasValue (text : List Nat) {T : TokenType} (hT : T.hasValue = true) :
    (keywordType text T keywords).hasValue = true := by
  rcases keywordType_cases text T keywords with h | ⟨k, hk, h⟩
  · rw [h]; exact hT
  · rw [h]
    simp only [TokenType.hasValue, decide_eq_true_eq, List.mem_append]
    exact Or.inl (List.mem_map_of_mem _ hk)

theorem readName_hasValue {f : Nat} {p q : Parser} {T : TokenType} {c : Nat}
    (h : readName f p T c = some q) (hT : T.hasValue = true) : q.next.type.hasValue = true := by
  simp only [readName, Option.map_eq_some'] at h
  obtain ⟨r, -, rfl⟩ := h
  exact keywordType_hasValue _ hT

theorem readNumber_hasValue {libc : Libc} {f : Nat} {p q : Parser}
    (h : readNumber libc f p = some q) : q.next.type.hasValue = true := by
  simp only [readNumber, Option.bind_eq_some, Option.map_eq_some'] at h
  obtain ⟨p1, -, p2, -, p3, -, rfl⟩ := h
  rfl

theorem readHexNumber_hasValue {libc : Libc} {f : Nat} {p q : Parser}
    (h : readHexNumber libc f p = some q) : q.next.type.hasValue = true := by
  simp only [readHexNumber, Option.map_eq_some'] at h
  obtain ⟨p1, -, rfl⟩ := h
  rfl

theorem Frame.after_hasValue (F : Frame) {T : TokenType} (h : T.hasValue = true) :
    F.after T = F := by
  have h1 : T ≠ TOKEN_LEFT_PAREN := by rintro rfl; exact absurd h (by decide)
  have h2 : T ≠ TOKEN_RIGHT_PAREN := by rintro rfl; exact absurd h (by decide)
  simp [Frame.after, h1, h2]

theorem Frame.after_plain (F : Frame) {T : TokenType} (h : T.plain = true) :
    F.after T = F ∧ T.hasValue = false := by
  simp only [TokenType.plain, Bool.and_eq_true, Bool.not_eq_true', decide_eq_true_eq] at h
  obtain ⟨⟨h0, h1⟩, h2⟩ := h
  exact ⟨by simp [Frame.after, h1, h2], h0⟩

theorem switchSim_token {F : Frame} {c : Nat} {xa xb : Parser} (h : Embedded F xa xb)
    {T : TokenType} (hT : T.plain = true) :
    SwitchSim F c (some (SwitchExit.ret (makeToken xa T)))
      (some (SwitchExit.ret (makeToken xb T))) := by
  refine ⟨fun a' ha _ _ => ?_, fun a2 ha => by cases ha⟩
  cases ha
  have hm := h.makeToken T (fun hv => by rw [(F.after_plain hT).2] at hv; cases hv)
  refine ⟨_, rfl, ?_, hm.2⟩
  rw [show (makeToken xa T).next.type = T from rfl, (F.after_plain hT).1]
  exact hm.1

theorem switchSim_two {F : Frame} {c : Nat} {xa xb : Parser} (h : Embedded F xa xb) (d : Nat)
    {two one : TokenType} (h0 : d ≠ 0) (h41 : d ≠ 41) (h2 : two.plain = true)
    (h1 : one.plain = true) :
    SwitchSim F c (some (SwitchExit.ret (twoCharToken xa d two one)))
      (some (SwitchExit.ret (twoCharToken xb d two one))) := by
  have hm := h.matchChar d h0 h41
  unfold twoCharToken
  dsimp only
  rw [hm.1]
  refine switchSim_token hm.2 ?_
  split_ifs
  · exact h2
  · exact h1

theorem switchSim_ret {F : Frame} {c : Nat} {ga gb : Option Parser}
    (h : ∀ a', ga = some a' → ∃ b', gb = some b' ∧ Embedded F a' b' ∧
      b'.next.view = a'.next.view.shift F.pre.length F.dl ∧ a'.next.type.hasValue = true) :
    SwitchSim F c (ga.map SwitchExit.ret) (gb.map SwitchExit.ret) := by
  refine ⟨fun a' ha _ _ => ?_, fun a2 ha => ?_⟩
  · cases ga with
    | none => cases ha
    | some x =>
      cases ha
      obtain ⟨b', hb, he, hv, ht⟩ := h _ rfl
      refine ⟨b', by rw [hb]; rfl, ?_, hv⟩
      rw [F.after_hasValue ht]; exact he
  · cases ga with
    | none => cases ha
    | some x => cases ha

theorem switchSim_none {F : Frame} {c : Nat} {ga : Option Parser} {rb : Option SwitchExit}
    (h : ∀ a', ga = some a' → exprType a'.next.type = false) :
    SwitchSim F c (ga.map SwitchExit.ret) rb := by
  refine ⟨fun a' ha ht _ => ?_, fun a2 ha => ?_⟩
  · cases ga with
    | none => cases ha
    | some x => cases ha; rw [h _ rfl] at ht; cases ht
  · cases ga with
    | none => cases ha
    | some x => cases ha

theorem switchSim_skip {F : Frame} {c : Nat} {ga gb : Option Parser}
    (h : ∀ a2, ga = some a2 → ∃ b2, gb = some b2 ∧ Embedded F a2 b2) :
    SwitchSim F c (ga.map SwitchExit.brk) (gb.map SwitchExit.brk) := by
  refine ⟨fun a' ha _ _ => ?_, fun a2 ha => ?_⟩
  · cases ga with
    | none => cases ha
    | some x => cases ha
  · cases ga with
    | none => cases ha
    | some x =>
      cases ha
      obtain ⟨b2, hb, he⟩ := h _ rfl
      exact Or.inl ⟨b2, by rw [hb]; rfl, he⟩

theorem switchSim_comment {F : Frame} {c : Nat} {ga : Option Parser} {rb : Option SwitchExit}
    (h : isSpace c = false) : SwitchSim F c (ga.map SwitchExit.brk) rb := by
  refine ⟨fun a' ha _ _ => ?_, fun a2 _ => Or.inr h⟩
  cases ga with
  | none => cases ha
  | some x => cases ha

theorem Embedded.setParens {F : Frame} {a b : Parser} (h : Embedded F a b) (ps : List Int) :
    Embedded { F with parens := ps } a { b with parens := ps } := by
  obtain ⟨h1, h2, h3, h4, h5, h6, h7, h8, h9, h10, h11, h12, -⟩ := h
  exact ⟨h1, h2, h3, h4, h5, h6, h7, h8, h9, h10, h11, h12, rfl⟩

/-- The switch of the token loop, run by the two parsers of a frame. -/
theorem lexSwitch_sim (libc : Libc) (f : Nat) (c : Nat) {F : Frame} {a b : Parser}
    (h : Embedded F a b) (hn : 0 < F.numParens) (hlen : F.numParens ≤ F.parens.length) :
    SwitchSim F c (lexSwitch libc f a c) (lexSwitch libc f b c) := by
  have hna : a.numParens = 0 := h.2.2.2.2.2.2.2.2.2.2.1
  have hnb : b.numParens = F.numParens := h.2.2.2.2.2.2.2.2.2.2.2.1
  have hpb : b.parens = F.parens := h.2.2.2.2.2.2.2.2.2.2.2.2
  refine lexSwitch_elim (fun g => SwitchSim F c (g a) (g b)) libc f c ?_ ?_ ?_ ?_ ?_ ?_ ?_ ?_ ?_
    ?_ ?_ ?_ ?_ ?_ ?_
  · intro _
    dsimp only
    rw [if_neg (by omega), if_pos (by omega)]
    refine ⟨fun a' ha _ _ => ?_, fun a2 ha => by cases ha⟩
    cases ha
    have hm := (h.setParens (b.parens.set (b.numParens - 1)
      (b.parens.getD (b.numParens - 1) 0 + 1))).makeToken TOKEN_LEFT_PAREN
      (fun hv => by cases hv)
    have hF : ∀ ps, ps = b.parens.set (b.numParens - 1) (b.parens.getD (b.numParens - 1) 0 + 1) →
        F.after TOKEN_LEFT_PAREN = { F with parens := ps } := by
      rintro _ rfl; simp [Frame.after, hnb, hpb]
    refine ⟨_, rfl, ?_, hm.2⟩
    rw [show (makeToken a TOKEN_LEFT_PAREN).next.type = TOKEN_LEFT_PAREN from rfl, hF _ rfl]
    exact hm.1
  · intro _
    dsimp only
    rw [if_neg (by omega), if_pos (by omega)]
    refine ⟨fun a' ha _ hd => ?_, fun a2 ha => by cases ha⟩
    cases ha
    have hd' := hd rfl
    have hg : (b.parens.set (b.numParens - 1) (b.parens.getD (b.numParens - 1) 0 - 1)).getD
        (b.numParens - 1) 0 = F.parens.getD (F.numParens - 1) 0 - 1 := by
      rw [hnb, hpb]
      simp [List.getD_eq_getElem?_getD, show F.numParens - 1 < F.parens.length by omega]
    rw [if_neg (by rw [hg]; exact hd')]
    have hm := (h.setParens (b.parens.set (b.numParens - 1)
      (b.parens.getD (b.numParens - 1) 0 - 1))).makeToken TOKEN_RIGHT_PAREN
      (fun hv => by cases hv)
    have hF : ∀ ps, ps = b.parens.set (b.numParens - 1) (b.parens.getD (b.numParens - 1) 0 - 1) →
        F.after TOKEN_RIGHT_PAREN = { F with parens := ps } := by
      rintro _ rfl; simp [Frame.after, hnb, hpb]
    refine ⟨_, rfl, ?_, hm.2⟩
    rw [show (makeToken a TOKEN_RIGHT_PAREN).next.type = TOKEN_RIGHT_PAREN from rfl, hF _ rfl]
    exact hm.1
  · intro T hT
    exact switchSim_token h hT
  · intro hc
    dsimp only
    by_cases hs : a.currentLine = 1 ∧ peekChar a = 33 ∧ peekNextChar a = 47
    · rw [if_pos hs]
      exact switchSim_comment (by rw [hc]; rfl)
    · rw [if_neg hs]
      have hb : ¬(b.currentLine = 1 ∧ peekChar b = 33 ∧ peekNextChar b = 47) := by
        rintro ⟨hl, hp⟩
        have hp' := (h.peek_two 33 (fun x => decide (x = 47)) (by decide) (by decide)
          (by decide)).1 (by simpa using hp)
        have h1 : 1 ≤ a.currentLine := h.2.2.2.2.2.2.2.2.1
        have h2 : 0 ≤ F.dl := h.2.2.2.2.2.2.2.2.2.1
        have h3 : b.currentLine = a.currentLine + F.dl := h.2.2.2.2.2.1
        exact hs ⟨by omega, by simpa using hp'⟩
      rw [if_neg hb]
      exact switchSim_token h rfl
  · intro d two one h0 h41 h2 h1
    exact switchSim_two h d h0 h41 h2 h1
  · intro _
    dsimp only
    have hm := h.matchChar 46 (by decide) (by decide)
    rw [hm.1]
    split_ifs
    · exact switchSim_two hm.2 46 (by decide) (by decide) rfl rfl
    · exact switchSim_token hm.2 rfl
  · intro hc
    dsimp only
    have hm := h.matchChar 47 (by decide) (by decide)
    have hm2 := hm.2.matchChar 42 (by decide) (by decide)
    rw [hm.1, hm2.1]
    split_ifs
    · exact switchSim_comment (by rw [hc]; rfl)
    · exact switchSim_comment (by rw [hc]; rfl)
    · exact switchSim_token hm2.2 rfl
  · intro d T two one h0 h41 hT h2 h1
    dsimp only
    have hm := h.matchChar d h0 h41
    rw [hm.1]
    split_ifs
    · exact switchSim_token hm.2 hT
    · exact switchSim_two hm.2 61 (by decide) (by decide) h2 h1
  · intro _
    refine switchSim_skip (fun a2 ha => ?_)
    obtain ⟨b2, hb, he, -⟩ := Embedded.skipWhile _ (by decide) (by decide) f _ _ a2 h ha
    exact ⟨b2, hb, he⟩
  · intro _
    dsimp only
    by_cases hq : peekChar a = 34 ∧ peekNextChar a = 34
    · rw [if_pos hq]
      exact switchSim_none (fun a' ha => readRawString_type ha)
    · rw [if_neg hq]
      exact switchSim_none (fun a' ha => readString_type ha)
  · intro _
    have hp : (peekChar b = 95) = (peekChar a = 95) :=
      propext (h.peek_eq 95 (by decide) (by decide))
    simp only [hp]
    refine switchSim_ret (fun a' ha => ?_)
    obtain ⟨b', hb, he, hv⟩ := h.readName f _ c ha
    exact ⟨b', hb, he, hv, readName_hasValue ha (by split_ifs <;> rfl)⟩
  · intro _
    have hp : (peekChar b = 120) = (peekChar a = 120) :=
      propext (h.peek_eq 120 (by decide) (by decide))
    simp only [hp]
    by_cases hx : peekChar a = 120
    · simp only [if_pos hx]
      refine switchSim_ret (fun a' ha => ?_)
      obtain ⟨b', hb, he, hv⟩ := h.readHexNumber libc f (by rw [hx]; decide) ha
      exact ⟨b', hb, he, hv, readHexNumber_hasValue ha⟩
    · simp only [if_neg hx]
      refine switchSim_ret (fun a' ha => ?_)
      obtain ⟨b', hb, he, hv⟩ := h.readNumber libc f ha
      exact ⟨b', hb, he, hv, readNumber_hasValue ha⟩
  · intro _
    refine switchSim_ret (fun a' ha => ?_)
    obtain ⟨b', hb, he, hv⟩ := h.readName f _ c ha
    exact ⟨b', hb, he, hv, readName_hasValue ha rfl⟩
  · intro _
    refine switchSim_ret (fun a' ha => ?_)
    obtain ⟨b', hb, he, hv⟩ := h.readNumber libc f ha
    exact ⟨b', hb, he, hv, readNumber_hasValue ha⟩
  · intro g hg
    refine ⟨fun a' ha ht _ => ?_, fun a2 ha => by cases ha⟩
    cases ha
    rw [hg a] at ht; cases ht

/-! ### The tokens of an expression inside an interpolation -/

theorem Embedded.restart {F : Frame} {a b : Parser} (h : Embedded F a b) :
    Embedded F { a with tokenStart := a.currentChar } { b with tokenStart := b.currentChar } := by
  obtain ⟨h1, h2, h3, h4, h5, h6, h7, h8, h9, h10, h11, h12, h13⟩ := h
  exact ⟨h1, h2, h3, h4, h4, h6, h7, le_refl _, h9, h10, h11, h12, h13⟩

/-- The token loop, run by the two parsers of a frame. -/
theorem lexToken_sim (libc : Libc) {F : Frame} (hn : 0 < F.numParens)
    (hlen : F.numParens ≤ F.parens.length) :
    ∀ (f : Nat) (a b a' : Parser),
      Embedded F { a with tokenStart := a.currentChar } { b with tokenStart := b.currentChar } →
      lexToken libc f a = some a' → exprType a'.next.type = true →
      (∀ j, a.currentChar ≤ j → j < a'.next.start → isSpace (charAt F.e j) = true) →
      (a'.next.type = TOKEN_RIGHT_PAREN → F.parens.getD (F.numParens - 1) 0 - 1 ≠ 0) →
      ∃ b', lexToken libc f b = some b' ∧ Embedded (F.after a'.next.type) a' b' ∧
        b'.next.view = a'.next.view.shift F.pre.length F.dl
  | 0, _, _, _, _, h, _, _, _ => by simp [lexToken] at h
  | f + 1, a, b, a', he, h, ht, htile, hd => by
    have hstart := lexToken_start libc (f + 1) a a' h ht
    rw [lexToken] at h ⊢
    by_cases hp : peekChar a ≠ 0
    · rw [if_pos hp] at h
      have hlt : a.currentChar < F.e.length := by
        by_contra hge
        exact hp (he.peek_end hge).1
      have hpb : peekChar b = peekChar a := (he.peek_in hlt).1
      rw [if_pos (by rw [hpb]; exact hp)]
      dsimp only at h ⊢
      have hnx := he.nextChar hp
      have hs := lexSwitch_sim libc f (nextChar { a with tokenStart := a.currentChar }).1 hnx.2
        hn hlen
      have hsh := lexSwitch_shape libc f (nextChar { a with tokenStart := a.currentChar }).2
        (nextChar { a with tokenStart := a.currentChar }).1
      rw [hnx.1]
      cases hr : lexSwitch libc f (nextChar { a with tokenStart := a.currentChar }).2
          (nextChar { a with tokenStart := a.currentChar }).1 with
      | none => rw [hr] at h; cases h
      | some r =>
        rw [hr] at h hs hsh
        cases r with
        | ret a1 =>
          cases h
          obtain ⟨b', hb', heb, hv⟩ := hs.1 a' rfl ht hd
          rw [hb']
          exact ⟨b', rfl, heb, hv⟩
        | brk a2 =>
          dsimp only at h
          rcases hs.2 a2 rfl with ⟨b2, hb2, he2⟩ | hsp
          · rw [hb2]
            dsimp only
            have ho := (hsh.2 a2 rfl).2
            have e2 : (nextChar { a with tokenStart := a.currentChar }).2.currentChar =
              a.currentChar + 1 := rfl
            rw [e2] at ho
            exact lexToken_sim libc hn hlen f a2 b2 a' he2.restart h ht
              (fun j hj1 hj2 => htile j (by omega) hj2) hd
          · have hlt2 := hstart.2.2.2.2 a2 hr
            have hsp2 := htile a.currentChar (le_refl _) hlt2
            have hc : charAt F.e a.currentChar = peekChar a := by
              rw [peekChar, ← he.1]
            rw [hc] at hsp2
            rw [show (nextChar { a with tokenStart := a.currentChar }).1 = peekChar a from rfl,
              hsp2] at hsp
            cases hsp
    · rw [if_neg hp] at h
      cases h
      exact absurd ht (by simp [makeToken, exprType])

theorem allSpace_iff (e : List Nat) (a b : Nat) :
    allSpace e a b = true ↔ ∀ j, a ≤ j → j < b → isSpace (charAt e j) = true := by
  simp only [allSpace, List.all_eq_true, List.mem_range]
  constructor
  · intro h j h1 h2
    have := h (j - a) (by omega)
    rwa [show a + (j - a) = j by omega] at this
  · intro h i hi
    exact h (a + i) (by omega) (by omega)

theorem balanced_cons {depth : Nat} {T : TokenType} {ts : List TokenType}
    (h : balanced depth (T :: ts) = true) :
    ∃ d, balanced d ts = true ∧ (T = TOKEN_LEFT_PAREN → d = depth + 1) ∧
      (T = TOKEN_RIGHT_PAREN → 0 < depth ∧ d + 1 = depth) ∧
      (T ≠ TOKEN_LEFT_PAREN → T ≠ TOKEN_RIGHT_PAREN → d = depth) := by
  cases T
  case TOKEN_LEFT_PAREN => exact ⟨depth + 1, h, by simp, by simp, by simp⟩
  case TOKEN_RIGHT_PAREN =>
    simp only [balanced, Bool.and_eq_true, decide_eq_true_eq] at h
    refine ⟨depth - 1, h.2, by simp, ?_, by simp⟩
    intro _
    exact ⟨h.1, by omega⟩
  all_goals exact ⟨depth, h, by simp, by simp, by simp⟩

theorem Frame.after_top (F : Frame) (T : TokenType) (hn : 0 < F.numParens)
    (hlen : F.numParens ≤ F.parens.length) :
    (F.after T).parens.length = F.parens.length ∧
      (F.after T).parens.getD (F.numParens - 1) 0 =
        (if T = TOKEN_LEFT_PAREN then F.parens.getD (F.numParens - 1) 0 + 1
         else if T = TOKEN_RIGHT_PAREN then F.parens.getD (F.numParens - 1) 0 - 1
         else F.parens.getD (F.numParens - 1) 0) := by
  have hi : F.numParens - 1 < F.parens.length := by omega
  unfold Frame.after
  split_ifs <;> simp [List.getD_eq_getElem?_getD, hi]

theorem Embedded.shiftTokens {F : Frame} {a b : Parser}
    (h : Embedded F { a with tokenStart := a.currentChar }
      { b with tokenStart := b.currentChar }) :
    Embedded F
      { ({ a with previous := a.current, current := a.next } : Parser) with
        tokenStart := a.currentChar }
      { ({ b with previous := b.current, current := b.next } : Parser) with
        tokenStart := b.currentChar } := by
  unfold Embedded at h ⊢
  exact h

/-- The tokens of an expression, lexed by the two parsers of a frame. -/
theorem tokens_sim (libc : Libc) (f : Nat) :
    ∀ (ts : List Token) (F : Frame) (a b qa : Parser) (depth : Nat),
      Embedded F { a with tokenStart := a.currentChar } { b with tokenStart := b.currentChar } →
      0 < F.numParens → F.numParens ≤ F.parens.length →
      F.parens.getD (F.numParens - 1) 0 = 1 + (depth : Int) →
      a.next.type ≠ TOKEN_EOF → b.next.type ≠ TOKEN_EOF →
      wrenNextTokens libc f ts.length a = some (ts, qa) →
      (∀ t ∈ ts, exprType t.type = true) →
      tiles F.e a.currentChar ts = true →
      balanced depth (ts.map (fun t => t.type)) = true →
      ∃ tsb qb F', wrenNextTokens libc f ts.length b = some (tsb, qb) ∧
        tsb.map Token.view = ts.map (fun t => t.view.shift F.pre.length F.dl) ∧
        Embedded F' { qa with tokenStart := qa.currentChar }
          { qb with tokenStart := qb.currentChar } ∧
        F'.pre = F.pre ∧ F'.e = F.e ∧ F'.post = F.post ∧ F'.dl = F.dl ∧
        F'.numParens = F.numParens ∧ F'.parens.length = F.parens.length ∧
        F'.parens.getD (F.numParens - 1) 0 = 1 ∧
        allSpace F.e qa.currentChar F.e.length = true ∧ qb.next.type ≠ TOKEN_EOF ∧
        qa.currentLine = (match ts.getLast? with
          | none => a.currentLine
          | some t => if t.type = TOKEN_LINE then t.line + 1 else t.line)
  | [], F, a, b, qa, depth, he, hn, hlen, htop, hane, hbne, h, _, htile, hbal => by
    simp only [List.length_nil, wrenNextTokens, Option.some.injEq, Prod.mk.injEq, true_and] at h
    subst h
    have hd : depth = 0 := by simpa [balanced] using hbal
    subst hd
    refine ⟨[], b, F, rfl, rfl, he, rfl, rfl, rfl, rfl, rfl, rfl, ?_, htile, hbne, rfl⟩
    rw [htop]; rfl
  | t :: ts, F, a, b, qa, depth, he, hn, hlen, htop, hane, hbne, h, htype, htile, hbal => by
    simp only [List.length_cons, wrenNextTokens, Option.bind_eq_some, Option.map_eq_some'] at h
    obtain ⟨a1, h1, ⟨ts', qa'⟩, h2, h3⟩ := h
    simp only [Prod.mk.injEq, List.cons.injEq] at h3
    obtain ⟨⟨ht, hts⟩, hq⟩ := h3
    subst ht hts hq
    rw [wrenNextToken_lex libc f a hane] at h1
    have ht1 : exprType a1.next.type = true := htype _ (List.mem_cons_self _ _)
    have hst := lexToken_start libc f _ a1 h1 ht1
    simp only [tiles, Bool.and_eq_true, decide_eq_true_eq] at htile
    obtain ⟨⟨hle, hsp⟩, htile'⟩ := htile
    obtain ⟨d, hbal', hL, hR, hO⟩ := balanced_cons hbal
    obtain ⟨b1, hb1, he1, hv1⟩ := lexToken_sim libc hn hlen f _ _ a1 he.shiftTokens h1 ht1
      (fun j hj1 hj2 => (allSpace_iff _ _ _).1 hsp j hj1 hj2)
      (fun hT => by
        have := (hR hT).1
        rw [htop]; omega)
    have hty : b1.next.type = a1.next.type := by
      have := congrArg TokenView.type hv1
      exact this
    have hat := F.after_top a1.next.type hn hlen
    have hcc : a1.next.start + a1.next.length.toNat = a1.currentChar := by
      have := hst.2.1
      rw [hst.2.2.1]
      omega
    rw [hcc] at htile'
    have htop' : (F.after a1.next.type).parens.getD ((F.after a1.next.type).numParens - 1) 0 =
        1 + (d : Int) := by
      rw [show (F.after a1.next.type).numParens = F.numParens from rfl, hat.2, htop]
      by_cases hT1 : a1.next.type = TOKEN_LEFT_PAREN
      · rw [if_pos hT1, hL hT1]; push_cast; ring
      · rw [if_neg hT1]
        by_cases hT2 : a1.next.type = TOKEN_RIGHT_PAREN
        · rw [if_pos hT2]
          have := (hR hT2).2
          omega
        · rw [if_neg hT2, hO hT1 hT2]
    obtain ⟨tsb, qb, F', hrun, hviews, heq, hpre, hee, hpost, hdl, hnp, hpl, hpt, hsp', hqb, hline⟩ :=
      tokens_sim libc f ts' (F.after a1.next.type) a1 b1 qa' d he1.restart hn
        (by rw [hat.1]; exact hlen) htop'
        (fun hc => by rw [hc] at ht1; exact absurd ht1 (by decide))
        (fun hc => by rw [hty] at hc; rw [hc] at ht1; exact absurd ht1 (by decide))
        h2 (fun t ht => htype t (List.mem_cons_of_mem _ ht)) htile' hbal'
    refine ⟨b1.next :: tsb, qb, F', ?_, ?_, heq, hpre, hee, hpost, hdl, hnp, ?_, hpt, hsp', hqb, ?_⟩
    · simp only [List.length_cons, wrenNextTokens, Option.bind_eq_some, Option.map_eq_some']
      refine ⟨b1, ?_, (tsb, qb), hrun, rfl⟩
      rw [wrenNextToken_lex libc f b hbne]; exact hb1
    · simp only [List.map_cons, hv1, List.cons.injEq, true_and]
      exact hviews
    · rw [hpl, hat.1]
    · rw [hline]
      cases ts' with
      | nil =>
        have hl := hst.2.2.2.1
        simp only [List.getLast?_nil, List.getLast?_singleton]
        split_ifs at hl ⊢ <;> omega
      | cons t2 ts2 =>
        simp only [List.getLast?_cons_cons]
        rw [List.getLast?_eq_getLast _ (List.cons_ne_nil t2 ts2)]

/-! ### The sections of an interpolated string -/

theorem advance_zero (p : Parser) : p.advance 0 0 = p := by
  simp [Parser.advance]

theorem readStringLoop_run :
    ∀ (items : List StrItem) (f : Nat) (p : Parser) (acc r : List Nat),
      p.rest = bodyText items ++ r → (∀ it ∈ items, it.ok = true) →
      readStringLoop (items.length + f) p acc =
        readStringLoop f (p.advance (bodyText items).length (newlines (bodyText items)))
          (acc ++ bodyValue items)
  | [], f, p, acc, r, _, _ => by
    simp [advance_zero, newlines, bodyText, bodyValue]
  | it :: items, f, p, acc, r, hsrc, hs => by
    have hsrc2 : p.rest = it.text ++ (bodyText items ++ r) := by
      rw [hsrc]; simp [bodyText, List.flatMap_cons]
    have hstep := readStringStep_item p acc it _ hsrc2 (hs it (List.mem_cons_self _ _))
    have hrest := advance_rest p it.text _ (newlines it.text) hsrc2
    have ih := readStringLoop_run items f _ (acc ++ it.bytes) r hrest
      (fun x hx => hs x (List.mem_cons_of_mem _ hx))
    rw [show (it :: items).length + f = (items.length + f) + 1 by simp; omega, readStringLoop,
      hstep]
    dsimp only
    rw [ih, advance_advance]
    have e1 : it.text.length + (bodyText items).length = (bodyText (it :: items)).length := by
      simp [bodyText, List.flatMap_cons]
    have e2 : newlines it.text + newlines (bodyText items) = newlines (bodyText (it :: items)) := by
      simp [bodyText, List.flatMap_cons, newlines, List.count_append]
    have e3 : acc ++ it.bytes ++ bodyValue items = acc ++ bodyValue (it :: items) := by
      simp [bodyValue, List.flatMap_cons]
    rw [e1, e2, e3]

/-- A section of a string in front of an interpolation is read as an
INTERPOLATION token, and one more level of interpolation is open. -/
theorem readString_section (f : Nat) (p : Parser) (s : List StrItem) (r : List Nat)
    (hsrc : p.rest = bodyText s ++ 37 :: 40 :: r) (hs : ∀ it ∈ s, it.ok = true)
    (hnum : p.numParens < MAX_INTERPOLATION_NESTING) (hf : s.length + 1 ≤ f) :
    ∃ q, readString f p = some q ∧
      q.next.view = ⟨TOKEN_INTERPOLATION, p.tokenStart,
        ((p.currentChar + (bodyText s).length + 2 : Nat) : Int) - (p.tokenStart : Int),
        p.currentLine + (newlines (bodyText s) : Nat), some (Value.OBJ_STRING (bodyValue s))⟩ ∧
      q.source = p.source ∧ q.currentChar = p.currentChar + (bodyText s).length + 2 ∧
      q.currentLine = p.currentLine + (newlines (bodyText s) : Nat) ∧
      q.numParens = p.numParens + 1 ∧ q.parens = p.parens.set p.numParens 1 ∧
      q.rest = r := by
  obtain ⟨k, rfl⟩ : ∃ k, f = s.length + (k + 1) := ⟨f - s.length - 1, by omega⟩
  have hrest := advance_rest p (bodyText s) (37 :: 40 :: r) (newlines (bodyText s)) hsrc
  have hrest2 := nextChar_rest_cons hrest
  have hstep : readStringStep (p.advance (bodyText s).length (newlines (bodyText s)))
      ([] ++ bodyValue s) =
      StringStep.done
        { (nextChar (nextChar (p.advance (bodyText s).length (newlines (bodyText s)))).2).2 with
          parens := p.parens.set p.numParens 1
          numParens := p.numParens + 1 } (bodyValue s) TOKEN_INTERPOLATION := by
    simp only [readStringStep, nextChar_fst _ hrest, nextChar_fst _ hrest2, List.nil_append]
    have hn : (nextChar (p.advance (bodyText s).length (newlines (bodyText s)))).2.numParens =
      p.numParens := rfl
    simp [hn, hnum]
    exact ⟨rfl, rfl⟩
  have hr3 : (nextChar (nextChar (p.advance (bodyText s).length
      (newlines (bodyText s)))).2).2.rest = r :=
    nextChar_rest_cons hrest2
  have hcc : (nextChar (nextChar (p.advance (bodyText s).length
      (newlines (bodyText s)))).2).2.currentChar = p.currentChar + (bodyText s).length + 2 := rfl
  have hline : (nextChar (nextChar (p.advance (bodyText s).length
      (newlines (bodyText s)))).2).2.currentLine = p.currentLine + (newlines (bodyText s) : Nat) := by
    rw [nextChar_advance0 _ hrest2 (by decide), nextChar_advance0 _ hrest (by decide)]
    simp [Parser.advance]
  have hrun : readString (s.length + (k + 1)) p = some (makeToken
      { ({ (nextChar (nextChar (p.advance (bodyText s).length
              (newlines (bodyText s)))).2).2 with
          parens := p.parens.set p.numParens 1
          numParens := p.numParens + 1 } : Parser) with
        next := { p.next with value := Value.OBJ_STRING (bodyValue s) } }
      TOKEN_INTERPOLATION) := by
    rw [readString, readStringLoop_run s (k + 1) p [] _ hsrc hs, readStringLoop, hstep]
    rfl
  refine ⟨_, hrun, ?_, rfl, hcc, hline, rfl, rfl, ?_⟩
  · simp only [makeToken, Token.view, TokenView.mk.injEq, true_and]
    refine ⟨rfl, by rw [hcc]; rfl, by simp [hline], by simp [TokenType.hasValue]⟩
  · exact hr3

/-- The last section of a string is read as a STRING token. -/
theorem readString_last (f : Nat) (p : Parser) (s : List StrItem) (r : List Nat)
    (hsrc : p.rest = bodyText s ++ 34 :: r) (hs : ∀ it ∈ s, it.ok = true)
    (hf : s.length + 1 ≤ f) :
    ∃ q, readString f p = some q ∧
      q.next.view = ⟨TOKEN_STRING, p.tokenStart,
        ((p.currentChar + (bodyText s).length + 1 : Nat) : Int) - (p.tokenStart : Int),
        p.currentLine + (newlines (bodyText s) : Nat), some (Value.OBJ_STRING (bodyValue s))⟩ ∧
      q.numParens = p.numParens := by
  obtain ⟨k, rfl⟩ : ∃ k, f = s.length + (k + 1) := ⟨f - s.length - 1, by omega⟩
  have hrest := advance_rest p (bodyText s) (34 :: r) (newlines (bodyText s)) hsrc
  have hstep : readStringStep (p.advance (bodyText s).length (newlines (bodyText s)))
      ([] ++ bodyValue s) =
      StringStep.done (nextChar (p.advance (bodyText s).length (newlines (bodyText s)))).2
        (bodyValue s) TOKEN_STRING := by
    simp only [readStringStep, nextChar_fst _ hrest, List.nil_append]
    simp
  have hcc : (nextChar (p.advance (bodyText s).length (newlines (bodyText s)))).2.currentChar =
      p.currentChar + (bodyText s).length + 1 := rfl
  have hline : (nextChar (p.advance (bodyText s).length (newlines (bodyText s)))).2.currentLine =
      p.currentLine + (newlines (bodyText s) : Nat) := by
    rw [nextChar_advance0 _ hrest (by decide)]
    simp [Parser.advance]
  have hrun : readString (s.length + (k + 1)) p = some (makeToken
      { (nextChar (p.advance (bodyText s).length (newlines (bodyText s)))).2 with
        next := { p.next with value := Value.OBJ_STRING (bodyValue s) } } TOKEN_STRING) := by
    rw [readString, readStringLoop_run s (k + 1) p [] _ hsrc hs, readStringLoop, hstep]
    rfl
  refine ⟨_, hrun, ?_, rfl⟩
  simp only [makeToken, Token.view, TokenView.mk.injEq, true_and]
  refine ⟨rfl, by rw [hcc]; rfl, by simp [hline], by simp [TokenType.hasValue]⟩

theorem bodyText_length (items : List StrItem) : items.length ≤ (bodyText items).length := by
  induction items with
  | nil => simp [bodyText]
  | cons it items ih =>
    have : 1 ≤ it.text.length := by cases it <;> simp [StrItem.text]
    simp only [bodyText, List.flatMap_cons, List.length_append, List.length_cons] at ih ⊢
    omega

theorem isSpace_cases {c : Nat} (h : isSpace c = true) : c = 32 ∨ c = 13 ∨ c = 9 := by
  simp only [isSpace, Bool.or_eq_true, decide_eq_true_eq] at h
  rcases h with (h | h) | h
  · exact Or.inl h
  · exact Or.inr (Or.inl h)
  · exact Or.inr (Or.inr h)

theorem skipWhile_spaces :
    ∀ (ws : List Nat) (f : Nat) (p : Parser) (c : Nat) (r : List Nat), p.rest = ws ++ c :: r →
      (∀ x ∈ ws, isSpace x = true) → isSpace c = false →
      skipWhile (fun c => c = 32 || c = 13 || c = 9) (ws.length + 1 + f) p =
        some (p.advance ws.length 0)
  | [], f, p, c, r, hsrc, _, hc => by
    have hp : peekChar p = c := peekChar_cons hsrc
    have hc' : (decide (c = 32) || decide (c = 13) || decide (c = 9)) = false := hc
    rw [show ([] : List Nat).length + 1 + f = f + 1 by simp; omega, skipWhile, hp]
    simp [hc', advance_zero]
  | w :: ws, f, p, c, r, hsrc, hws, hc => by
    have hw := hws w (List.mem_cons_self _ _)
    have hp : peekChar p = w := peekChar_cons hsrc
    have hw' : (decide (w = 32) || decide (w = 13) || decide (w = 9)) = true := hw
    have h10 : w ≠ 10 := by rcases isSpace_cases hw with h | h | h <;> omega
    have hrest := advance_rest p [w] (ws ++ c :: r) 0 hsrc
    simp only [List.length_singleton] at hrest
    rw [show (w :: ws).length + 1 + f = (ws.length + 1 + f) + 1 by simp; omega, skipWhile, hp]
    simp only [hw', if_true]
    rw [nextChar_advance0 p hsrc h10,
      skipWhile_spaces ws f _ c r hrest (fun x hx => hws x (List.mem_cons_of_mem _ hx)) hc,
      advance_advance]
    simp [Nat.add_comm]

theorem match_ret (x : Option Parser) (k : Parser → Option Parser) :
    (match x.map SwitchExit.ret with
      | none => none
      | some (SwitchExit.ret q) => some q
      | some (SwitchExit.brk q) => k q) = x := by
  cases x <;> rfl

/-- The closing parenthesis of an interpolation: the token loop goes on
reading the string. -/
theorem lexToken_rparen (libc : Libc) (f : Nat) (p : Parser) (r : List Nat)
    (hsrc : p.rest = 41 :: r) (hn : 0 < p.numParens) (hlen : p.numParens ≤ p.parens.length)
    (htop : p.parens.getD (p.numParens - 1) 0 = 1) :
    ∃ p', lexToken libc (f + 1) p = readString f p' ∧ p'.rest = r ∧
      p'.tokenStart = p.currentChar ∧ p'.currentChar = p.currentChar + 1 ∧
      p'.currentLine = p.currentLine ∧ p'.numParens = p.numParens - 1 ∧
      p'.parens.length = p.parens.length ∧ p'.source = p.source := by
  have hg : (p.parens.set (p.numParens - 1) (p.parens.getD (p.numParens - 1) 0 - 1)).getD
      (p.numParens - 1) 0 = 0 := by
    rw [htop]
    simp [List.getD_eq_getElem?_getD, show p.numParens - 1 < p.parens.length by omega]
  have key : lexToken libc (f + 1) p = readString f
      { p with
        tokenStart := p.currentChar
        currentChar := p.currentChar + 1
        parens := p.parens.set (p.numParens - 1) (p.parens.getD (p.numParens - 1) 0 - 1)
        numParens := p.numParens - 1 } := by
    rw [lexToken_cons0 libc f hsrc (by decide) (by decide), lexSwitch, if_neg (by decide),
      if_pos rfl]
    dsimp only
    rw [if_pos hn, if_pos hg]
    exact match_ret _ _
  refine ⟨_, key, ?_, rfl, rfl, rfl, rfl, ?_, rfl⟩
  · have := advance_rest p [41] r 0 hsrc
    simpa [Parser.rest, Parser.advance] using this
  · simp

theorem lexSwitch_space (libc : Libc) (f : Nat) (p : Parser) {c : Nat} (h : isSpace c = true) :
    lexSwitch libc f p c =
      (skipWhile (fun c => c = 32 || c = 13 || c = 9) f p).map SwitchExit.brk := by
  rcases isSpace_cases h with h | h | h <;> subst h <;> simp [lexSwitch]

/-- The end of an interpolated expression: blanks and the closing
parenthesis, after which the token loop goes on reading the string. -/
theorem lexToken_close (libc : Libc) (f : Nat) (p : Parser) (ws r : List Nat)
    (hsrc : p.rest = ws ++ 41 :: r) (hws : ∀ x ∈ ws, isSpace x = true)
    (hn : 0 < p.numParens) (hlen : p.numParens ≤ p.parens.length)
    (htop : p.parens.getD (p.numParens - 1) 0 = 1) (hf : ws.length + 2 ≤ f) :
    ∃ f' p', lexToken libc f p = readString f' p' ∧ f ≤ f' + 2 ∧ p'.rest = r ∧
      p'.tokenStart = p.currentChar + ws.length ∧
      p'.currentChar = p.currentChar + ws.length + 1 ∧
      p'.currentLine = p.currentLine ∧ p'.numParens = p.numParens - 1 ∧
      p'.parens.length = p.parens.length ∧ p'.source = p.source := by
  cases ws with
  | nil =>
    obtain ⟨k, rfl⟩ : ∃ k, f = k + 1 := ⟨f - 1, by simp at hf; omega⟩
    obtain ⟨p', h1, h2, h3, h4, h5, h6, h7, h8⟩ := lexToken_rparen libc k p r hsrc hn hlen htop
    exact ⟨k, p', h1, by omega, h2, h3, h4, h5, h6, h7, h8⟩
  | cons w ws =>
    obtain ⟨k, rfl⟩ : ∃ k, f = (ws.length + 1 + k) + 1 + 1 := ⟨f - ws.length - 3, by
      simp at hf; omega⟩
    have hw := hws w (List.mem_cons_self _ _)
    have h10 : w ≠ 10 := by rcases isSpace_cases hw with h | h | h <;> omega
    have h0 : w ≠ 0 := by rcases isSpace_cases hw with h | h | h <;> omega
    have hsrc1 : ({ p with tokenStart := p.currentChar, currentChar := p.currentChar + 1 } :
        Parser).rest = ws ++ 41 :: r := by
      have := advance_rest p [w] (ws ++ 41 :: r) 0 hsrc
      simpa [Parser.rest, Parser.advance] using this
    rw [lexToken_cons0 libc _ hsrc h0 h10, lexSwitch_space libc _ _ hw,
      show ws.length + 1 + k + 1 = ws.length + 1 + (k + 1) by omega,
      skipWhile_spaces ws (k + 1) _ 41 r hsrc1 (fun x hx => hws x (List.mem_cons_of_mem _ hx))
        (by decide)]
    dsimp only [Option.map_some']
    have hsrc2 := advance_rest _ ws (41 :: r) 0 hsrc1
    obtain ⟨p', h1, h2, h3, h4, h5, h6, h7, h8⟩ :=
      lexToken_rparen libc (ws.length + k + 1) _ r hsrc2 hn hlen htop
    refine ⟨ws.length + k + 1, p', ?_, by omega, h2, ?_, ?_, by rw [h5]; simp [Parser.advance],
      by rw [h6]; rfl, by rw [h7]; rfl, by rw [h8]; rfl⟩
    · rw [← h1]; congr 1; omega
    · rw [h3]; simp [Parser.advance]; omega
    · rw [h4]; simp [Parser.advance]; omega

/-! ### An interpolated string -/

theorem wrenNextTokens_append (libc : Libc) (f : Nat) :
    ∀ (m n : Nat) (p q1 q2 : Parser) (ts1 ts2 : List Token),
      wrenNextTokens libc f m p = some (ts1, q1) → wrenNextTokens libc f n q1 = some (ts2, q2) →
      wrenNextTokens libc f (m + n) p = some (ts1 ++ ts2, q2)
  | 0, n, p, q1, q2, ts1, ts2, h1, h2 => by
    simp only [wrenNextTokens, Option.some.injEq, Prod.mk.injEq] at h1
    obtain ⟨rfl, rfl⟩ := h1
    simpa using h2
  | m + 1, n, p, q1, q2, ts1, ts2, h1, h2 => by
    simp only [wrenNextTokens, Option.bind_eq_some, Option.map_eq_some'] at h1
    obtain ⟨p1, hp1, ⟨r1, r2⟩, hr, he⟩ := h1
    simp only [Prod.mk.injEq] at he
    obtain ⟨rfl, rfl⟩ := he
    have ih := wrenNextTokens_append libc f m n p1 _ q2 r1 ts2 hr h2
    rw [show m + 1 + n = (m + n) + 1 by omega]
    simp only [wrenNextTokens, Option.bind_eq_some, Option.map_eq_some']
    exact ⟨p1, hp1, (r1 ++ ts2, q2), ih, rfl⟩

theorem rest_embedded (pre e post : List Nat) (k : Nat) (hk : k ≤ e.length) :
    (pre ++ e ++ 41 :: post).drop (pre.length + k) = e.drop k ++ 41 :: post := by
  rw [List.append_assoc, List.drop_append, List.drop_append_of_le_length hk]

theorem mem_drop_space {e : List Nat} {k : Nat} (h : allSpace e k e.length = true) :
    ∀ x ∈ e.drop k, isSpace x = true := by
  intro x hx
  obtain ⟨i, hi, rfl⟩ := List.getElem_of_mem hx
  simp only [List.length_drop] at hi
  rw [List.getElem_drop]
  have := (allSpace_iff e k e.length).1 h (k + i) (by omega) (by omega)
  rwa [charAt, List.getD_eq_getElem?_getD, List.getElem?_eq_getElem (by omega)] at this

theorem sectionText_length_pos (pieces : List Piece) (last : List StrItem) :
    (bodyText last).length + 1 ≤ (sectionText pieces last).length := by
  induction pieces with
  | nil => simp [sectionText]
  | cons pc rest ih => simp only [sectionText, List.length_append, List.length_cons]; omega

/-- The sections and expressions of a string after its opening quote, or
after the closing parenthesis of an interpolation. -/
theorem sections_run (libc : Libc) (f : Nat) (last : List StrItem) (tail : List Nat)
    (hlast : ∀ it ∈ last, it.ok = true) :
    ∀ (pieces : List Piece) (p : Parser) (f' : Nat),
      p.rest = sectionText pieces last ++ tail →
      p.numParens = 0 → p.parens.length = MAX_INTERPOLATION_NESTING →
      p.currentChar = p.tokenStart + 1 → 1 ≤ p.currentLine →
      (∀ pc ∈ pieces, (∀ it ∈ pc.s, it.ok = true) ∧ IsTokenSeq libc f pc.e pc.ts) →
      (sectionText pieces last).length + 2 ≤ f → f ≤ f' + 2 →
      ∃ p1 ts q, readString f' p = some p1 ∧
        wrenNextTokens libc f ts.length p1 = some (ts, q) ∧
        (p1.next :: ts).map Token.view = expectedViews p.tokenStart p.currentLine pieces last ∧
        q.numParens = 0
  | [], p, f', hsrc, hnum, _, hcc, _, _, hf, hf' => by
    simp only [sectionText, List.append_assoc, List.singleton_append] at hsrc hf
    have hbl := bodyText_length last
    obtain ⟨q, hq, hv, hn⟩ := readString_last f' p last tail hsrc hlast
      (by simp only [List.length_append, List.length_singleton] at hf; omega)
    refine ⟨q, [], q, hq, rfl, ?_, by rw [hn, hnum]⟩
    simp only [List.map_cons, List.map_nil, hv, expectedViews, List.cons.injEq, and_true,
      TokenView.mk.injEq, true_and]
    rw [hcc]; push_cast; ring
  | pc :: rest, p, f', hsrc, hnum, hplen, hcc, hline, hpieces, hf, hf' => by
    obtain ⟨hs, h0, hrunA, htypes, htiles, hbal⟩ := hpieces pc (List.mem_cons_self _ _)
    have hrestlen := sectionText_length_pos rest last
    simp only [sectionText, List.length_append, List.length_cons] at hf
    have hbl := bodyText_length pc.s
    have hsrc1 : p.rest =
        bodyText pc.s ++ 37 :: 40 :: (pc.e ++ 41 :: (sectionText rest last ++ tail)) := by
      rw [hsrc]; simp [sectionText]
    obtain ⟨p1, hp1, hv1, hsrc_eq, hcc1, hline1, hnum1, hpar1, hrest1⟩ :=
      readString_section f' p pc.s _ hsrc1 hs (by rw [hnum]; decide) (by omega)
    -- the frame of the expression
    have hdrop : p.source.drop p1.currentChar = pc.e ++ 41 :: (sectionText rest last ++ tail) := by
      rw [← hsrc_eq]; exact hrest1
    have hlen1 : p1.currentChar < p.source.length := by
      by_contra hge
      rw [List.drop_eq_nil_of_le (by omega)] at hdrop
      exact absurd hdrop (by simp)
    have hsplit : p1.source = p.source.take p1.currentChar ++ pc.e ++
        41 :: (sectionText rest last ++ tail) := by
      rw [List.append_assoc, ← hdrop, List.take_append_drop, hsrc_eq]
    have hprelen : (p.source.take p1.currentChar).length = p1.currentChar := by
      rw [List.length_take]; omega
    have hA : ∃ qa, wrenNextTokens libc f pc.ts.length (startParser pc.e) = some (pc.ts, qa) := by
      cases hr : wrenNextTokens libc f pc.ts.length (startParser pc.e) with
      | none => rw [hr] at hrunA; cases hrunA
      | some r =>
        rw [hr] at hrunA
        simp only [Option.map_some', Option.some.injEq] at hrunA
        exact ⟨r.2, by rw [← hrunA]⟩
    obtain ⟨qa, hqa⟩ := hA
    have hpar0 : p1.parens.getD 0 0 = 1 := by
      rw [hpar1, hnum]
      simp [List.getD_eq_getElem?_getD, hplen, MAX_INTERPOLATION_NESTING]
    have hplen1 : p1.parens.length = MAX_INTERPOLATION_NESTING := by
      rw [hpar1]; simpa using hplen
    have hemb : Embedded
        ⟨p.source.take p1.currentChar, pc.e, sectionText rest last ++ tail, p1.currentLine - 1, 1,
          p1.parens⟩
        { (startParser pc.e) with tokenStart := (startParser pc.e).currentChar }
        { p1 with tokenStart := p1.currentChar } := by
      refine ⟨rfl, hsplit, h0, ?_, ?_, ?_, Nat.zero_le _, le_refl _, le_refl _, ?_, rfl, ?_, rfl⟩
      · show p1.currentChar = (p.source.take p1.currentChar).length + 0
        rw [hprelen]; rfl
      · show p1.currentChar = (p.source.take p1.currentChar).length + 0
        rw [hprelen]; rfl
      · show p1.currentLine = 1 + (p1.currentLine - 1)
        ring
      · show (0 : Int) ≤ p1.currentLine - 1
        rw [hline1]; omega
      · show p1.numParens = 1
        rw [hnum1, hnum]
    have hty1 : p1.next.type = TOKEN_INTERPOLATION := by
      have := congrArg TokenView.type hv1
      exact this
    obtain ⟨tsb, qb, F', hrunB, hviews, hemb', hpre, hee, hpost, hdl, hnp, hpl, hpt, hsp, hqbne,
        hqaline⟩ :=
      tokens_sim libc f pc.ts _ (startParser pc.e) p1 qa 0 hemb Nat.one_pos
        (by show 1 ≤ p1.parens.length; rw [hplen1]; decide)
        (by show p1.parens.getD (1 - 1) 0 = 1 + ((0 : Nat) : Int); rw [hpar0]; rfl)
        (by show TOKEN_ERROR ≠ TOKEN_EOF; decide) (by rw [hty1]; decide) hqa htypes htiles hbal
    -- the state at the closing parenthesis
    obtain ⟨ea, eb, -, ecc, -, eline, ele, -, e1, edl, -, enum, epar⟩ := hemb'
    simp only [hpre, hee, hpost, hdl, hnp] at ea eb ecc eline ele edl enum hpl hpt
    have ecc' : qb.currentChar = p1.currentChar + qa.currentChar := by
      rw [← hprelen]; exact ecc
    have hqbrest : qb.rest = pc.e.drop qa.currentChar ++ 41 :: (sectionText rest last ++ tail) := by
      have eb' : qb.source = p.source.take p1.currentChar ++ pc.e ++
          41 :: (sectionText rest last ++ tail) := eb
      have ecc2 : qb.currentChar = (p.source.take p1.currentChar).length + qa.currentChar := ecc
      rw [Parser.rest, eb', ecc2]
      exact rest_embedded _ _ _ _ ele
    have hqbnum : qb.numParens = 1 := enum
    have hqbpar : qb.parens.getD (qb.numParens - 1) 0 = 1 := by
      have : qb.parens = F'.parens := epar
      rw [hqbnum, this]; exact hpt
    have hqblen : qb.numParens ≤ qb.parens.length := by
      have : qb.parens = F'.parens := epar
      rw [hqbnum, this, hpl]
      show 1 ≤ p1.parens.length
      rw [hplen1]; decide
    have hwslen : (pc.e.drop qa.currentChar).length ≤ pc.e.length := by
      rw [List.length_drop]; omega
    obtain ⟨f2, p2, hclose, hf2, hr2, hts2, hcc2, hline2, hnum2, hplen2, hsrc2⟩ :=
      lexToken_close libc f { qb with previous := qb.current, current := qb.next }
        (pc.e.drop qa.currentChar) (sectionText rest last ++ tail) hqbrest (mem_drop_space hsp)
        (by show 0 < qb.numParens; rw [hqbnum]; decide) hqblen hqbpar (by omega)
    have hqbline : qb.currentLine = qa.currentLine + (p1.currentLine - 1) := eline
    have hqa1 : (1 : Int) ≤ qa.currentLine := e1
    have hdl0 : (0 : Int) ≤ p1.currentLine - 1 := edl
    obtain ⟨p3, ts3, q, hp3, hrun3, hviews3, hq⟩ :=
      sections_run libc f last tail hlast rest p2 f2 hr2
        (by rw [hnum2]; show qb.numParens - 1 = 0; rw [hqbnum])
        (by
          rw [hplen2]
          have : qb.parens = F'.parens := epar
          show qb.parens.length = _
          rw [this, hpl]; exact hplen1)
        (by rw [hcc2, hts2])
        (by rw [hline2]; show 1 ≤ qb.currentLine; omega)
        (fun x hx => hpieces x (List.mem_cons_of_mem _ hx))
        (by omega) hf2
    have hstep : wrenNextTokens libc f (ts3.length + 1) qb = some (p3.next :: ts3, q) := by
      simp only [wrenNextTokens, Option.bind_eq_some, Option.map_eq_some']
      refine ⟨p3, ?_, (ts3, q), hrun3, rfl⟩
      rw [wrenNextToken_lex libc f qb hqbne, hclose, hp3]
    have hlenB : tsb.length = pc.ts.length := by
      have := congrArg List.length hviews
      simpa using this
    refine ⟨p1, tsb ++ p3.next :: ts3, q, hp1, ?_, ?_, hq⟩
    · have := wrenNextTokens_append libc f pc.ts.length (ts3.length + 1) p1 qb q tsb
        (p3.next :: ts3) hrunB hstep
      rw [List.length_append, List.length_cons, hlenB]
      exact this
    · have hstart : p2.tokenStart =
          p.tokenStart + (bodyText pc.s).length + 3 + pc.e.length := by
        rw [hts2]
        show qb.currentChar + (pc.e.drop qa.currentChar).length = _
        rw [List.length_drop, ecc', hcc1, hcc]; omega
      have hl2 : p2.currentLine =
          p.currentLine + (newlines (bodyText pc.s) : Nat) + (endLine pc.ts - 1) := by
        rw [hline2]
        show qb.currentLine = _
        rw [hqbline, hline1]
        have : qa.currentLine = endLine pc.ts := by
          rw [hqaline]; rfl
        rw [this]; ring
      rw [hstart, hl2] at hviews3
      simp only [List.map_cons, List.map_append, expectedViews, List.cons.injEq]
      refine ⟨?_, ?_⟩
      · rw [hv1]
        simp only [TokenView.mk.injEq, true_and, and_true]
        rw [hcc]; push_cast; ring
      · rw [hviews, ← List.map_cons, hviews3]
        congr 1
        apply List.map_congr_left
        intro t _
        show t.view.shift (p.source.take p1.currentChar).length (p1.currentLine - 1) = _
        rw [hprelen, hcc1, hcc, hline1]
        congr 1
        omega

theorem sectionText_not_raw (pieces : List Piece) (last : List StrItem) (tail : List Nat)
    (hpieces : ∀ pc ∈ pieces, ∀ it ∈ pc.s, it.ok = true)
    (hlast : ∀ it ∈ last, it.ok = true)
    (hraw : pieces = [] → last = [] → tail.head? ≠ some 34) :
    ∀ t, sectionText pieces last ++ tail ≠ 34 :: 34 :: t := by
  intro t h
  cases pieces with
  | nil =>
    cases last with
    | nil =>
      simp only [sectionText, bodyText, List.flatMap_nil, List.nil_append,
        List.singleton_append, List.cons.injEq, true_and] at h
      exact hraw rfl rfl (by rw [h]; rfl)
    | cons it l =>
      obtain ⟨c, r, hb, hc, -⟩ := bodyText_head (it :: l) hlast (List.cons_ne_nil _ _)
      simp only [sectionText, hb, List.cons_append, List.cons.injEq] at h
      exact hc h.1
  | cons pc rest =>
    have hok := hpieces pc (List.mem_cons_self _ _)
    cases hs : pc.s with
    | nil =>
      simp only [sectionText, hs, bodyText, List.flatMap_nil, List.nil_append, List.cons_append,
        List.cons.injEq] at h
      exact absurd h.1 (by decide)
    | cons it l =>
      rw [hs] at hok
      obtain ⟨c, r, hb, hc, -⟩ := bodyText_head (it :: l) hok (List.cons_ne_nil _ _)
      simp only [sectionText, hs, hb, List.cons_append, List.cons.injEq] at h
      exact hc h.1

/-- C1: a string literal `"s0 %(e1) s1 ... %(en) sn"` whose sections `si` are
made of plain characters and escapes and whose expressions `ei` are token
sequences with balanced parentheses and no string literal (`IsTokenSeq`),
read outside any interpolation, is lexed by successive calls of
`wrenNextToken` as: for each `i < n` a TOKEN_INTERPOLATION whose value is the
bytes of `si`, followed by the tokens of `e(i+1)` (the tokens that lexing the
expression on its own gives, moved to where the expression stands in the
source); and at the end a TOKEN_STRING whose value is the bytes of `sn`.
After the closing quote `numParens` is 0 again. -/
theorem interpolation_tokens (libc : Libc) (p : Parser) (pieces : List Piece)
    (last : List StrItem) (tail : List Nat) (fuel : Nat)
    (hne : p.next.type ≠ TOKEN_EOF)
    (hnum : p.numParens = 0)
    (hlen : p.parens.length = MAX_INTERPOLATION_NESTING)
    (hline : 1 ≤ p.currentLine)
    (hsrc : p.rest = 34 :: sectionText pieces last ++ tail)
    (hpieces : ∀ pc ∈ pieces, (∀ it ∈ pc.s, it.ok = true) ∧ IsTokenSeq libc fuel pc.e pc.ts)
    (hlast : ∀ it ∈ last, it.ok = true)
    (hraw : pieces = [] → last = [] → tail.head? ≠ some 34)
    (hfuel : (sectionText pieces last).length + 2 ≤ fuel) :
    ∃ ts q,
      wrenNextTokens libc fuel (expectedViews p.currentChar p.currentLine pieces last).length p =
        some (ts, q) ∧
      ts.map Token.view = expectedViews p.currentChar p.currentLine pieces last ∧
      q.numParens = 0 := by
  obtain ⟨k, rfl⟩ : ∃ k, fuel = k + 1 := ⟨fuel - 1, by omega⟩
  have hsrc0 : ({ p with previous := p.current, current := p.next } : Parser).rest =
      34 :: (sectionText pieces last ++ tail) := by
    rw [← List.cons_append]; exact hsrc
  have hq := lexToken_quote libc k _ _ hsrc0
    (sectionText_not_raw pieces last tail (fun pc hpc => (hpieces pc hpc).1) hlast hraw)
  have hrest := advance_rest
    ({ ({ p with previous := p.current, current := p.next } : Parser) with
      tokenStart := p.currentChar }) [34] (sectionText pieces last ++ tail) 0 hsrc0
  obtain ⟨p1, ts, q, hp1, hrun, hviews, hqn⟩ :=
    sections_run libc (k + 1) last tail hlast pieces _ k hrest hnum hlen rfl
      (by simpa [Parser.advance] using hline) hpieces hfuel (by omega)
  have hv : (p1.next :: ts).map Token.view = expectedViews p.currentChar p.currentLine pieces last := by
    rw [hviews]
    simp [Parser.advance]
  have hcount : (expectedViews p.currentChar p.currentLine pieces last).length = ts.length + 1 := by
    rw [← hv]; simp
  refine ⟨p1.next :: ts, q, ?_, hv, hqn⟩
  rw [hcount]
  simp only [wrenNextTokens, Option.bind_eq_some, Option.map_eq_some']
  refine ⟨p1, ?_, (ts, q), hrun, rfl⟩
  rw [wrenNextToken_lex libc _ p hne, hq]
  exact hp1

/-- Witness for C1: the string literal `"a %(b) c %(d) e"` is lexed as
INTERPOLATION `a `, NAME `b`, INTERPOLATION ` c `, NAME `d`, STRING ` e`, and
`numParens` is 0 afterwards. -/
theorem interpolation_tokens_witness :
    (startParser (ascii "\"a %(b) c %(d) e\"")).rest =
      34 :: sectionText examplePieces ((ascii " e").map StrItem.plain) ++ [] ∧
    (∀ pc ∈ examplePieces,
      (∀ it ∈ pc.s, it.ok = true) ∧ IsTokenSeq exampleLibc 20 pc.e pc.ts) ∧
    (∃ ts q,
      wrenNextTokens exampleLibc 20 5 (startParser (ascii "\"a %(b) c %(d) e\"")) =
        some (ts, q) ∧
      ts.map Token.view =
        [ ⟨TOKEN_INTERPOLATION, 0, 5, 1, some (Value.OBJ_STRING (ascii "a "))⟩,
          ⟨TOKEN_NAME, 5, 1, 1, some (Value.OBJ_STRING (ascii "b"))⟩,
          ⟨TOKEN_INTERPOLATION, 6, 6, 1, some (Value.OBJ_STRING (ascii " c "))⟩,
          ⟨TOKEN_NAME, 12, 1, 1, some (Value.OBJ_STRING (ascii "d"))⟩,
          ⟨TOKEN_STRING, 13, 4, 1, some (Value.OBJ_STRING (ascii " e"))⟩ ] ∧
      q.numParens = 0) := by
  have hp : ∀ pc ∈ examplePieces,
      (∀ it ∈ pc.s, it.ok = true) ∧ IsTokenSeq exampleLibc 20 pc.e pc.ts := by
    intro pc hpc
    simp only [examplePieces, List.mem_cons, List.mem_nil_iff, or_false] at hpc
    rcases hpc with rfl | rfl
    · exact ⟨by decide, by decide, by decide, by decide, by decide, by decide⟩
    · exact ⟨by decide, by decide, by decide, by decide, by decide, by decide⟩
  exact ⟨by decide, hp,
    interpolation_tokens exampleLibc (startParser (ascii "\"a %(b) c %(d) e\"")) examplePieces
      ((ascii " e").map StrItem.plain) [] 20 (by decide) (by decide) (by decide) (by decide)
      (by decide) hp (by decide) (fun _ h => absurd h (by decide)) (by decide)⟩

/-! ## What the lexer leaves unchanged -/

theorem Kept.same (p : Parser) : Kept p p :=
  ⟨rfl, rfl, rfl, rfl, rfl, rfl, id, ⟨[], by simp⟩, rfl, le_refl _⟩

theorem Kept.next {p q r : Parser} (h1 : Kept p q) (h2 : Kept q r) : Kept p r := by
  obtain ⟨a1, a2, a3, a4, a5, a6, a7, ⟨l1, a8⟩, a9, a10⟩ := h1
  obtain ⟨b1, b2, b3, b4, b5, b6, b7, ⟨l2, b8⟩, b9, b10⟩ := h2
  exact ⟨b1.trans a1, b2.trans a2, b3.trans a3, b4.trans a4, b5.trans a5, b6.trans a6,
    fun h => b7 (a7 h), ⟨l1 ++ l2, by rw [b8, a8, List.append_assoc]⟩, b9.trans a9,
    le_trans a10 b10⟩

theorem kept_nextChar (p : Parser) : Kept p (nextChar p).2 := by
  refine ⟨rfl, rfl, rfl, rfl, rfl, rfl, id, ⟨[], by simp [nextChar]⟩, rfl, ?_⟩
  show p.currentLine ≤ (if peekChar p = 10 then p.currentLine + 1 else p.currentLine)
  split_ifs <;> omega

theorem kept_unreadChar (p : Parser) : Kept p (unreadChar p) :=
  ⟨rfl, rfl, rfl, rfl, rfl, rfl, id, ⟨[], by simp [unreadChar]⟩, rfl, le_refl _⟩

theorem kept_matchChar (p : Parser) (c : Nat) : Kept p (matchChar p c).2 := by
  unfold matchChar
  split_ifs
  · exact Kept.same p
  · exact kept_nextChar p

theorem kept_makeToken (p : Parser) (T : TokenType) : Kept p (makeToken p T) :=
  ⟨rfl, rfl, rfl, rfl, rfl, rfl, id, ⟨[], by simp [makeToken]⟩, rfl, le_refl _⟩

theorem kept_setNext (p : Parser) (t : Token) : Kept p { p with next := t } :=
  ⟨rfl, rfl, rfl, rfl, rfl, rfl, id, ⟨[], by simp⟩, rfl, le_refl _⟩

theorem kept_setParens (p : Parser) (i : Nat) (v : Int) (n : Nat) :
    Kept p { p with parens := p.parens.set i v, numParens := n } :=
  ⟨rfl, rfl, rfl, rfl, rfl, rfl, id, ⟨[], by simp⟩, by simp, le_refl _⟩

theorem kept_wrenPrintError (p : Parser) (line : Int) (label text : String) :
    Kept p (wrenPrintError p line label text) := by
  unfold wrenPrintError
  dsimp only
  split_ifs
  · exact ⟨rfl, rfl, rfl, rfl, rfl, rfl, fun _ => rfl, ⟨[], by simp⟩, rfl, le_refl _⟩
  · exact ⟨rfl, rfl, rfl, rfl, rfl, rfl, fun _ => rfl, ⟨[], by simp⟩, rfl, le_refl _⟩
  · exact ⟨rfl, rfl, rfl, rfl, rfl, rfl, fun _ => rfl, ⟨_, rfl⟩, rfl, le_refl _⟩

theorem kept_lexError (p : Parser) (m : String) : Kept p (lexError p m) :=
  kept_wrenPrintError p _ _ _

theorem skipWhile_kept (cond : Nat → Bool) :
    ∀ (f : Nat) (p q : Parser), skipWhile cond f p = some q → Kept p q
  | 0, _, _, h => by simp [skipWhile] at h
  | f + 1, p, q, h => by
    rw [skipWhile] at h
    split_ifs at h with hc
    · exact (kept_nextChar p).next (skipWhile_kept cond f _ _ h)
    · cases h; exact Kept.same p

theorem skipBlockCommentLoop_kept :
    ∀ (f : Nat) (p q : Parser) (n : Int), skipBlockCommentLoop f p n = some q → Kept p q
  | 0, _, _, _, h => by simp [skipBlockCommentLoop] at h
  | f + 1, p, q, n, h => by
    rw [skipBlockCommentLoop] at h
    split_ifs at h
    · cases h; exact kept_lexError p _
    · exact ((kept_nextChar p).next (kept_nextChar _)).next
        (skipBlockCommentLoop_kept f _ _ _ h)
    · exact ((kept_nextChar p).next (kept_nextChar _)).next
        (skipBlockCommentLoop_kept f _ _ _ h)
    · exact (kept_nextChar p).next (skipBlockCommentLoop_kept f _ _ _ h)
    · cases h; exact Kept.same p

theorem readHexDigit_kept (p : Parser) : Kept p (readHexDigit p).2 := by
  simp only [readHexDigit]
  split_ifs
  · exact kept_nextChar p
  · exact kept_nextChar p
  · exact kept_nextChar p
  · exact (kept_nextChar p).next (kept_unreadChar _)

theorem readHexDigits_kept :
    ∀ (f : Nat) (p q : Parser), readHexDigits f p = some q → Kept p q
  | 0, _, _, h => by simp [readHexDigits] at h
  | f + 1, p, q, h => by
    rw [readHexDigits] at h
    split_ifs at h with hc
    · exact (readHexDigit_kept p).next (readHexDigits_kept f _ _ h)
    · cases h; exact readHexDigit_kept p

theorem readNameLoop_kept :
    ∀ (f : Nat) (p q : Parser) (s t : List Nat), readNameLoop f p s = some (q, t) → Kept p q
  | 0, _, _, _, _, h => by simp [readNameLoop] at h
  | f + 1, p, q, s, t, h => by
    rw [readNameLoop] at h
    split_ifs at h with hc
    · exact (kept_nextChar p).next (readNameLoop_kept f _ _ _ _ h)
    · cases h; exact Kept.same p

theorem readName_kept {f : Nat} {p q : Parser} {T : TokenType} {c : Nat}
    (h : readName f p T c = some q) : Kept p q := by
  simp only [readName, Option.map_eq_some'] at h
  obtain ⟨⟨p1, s1⟩, h1, rfl⟩ := h
  exact ((readNameLoop_kept f _ _ _ _ h1).next (kept_setNext p1 _)).next (kept_makeToken _ _)

theorem makeNumber_kept (libc : Libc) (p : Parser) (isHex : Bool) :
    Kept p (makeNumber libc p isHex) := by
  simp only [makeNumber]
  split_ifs
  all_goals first
    | exact (((kept_setNext p _).next (kept_lexError _ _)).next (kept_setNext _ _)).next
        (kept_makeToken _ _)
    | exact (kept_setNext p _).next (kept_makeToken _ _)

theorem readHexNumber_kept {libc : Libc} {f : Nat} {p q : Parser}
    (h : readHexNumber libc f p = some q) : Kept p q := by
  simp only [readHexNumber, Option.map_eq_some'] at h
  obtain ⟨p1, h1, rfl⟩ := h
  exact ((kept_nextChar p).next (readHexDigits_kept f _ _ h1)).next (makeNumber_kept libc p1 true)

theorem exponent_kept {f : Nat} {p q : Parser}
    (hr : (let m1 := matchChar p 101
      let m2 := if m1.1 then m1 else matchChar m1.2 69
      if m2.1 then
        let m3 := matchChar m2.2 43
        let parser := if !m3.1 then (matchChar m3.2 45).2 else m3.2
        let parser :=
          if !isDigit (peekChar parser) then lexError parser "Unterminated scientific notation."
          else parser
        skipWhile isDigit f parser
      else some m2.2) = some q) : Kept p q := by
  dsimp only at hr
  have o1 := kept_matchChar p 101
  have o2 : Kept p (if (matchChar p 101).1 then matchChar p 101
      else matchChar (matchChar p 101).2 69).2 := by
    split_ifs
    · exact o1
    · exact o1.next (kept_matchChar _ 69)
  generalize (if (matchChar p 101).1 then matchChar p 101
    else matchChar (matchChar p 101).2 69) = m at hr o2
  by_cases hm : m.1 = true
  · rw [if_pos hm] at hr
    have o3 := o2.next (kept_matchChar m.2 43)
    have o4 : Kept p (if !(matchChar m.2 43).1 then (matchChar (matchChar m.2 43).2 45).2
        else (matchChar m.2 43).2) := by
      split_ifs
      · exact o3.next (kept_matchChar _ 45)
      · exact o3
    generalize (if !(matchChar m.2 43).1 then (matchChar (matchChar m.2 43).2 45).2
      else (matchChar m.2 43).2) = x at hr o4
    have o5 : Kept p
        (if !isDigit (peekChar x) then lexError x "Unterminated scientific notation." else x) := by
      split_ifs
      · exact o4.next (kept_lexError _ _)
      · exact o4
    exact o5.next (skipWhile_kept _ f _ _ hr)
  · rw [if_neg hm] at hr
    cases hr; exact o2

theorem readNumber_kept {libc : Libc} {f : Nat} {p q : Parser}
    (h : readNumber libc f p = some q) : Kept p q := by
  simp only [readNumber, Option.bind_eq_some, Option.map_eq_some'] at h
  obtain ⟨p1, h1, p2, h2, p3, h3, rfl⟩ := h
  have o1 := skipWhile_kept _ f _ _ h1
  have o2 : Kept p1 p2 := by
    split_ifs at h2
    · exact (kept_nextChar p1).next (skipWhile_kept _ f _ _ h2)
    · cases h2; exact Kept.same _
  exact ((o1.next o2).next (exponent_kept h3)).next (makeNumber_kept libc p3 false)

theorem readHexEscape_kept (n : Nat) :
    ∀ (p : Parser) (v : Nat) (d : String), Kept p (readHexEscape n p v d).2 := by
  induction n with
  | zero => intro p v d; exact Kept.same p
  | succ n ih =>
    intro p v d
    simp only [readHexEscape]
    split_ifs
    · exact (kept_lexError p _).next (kept_unreadChar _)
    · exact (readHexDigit_kept p).next (kept_lexError _ _)
    · exact (readHexDigit_kept p).next (ih _ _ _)

theorem readEscape_kept (p : Parser) (s : List Nat) (c : Nat) : Kept p (readEscape p s c).1 := by
  apply readEscape_elim (fun r => Kept p r.1)
  · intro b; exact Kept.same p
  · intro n; exact readHexEscape_kept n p 0 _
  · exact readHexEscape_kept 2 p 0 _
  · intro m; exact kept_lexError p m

theorem readStringStep_kept (p : Parser) (s : List Nat) :
    Kept p (readStringStep p s).parser := by
  have k1 := kept_nextChar p
  have k2 := k1.next (kept_nextChar (nextChar p).2)
  simp only [readStringStep]
  split_ifs
  all_goals
    show Kept p _
    first
      | exact k1
      | exact k2.next (kept_setParens _ _ _ _)
      | exact (k1.next (kept_lexError _ _)).next (kept_unreadChar _)
      | exact (k2.next (kept_lexError _ _)).next (kept_setParens _ _ _ _)
      | exact k1.next (kept_lexError _ _)
      | exact k2.next (readEscape_kept _ _ _)
      | exact ((k1.next (kept_lexError _ _)).next (kept_nextChar _)).next (readEscape_kept _ _ _)

theorem readStringLoop_kept :
    ∀ (f : Nat) (p q : Parser) (s s' : List Nat) (t : TokenType),
      readStringLoop f p s = some (q, s', t) → Kept p q
  | 0, _, _, _, _, _, h => by simp [readStringLoop] at h
  | f + 1, p, q, s, s', t, h => by
    rw [readStringLoop] at h
    cases hstep : readStringStep p s with
    | done q1 s1 t1 =>
      rw [hstep] at h
      cases h
      have := readStringStep_kept p s
      rw [hstep] at this
      exact this
    | again q1 s1 =>
      rw [hstep] at h
      have := readStringStep_kept p s
      rw [hstep] at this
      exact this.next (readStringLoop_kept f _ _ _ _ _ h)

theorem readString_kept {f : Nat} {p q : Parser} (h : readString f p = some q) : Kept p q := by
  simp only [readString, Option.map_eq_some'] at h
  obtain ⟨⟨p1, s1, t1⟩, h1, rfl⟩ := h
  exact ((readStringLoop_kept f _ _ _ _ _ h1).next (kept_setNext p1 _)).next (kept_makeToken _ _)

theorem readRawStringLoop_kept :
    ∀ (f : Nat) (p q : Parser) (l l' : RawLocals),
      readRawStringLoop f p l = some (q, l') → Kept p q
  | 0, _, _, _, _, h => by simp [readRawStringLoop] at h
  | f + 1, p, q, l, l', h => by
    rw [readRawStringLoop] at h
    dsimp only at h
    have k1 := kept_nextChar p
    split_ifs at h
    · exact k1.next (readRawStringLoop_kept f _ _ _ _ h)
    all_goals first
      | (cases h; exact k1)
      | (cases h; exact (k1.next (kept_lexError _ _)).next (kept_unreadChar _))
      | exact k1.next (readRawStringLoop_kept f _ _ _ _ h)

theorem readRawString_kept {f : Nat} {p q : Parser} (h : readRawString f p = some q) :
    Kept p q := by
  simp only [readRawString, Option.map_eq_some'] at h
  obtain ⟨⟨p1, l1⟩, h1, rfl⟩ := h
  exact ((((((kept_nextChar p).next (kept_nextChar _)).next
    (readRawStringLoop_kept f _ _ _ _ h1)).next (kept_nextChar _)).next (kept_nextChar _)).next
    (kept_setNext _ _)).next (kept_makeToken _ _)

/-- Case analysis on the `switch` of `wrenNextToken`, as a function of the
parser, with what each case knows of the character. -/
theorem lexSwitch_cases (P : (Parser → Option SwitchExit) → Prop) (libc : Libc) (f : Nat) (c : Nat)
    (hLeft : c = 40 → P (fun p => some (SwitchExit.ret (makeToken
      (if p.numParens > 0 then
        { p with parens := p.parens.set (p.numParens - 1) (p.parens.getD (p.numParens - 1) 0 + 1) }
      else p) TOKEN_LEFT_PAREN))))
    (hRight : c = 41 → P (fun p =>
      if p.numParens > 0 then
        let top := p.parens.getD (p.numParens - 1) 0 - 1
        let parser := { p with parens := p.parens.set (p.numParens - 1) top }
        if parser.parens.getD (parser.numParens - 1) 0 = 0 then
          let parser := { parser with numParens := parser.numParens - 1 }
          (readString f parser).map SwitchExit.ret
        else some (SwitchExit.ret (makeToken parser TOKEN_RIGHT_PAREN))
      else some (SwitchExit.ret (makeToken p TOKEN_RIGHT_PAREN))))
    (hOne : ∀ T : TokenType, T.punct = true → (T = TOKEN_LINE ↔ c = 10) →
      P (fun p => some (SwitchExit.ret (makeToken p T))))
    (hHash : c = 35 → P (fun p =>
      if p.currentLine = 1 ∧ peekChar p = 33 ∧ peekNextChar p = 47 then
        (skipLineComment f p).map SwitchExit.brk
      else some (SwitchExit.ret (makeToken p TOKEN_HASH))))
    (hTwo : ∀ (d : Nat) (two one : TokenType), d ≠ 0 → d ≠ 10 → two.punct = true →
      one.punct = true → two ≠ TOKEN_LINE → one ≠ TOKEN_LINE → c ≠ 10 →
      P (fun p => some (SwitchExit.ret (twoCharToken p d two one))))
    (hDot : c = 46 → P (fun p =>
      let m := matchChar p 46
      if m.1 then some (SwitchExit.ret (twoCharToken m.2 46 TOKEN_DOTDOTDOT TOKEN_DOTDOT))
      else some (SwitchExit.ret (makeToken m.2 TOKEN_DOT))))
    (hSlash : c = 47 → P (fun p =>
      let m := matchChar p 47
      if m.1 then (skipLineComment f m.2).map SwitchExit.brk
      else
        let m := matchChar m.2 42
        if m.1 then (skipBlockComment f m.2).map SwitchExit.brk
        else some (SwitchExit.ret (makeToken m.2 TOKEN_SLASH))))
    (hAngle : ∀ (d : Nat) (T two one : TokenType), d ≠ 0 → d ≠ 10 → T.punct = true →
      two.punct = true → one.punct = true → T ≠ TOKEN_LINE → two ≠ TOKEN_LINE →
      one ≠ TOKEN_LINE → c ≠ 10 → P (fun p =>
      let m := matchChar p d
      if m.1 then some (SwitchExit.ret (makeToken m.2 T))
      else some (SwitchExit.ret (twoCharToken m.2 61 two one))))
    (hSpace : (c = 32 ∨ c = 13 ∨ c = 9) → P (fun p =>
      (skipWhile (fun c => c = 32 || c = 13 || c = 9) f p).map SwitchExit.brk))
    (hQuote : c = 34 → P (fun p =>
      if peekChar p = 34 ∧ peekNextChar p = 34 then (readRawString f p).map SwitchExit.ret
      else (readString f p).map SwitchExit.ret))
    (hField : c = 95 → P (fun p =>
      (readName f p (if peekChar p = 95 then TOKEN_STATIC_FIELD else TOKEN_FIELD) c).map
        SwitchExit.ret))
    (hZero : c = 48 → P (fun p =>
      if peekChar p = 120 then (readHexNumber libc f p).map SwitchExit.ret
      else (readNumber libc f p).map SwitchExit.ret))
    (hName : isName c = true → P (fun p => (readName f p TOKEN_NAME c).map SwitchExit.ret))
    (hDigit : isDigit c = true → c ≠ 48 →
      P (fun p => (readNumber libc f p).map SwitchExit.ret))
    (hOther : c ≠ 10 → ∀ m : String, P (fun p => some (SwitchExit.ret
      { lexError p m with
        next := { (lexError p m).next with type := TOKEN_ERROR, length := 0 } }))) :
    P (fun p => lexSwitch libc f p c) := by
  unfold lexSwitch
  refine ite_elim_fun P _ _ _ (fun h => hLeft h) (fun _ => ?_)
  refine ite_elim_fun P _ _ _ (fun h => hRight h) (fun _ => ?_)
  iterate 8 refine ite_elim_fun P _ _ _ (fun h => hOne _ rfl (by subst h; decide)) (fun _ => ?_)
  refine ite_elim_fun P _ _ _ (fun h => hHash h) (fun _ => ?_)
  iterate 5 refine ite_elim_fun P _ _ _ (fun h => hOne _ rfl (by subst h; decide)) (fun _ => ?_)
  iterate 4
    refine ite_elim_fun P _ _ _ (fun h => hTwo _ _ _ (by decide) (by decide) rfl rfl
      (by decide) (by decide) (by omega)) ?_
    intro _
  refine ite_elim_fun P _ _ _ (fun h => hDot h) (fun _ => ?_)
  refine ite_elim_fun P _ _ _ (fun h => hSlash h) (fun _ => ?_)
  iterate 2
    refine ite_elim_fun P _ _ _ (fun h => hAngle _ _ _ _ (by decide) (by decide) rfl rfl rfl
      (by decide) (by decide) (by decide) (by omega)) ?_
    intro _
  refine ite_elim_fun P _ _ _ (fun h => hOne _ rfl (by subst h; decide)) ?_
  intro h10
  refine ite_elim_fun P _ _ _ (fun h => hSpace h) (fun _ => ?_)
  refine ite_elim_fun P _ _ _ (fun h => hQuote h) (fun _ => ?_)
  refine ite_elim_fun P _ _ _ (fun h => hField h) (fun _ => ?_)
  refine ite_elim_fun P _ _ _ (fun h => hZero h) (fun h48 => ?_)
  refine ite_elim_fun P _ _ _ (fun h => hName h) (fun _ => ?_)
  refine ite_elim_fun P _ _ _ (fun h => hDigit h h48) (fun _ => ?_)
  by_cases hc : 32 ≤ c ∧ c ≤ 126
  · simp only [if_pos hc]
    exact hOther h10 _
  · simp only [if_neg hc]
    exact hOther h10 _

theorem kept_map {p : Parser} {g : Option Parser} (k : Parser → SwitchExit)
    (hk : ∀ q, (k q).parser = q) (h : ∀ q, g = some q → Kept p q) :
    ∀ r, g.map k = some r → Kept p r.parser := by
  intro r hr
  cases g with
  | none => cases hr
  | some x => cases hr; rw [hk]; exact h x rfl

/-- The switch of the token loop leaves the frame of the parser unchanged. -/
theorem lexSwitch_kept (libc : Libc) (f : Nat) (p : Parser) (c : Nat) :
    ∀ r, lexSwitch libc f p c = some r → Kept p r.parser := by
  refine lexSwitch_cases (fun g => ∀ r, g p = some r → Kept p r.parser) libc f c ?_ ?_ ?_ ?_ ?_ ?_
    ?_ ?_ ?_ ?_ ?_ ?_ ?_ ?_ ?_
  · intro _ r hr
    cases hr
    refine Kept.next ?_ (kept_makeToken _ _)
    split_ifs
    · exact ⟨rfl, rfl, rfl, rfl, rfl, rfl, id, ⟨[], by simp⟩, by simp, le_refl _⟩
    · exact Kept.same p
  · intro _
    dsimp only
    split_ifs
    · refine kept_map _ (fun _ => rfl) (fun q hq => ?_)
      refine Kept.next ?_ (readString_kept hq)
      exact ⟨rfl, rfl, rfl, rfl, rfl, rfl, id, ⟨[], by simp⟩, by simp, le_refl _⟩
    · intro r hr
      cases hr
      refine Kept.next ?_ (kept_makeToken _ _)
      exact ⟨rfl, rfl, rfl, rfl, rfl, rfl, id, ⟨[], by simp⟩, by simp, le_refl _⟩
    · intro r hr; cases hr; exact kept_makeToken _ _
  · intro T _ _ r hr; cases hr; exact kept_makeToken _ _
  · intro _
    dsimp only
    split_ifs
    · exact kept_map _ (fun _ => rfl) (fun q hq => skipWhile_kept _ f _ _ hq)
    · intro r hr; cases hr; exact kept_makeToken _ _
  · intro d two one _ _ _ _ _ _ _ r hr
    cases hr
    exact (kept_matchChar p d).next (kept_makeToken _ _)
  · intro _
    dsimp only
    split_ifs
    · intro r hr; cases hr
      exact ((kept_matchChar p 46).next (kept_matchChar _ 46)).next (kept_makeToken _ _)
    · intro r hr; cases hr
      exact (kept_matchChar p 46).next (kept_makeToken _ _)
  · intro _
    dsimp only
    split_ifs
    · exact kept_map _ (fun _ => rfl) (fun q hq =>
        (kept_matchChar p 47).next (skipWhile_kept _ f _ _ hq))
    · exact kept_map _ (fun _ => rfl) (fun q hq =>
        ((kept_matchChar p 47).next (kept_matchChar _ 42)).next
          (skipBlockCommentLoop_kept f _ _ _ hq))
    · intro r hr; cases hr
      exact ((kept_matchChar p 47).next (kept_matchChar _ 42)).next (kept_makeToken _ _)
  · intro d T two one _ _ _ _ _ _ _ _ _
    dsimp only
    split_ifs
    · intro r hr; cases hr
      exact (kept_matchChar p d).next (kept_makeToken _ _)
    · intro r hr; cases hr
      exact ((kept_matchChar p d).next (kept_matchChar _ 61)).next (kept_makeToken _ _)
  · intro _
    exact kept_map _ (fun _ => rfl) (fun q hq => skipWhile_kept _ f _ _ hq)
  · intro _
    dsimp only
    split_ifs
    · exact kept_map _ (fun _ => rfl) (fun q hq => readRawString_kept hq)
    · exact kept_map _ (fun _ => rfl) (fun q hq => readString_kept hq)
  · intro _
    exact kept_map _ (fun _ => rfl) (fun q hq => readName_kept hq)
  · intro _
    dsimp only
    split_ifs
    · exact kept_map _ (fun _ => rfl) (fun q hq => readHexNumber_kept hq)
    · exact kept_map _ (fun _ => rfl) (fun q hq => readNumber_kept hq)
  · intro _
    exact kept_map _ (fun _ => rfl) (fun q hq => readName_kept hq)
  · intro _ _
    exact kept_map _ (fun _ => rfl) (fun q hq => readNumber_kept hq)
  · intro _ m r hr
    cases hr
    exact (kept_lexError p m).next (kept_setNext _ _)

theorem kept_setTokenStart (p : Parser) (i : Nat) : Kept p { p with tokenStart := i } :=
  ⟨rfl, rfl, rfl, rfl, rfl, rfl, id, ⟨[], by simp⟩, rfl, le_refl _⟩

/-- The token loop leaves the frame of the parser unchanged. -/
theorem lexToken_kept (libc : Libc) :
    ∀ (f : Nat) (p q : Parser), lexToken libc f p = some q → Kept p q
  | 0, _, _, h => by simp [lexToken] at h
  | f + 1, p, q, h => by
    rw [lexToken] at h
    split_ifs at h with hp
    · dsimp only at h
      have hs := lexSwitch_kept libc f (nextChar { p with tokenStart := p.currentChar }).2
        (nextChar { p with tokenStart := p.currentChar }).1
      have k0 := (kept_setTokenStart p p.currentChar).next (kept_nextChar _)
      cases hr : lexSwitch libc f (nextChar { p with tokenStart := p.currentChar }).2
          (nextChar { p with tokenStart := p.currentChar }).1 with
      | none => rw [hr] at h; cases h
      | some r =>
        rw [hr] at h
        have hk := hs r hr
        cases r with
        | ret q1 => cases h; exact k0.next hk
        | brk q1 => exact (k0.next hk).next (lexToken_kept libc f q1 q h)
    · cases h
      exact (kept_setTokenStart p p.currentChar).next (kept_makeToken _ _)

/-! ## The lexer returns -/

theorem skipWhile_returns (cond : Nat → Bool) (h0 : cond 0 = false) :
    ∀ (f : Nat) (p : Parser), p.source.length - p.currentChar + 1 ≤ f →
      ∃ q, skipWhile cond f p = some q
  | 0, _, h => by omega
  | f + 1, p, h => by
    rw [skipWhile]
    split_ifs with hc
    · have hne : peekChar p ≠ 0 := by
        intro hz; rw [hz, h0] at hc; cases hc
      have hlt := currentChar_lt_length hne
      exact skipWhile_returns cond h0 f _ (by
        show p.source.length - (p.currentChar + 1) + 1 ≤ f
        omega)
    · exact ⟨p, rfl⟩

theorem readHexDigits_returns :
    ∀ (f : Nat) (p : Parser), p.source.length - p.currentChar + 1 ≤ f →
      ∃ q, readHexDigits f p = some q
  | 0, _, h => by omega
  | f + 1, p, h => by
    rw [readHexDigits]
    split_ifs with hc
    · have hne : peekChar p ≠ 0 := by
        intro hz
        apply hc
        simp [readHexDigit, nextChar, hz]
      have hlt := currentChar_lt_length hne
      have hcc : p.currentChar + 1 ≤ (readHexDigit p).2.currentChar := by
        simp only [readHexDigit]
        split_ifs with h1 h2 h3
        · exact le_refl _
        · exact le_refl _
        · exact le_refl _
        · exfalso; apply hc; simp [readHexDigit, h1, h2, h3]
      have hsrc : (readHexDigit p).2.source = p.source := (readHexDigit_kept p).1
      exact readHexDigits_returns f _ (by rw [hsrc]; omega)
    · exact ⟨_, rfl⟩

theorem readNameLoop_returns :
    ∀ (f : Nat) (p : Parser) (s : List Nat), p.source.length - p.currentChar + 1 ≤ f →
      ∃ r, readNameLoop f p s = some r
  | 0, _, _, h => by omega
  | f + 1, p, s, h => by
    rw [readNameLoop]
    split_ifs with hc
    · have hne : peekChar p ≠ 0 := by
        intro hz; rw [hz] at hc; exact absurd hc (by decide)
      have hlt := currentChar_lt_length hne
      exact readNameLoop_returns f _ _ (by
        show p.source.length - (p.currentChar + 1) + 1 ≤ f
        omega)
    · exact ⟨_, rfl⟩

theorem skipBlockCommentLoop_returns :
    ∀ (f : Nat) (p : Parser) (n : Int), p.source.length - p.currentChar + 1 ≤ f →
      ∃ q, skipBlockCommentLoop f p n = some q
  | 0, _, _, h => by omega
  | f + 1, p, n, h => by
    rw [skipBlockCommentLoop]
    split_ifs with h1 h2 h3 h4
    · exact ⟨_, rfl⟩
    · have hlt := currentChar_lt_length h2
      exact skipBlockCommentLoop_returns f _ _ (by
        show p.source.length - (p.currentChar + 1 + 1) + 1 ≤ f
        omega)
    · have hlt := currentChar_lt_length h2
      exact skipBlockCommentLoop_returns f _ _ (by
        show p.source.length - (p.currentChar + 1 + 1) + 1 ≤ f
        omega)
    · have hlt := currentChar_lt_length h2
      exact skipBlockCommentLoop_returns f _ _ (by
        show p.source.length - (p.currentChar + 1) + 1 ≤ f
        omega)
    · exact ⟨_, rfl⟩

theorem readRawStringLoop_returns :
    ∀ (f : Nat) (p : Parser) (l : RawLocals), p.source.length - p.currentChar + 1 ≤ f →
      ∃ r, readRawStringLoop f p l = some r
  | 0, _, _, h => by omega
  | f + 1, p, l, h => by
    rw [readRawStringLoop]
    dsimp only
    have hnext : ∀ l', (nextChar p).1 ≠ 0 → ∃ r, readRawStringLoop f (nextChar p).2 l' = some r := by
      intro l' hne
      have hlt := currentChar_lt_length (p := p) hne
      exact readRawStringLoop_returns f _ _ (by
        show p.source.length - (p.currentChar + 1) + 1 ≤ f
        omega)
    by_cases h13 : (nextChar p).1 = 13
    · rw [if_pos h13]
      exact hnext _ (by rw [h13]; decide)
    · rw [if_neg h13]
      by_cases h2 : (nextChar p).1 = 34 ∧ peekChar (nextChar p).2 = 34 ∧
          peekNextChar (nextChar p).2 = 34
      · rw [if_pos h2]
        exact ⟨_, rfl⟩
      · rw [if_neg h2]
        by_cases h3 : (nextChar p).1 = 0 ∨ peekChar (nextChar p).2 = 0 ∨
            peekNextChar (nextChar p).2 = 0
        · rw [if_pos h3]
          exact ⟨_, rfl⟩
        · rw [if_neg h3]
          exact hnext _ (fun hz => h3 (Or.inl hz))

/-- The fuel that is enough at `p` is enough further on in the same source. -/
theorem fuel_onward {p x : Parser} {f : Nat} (hs : x.source = p.source)
    (hc : p.currentChar ≤ x.currentChar) (h : p.source.length - p.currentChar + 1 ≤ f) :
    x.source.length - x.currentChar + 1 ≤ f := by
  rw [hs]; omega

theorem map_returns {α β : Type} {g : Option α} (k : α → β) (h : ∃ q, g = some q) :
    ∃ r, g.map k = some r := by
  obtain ⟨q, hq⟩ := h
  exact ⟨k q, by rw [hq]; rfl⟩

theorem readName_returns (f : Nat) (p : Parser) (T : TokenType) (c : Nat)
    (h : p.source.length - p.currentChar + 1 ≤ f) : ∃ q, readName f p T c = some q :=
  map_returns _ (readNameLoop_returns f p [c] h)

theorem readHexNumber_returns (libc : Libc) (f : Nat) (p : Parser)
    (h : p.source.length - p.currentChar + 1 ≤ f) : ∃ q, readHexNumber libc f p = some q :=
  map_returns _ (readHexDigits_returns f _
    (fuel_onward (kept_nextChar p).1 (onward_nextChar p).2 h))

theorem readNumber_returns (libc : Libc) (f : Nat) (p : Parser)
    (h : p.source.length - p.currentChar + 1 ≤ f) : ∃ q, readNumber libc f p = some q := by
  have hd : isDigit 0 = false := by decide
  obtain ⟨q1, h1⟩ := skipWhile_returns isDigit hd f p h
  have k1 := skipWhile_kept isDigit f p q1 h1
  have o1 := skipWhile_onward isDigit f p q1 h1
  have b1 := fuel_onward k1.1 o1.2 h
  obtain ⟨q2, h2, k2, o2⟩ : ∃ q2, (if peekChar q1 = 46 ∧ isDigit (peekNextChar q1) then
      skipWhile isDigit f (nextChar q1).2 else some q1) = some q2 ∧ q2.source = q1.source ∧
      q1.currentChar ≤ q2.currentChar := by
    split_ifs
    · obtain ⟨q2, h2⟩ := skipWhile_returns isDigit hd f (nextChar q1).2
        (fuel_onward (kept_nextChar q1).1 (onward_nextChar q1).2 b1)
      exact ⟨q2, h2, (skipWhile_kept isDigit f _ q2 h2).1,
        le_trans (onward_nextChar q1).2 (skipWhile_onward isDigit f _ q2 h2).2⟩
    · exact ⟨q1, rfl, rfl, le_refl _⟩
  have b2 := fuel_onward k2 o2 b1
  simp only [readNumber, h1, Option.some_bind, h2]
  refine map_returns _ ?_
  dsimp only
  have hm : ∀ x : Parser, x.source = q2.source → q2.currentChar ≤ x.currentChar →
      ∃ q, skipWhile isDigit f x = some q := fun x hs hc =>
    skipWhile_returns isDigit hd f x (fuel_onward hs hc b2)
  have m1k := kept_matchChar q2 101
  have m1o := onward_matchChar q2 101
  have m2k : ∀ x : Parser, Kept q2 x → Onward q2 x → ∀ d, Kept q2 (matchChar x d).2 ∧
      Onward q2 (matchChar x d).2 := fun x hk ho d =>
    ⟨hk.next (kept_matchChar x d), ho.andThen (onward_matchChar x d)⟩
  have hE : Kept q2 (if (matchChar q2 101).1 = true then matchChar q2 101
      else matchChar (matchChar q2 101).2 69).2 ∧
      Onward q2 (if (matchChar q2 101).1 = true then matchChar q2 101
      else matchChar (matchChar q2 101).2 69).2 := by
    split_ifs
    · exact ⟨m1k, m1o⟩
    · exact m2k _ m1k m1o 69
  generalize (if (matchChar q2 101).1 = true then matchChar q2 101
      else matchChar (matchChar q2 101).2 69) = m2 at hE ⊢
  by_cases hm1 : m2.1 = true
  · rw [if_pos hm1]
    have h3 := m2k _ hE.1 hE.2 43
    have h4 : Kept q2 (if (!(matchChar m2.2 43).1) = true then
        (matchChar (matchChar m2.2 43).2 45).2 else (matchChar m2.2 43).2) ∧
        Onward q2 (if (!(matchChar m2.2 43).1) = true then
        (matchChar (matchChar m2.2 43).2 45).2 else (matchChar m2.2 43).2) := by
      split_ifs
      · exact m2k _ h3.1 h3.2 45
      · exact h3
    generalize (if (!(matchChar m2.2 43).1) = true then
        (matchChar (matchChar m2.2 43).2 45).2 else (matchChar m2.2 43).2) = x at h4 ⊢
    split_ifs
    · exact hm _ (h4.1.next (kept_lexError x _)).1 (h4.2.andThen (onward_lexError x _)).2
    · exact hm _ h4.1.1 h4.2.2
  · rw [if_neg hm1]
    exact ⟨_, rfl⟩

theorem readRawString_returns (f : Nat) (p : Parser)
    (h : p.source.length - p.currentChar + 1 ≤ f) : ∃ q, readRawString f p = some q :=
  map_returns _ (readRawStringLoop_returns f _ _
    (fuel_onward ((kept_nextChar p).next (kept_nextChar _)).1
      ((onward_nextChar p).andThen (onward_nextChar _)).2 h))

theorem readString_some (f : Nat) (p : Parser)
    (h : p.source.length - p.currentChar + 1 ≤ f) : ∃ q, readString f p = some q := by
  obtain ⟨q, hq, _⟩ := readString_returns f p h
  exact ⟨q, hq⟩

/-- The switch of the token loop returns when the fuel is at least the number
of characters left, plus one. -/
theorem lexSwitch_returns (libc : Libc) (f : Nat) (p : Parser) (c : Nat)
    (h : p.source.length - p.currentChar + 1 ≤ f) : ∃ r, lexSwitch libc f p c = some r := by
  revert h
  refine lexSwitch_cases (fun g => p.source.length - p.currentChar + 1 ≤ f → ∃ r, g p = some r)
    libc f c ?_ ?_ ?_ ?_ ?_ ?_ ?_ ?_ ?_ ?_ ?_ ?_ ?_ ?_ ?_
  · intro _ _; exact ⟨_, rfl⟩
  · intro _ h
    dsimp only
    split_ifs
    · exact map_returns _ (readString_some f _ h)
    · exact ⟨_, rfl⟩
    · exact ⟨_, rfl⟩
  · intro T _ _ _; exact ⟨_, rfl⟩
  · intro _ h
    dsimp only
    split_ifs
    · exact map_returns _ (skipWhile_returns _ (by decide) f p h)
    · exact ⟨_, rfl⟩
  · intro d two one _ _ _ _ _ _ _ _; exact ⟨_, rfl⟩
  · intro _ _
    dsimp only
    split_ifs
    · exact ⟨_, rfl⟩
    · exact ⟨_, rfl⟩
  · intro _ h
    dsimp only
    split_ifs
    · exact map_returns _ (skipWhile_returns _ (by decide) f _
        (fuel_onward (kept_matchChar p 47).1 (onward_matchChar p 47).2 h))
    · exact map_returns _ (skipBlockCommentLoop_returns f _ _
        (fuel_onward ((kept_matchChar p 47).next (kept_matchChar _ 42)).1
          ((onward_matchChar p 47).andThen (onward_matchChar _ 42)).2 h))
    · exact ⟨_, rfl⟩
  · intro d T two one _ _ _ _ _ _ _ _ _ _
    dsimp only
    split_ifs
    · exact ⟨_, rfl⟩
    · exact ⟨_, rfl⟩
  · intro _ h
    exact map_returns _ (skipWhile_returns _ (by decide) f p h)
  · intro _ h
    dsimp only
    split_ifs
    · exact map_returns _ (readRawString_returns f p h)
    · exact map_returns _ (readString_some f p h)
  · intro _ h
    exact map_returns _ (readName_returns f p _ _ h)
  · intro _ h
    dsimp only
    split_ifs
    · exact map_returns _ (readHexNumber_returns libc f p h)
    · exact map_returns _ (readNumber_returns libc f p h)
  · intro _ h
    exact map_returns _ (readName_returns f p _ _ h)
  · intro _ _ h
    exact map_returns _ (readNumber_returns libc f p h)
  · intro _ m _
    exact ⟨_, rfl⟩

/-- The token loop returns a parser when the fuel is at least the number of
characters left, plus two. -/
theorem lexToken_returns (libc : Libc) :
    ∀ (f : Nat) (p : Parser), p.source.length - p.currentChar + 2 ≤ f →
      ∃ q, lexToken libc f p = some q
  | 0, _, h => by omega
  | f + 1, p, h => by
    rw [lexToken]
    split_ifs with hp
    · dsimp only
      have hlt := currentChar_lt_length hp
      obtain ⟨r, hr⟩ := lexSwitch_returns libc f
        (nextChar { p with tokenStart := p.currentChar }).2
        (nextChar { p with tokenStart := p.currentChar }).1
        (by show p.source.length - (p.currentChar + 1) + 1 ≤ f; omega)
      rw [hr]
      cases r with
      | ret q1 => exact ⟨q1, rfl⟩
      | brk q1 =>
        have hk := lexSwitch_kept libc f _ _ _ hr
        have ho := (lexSwitch_shape libc f _ _).2 q1 hr
        refine lexToken_returns libc f q1 ?_
        have h1 : q1.source = p.source := hk.1
        have h2 : p.currentChar + 1 ≤ q1.currentChar := ho.2
        rw [h1]; omega
    · exact ⟨_, rfl⟩

/-- Function `wrenNextToken` returns a parser when the fuel is at least the
number of characters left, plus two. -/
theorem wrenNextToken_returns (libc : Libc) (f : Nat) (p : Parser)
    (h : p.source.length - p.currentChar + 2 ≤ f) : ∃ q, wrenNextToken libc f p = some q := by
  simp only [wrenNextToken]
  split_ifs
  · exact ⟨_, rfl⟩
  · exact lexToken_returns libc f _ h

/-! ## One-token lookahead and the error flag -/

/-- What a call of `wrenNextToken` keeps. -/
theorem wrenNextToken_keeps {libc : Libc} {f : Nat} {p q : Parser}
    (h : wrenNextToken libc f p = some q) :
    q.source = p.source ∧ q.previous = p.current ∧ q.current = p.next ∧
    q.module = p.module ∧ q.printErrors = p.printErrors ∧ q.vm.errorFn = p.vm.errorFn ∧
    (p.hasError = true → q.hasError = true) ∧
    (∃ l, q.vm.errorCalls = p.vm.errorCalls ++ l) := by
  simp only [wrenNextToken] at h
  split_ifs at h with h1
  · cases h
    exact ⟨rfl, rfl, rfl, rfl, rfl, rfl, id, ⟨[], by simp⟩⟩
  · have hk := lexToken_kept libc f _ q h
    exact ⟨hk.1, hk.2.1, hk.2.2.1, hk.2.2.2.1, hk.2.2.2.2.1, hk.2.2.2.2.2.1, hk.2.2.2.2.2.2.1,
      hk.2.2.2.2.2.2.2.1⟩

/-- Successive calls of `wrenNextToken` never reset the error flag. -/
theorem wrenNextTokens_flag (libc : Libc) (f : Nat) :
    ∀ (n : Nat) (p q : Parser) (ts : List Token), wrenNextTokens libc f n p = some (ts, q) →
      q.source = p.source ∧ (p.hasError = true → q.hasError = true)
  | 0, p, q, ts, h => by
    simp only [wrenNextTokens, Option.some.injEq, Prod.mk.injEq] at h
    obtain ⟨_, rfl⟩ := h
    exact ⟨rfl, id⟩
  | n + 1, p, q, ts, h => by
    simp only [wrenNextTokens, Option.bind_eq_some, Option.map_eq_some'] at h
    obtain ⟨p1, h1, r, h2, h3⟩ := h
    cases h3
    have k1 := wrenNextToken_keeps h1
    have k2 := wrenNextTokens_flag libc f n p1 r.2 r.1 h2
    exact ⟨k2.1.trans k1.1, fun hp => k2.2 (k1.2.2.2.2.2.2.1 hp)⟩

/-- Any number of calls of `wrenNextToken` return, when the fuel is at least
the length of the source plus two. -/
theorem wrenNextTokens_returns (libc : Libc) (f : Nat) :
    ∀ (n : Nat) (p : Parser), p.source.length + 2 ≤ f →
      ∃ ts q, wrenNextTokens libc f n p = some (ts, q) ∧ ts.length = n
  | 0, p, _ => ⟨[], p, rfl, rfl⟩
  | n + 1, p, h => by
    obtain ⟨p1, h1⟩ := wrenNextToken_returns libc f p (by omega)
    have k1 := wrenNextToken_keeps h1
    obtain ⟨ts, q, h2, h3⟩ := wrenNextTokens_returns libc f n p1 (by rw [k1.1]; exact h)
    refine ⟨p1.next :: ts, q, ?_, by simp [h3]⟩
    simp only [wrenNextTokens, h1, Option.some_bind, h2, Option.map_some']

/-- After the end of the source has been reached, calls of `wrenNextToken`
only move the EOF token into `current` and `previous`. -/
theorem wrenNextTokens_eof (libc : Libc) (f : Nat) :
    ∀ (n : Nat) (p : Parser), p.next.type = TOKEN_EOF →
      ∃ q, wrenNextTokens libc f n p = some (List.replicate n p.next, q) ∧
        q = { p with
          previous := if n = 0 then p.previous else if n = 1 then p.current else p.next
          current := if n = 0 then p.current else p.next }
  | 0, p, _ => ⟨p, rfl, rfl⟩
  | n + 1, p, h => by
    obtain ⟨q, h1, h2⟩ := wrenNextTokens_eof libc f n
      { p with previous := p.current, current := p.next } h
    refine ⟨q, ?_, ?_⟩
    · simp only [wrenNextTokens, wrenNextToken, if_pos h, Option.some_bind, h1, Option.map_some',
        List.replicate_succ]
    · rw [h2]
      rcases n with _ | _ | n
      · rfl
      · rfl
      · rfl

/-- C15: one-token lookahead.  Every call of `wrenNextToken` returns (with
enough fuel), sets `previous` to the old `current` and `current` to the old
`next`.  If the old `next` was TOKEN_EOF the call changes nothing else (so
`next`, `currentChar`, `currentLine`, the parens stack and `hasError` are
unchanged), and after any number `n` of further calls `next` is still that
EOF token, `current` is it from the first call on and `previous` from the
second call on.  Otherwise `next` becomes the token that the token loop
`lexToken` lexes from `currentChar`: the result is the result of the loop
started in the shifted parser. -/
theorem one_token_lookahead (libc : Libc) (p : Parser) (fuel : Nat)
    (hfuel : p.source.length - p.currentChar + 2 ≤ fuel) :
    ∃ q, wrenNextToken libc fuel p = some q ∧
      q.previous = p.current ∧ q.current = p.next ∧
      (p.next.type = TOKEN_EOF →
        q = { p with previous := p.current, current := p.next } ∧
        ∀ n, ∃ r, wrenNextTokens libc fuel n p = some (List.replicate n p.next, r) ∧
          r.next = p.next ∧ r.currentChar = p.currentChar ∧ r.currentLine = p.currentLine ∧
          r.parens = p.parens ∧ r.numParens = p.numParens ∧ r.hasError = p.hasError ∧
          (1 ≤ n → r.current = p.next) ∧ (2 ≤ n → r.previous = p.next)) ∧
      (p.next.type ≠ TOKEN_EOF →
        lexToken libc fuel { p with previous := p.current, current := p.next } = some q) := by
  obtain ⟨q, hq⟩ := wrenNextToken_returns libc fuel p hfuel
  have hk := wrenNextToken_keeps hq
  refine ⟨q, hq, hk.2.1, hk.2.2.1, ?_, ?_⟩
  · intro he
    constructor
    · simp only [wrenNextToken, if_pos he, Option.some.injEq] at hq
      exact hq.symm
    · intro n
      obtain ⟨r, h1, h2⟩ := wrenNextTokens_eof libc fuel n p he
      refine ⟨r, h1, ?_⟩
      subst h2
      refine ⟨rfl, rfl, rfl, rfl, rfl, rfl, ?_, ?_⟩
      · intro hn
        show (if n = 0 then p.current else p.next) = p.next
        rw [if_neg (by omega)]
      · intro hn
        show (if n = 0 then p.previous else if n = 1 then p.current else p.next) = p.next
        rw [if_neg (by omega), if_neg (by omega)]
  · intro hne
    rw [← wrenNextToken_lex libc fuel p hne]
    exact hq

/-- Witness for C15: the first call on the source `a` with 3 units of fuel. -/
theorem one_token_lookahead_witness :
    (startParser (ascii "a")).source.length - (startParser (ascii "a")).currentChar + 2 ≤ 3 ∧
    ∃ q, wrenNextToken exampleLibc 3 (startParser (ascii "a")) = some q ∧
      q.previous = (startParser (ascii "a")).current ∧
      q.current = (startParser (ascii "a")).next ∧
      ((startParser (ascii "a")).next.type = TOKEN_EOF →
        q = { startParser (ascii "a") with
          previous := (startParser (ascii "a")).current
          current := (startParser (ascii "a")).next } ∧
        ∀ n, ∃ r, wrenNextTokens exampleLibc 3 n (startParser (ascii "a")) =
            some (List.replicate n (startParser (ascii "a")).next, r) ∧
          r.next = (startParser (ascii "a")).next ∧
          r.currentChar = (startParser (ascii "a")).currentChar ∧
          r.currentLine = (startParser (ascii "a")).currentLine ∧
          r.parens = (startParser (ascii "a")).parens ∧
          r.numParens = (startParser (ascii "a")).numParens ∧
          r.hasError = (startParser (ascii "a")).hasError ∧
          (1 ≤ n → r.current = (startParser (ascii "a")).next) ∧
          (2 ≤ n → r.previous = (startParser (ascii "a")).next)) ∧
      ((startParser (ascii "a")).next.type ≠ TOKEN_EOF →
        lexToken exampleLibc 3
          { startParser (ascii "a") with
            previous := (startParser (ascii "a")).current
            current := (startParser (ascii "a")).next } = some q) :=
  ⟨by decide, one_token_lookahead exampleLibc (startParser (ascii "a")) 3 (by decide)⟩

/-- C19: `wrenPrintError` always sets `hasError`, whatever `printErrors` and
`errorFn` are, and changes nothing but `hasError` and the calls of the error
callback; when `printErrors` is true and `errorFn` is not NULL it makes
exactly one call, with the kind WREN_ERROR_COMPILE, the name of the module
(or `<unknown>` when the module has no name), the given line and the message
`label: text`; otherwise it makes no call.  The lexer never resets the flag:
once `hasError` is true it is true after any number of calls of
`wrenNextToken`; and lexing goes on: with enough fuel any number of calls
return. -/
theorem print_error_flag (libc : Libc) (p : Parser) (line : Int) (label text : String) :
    (wrenPrintError p line label text).hasError = true ∧
    wrenPrintError p line label text =
      { p with hasError := true, vm := (wrenPrintError p line label text).vm } ∧
    (wrenPrintError p line label text).vm.errorFn = p.vm.errorFn ∧
    (p.printErrors = true ∧ p.vm.errorFn = true →
      (wrenPrintError p line label text).vm.errorCalls = p.vm.errorCalls ++
        [⟨WrenErrorType.WREN_ERROR_COMPILE, some (p.module.name.getD "<unknown>"), line,
          label ++ ": " ++ text⟩]) ∧
    (¬(p.printErrors = true ∧ p.vm.errorFn = true) →
      (wrenPrintError p line label text).vm.errorCalls = p.vm.errorCalls) ∧
    (∀ fuel n ts q, wrenNextTokens libc fuel n (wrenPrintError p line label text) = some (ts, q) →
      q.hasError = true) ∧
    (∀ fuel n, p.source.length + 2 ≤ fuel →
      ∃ ts q, wrenNextTokens libc fuel n (wrenPrintError p line label text) = some (ts, q) ∧
        ts.length = n ∧ q.hasError = true) := by
  have hflag : (wrenPrintError p line label text).hasError = true := by
    simp only [wrenPrintError]
    split_ifs <;> rfl
  have hsrc : (wrenPrintError p line label text).source = p.source := by
    simp only [wrenPrintError]
    split_ifs <;> rfl
  refine ⟨hflag, ?_, ?_, ?_, ?_, ?_, ?_⟩
  · simp only [wrenPrintError]
    split_ifs <;> rfl
  · simp only [wrenPrintError]
    split_ifs <;> rfl
  · rintro ⟨h1, h2⟩
    simp only [wrenPrintError, h1, h2, Bool.not_true, Bool.false_eq_true, if_false]
    cases hn : p.module.name <;> rfl
  · intro h
    simp only [wrenPrintError]
    split_ifs with h1 h2
    · rfl
    · rfl
    · exfalso
      apply h
      constructor
      · simpa using h1
      · simpa using h2
  · intro fuel n ts q h
    exact (wrenNextTokens_flag libc fuel n _ q ts h).2 hflag
  · intro fuel n h
    obtain ⟨ts, q, h1, h2⟩ := wrenNextTokens_returns libc fuel n (wrenPrintError p line label text)
      (by rw [hsrc]; exact h)
    exact ⟨ts, q, h1, h2, (wrenNextTokens_flag libc fuel n _ q ts h1).2 hflag⟩

/-- Witness for C19: an error reported at the start of the source `a`, in a
parser that prints errors through a callback, followed by two calls of
`wrenNextToken`. -/
theorem print_error_flag_witness :
    (wrenPrintError (startParser (ascii "a")) 1 "Error" "x").hasError = true ∧
    (wrenPrintError (startParser (ascii "a")) 1 "Error" "x").vm.errorCalls =
      [⟨WrenErrorType.WREN_ERROR_COMPILE, some "main", 1, "Error: x"⟩] ∧
    ∃ ts q, wrenNextTokens exampleLibc 3 2
        (wrenPrintError (startParser (ascii "a")) 1 "Error" "x") = some (ts, q) ∧
      ts.length = 2 ∧ q.hasError = true :=
  ⟨(print_error_flag exampleLibc (startParser (ascii "a")) 1 "Error" "x").1,
    (print_error_flag exampleLibc (startParser (ascii "a")) 1 "Error" "x").2.2.2.1
      ⟨rfl, rfl⟩,
    (print_error_flag exampleLibc (startParser (ascii "a")) 1 "Error" "x").2.2.2.2.2.2 3 2
      (by decide)⟩

/-! ## The line of a LINE token after a hexadecimal literal -/

/-- C17 fails on the source `0x1` followed by a newline: the second token is
the TOKEN_LINE of the newline at index 3, its slice is that one character,
no newline stands before it (it is on line 1), and its line field is 2.
`readHexDigit` has read the newline with `nextChar`, which counts the line,
and has put it back with `currentChar--` without undoing the count; the
newline is then read and counted again.  After the decimal literal `1` the
TOKEN_LINE of the newline has the line field 1. -/
theorem line_token_after_hex_literal :
    (wrenNextTokens exampleLibc 6 2 (startParser [48, 120, 49, 10])).map
        (fun r => r.1.map Token.view) =
      some [⟨TOKEN_NUMBER, 0, 3, 2, some (Value.NUM_VAL (WrenNum.ofInt 1))⟩,
        ⟨TOKEN_LINE, 3, 1, 2, none⟩] ∧
    charAt [48, 120, 49, 10] 3 = 10 ∧
    1 + newlines (([48, 120, 49, 10] : List Nat).take 3) = 1 ∧
    (wrenNextTokens exampleLibc 6 2 (startParser [49, 10])).map
        (fun r => r.1.map Token.view) =
      some [⟨TOKEN_NUMBER, 0, 1, 1, some (Value.NUM_VAL (WrenNum.strtod [49]))⟩,
        ⟨TOKEN_LINE, 1, 1, 1, none⟩] := by
  decide

/-! ## Hexadecimal literals -/

theorem hexPrefixValue_digits :
    ∀ (digits : List Nat) (acc : Nat), (∀ c ∈ digits, (hexDigitValue c).isSome = true) →
      hexPrefixValue digits acc =
        digits.foldl (fun acc c => acc * 16 + (hexDigitValue c).getD 0) acc
  | [], _, _ => rfl
  | c :: rest, acc, h => by
    obtain ⟨v, hv⟩ := Option.isSome_iff_exists.mp (h c (List.mem_cons_self _ _))
    simp only [hexPrefixValue, hv, List.foldl_cons, Option.getD_some]
    exact hexPrefixValue_digits rest _ (fun d hd => h d (List.mem_cons_of_mem _ hd))

/-- The loop of `readHexNumber` on a run of hexadecimal digits: the digits
are read, and the line counter has counted the character after them when it
is a newline. -/
theorem readHexDigits_run :
    ∀ (digits : List Nat) (f : Nat) (p : Parser) (tail : List Nat),
      p.rest = digits ++ tail →
      (∀ c ∈ digits, (hexDigitValue c).isSome = true) →
      (∀ c, tail.head? = some c → hexDigitValue c = none) →
      digits.length + 1 ≤ f →
      readHexDigits f p = some { p with
        currentChar := p.currentChar + digits.length
        currentLine := if tail.head? = some 10 then p.currentLine + 1 else p.currentLine }
  | [], f, p, tail, hsrc, _, hmax, hf => by
    obtain ⟨f, rfl⟩ : ∃ k, f = k + 1 := ⟨f - 1, by omega⟩
    have hpk : peekChar p = tail.head?.getD 0 := by
      rw [peekChar_eq, hsrc]; cases tail <;> rfl
    have hnone : hexDigitValue (peekChar p) = none := by
      rw [hpk]
      cases tail with
      | nil => rfl
      | cons c t => exact hmax c rfl
    have hd : readHexDigit p = (-1, unreadChar (nextChar p).2) := by
      unfold hexDigitValue at hnone
      simp only [readHexDigit, show (nextChar p).1 = peekChar p from rfl]
      split_ifs at hnone ⊢
      rfl
    have h10 : (peekChar p = 10) ↔ tail.head? = some 10 := by
      rw [hpk]
      cases tail with
      | nil => simp
      | cons c t => simp
    rw [readHexDigits, hd]
    simp only [ne_eq, not_true_eq_false, if_false, unreadChar, nextChar, Nat.add_sub_cancel,
      List.length_nil, Nat.add_zero, h10]
  | c :: rest, f, p, tail, hsrc, hd, hmax, hf => by
    obtain ⟨f, rfl⟩ : ∃ k, f = k + 1 := ⟨f - 1, by omega⟩
    obtain ⟨v, hv⟩ := Option.isSome_iff_exists.mp (hd c (List.mem_cons_self _ _))
    have e1 := readHexDigit_hex0 p hsrc hv
    have hr1 : (p.advance 1 0).rest = rest ++ tail := advance_rest p [c] _ _ hsrc
    have ih := readHexDigits_run rest f (p.advance 1 0) tail hr1
      (fun d hd' => hd d (List.mem_cons_of_mem _ hd')) hmax
      (by simp only [List.length_cons] at hf; omega)
    rw [readHexDigits, e1]
    have hne : ((v : Int) ≠ -1) := by omega
    simp only [hne, ne_eq, not_false_eq_true, if_true, ih]
    simp [Parser.advance, Nat.add_assoc, Nat.add_comm 1]

theorem strtoll16_hex (digits : List Nat) (hk : digits ≠ [])
    (hd : ∀ c ∈ digits, (hexDigitValue c).isSome = true) :
    strtoll16 (48 :: 120 :: digits) =
      if hexValue digits > 2 ^ 63 - 1 then ((2 ^ 63 - 1 : Int), true)
      else (((hexValue digits : Nat) : Int), false) := by
  cases digits with
  | nil => exact absurd rfl hk
  | cons d rest =>
    have h1 : (hexDigitValue d).isSome = true := hd d (List.mem_cons_self _ _)
    have hv : hexPrefixValue (d :: rest) 0 = hexValue (d :: rest) := hexPrefixValue_digits _ 0 hd
    simp only [strtoll16, h1, and_true, true_or, if_true, hv]

/-- Function `makeNumber` on the text of a hexadecimal literal. -/
theorem makeNumber_hex (libc : Libc) (x : Parser) (digits : List Nat)
    (ht : tokenText x = 48 :: 120 :: digits) (hk : digits ≠ [])
    (hd : ∀ c ∈ digits, (hexDigitValue c).isSome = true) :
    (makeNumber libc x true).next.type = TOKEN_NUMBER ∧
    (makeNumber libc x true).next.start = x.tokenStart ∧
    (makeNumber libc x true).next.length = (x.currentChar : Int) - (x.tokenStart : Int) ∧
    (makeNumber libc x true).currentChar = x.currentChar ∧
    (makeNumber libc x true).tokenStart = x.tokenStart ∧
    (makeNumber libc x true).source = x.source ∧
    (hexValue digits ≤ 2 ^ 63 - 1 →
      (makeNumber libc x true).next.value = Value.NUM_VAL (WrenNum.ofInt (hexValue digits)) ∧
      (makeNumber libc x true).hasError = x.hasError ∧ (makeNumber libc x true).vm = x.vm) ∧
    (hexValue digits > 2 ^ 63 - 1 →
      (makeNumber libc x true).next.value = Value.NUM_VAL (WrenNum.ofInt 0) ∧
      (makeNumber libc x true).hasError = true ∧
      (x.printErrors = true → x.vm.errorFn = true →
        (makeNumber libc x true).vm.errorCalls = x.vm.errorCalls ++
          [⟨WrenErrorType.WREN_ERROR_COMPILE, some (x.module.name.getD "<unknown>"),
            x.currentLine,
            "Error: Number literal was too large (" ++ fmtDec libc.sizeofLong ++ ")."⟩])) := by
  have hst := strtoll16_hex digits hk hd
  by_cases hv : hexValue digits > 2 ^ 63 - 1
  · rw [if_pos hv] at hst
    have hval : (makeNumber libc x true) = makeToken
        { lexError { x with next := { x.next with
            value := Value.NUM_VAL (WrenNum.ofInt (2 ^ 63 - 1)) } }
            ("Number literal was too large (" ++ fmtDec libc.sizeofLong ++ ").") with
          next := { (lexError { x with next := { x.next with
            value := Value.NUM_VAL (WrenNum.ofInt (2 ^ 63 - 1)) } }
            ("Number literal was too large (" ++ fmtDec libc.sizeofLong ++ ").")).next with
            value := Value.NUM_VAL (WrenNum.ofInt 0) } } TOKEN_NUMBER := by
      simp only [makeNumber, ht, hst, if_true]
    rw [hval]
    refine ⟨rfl, ?_, ?_, ?_, ?_, ?_, fun h => absurd hv (by omega), fun _ => ⟨rfl, ?_, ?_⟩⟩
    · simp only [makeToken, lexError, wrenPrintError]; split_ifs <;> rfl
    · simp only [makeToken, lexError, wrenPrintError]; split_ifs <;> rfl
    · simp only [makeToken, lexError, wrenPrintError]; split_ifs <;> rfl
    · simp only [makeToken, lexError, wrenPrintError]; split_ifs <;> rfl
    · simp only [makeToken, lexError, wrenPrintError]; split_ifs <;> rfl
    · simp only [makeToken, lexError, wrenPrintError]; split_ifs <;> rfl
    · intro h1 h2
      simp only [makeToken, lexError, wrenPrintError, h1, h2, Bool.not_true, Bool.false_eq_true,
        if_false]
      cases x.module.name <;> rfl
  · rw [if_neg hv] at hst
    have hval : (makeNumber libc x true) = makeToken
        { x with next := { x.next with
            value := Value.NUM_VAL (WrenNum.ofInt (hexValue digits)) } } TOKEN_NUMBER := by
      simp only [makeNumber, ht, hst, Bool.false_eq_true, if_false, if_true]
    rw [hval]
    exact ⟨rfl, rfl, rfl, rfl, rfl, rfl, fun _ => ⟨rfl, rfl, rfl⟩, fun h => absurd h hv⟩

/-- Function `readHexNumber` after the `0` of a hexadecimal literal. -/
theorem readHexNumber_run (libc : Libc) (f : Nat) (x : Parser) (digits tail : List Nat)
    (hsrc : x.rest = 120 :: digits ++ tail)
    (htok : x.source.drop x.tokenStart = (48 :: 120 :: digits) ++ tail)
    (hcc : x.currentChar = x.tokenStart + 1)
    (hd : ∀ c ∈ digits, (hexDigitValue c).isSome = true)
    (hmax : ∀ c, tail.head? = some c → hexDigitValue c = none)
    (hfuel : digits.length + 1 ≤ f) :
    ∃ y, readHexNumber libc f x = some (makeNumber libc y true) ∧
      tokenText y = 48 :: 120 :: digits ∧ y.tokenStart = x.tokenStart ∧
      y.currentChar = x.tokenStart + (digits.length + 2) ∧ y.hasError = x.hasError ∧
      y.vm = x.vm ∧ y.printErrors = x.printErrors ∧ y.module = x.module ∧
      y.source = x.source := by
  have e2 := nextChar_advance0 _ hsrc (by decide : (120 : Nat) ≠ 10)
  have hr2 := advance_rest _ [120] _ 0 hsrc
  simp only [List.length_singleton] at hr2
  have hrun := readHexDigits_run digits f _ tail hr2 hd hmax hfuel
  simp only [readHexNumber, e2, hrun, Option.map_some']
  refine ⟨_, rfl, ?_, rfl, ?_, rfl, rfl, rfl, rfl, rfl⟩
  · refine tokenText_eq tail htok ?_
    simp [Parser.advance, hcc]; omega
  · simp [Parser.advance, hcc]; omega

theorem lexSwitch_hex (libc : Libc) (f : Nat) (x : Parser) (h : peekChar x = 120) :
    lexSwitch libc f x 48 = (readHexNumber libc f x).map SwitchExit.ret := by
  simp [lexSwitch, h]

theorem lexToken_hex (libc : Libc) (f : Nat) (p : Parser) (digits tail : List Nat)
    (hsrc : p.rest = 48 :: 120 :: digits ++ tail)
    (hd : ∀ c ∈ digits, (hexDigitValue c).isSome = true)
    (hmax : ∀ c, tail.head? = some c → hexDigitValue c = none)
    (hfuel : digits.length + 1 ≤ f) :
    ∃ y, lexToken libc (f + 1) p = some (makeNumber libc y true) ∧
      tokenText y = 48 :: 120 :: digits ∧ y.tokenStart = p.currentChar ∧
      y.currentChar = p.currentChar + (digits.length + 2) ∧ y.hasError = p.hasError ∧
      y.vm = p.vm ∧ y.printErrors = p.printErrors ∧ y.module = p.module ∧
      y.source = p.source := by
  have hsrc0 : p.rest = 48 :: (120 :: digits ++ tail) := hsrc
  rw [lexToken_cons libc f hsrc0 (by decide)]
  have hr0 : ({ p with tokenStart := p.currentChar } : Parser).rest =
      48 :: (120 :: digits ++ tail) := hsrc
  rw [nextChar_advance0 _ hr0 (by decide)]
  have hr1 := advance_rest _ [48] _ 0 hr0
  simp only [List.length_singleton] at hr1
  have pk1 := peekChar_cons hr1
  obtain ⟨y, hy, h1, h2, h3, h4⟩ := readHexNumber_run libc f _ digits tail hr1
    (by simpa [Parser.rest, Parser.advance] using hsrc) rfl hd hmax hfuel
  rw [lexSwitch_hex libc f _ pk1, hy]
  exact ⟨y, rfl, h1, h2, h3, h4⟩

/-- C12: a literal made of `0x` followed by `k >= 1` hexadecimal digits (of
either case) that denote the integer `v`, not followed by another
hexadecimal digit, is lexed as one TOKEN_NUMBER whose slice is those `k + 2`
characters.  If `v <= 2^63 - 1` no error is reported and the value of the
token is the number `v` (the conversion of the integer `v` to a double); if
`v > 2^63 - 1` the error `Number literal was too large` is reported and the
value of the token is 0. -/
theorem hex_literal (libc : Libc) (p : Parser) (digits tail : List Nat) (fuel : Nat)
    (hne : p.next.type ≠ TOKEN_EOF)
    (hsrc : p.rest = 48 :: 120 :: digits ++ tail)
    (hk : digits ≠ [])
    (hd : ∀ c ∈ digits, (hexDigitValue c).isSome = true)
    (hmax : ∀ c, tail.head? = some c → hexDigitValue c = none)
    (hfuel : digits.length + 2 ≤ fuel) :
    ∃ q, wrenNextToken libc fuel p = some q ∧
      q.next.type = TOKEN_NUMBER ∧ q.next.start = p.currentChar ∧
      q.next.length = (digits.length : Int) + 2 ∧
      q.currentChar = p.currentChar + (digits.length + 2) ∧
      tokenText q = 48 :: 120 :: digits ∧
      (hexValue digits ≤ 2 ^ 63 - 1 →
        q.next.value = Value.NUM_VAL (WrenNum.ofInt (hexValue digits)) ∧
        q.hasError = p.hasError ∧ q.vm = p.vm) ∧
      (hexValue digits > 2 ^ 63 - 1 →
        q.next.value = Value.NUM_VAL (WrenNum.ofInt 0) ∧ q.hasError = true ∧
        (p.printErrors = true → p.vm.errorFn = true →
          ∃ line, q.vm.errorCalls = p.vm.errorCalls ++
            [⟨WrenErrorType.WREN_ERROR_COMPILE, some (p.module.name.getD "<unknown>"), line,
              "Error: Number literal was too large (" ++ fmtDec libc.sizeofLong ++ ")."⟩])) := by
  obtain ⟨f, rfl⟩ : ∃ k, fuel = k + 1 := ⟨fuel - 1, by omega⟩
  rw [wrenNextToken_lex libc _ p hne]
  obtain ⟨y, hy, ht, hs, hc, he, hvm, hpr, hmod, hso⟩ := lexToken_hex libc f
    { p with previous := p.current, current := p.next } digits tail hsrc hd hmax (by omega)
  obtain ⟨m1, m2, m3, m4, m5, m6, m7, m8⟩ := makeNumber_hex libc y digits ht hk hd
  refine ⟨_, hy, m1, m2.trans hs, ?_, m4.trans hc, ?_, ?_, ?_⟩
  · rw [m3, hc, hs]
    show ((p.currentChar + (digits.length + 2) : Nat) : Int) - (p.currentChar : Int) = _
    push_cast; ring
  · have : tokenText (makeNumber libc y true) = tokenText y := by
      simp only [tokenText, m4, m5, m6]
    rw [this, ht]
  · intro hv
    obtain ⟨a, b, c⟩ := m7 hv
    exact ⟨a, b.trans he, c.trans hvm⟩
  · intro hv
    obtain ⟨a, b, c⟩ := m8 hv
    refine ⟨a, b, fun h1 h2 => ⟨y.currentLine, ?_⟩⟩
    have := c (hpr.trans h1) (by rw [hvm]; exact h2)
    rw [this, hvm, hmod]

/-- Witness for C12: the literal `0x1F` in front of `+`, which denotes 31. -/
theorem hex_literal_witness :
    (startParser (ascii "0x1F+")).rest = 48 :: 120 :: [49, 70] ++ [43] ∧
    hexValue [49, 70] = 31 ∧
    ∃ q, wrenNextToken exampleLibc 4 (startParser (ascii "0x1F+")) = some q ∧
      q.next.type = TOKEN_NUMBER ∧ q.next.start = 0 ∧ q.next.length = 4 ∧
      q.next.value = Value.NUM_VAL (WrenNum.ofInt 31) ∧ q.hasError = false :=
  ⟨by decide, by decide,
    (hex_literal exampleLibc (startParser (ascii "0x1F+")) [49, 70] [43] 4 (by decide)
      (by decide) (by decide) (by decide) (by decide) (by decide)).imp
      (fun _ h => ⟨h.1, h.2.1, h.2.2.1, h.2.2.2.1, (h.2.2.2.2.2.2.1 (by decide)).1,
        (h.2.2.2.2.2.2.1 (by decide)).2.1⟩)⟩

/-! ## Runs of characters -/

/-- A loop `while (cond(peekChar(parser))) nextChar(parser);` in front of a
run of characters that satisfy `cond`, none of them a newline, followed by a
character that does not: the run is read. -/
theorem skipWhile_run (cond : Nat → Bool) (h0 : cond 0 = false) :
    ∀ (run : List Nat) (f : Nat) (p : Parser) (tail : List Nat),
      p.rest = run ++ tail →
      (∀ c ∈ run, cond c = true ∧ c ≠ 10) →
      (∀ c, tail.head? = some c → cond c = false) →
      run.length + 1 ≤ f →
      skipWhile cond f p = some (p.advance run.length 0)
  | [], f, p, tail, hsrc, _, hmax, hf => by
    obtain ⟨f, rfl⟩ : ∃ k, f = k + 1 := ⟨f - 1, by omega⟩
    have hpk : cond (peekChar p) = false := by
      rw [peekChar_eq, hsrc]
      cases tail with
      | nil => exact h0
      | cons c t => exact hmax c rfl
    simp [skipWhile, hpk, advance_zero]
  | c :: run, f, p, tail, hsrc, hrun, hmax, hf => by
    obtain ⟨f, rfl⟩ : ∃ k, f = k + 1 := ⟨f - 1, by omega⟩
    have hc := hrun c (List.mem_cons_self _ _)
    have hp : peekChar p = c := peekChar_cons hsrc
    have hrest := advance_rest p [c] (run ++ tail) 0 hsrc
    simp only [List.length_singleton] at hrest
    rw [skipWhile, hp, if_pos hc.1, nextChar_advance0 p hsrc hc.2,
      skipWhile_run cond h0 run f _ tail hrest (fun d hd => hrun d (List.mem_cons_of_mem _ hd))
        hmax (by simp only [List.length_cons] at hf; omega),
      advance_advance]
    simp [Nat.add_comm]

/-! ## The shebang line -/

theorem lexSwitch_hash (libc : Libc) (f : Nat) (x : Parser) :
    lexSwitch libc f x 35 =
      if x.currentLine = 1 ∧ peekChar x = 33 ∧ peekNextChar x = 47 then
        (skipLineComment f x).map SwitchExit.brk
      else some (SwitchExit.ret (makeToken x TOKEN_HASH)) := by
  simp [lexSwitch]

theorem lexSwitch_newline (libc : Libc) (f : Nat) (x : Parser) :
    lexSwitch libc f x 10 = some (SwitchExit.ret (makeToken x TOKEN_LINE)) := by
  simp [lexSwitch]

theorem lexToken_end (libc : Libc) (f : Nat) (p : Parser) (h : p.rest = []) :
    lexToken libc (f + 1) p = some (makeToken { p with tokenStart := p.currentChar } TOKEN_EOF) := by
  simp [lexToken, peekChar_nil h]

/-- The token loop in front of a shebang line, on line 1. -/
theorem lexToken_shebang (libc : Libc) (f : Nat) (p : Parser) (body tail : List Nat)
    (hline : p.currentLine = 1)
    (hsrc : p.rest = 35 :: 33 :: 47 :: body ++ tail)
    (hbody : ∀ c ∈ body, c ≠ 10 ∧ c ≠ 0)
    (htail : ∀ c, tail.head? = some c → c = 10)
    (hfuel : body.length + 3 ≤ f) :
    lexToken libc (f + 1) p =
      lexToken libc f ({ p with tokenStart := p.currentChar }.advance (body.length + 3) 0) := by
  have hsrc0 : p.rest = 35 :: (33 :: 47 :: body ++ tail) := hsrc
  rw [lexToken_cons libc f hsrc0 (by decide)]
  have hr0 : ({ p with tokenStart := p.currentChar } : Parser).rest =
      35 :: (33 :: 47 :: body ++ tail) := hsrc
  rw [nextChar_advance0 _ hr0 (by decide)]
  have hr1 := advance_rest _ [35] _ 0 hr0
  simp only [List.length_singleton] at hr1
  have pk1 := peekChar_cons hr1
  have pk2 := peekNextChar_cons hr1 (by decide)
  have hl : ({ p with tokenStart := p.currentChar }.advance 1 0).currentLine = 1 := by
    simp [Parser.advance, hline]
  have hrun := skipWhile_run (fun c => c ≠ 10 && c ≠ 0) (by decide) (33 :: 47 :: body) f _ tail
    (by simpa using hr1)
    (by
      intro c hc
      simp only [List.mem_cons] at hc
      rcases hc with rfl | rfl | hc
      · decide
      · decide
      · have := hbody c hc
        simp [this.1, this.2])
    (by
      intro c hc
      simp [htail c hc])
    (by simp; omega)
  rw [lexSwitch_hash, if_pos ⟨hl, pk1, pk2⟩, skipLineComment, hrun, advance_advance]
  simp only [Option.map_some', List.length_cons, Nat.zero_add]
  rw [show 1 + (body.length + 1 + 1) = body.length + 3 by omega]

/-- C14: a shebang line is skipped as a comment.  In front of `#!/` on line 1
(the line counter `currentLine` is 1, as it is at the start of the source),
the characters up to the first newline or the end of the source produce no
token: the next token is the TOKEN_LINE of that newline, or TOKEN_EOF.  A `#`
read when the line counter is not 1, or that is not followed by `!/`, is not
skipped and yields TOKEN_HASH. -/
theorem shebang_line (libc : Libc) (p : Parser) (fuel : Nat) (hne : p.next.type ≠ TOKEN_EOF) :
    (∀ body tail : List Nat, p.currentLine = 1 →
      p.rest = 35 :: 33 :: 47 :: body ++ tail → (∀ c ∈ body, c ≠ 10 ∧ c ≠ 0) →
      body.length + 5 ≤ fuel →
      (tail = [] →
        ∃ q, wrenNextToken libc fuel p = some q ∧ q.next.type = TOKEN_EOF ∧
          q.next.start = p.currentChar + (body.length + 3) ∧ q.next.length = 0 ∧
          q.hasError = p.hasError) ∧
      (∀ r, tail = 10 :: r →
        ∃ q, wrenNextToken libc fuel p = some q ∧ q.next.type = TOKEN_LINE ∧
          q.next.start = p.currentChar + (body.length + 3) ∧ q.next.length = 1 ∧
          q.next.line = 1 ∧ q.hasError = p.hasError)) ∧
    (∀ r : List Nat, p.rest = 35 :: r →
      (p.currentLine ≠ 1 ∨ ∀ t, r ≠ 33 :: 47 :: t) → 1 ≤ fuel →
      ∃ q, wrenNextToken libc fuel p = some q ∧ q.next.type = TOKEN_HASH ∧
        q.next.start = p.currentChar ∧ q.next.length = 1 ∧
        q.currentChar = p.currentChar + 1) := by
  rw [wrenNextToken_lex libc _ p hne]
  constructor
  · intro body tail hline hsrc hbody hfuel
    obtain ⟨f, rfl⟩ : ∃ k, fuel = (k + 1) + 1 := ⟨fuel - 2, by omega⟩
    constructor
    · intro ht
      subst ht
      rw [lexToken_shebang libc (f + 1) { p with previous := p.current, current := p.next } body []
        hline hsrc hbody (by simp) (by omega)]
      have hr := advance_rest { ({ p with previous := p.current, current := p.next } : Parser)
        with tokenStart := p.currentChar } (35 :: 33 :: 47 :: body) [] 0 (by simpa using hsrc)
      simp only [List.length_cons] at hr
      rw [lexToken_end libc f _ hr]
      refine ⟨_, rfl, rfl, rfl, ?_, rfl⟩
      simp [makeToken]
    · intro r ht
      subst ht
      rw [lexToken_shebang libc (f + 1) { p with previous := p.current, current := p.next } body
        (10 :: r) hline hsrc hbody (by simp) (by omega)]
      have hr := advance_rest { ({ p with previous := p.current, current := p.next } : Parser)
        with tokenStart := p.currentChar } (35 :: 33 :: 47 :: body) (10 :: r) 0
        (by simpa using hsrc)
      simp only [List.length_cons] at hr
      rw [lexToken_cons libc f hr (by decide), lexSwitch_newline,
        nextChar_snd (r := r) (c := 10) _ (by exact hr)]
      refine ⟨_, rfl, rfl, rfl, ?_, ?_, rfl⟩
      · simp [makeToken, Parser.advance]
      · simp [makeToken, Parser.advance, hline]
  · intro r hsrc hnot hfuel
    obtain ⟨f, rfl⟩ : ∃ k, fuel = k + 1 := ⟨fuel - 1, by omega⟩
    have hsrc0 : ({ p with previous := p.current, current := p.next } : Parser).rest = 35 :: r :=
      hsrc
    rw [lexToken_cons libc f hsrc0 (by decide)]
    have hr0 : ({ ({ p with previous := p.current, current := p.next } : Parser) with
        tokenStart := p.currentChar } : Parser).rest = 35 :: r := hsrc
    rw [nextChar_advance0 _ hr0 (by decide)]
    have hr1 := advance_rest _ [35] _ 0 hr0
    simp only [List.length_singleton] at hr1
    rw [lexSwitch_hash, if_neg]
    · refine ⟨_, rfl, rfl, rfl, ?_, rfl⟩
      simp [makeToken, Parser.advance]
    · rintro ⟨h1, h2, h3⟩
      rcases hnot with hl | ht
      · exact hl (by simpa [Parser.advance] using h1)
      · rw [peekChar_eq, hr1] at h2
        rw [peekNextChar_eq, hr1] at h3
        rcases r with _ | ⟨a, _ | ⟨b, t⟩⟩
        · simp at h2
        · simp at h2
          subst h2
          simp at h3
        · simp at h2
          subst h2
          simp at h3
          subst h3
          exact ht t rfl

/-- Witness for C14: the source `#!/x`, newline, `y` gives the TOKEN_LINE of
the newline at index 4 first; in the source `#x` the `#` is a TOKEN_HASH. -/
theorem shebang_line_witness :
    (∃ q, wrenNextToken exampleLibc 6 (startParser (ascii "#!/x\ny")) = some q ∧
      q.next.type = TOKEN_LINE ∧ q.next.start = 0 + (1 + 3) ∧ q.next.length = 1 ∧
      q.next.line = 1 ∧ q.hasError = false) ∧
    (∃ q, wrenNextToken exampleLibc 6 (startParser (ascii "#x")) = some q ∧
      q.next.type = TOKEN_HASH ∧ q.next.start = 0 ∧ q.next.length = 1 ∧
      q.currentChar = 0 + 1) :=
  ⟨((shebang_line exampleLibc (startParser (ascii "#!/x\ny")) 6 (by decide)).1 [120] [10, 121]
      rfl (by decide) (by decide) (by decide)).2 [121] rfl,
    (shebang_line exampleLibc (startParser (ascii "#x")) 6 (by decide)).2 [120] (by decide)
      (Or.inr (fun _ h => by simp at h)) (by decide)⟩

/-! ## Number literals: the longest text of the form -/

/-- A run `a` of characters that satisfy `P`, followed by `X`, at the start of
a text: either `a` is the whole leading run of the text, or it is shorter and
`X` is empty or starts with a character that satisfies `P`. -/
theorem run_prefix (P : Nat → Bool) :
    ∀ (l a X : List Nat), (∀ c ∈ a, P c = true) → a ++ X <+: l →
      (a = l.takeWhile P ∧ X <+: l.dropWhile P) ∨
      (a.length < (l.takeWhile P).length ∧ ∀ c, X.head? = some c → P c = true)
  | [], a, X, _, h => by
    have := List.prefix_nil.mp h
    obtain ⟨rfl, rfl⟩ := List.append_eq_nil.mp this
    exact Or.inl ⟨rfl, List.prefix_refl _⟩
  | c :: l, [], X, _, h => by
    by_cases hc : P c = true
    · right
      refine ⟨by simp [List.takeWhile, hc], ?_⟩
      intro x hx
      cases X with
      | nil => cases hx
      | cons y Y =>
        simp only [List.head?_cons, Option.some.injEq] at hx
        subst hx
        simp only [List.nil_append] at h
        have := List.cons_prefix_cons.mp h
        rw [this.1]; exact hc
    · left
      simp only [Bool.not_eq_true] at hc
      refine ⟨by simp [List.takeWhile, hc], ?_⟩
      simpa [List.dropWhile, hc] using h
  | c :: l, b :: a, X, ha, h => by
    simp only [List.cons_append] at h
    obtain ⟨rfl, h'⟩ := List.cons_prefix_cons.mp h
    have hb : P b = true := ha b (List.mem_cons_self _ _)
    rcases run_prefix P l a X (fun x hx => ha x (List.mem_cons_of_mem _ hx)) h' with ⟨h1, h2⟩ | ⟨h1, h2⟩
    · left
      exact ⟨by simp [List.takeWhile, hb, h1], by simpa [List.dropWhile, hb] using h2⟩
    · right
      exact ⟨by simp [List.takeWhile, hb]; omega, h2⟩

theorem run_prefix_le (P : Nat → Bool) (l a X : List Nat) (ha : ∀ c ∈ a, P c = true)
    (h : a ++ X <+: l) : a.length ≤ (l.takeWhile P).length := by
  rcases run_prefix P l a X ha h with ⟨h1, _⟩ | ⟨h1, _⟩
  · rw [h1]
  · omega

theorem all_digits {l : List Nat} (h : l.all isDigit = true) : ∀ c ∈ l, isDigit c = true := by
  simpa using h

/-- The text of an exponent at the start of a text is not longer than the
exponent that is scanned there. -/
theorem exponent_longest (r2 : List Nat) (m : Nat) (s : Option Nat) (d : List Nat)
    (hm : m = 101 ∨ m = 69) (hs : ∀ c, s = some c → c = 43 ∨ c = 45)
    (hd : ∀ c ∈ d, isDigit c = true) (h : exponentText (some (m, s, d)) <+: r2) :
    (exponentText (some (m, s, d))).length ≤ (exponentText (exponentOf r2)).length := by
  cases r2 with
  | nil => simp [exponentText] at h
  | cons m' r3 =>
    simp only [exponentText] at h
    obtain ⟨rfl, h'⟩ := List.cons_prefix_cons.mp h
    simp only [exponentOf, hm, if_true, exponentText, List.length_cons, List.length_append]
    cases s with
    | some c =>
      have hc := hs c rfl
      cases r3 with
      | nil => simp at h'
      | cons c' r4 =>
        simp only [Option.toList, List.singleton_append] at h'
        obtain ⟨rfl, h''⟩ := List.cons_prefix_cons.mp h'
        have := run_prefix_le isDigit r4 d [] hd (by simpa using h'')
        simp only [signOf, hc, if_true, afterSign, Option.toList, List.length_singleton]
        omega
    | none =>
      simp only [Option.toList, List.nil_append] at h'
      cases r3 with
      | nil =>
        have := List.prefix_nil.mp h'
        subst this
        simp
      | cons x r4 =>
        by_cases hx : x = 43 ∨ x = 45
        · have hd0 : d = [] := by
            cases d with
            | nil => rfl
            | cons y d' =>
              obtain ⟨rfl, _⟩ := List.cons_prefix_cons.mp h'
              have := hd y (List.mem_cons_self _ _)
              rcases hx with rfl | rfl <;> simp [isDigit] at this
          subst hd0
          simp
        · have := run_prefix_le isDigit (x :: r4) d [] hd (by simpa using h')
          simp only [signOf, hx, if_false, afterSign, Option.toList, List.length_nil]
          omega

theorem not_digit_marker {m : Nat} (hm : m = 101 ∨ m = 69) : isDigit m = false := by
  rcases hm with rfl | rfl <;> rfl

/-- The text scanned by `scanNumber` is the longest text of the form at the
start of the text. -/
theorem scanNumber_longest (l : List Nat) (n : NumberForm) (hok : n.ok = true)
    (h : n.text <+: l) : n.text.length ≤ (scanNumber l).text.length := by
  obtain ⟨w, fr, ex⟩ := n
  simp only [NumberForm.ok, Bool.and_eq_true] at hok
  obtain ⟨⟨⟨_, hw⟩, hfr⟩, hex⟩ := hok
  have hw' := all_digits hw
  simp only [NumberForm.text, scanNumber, List.length_append] at h ⊢
  rw [List.append_assoc] at h
  -- what an exponent says
  have hexp : ∀ r2, exponentText ex <+: r2 →
      (exponentText ex).length ≤ (exponentText (exponentOf r2)).length := by
    intro r2 h2
    cases ex with
    | none => simp [exponentText]
    | some e =>
      obtain ⟨m, s, d⟩ := e
      simp only [Bool.and_eq_true, Bool.or_eq_true, decide_eq_true_eq] at hex
      refine exponent_longest r2 m s d hex.1.1 ?_ (all_digits hex.2) h2
      intro c hc
      subst hc
      simpa using hex.1.2
  have hexHead : ∀ c, (exponentText ex).head? = some c → isDigit c = false := by
    intro c hc
    cases ex with
    | none => simp [exponentText] at hc
    | some e =>
      obtain ⟨m, s, d⟩ := e
      simp only [Bool.and_eq_true, Bool.or_eq_true, decide_eq_true_eq] at hex
      simp only [exponentText, List.head?_cons, Option.some.injEq] at hc
      subst hc
      exact not_digit_marker hex.1.1
  rcases run_prefix isDigit l w (fractionText fr ++ exponentText ex) hw' h with
    ⟨h1, h2⟩ | ⟨h1, h2⟩
  · -- the whole part is the leading run of digits
    rw [← h1]
    cases fr with
    | none =>
      simp only [fractionText, List.nil_append, List.length_nil, Nat.add_zero] at h2 ⊢
      cases hex0 : exponentText ex with
      | nil => simp only [List.length_nil]; omega
      | cons m E =>
        -- the text goes on with a marker, so no fraction is scanned
        rw [hex0] at h2
        have hm := hexHead m (by rw [hex0]; rfl)
        have hnf : fractionOf (l.dropWhile isDigit) = none ∧
            afterFraction (l.dropWhile isDigit) = l.dropWhile isDigit := by
          cases hr : l.dropWhile isDigit with
          | nil => rw [hr] at h2; simp at h2
          | cons x r =>
            rw [hr] at h2
            obtain ⟨rfl, _⟩ := List.cons_prefix_cons.mp h2
            have hx : m ≠ 46 := by
              intro h46; subst h46
              have := hexHead 46 (by rw [hex0]; rfl)
              cases ex with
              | none => simp [exponentText] at hex0
              | some e =>
                obtain ⟨m', s, d⟩ := e
                simp only [Bool.and_eq_true, Bool.or_eq_true, decide_eq_true_eq] at hex
                simp only [exponentText, List.cons.injEq] at hex0
                omega
            cases r with
            | nil => simp [fractionOf, afterFraction]
            | cons y r' => simp [fractionOf, afterFraction, hx]
        have := hexp (l.dropWhile isDigit) (by rw [hex0]; exact h2)
        rw [hnf.1, hnf.2, fractionText, hex0] at *
        simp only [List.length_nil, Nat.add_zero] at *
        omega
    | some f =>
      simp only [Bool.and_eq_true] at hfr
      have hf := all_digits hfr.2
      cases f with
      | nil => simp at hfr
      | cons c f' =>
        simp only [fractionText, List.cons_append] at h2
        cases hr : l.dropWhile isDigit with
        | nil => rw [hr] at h2; simp at h2
        | cons x r =>
          rw [hr] at h2
          obtain ⟨rfl, h3⟩ := List.cons_prefix_cons.mp h2
          cases r with
          | nil => simp at h3
          | cons y r' =>
            have hy : y = c := ((List.cons_prefix_cons.mp h3).1).symm
            subst hy
            have hc : isDigit y = true := hf y (List.mem_cons_self _ _)
            simp only [fractionOf, afterFraction, hc, if_true, fractionText, List.length_cons]
            rcases run_prefix isDigit (y :: r') (y :: f') (exponentText ex) hf h3 with
              ⟨k1, k2⟩ | ⟨k1, k2⟩
            · rw [← k1]
              have := hexp _ k2
              simp only [List.length_cons]
              omega
            · have he0 : exponentText ex = [] := by
                cases he : exponentText ex with
                | nil => rfl
                | cons m E =>
                  have := hexHead m (by rw [he]; rfl)
                  rw [k2 m (by rw [he]; rfl)] at this
                  cases this
              rw [he0]
              simp only [List.length_cons, List.length_nil] at k1 ⊢
              omega
  · -- the whole part is shorter: nothing follows it
    have hnil : fractionText fr ++ exponentText ex = [] := by
      cases hX : fractionText fr ++ exponentText ex with
      | nil => rfl
      | cons x X =>
        have hx := h2 x (by rw [hX]; rfl)
        cases fr with
        | some f =>
          simp only [fractionText, List.cons_append, List.cons.injEq] at hX
          rw [← hX.1] at hx; cases hx
        | none =>
          simp only [fractionText, List.nil_append] at hX
          rw [hexHead x (by rw [hX]; rfl)] at hx
          cases hx
    obtain ⟨e1, e2⟩ := List.append_eq_nil.mp hnil
    rw [e1, e2]
    simp only [List.length_nil, Nat.add_zero]
    omega

/-! ## Number literals: what `readNumber` reads -/

theorem matchChar_hit (p : Parser) {c : Nat} {r : List Nat} (h : p.rest = c :: r) (hc : c ≠ 10) :
    matchChar p c = (true, p.advance 1 0) := by
  simp [matchChar, peekChar_cons h, nextChar_advance0 p h hc]

theorem matchChar_miss (p : Parser) {c : Nat} (h : peekChar p ≠ c) :
    matchChar p c = (false, p) := by
  simp [matchChar, h]

theorem takeWhile_digits (l : List Nat) : ∀ c ∈ l.takeWhile isDigit, isDigit c = true ∧ c ≠ 10 := by
  intro c hc
  have h := List.mem_takeWhile_imp hc
  refine ⟨h, ?_⟩
  rintro rfl
  cases h

theorem dropWhile_head (l : List Nat) :
    ∀ c, (l.dropWhile isDigit).head? = some c → isDigit c = false := by
  intro c hc
  induction l with
  | nil => cases hc
  | cons x l ih =>
    by_cases hx : isDigit x = true
    · rw [List.dropWhile_cons_of_pos hx] at hc
      exact ih hc
    · rw [List.dropWhile_cons_of_neg hx] at hc
      simp only [List.head?_cons, Option.some.injEq] at hc
      subst hc
      simpa using hx

/-- The digits at the start of the text are read. -/
theorem skipWhile_digits (f : Nat) (p : Parser) (l : List Nat) (h : p.rest = l)
    (hf : l.length + 1 ≤ f) :
    skipWhile isDigit f p = some (p.advance (l.takeWhile isDigit).length 0) ∧
    (p.advance (l.takeWhile isDigit).length 0).rest = l.dropWhile isDigit := by
  have hsplit : p.rest = l.takeWhile isDigit ++ l.dropWhile isDigit := by
    rw [List.takeWhile_append_dropWhile]; exact h
  refine ⟨skipWhile_run isDigit (by decide) _ f p _ hsplit (takeWhile_digits l) (dropWhile_head l)
    ?_, advance_rest p _ _ 0 hsplit⟩
  have : (l.takeWhile isDigit).length ≤ l.length := (List.takeWhile_sublist isDigit).length_le
  omega

/-- The digits of an exponent are read, after an error has been reported when
there is none. -/
theorem digits_or_error (f : Nat) (x : Parser) (r : List Nat) (m : String) (h : x.rest = r)
    (hf : r.length + 1 ≤ f) :
    skipWhile isDigit f (if !isDigit (peekChar x) then lexError x m else x) =
      some (if (r.takeWhile isDigit).isEmpty then lexError x m
        else x.advance (r.takeWhile isDigit).length 0) := by
  have hpk : isDigit (peekChar x) = !(r.takeWhile isDigit).isEmpty := by
    rw [peekChar_eq, h]
    cases r with
    | nil => rfl
    | cons c t =>
      by_cases hc : isDigit c = true
      · simp [List.takeWhile, hc]
      · simp only [Bool.not_eq_true] at hc
        simp [List.takeWhile, hc]
  by_cases he : (r.takeWhile isDigit).isEmpty = true
  · rw [hpk, he]
    simp only [Bool.not_false, Bool.not_true, if_true]
    have := (skipWhile_digits f (lexError x m) r ((lexError_rest x m).trans h) hf).1
    rw [this]
    have h0 : (r.takeWhile isDigit).length = 0 := by
      rw [List.isEmpty_iff] at he; rw [he]; rfl
    rw [h0, advance_zero]
  · simp only [Bool.not_eq_true] at he
    rw [hpk, he]
    simp only [Bool.not_false, Bool.not_true, Bool.false_eq_true, if_false]
    exact (skipWhile_digits f x r h hf).1

/-- The sign and the digits of an exponent are read. -/
theorem sign_scan (f : Nat) (x : Parser) (r : List Nat) (m : String) (h : x.rest = r)
    (hf : r.length + 1 ≤ f) :
    (let m3 := matchChar x 43
      let parser := if !m3.1 then (matchChar m3.2 45).2 else m3.2
      let parser := if !isDigit (peekChar parser) then lexError parser m else parser
      skipWhile isDigit f parser) =
      some (if ((afterSign r).takeWhile isDigit).isEmpty then
          lexError (x.advance (signOf r).toList.length 0) m
        else x.advance ((signOf r).toList.length + ((afterSign r).takeWhile isDigit).length) 0) := by
  dsimp only
  have key : ∀ x4 : Parser, x4 = x.advance (signOf r).toList.length 0 → x4.rest = afterSign r →
      (if !(matchChar x 43).1 then (matchChar (matchChar x 43).2 45).2 else (matchChar x 43).2) = x4 →
      skipWhile isDigit f
        (if !isDigit (peekChar (if !(matchChar x 43).1 then (matchChar (matchChar x 43).2 45).2
            else (matchChar x 43).2)) then
          lexError (if !(matchChar x 43).1 then (matchChar (matchChar x 43).2 45).2
            else (matchChar x 43).2) m
        else (if !(matchChar x 43).1 then (matchChar (matchChar x 43).2 45).2
            else (matchChar x 43).2)) =
      some (if ((afterSign r).takeWhile isDigit).isEmpty then
          lexError (x.advance (signOf r).toList.length 0) m
        else x.advance ((signOf r).toList.length + ((afterSign r).takeWhile isDigit).length) 0) := by
    intro x4 h4 hr4 heq
    have hlen : (afterSign r).length + 1 ≤ f := by
      have : (afterSign r).length ≤ r.length := by
        cases r with
        | nil => simp [afterSign]
        | cons s t => simp only [afterSign]; split_ifs <;> simp
      omega
    rw [heq, digits_or_error f x4 (afterSign r) m hr4 hlen, h4, advance_advance]
  cases r with
  | nil =>
    have hp : peekChar x = 0 := peekChar_nil h
    refine key x (by simp [signOf, advance_zero]) (by simpa [afterSign] using h) ?_
    rw [matchChar_miss x (by rw [hp]; decide), matchChar_miss x (by rw [hp]; decide)]
    rfl
  | cons s t =>
    have hp : peekChar x = s := peekChar_cons h
    by_cases h43 : s = 43
    · subst h43
      refine key (x.advance 1 0) (by simp [signOf]) (by simpa [afterSign] using advance_rest x [43] t 0 h) ?_
      rw [matchChar_hit x h (by decide)]
      rfl
    · by_cases h45 : s = 45
      · subst h45
        refine key (x.advance 1 0) (by simp [signOf]) (by simpa [afterSign] using advance_rest x [45] t 0 h) ?_
        rw [matchChar_miss x (by rw [hp]; decide), matchChar_hit x h (by decide)]
        rfl
      · refine key x (by simp [signOf, h43, h45, advance_zero]) (by simpa [afterSign, h43, h45] using h) ?_
        rw [matchChar_miss x (by rw [hp]; exact h43), matchChar_miss x (by rw [hp]; exact h45)]
        rfl

/-- The exponent at the start of the text is read. -/
theorem exponent_scan (f : Nat) (x : Parser) (r : List Nat) (h : x.rest = r)
    (hf : r.length + 1 ≤ f) :
    (let m1 := matchChar x 101
      let m2 := if m1.1 then m1 else matchChar m1.2 69
      if m2.1 then
        let m3 := matchChar m2.2 43
        let parser := if !m3.1 then (matchChar m3.2 45).2 else m3.2
        let parser :=
          if !isDigit (peekChar parser) then lexError parser "Unterminated scientific notation."
          else parser
        skipWhile isDigit f parser
      else some m2.2) =
      some (if (⟨[], none, exponentOf r⟩ : NumberForm).unterminated then
          lexError (x.advance (exponentText (exponentOf r)).length 0)
            "Unterminated scientific notation."
        else x.advance (exponentText (exponentOf r)).length 0) := by
  have hit : ∀ (m : Nat) (t : List Nat), r = m :: t → (m = 101 ∨ m = 69) →
      (if (matchChar x 101).1 then matchChar x 101 else matchChar (matchChar x 101).2 69) =
        (true, x.advance 1 0) := by
    intro m t hr hm
    rw [hr] at h
    rcases hm with rfl | rfl
    · rw [matchChar_hit x h (by decide)]; rfl
    · rw [matchChar_miss x (by rw [peekChar_cons h]; decide), matchChar_hit x h (by decide)]; rfl
  have miss : (∀ t, r ≠ 101 :: t) → (∀ t, r ≠ 69 :: t) →
      (if (matchChar x 101).1 then matchChar x 101 else matchChar (matchChar x 101).2 69) =
        (false, x) := by
    intro h1 h2
    have p1 : peekChar x ≠ 101 := by
      rw [peekChar_eq, h]
      cases r with
      | nil => decide
      | cons c t => intro hc; exact h1 t (by simp at hc; rw [hc])
    have p2 : peekChar x ≠ 69 := by
      rw [peekChar_eq, h]
      cases r with
      | nil => decide
      | cons c t => intro hc; exact h2 t (by simp at hc; rw [hc])
    rw [matchChar_miss x p1, matchChar_miss x p2]; rfl
  cases r with
  | nil =>
    rw [show (let m1 := matchChar x 101
      let m2 := if m1.1 then m1 else matchChar m1.2 69
      if m2.1 then
        let m3 := matchChar m2.2 43
        let parser := if !m3.1 then (matchChar m3.2 45).2 else m3.2
        let parser :=
          if !isDigit (peekChar parser) then lexError parser "Unterminated scientific notation."
          else parser
        skipWhile isDigit f parser
      else some m2.2) = some x by
        dsimp only
        rw [miss (by simp) (by simp)]
        rfl]
    simp [exponentOf, exponentText, NumberForm.unterminated, advance_zero]
  | cons m t =>
    by_cases hm : m = 101 ∨ m = 69
    · have h1 := hit m t rfl hm
      have hr3 : (x.advance 1 0).rest = t := advance_rest x [m] t 0 h
      have hs := sign_scan f (x.advance 1 0) t "Unterminated scientific notation." hr3
        (by simp only [List.length_cons] at hf; omega)
      dsimp only at hs ⊢
      rw [h1]
      simp only [if_true]
      rw [hs]
      simp only [exponentOf, hm, if_true, exponentText, NumberForm.unterminated, advance_advance,
        List.length_cons, List.length_append]
      cases hE : (afterSign t).takeWhile isDigit with
      | nil => simp [Nat.add_comm]
      | cons e E => simp [Nat.add_comm, Nat.add_assoc, Nat.add_left_comm]
    · have h1 := miss (fun t' ht => hm (Or.inl (by simp at ht; exact ht.1)))
        (fun t' ht => hm (Or.inr (by simp at ht; exact ht.1)))
      dsimp only
      rw [h1]
      simp [exponentOf, hm, exponentText, NumberForm.unterminated, advance_zero]

/-- The fraction at the start of the text is read. -/
theorem fraction_scan (f : Nat) (x : Parser) (r : List Nat) (h : x.rest = r)
    (hf : r.length + 1 ≤ f) :
    (if peekChar x = 46 ∧ isDigit (peekNextChar x) then skipWhile isDigit f (nextChar x).2
      else some x) = some (x.advance (fractionText (fractionOf r)).length 0) ∧
    (x.advance (fractionText (fractionOf r)).length 0).rest = afterFraction r := by
  have none_case : ¬(peekChar x = 46 ∧ isDigit (peekNextChar x) = true) →
      fractionOf r = none → afterFraction r = r →
      (if peekChar x = 46 ∧ isDigit (peekNextChar x) then skipWhile isDigit f (nextChar x).2
        else some x) = some (x.advance (fractionText (fractionOf r)).length 0) ∧
      (x.advance (fractionText (fractionOf r)).length 0).rest = afterFraction r := by
    intro h1 h2 h3
    rw [if_neg h1, h2, h3]
    simp only [fractionText, List.length_nil, advance_zero]
    exact ⟨trivial, h⟩
  cases r with
  | nil =>
    exact none_case (by rw [peekChar_nil h]; simp) rfl rfl
  | cons c t =>
    by_cases hc : c = 46
    · subst hc
      cases t with
      | nil =>
        refine none_case ?_ rfl rfl
        rw [peekNextChar_eq, h]
        simp [isDigit]
      | cons d t' =>
        have hp : peekChar x = 46 := peekChar_cons h
        have hn : peekNextChar x = d := peekNextChar_cons h (by decide)
        by_cases hd : isDigit d = true
        · rw [if_pos ⟨hp, by rw [hn]; exact hd⟩, nextChar_advance0 x h (by decide)]
          have hr1 : (x.advance 1 0).rest = d :: t' := advance_rest x [46] _ 0 h
          obtain ⟨h1, h2⟩ := skipWhile_digits f (x.advance 1 0) (d :: t') hr1
            (by simp only [List.length_cons] at hf ⊢; omega)
          rw [h1, advance_advance]
          simp only [fractionOf, hd, if_true, fractionText, afterFraction, List.length_cons]
          rw [advance_advance] at h2
          constructor
          · simp [Nat.add_comm]
          · rw [← h2]; simp [Nat.add_comm]
        · refine none_case ?_ (by simp [fractionOf, hd]) (by simp [afterFraction, hd])
          rw [hn]; simp [hd]
    · refine none_case ?_ ?_ ?_
      · rw [peekChar_cons h]; simp [hc]
      · cases t <;> simp [fractionOf, hc]
      · cases t <;> simp [afterFraction, hc]

/-- The text scanned by `scanNumber` stands at the start of the text. -/
theorem scanNumber_split (l : List Nat) : ∃ tail, l = (scanNumber l).text ++ tail := by
  have h1 : l = l.takeWhile isDigit ++ l.dropWhile isDigit :=
    (List.takeWhile_append_dropWhile _ _).symm
  have h2 : ∀ r : List Nat, r = fractionText (fractionOf r) ++ afterFraction r := by
    intro r
    rcases r with _ | ⟨c, _ | ⟨d, t⟩⟩
    · rfl
    · by_cases hc : c = 46 <;> simp [fractionOf, afterFraction, fractionText, hc]
    · by_cases hc : c = 46
      · subst hc
        by_cases hd : isDigit d = true
        · simp only [fractionOf, hd, if_true, fractionText, afterFraction, List.cons_append,
            List.takeWhile_append_dropWhile]
        · simp [fractionOf, afterFraction, fractionText, hd]
      · simp [fractionOf, afterFraction, fractionText, hc]
  have h3 : ∀ r : List Nat, ∃ tail, r = exponentText (exponentOf r) ++ tail := by
    intro r
    cases r with
    | nil => exact ⟨[], rfl⟩
    | cons m t =>
      by_cases hm : m = 101 ∨ m = 69
      · simp only [exponentOf, hm, if_true, exponentText, List.cons_append, List.cons.injEq,
          true_and]
        refine ⟨(afterSign t).dropWhile isDigit, ?_⟩
        rw [List.append_assoc, List.takeWhile_append_dropWhile]
        cases t with
        | nil => rfl
        | cons s t' =>
          by_cases hs : s = 43 ∨ s = 45
          · simp [signOf, afterSign, hs]
          · simp [signOf, afterSign, hs]
      · exact ⟨m :: t, by simp [exponentOf, hm, exponentText]⟩
  obtain ⟨tail, h4⟩ := h3 (afterFraction (l.dropWhile isDigit))
  refine ⟨tail, ?_⟩
  simp only [scanNumber, NumberForm.text, List.append_assoc]
  rw [← h4, ← h2, ← h1]

/-- The text scanned at a digit is of the form. -/
theorem scanNumber_ok (d : Nat) (t : List Nat) (hd : isDigit d = true) :
    (scanNumber (d :: t)).ok = true := by
  have hw : (d :: t).takeWhile isDigit = d :: t.takeWhile isDigit := by
    simp [List.takeWhile, hd]
  have hall : ∀ l : List Nat, (l.takeWhile isDigit).all isDigit = true := by
    intro l
    simp only [List.all_eq_true]
    exact fun c hc => List.mem_takeWhile_imp hc
  simp only [NumberForm.ok, scanNumber, hw, hall, Bool.and_eq_true, List.isEmpty_cons,
    Bool.not_false, true_and, and_true]
  have := hall (d :: t)
  rw [hw] at this
  refine ⟨⟨this, ?_⟩, ?_⟩
  · generalize (d :: t).dropWhile isDigit = r
    rcases r with _ | ⟨c, _ | ⟨e, r'⟩⟩
    · rfl
    · by_cases hc : c = 46 <;> simp [fractionOf, hc]
    · by_cases hc : c = 46
      · subst hc
        by_cases he : isDigit e = true
        · have := hall (e :: r')
          simp only [fractionOf, he, if_true]
          simp only [List.takeWhile, he] at this ⊢
          simpa using this
        · simp [fractionOf, he]
      · simp [fractionOf, hc]
  · generalize afterFraction ((d :: t).dropWhile isDigit) = r
    cases r with
    | nil => rfl
    | cons m r' =>
      by_cases hm : m = 101 ∨ m = 69
      · simp only [exponentOf, hm, if_true, hall, Bool.and_true, Bool.and_eq_true,
          Bool.or_eq_true, decide_eq_true_eq]
        refine ⟨trivial, ?_⟩
        cases r' with
        | nil => rfl
        | cons s r'' =>
          by_cases hs : s = 43 ∨ s = 45
          · simp [signOf, hs]
          · simp [signOf, hs]
      · simp [exponentOf, hm]

theorem afterFraction_length (r : List Nat) : (afterFraction r).length ≤ r.length := by
  rcases r with _ | ⟨c, _ | ⟨d, t⟩⟩
  · simp [afterFraction]
  · by_cases hc : c = 46 <;> simp [afterFraction, hc]
  · by_cases hc : c = 46
    · subst hc
      by_cases hd : isDigit d = true
      · simp only [afterFraction, hd, if_true]
        have : ((d :: t).dropWhile isDigit).length ≤ (d :: t).length :=
          (List.dropWhile_sublist isDigit).length_le
        simp only [List.length_cons] at this ⊢
        omega
      · simp [afterFraction, hd]
    · simp [afterFraction, hc]

/-- Function `readNumber` after the first digit `d` of a number: the text
scanned by `scanNumber` is read, and an error is reported when the exponent
has no digit. -/
theorem readNumber_scan (libc : Libc) (f : Nat) (x : Parser) (d : Nat) (t : List Nat)
    (hd : isDigit d = true) (h : x.rest = t) (hf : t.length + 1 ≤ f) :
    readNumber libc f x = some (makeNumber libc
      (if (scanNumber (d :: t)).unterminated then
        lexError (x.advance ((scanNumber (d :: t)).text.length - 1) 0)
          "Unterminated scientific notation."
      else x.advance ((scanNumber (d :: t)).text.length - 1) 0) false) := by
  obtain ⟨h1, hr1⟩ := skipWhile_digits f x t h hf
  have hl1 : (t.dropWhile isDigit).length ≤ t.length := (List.dropWhile_sublist isDigit).length_le
  obtain ⟨h2, hr2⟩ := fraction_scan f _ _ hr1 (by omega)
  have hl2 := afterFraction_length (t.dropWhile isDigit)
  have h3 := exponent_scan f _ _ hr2 (by omega)
  have hw : (d :: t).takeWhile isDigit = d :: t.takeWhile isDigit := by
    simp [List.takeWhile, hd]
  have hdw : (d :: t).dropWhile isDigit = t.dropWhile isDigit := by
    simp [List.dropWhile, hd]
  have hn : (scanNumber (d :: t)).text.length - 1 =
      (t.takeWhile isDigit).length + (fractionText (fractionOf (t.dropWhile isDigit))).length +
        (exponentText (exponentOf (afterFraction (t.dropWhile isDigit)))).length := by
    simp only [scanNumber, NumberForm.text, hw, hdw, List.length_append, List.length_cons]
    omega
  have hu : (scanNumber (d :: t)).unterminated =
      (⟨[], none, exponentOf (afterFraction (t.dropWhile isDigit))⟩ : NumberForm).unterminated := by
    simp only [scanNumber, NumberForm.unterminated, hdw]
  simp only [readNumber, h1, Option.some_bind, h2]
  dsimp only at h3 ⊢
  rw [h3, hu, hn]
  simp only [advance_advance, Option.map_some', Nat.add_zero]

theorem lexSwitch_digit (libc : Libc) (f : Nat) (x : Parser) (d : Nat) (hd : isDigit d = true)
    (hx : ¬(d = 48 ∧ peekChar x = 120)) :
    lexSwitch libc f x d = (readNumber libc f x).map SwitchExit.ret := by
  have hr : 48 ≤ d ∧ d ≤ 57 := by simpa [isDigit] using hd
  obtain ⟨h1, h2⟩ := hr
  interval_cases d
  · have : peekChar x ≠ 120 := fun h => hx ⟨rfl, h⟩
    simp [lexSwitch, this]
  all_goals simp [lexSwitch, isName, isDigit]

/-- The token loop at a digit that does not start a hexadecimal literal. -/
theorem lexToken_number (libc : Libc) (f : Nat) (p : Parser) (d : Nat) (t : List Nat)
    (hsrc : p.rest = d :: t) (hd : isDigit d = true) (hx : ¬(d = 48 ∧ t.head? = some 120))
    (hf : t.length + 1 ≤ f) :
    lexToken libc (f + 1) p = some (makeNumber libc
      (if (scanNumber (d :: t)).unterminated then
        lexError ({ p with tokenStart := p.currentChar }.advance
          ((scanNumber (d :: t)).text.length) 0) "Unterminated scientific notation."
      else { p with tokenStart := p.currentChar }.advance
        ((scanNumber (d :: t)).text.length) 0) false) := by
  have hd0 : d ≠ 0 := by rintro rfl; cases hd
  have hd10 : d ≠ 10 := by rintro rfl; cases hd
  rw [lexToken_cons libc f hsrc hd0]
  have hr0 : ({ p with tokenStart := p.currentChar } : Parser).rest = d :: t := hsrc
  rw [nextChar_advance0 _ hr0 hd10]
  have hr1 := advance_rest _ [d] _ 0 hr0
  simp only [List.length_singleton] at hr1
  have hx' : ¬(d = 48 ∧ peekChar ({ p with tokenStart := p.currentChar }.advance 1 0) = 120) := by
    rintro ⟨h1, h2⟩
    apply hx
    refine ⟨h1, ?_⟩
    rw [peekChar_eq, hr1] at h2
    cases t with
    | nil => simp at h2
    | cons c t' => simp at h2; simp [h2]
  rw [lexSwitch_digit libc f _ d hd hx', readNumber_scan libc f _ d t hd hr1 hf]
  have hpos : 1 ≤ (scanNumber (d :: t)).text.length := by
    simp only [scanNumber, NumberForm.text, List.length_append]
    have : (d :: t).takeWhile isDigit = d :: t.takeWhile isDigit := by
      simp [List.takeWhile, hd]
    rw [this]
    simp only [List.length_cons]
    omega
  simp only [Option.map_some', advance_advance, Nat.add_zero]
  rw [show 1 + ((scanNumber (d :: t)).text.length - 1) = (scanNumber (d :: t)).text.length by omega]

/-! ## Number literals: the token -/

/-- Function `makeNumber` on a decimal literal. -/
theorem makeNumber_decimal (libc : Libc) (y : Parser) :
    (makeNumber libc y false).next.type = TOKEN_NUMBER ∧
    (makeNumber libc y false).next.start = y.tokenStart ∧
    (makeNumber libc y false).next.length = (y.currentChar : Int) - (y.tokenStart : Int) ∧
    (makeNumber libc y false).currentChar = y.currentChar ∧
    (makeNumber libc y false).tokenStart = y.tokenStart ∧
    (makeNumber libc y false).source = y.source ∧
    (libc.strtodERANGE (strtodSubject (y.source.drop y.tokenStart)) = false →
      makeNumber libc y false = makeToken { y with next := { y.next with
        value := Value.NUM_VAL (WrenNum.strtod (strtodSubject (y.source.drop y.tokenStart))) } }
        TOKEN_NUMBER) := by
  by_cases hv : libc.strtodERANGE (strtodSubject (y.source.drop y.tokenStart)) = true
  · simp only [makeNumber, hv, Bool.false_eq_true, if_false, if_true]
    refine ⟨rfl, ?_, ?_, ?_, ?_, ?_, fun h => by cases h⟩ <;>
      (simp only [makeToken, lexError, wrenPrintError]; split_ifs <;> rfl)
  · simp only [Bool.not_eq_true] at hv
    simp only [makeNumber, hv, Bool.false_eq_true, if_false]
    exact ⟨rfl, rfl, rfl, rfl, rfl, rfl, fun _ => trivial⟩

/-- C11: at a source position that starts with a decimal digit and not with
the prefix `0x`, the lexer produces one TOKEN_NUMBER whose slice is the
longest text at that position of the form: digits, optionally followed by a
dot and one or more digits, optionally followed by `e` or `E`, an optional
single `+` or `-`, and zero or more digits (`NumberForm`).  So a dot that is
not followed by a digit is not part of the number.  When the exponent marker
has no digit after it the error `Unterminated scientific notation.` is
reported and the TOKEN_NUMBER is still produced; otherwise, unless `strtod`
reports a range error, no error is reported.  The value of the token is what
`strtod` returns when called on the text of the source from the first
character of the token on, of which it reads its subject sequence
(`strtodSubject`); that can be more than the slice. -/
theorem number_literal (libc : Libc) (p : Parser) (d : Nat) (t : List Nat) (fuel : Nat)
    (hne : p.next.type ≠ TOKEN_EOF)
    (hsrc : p.rest = d :: t)
    (hd : isDigit d = true)
    (hx : ¬(d = 48 ∧ t.head? = some 120))
    (hfuel : t.length + 2 ≤ fuel) :
    ∃ (q : Parser) (nf : NumberForm), wrenNextToken libc fuel p = some q ∧ nf.ok = true ∧
      q.next.type = TOKEN_NUMBER ∧ q.next.start = p.currentChar ∧
      q.next.length = nf.text.length ∧ tokenText q = nf.text ∧
      q.currentChar = p.currentChar + nf.text.length ∧
      (∃ tail, p.rest = nf.text ++ tail) ∧
      (∀ nf' : NumberForm, nf'.ok = true → nf'.text <+: p.rest →
        nf'.text.length ≤ nf.text.length) ∧
      (nf.unterminated = true →
        q.hasError = true ∧
        (p.printErrors = true → p.vm.errorFn = true →
          ∃ l, q.vm.errorCalls = p.vm.errorCalls ++
            ⟨WrenErrorType.WREN_ERROR_COMPILE, some (p.module.name.getD "<unknown>"),
              p.currentLine, "Error: Unterminated scientific notation."⟩ :: l)) ∧
      (libc.strtodERANGE (strtodSubject p.rest) = false →
        q.next.value = Value.NUM_VAL (WrenNum.strtod (strtodSubject p.rest)) ∧
        (nf.unterminated = false → q.hasError = p.hasError ∧ q.vm = p.vm)) := by
  obtain ⟨f, rfl⟩ : ∃ k, fuel = k + 1 := ⟨fuel - 1, by omega⟩
  rw [wrenNextToken_lex libc _ p hne]
  have hlex := lexToken_number libc f { p with previous := p.current, current := p.next } d t
    hsrc hd hx (by omega)
  obtain ⟨tail, hsplit⟩ := scanNumber_split (d :: t)
  -- the parser in which the token is made
  generalize hy : (if (scanNumber (d :: t)).unterminated then
      lexError ({ ({ p with previous := p.current, current := p.next } : Parser) with
        tokenStart := p.currentChar }.advance ((scanNumber (d :: t)).text.length) 0)
        "Unterminated scientific notation."
    else { ({ p with previous := p.current, current := p.next } : Parser) with
      tokenStart := p.currentChar }.advance ((scanNumber (d :: t)).text.length) 0) = y at hlex
  have hy1 : y.source = p.source ∧ y.tokenStart = p.currentChar ∧
      y.currentChar = p.currentChar + (scanNumber (d :: t)).text.length := by
    rw [← hy]
    simp only [lexError, wrenPrintError, Parser.advance]
    split_ifs <;> exact ⟨rfl, rfl, rfl⟩
  have htext : tokenText y = (scanNumber (d :: t)).text := by
    refine tokenText_eq tail ?_ ?_
    · rw [hy1.1, hy1.2.1, ← hsplit]; exact hsrc
    · rw [hy1.2.1, hy1.2.2]
  obtain ⟨m1, m2, m3, m4, m5, m6, m7⟩ := makeNumber_decimal libc y
  have mk := makeNumber_kept libc y false
  refine ⟨_, scanNumber (d :: t), hlex, scanNumber_ok d t hd, m1, m2.trans hy1.2.1, ?_, ?_,
    m4.trans hy1.2.2, ⟨tail, by rw [hsrc]; exact hsplit⟩, ?_, ?_, ?_⟩
  · rw [m3, hy1.2.1, hy1.2.2]
    push_cast; ring
  · have : tokenText (makeNumber libc y false) = tokenText y := by
      simp only [tokenText, m4, m5, m6]
    rw [this, htext]
  · intro nf' hok hpre
    rw [hsrc] at hpre
    exact scanNumber_longest (d :: t) nf' hok hpre
  · intro hu
    rw [hu] at hy
    simp only [if_true] at hy
    have hye : y.hasError = true := by
      rw [← hy]
      simp only [lexError, wrenPrintError]
      split_ifs <;> rfl
    refine ⟨mk.2.2.2.2.2.2.1 hye, ?_⟩
    intro h1 h2
    obtain ⟨l, hl⟩ := mk.2.2.2.2.2.2.2.1
    refine ⟨l, ?_⟩
    rw [hl, ← hy]
    have hmsg : "Error" ++ ": " ++ "Unterminated scientific notation." =
        "Error: Unterminated scientific notation." := by decide
    simp only [lexError, wrenPrintError, Parser.advance, h1, h2, Bool.not_true,
      Bool.false_eq_true, if_false, hmsg, Nat.cast_zero, Int.add_zero, List.append_assoc,
      List.singleton_append]
    cases p.module.name <;> rfl
  · intro hr
    have hsub : y.source.drop y.tokenStart = p.rest := by
      rw [hy1.1, hy1.2.1]; rfl
    rw [← hsub] at hr ⊢
    rw [m7 hr]
    refine ⟨rfl, ?_⟩
    intro hu
    rw [hu] at hy
    simp only [Bool.false_eq_true, if_false] at hy
    rw [← hy]
    exact ⟨rfl, rfl⟩

/-- Witness for C11: the source `123.abs` starts with a TOKEN_NUMBER whose
slice is the longest text of the form; the first three tokens are the
TOKEN_NUMBER `123`, TOKEN_DOT and the TOKEN_NAME `abs`.  The value of the
number is what `strtod` makes of `123.`, the text it reads; in the source
`1.e5` the slice of the number is `1` and its value is what `strtod` makes of
`1.e5`. -/
theorem number_literal_witness :
    (∃ (q : Parser) (nf : NumberForm),
      wrenNextToken exampleLibc 8 (startParser (ascii "123.abs")) = some q ∧ nf.ok = true ∧
      q.next.type = TOKEN_NUMBER ∧ q.next.start = 0 ∧ q.next.length = nf.text.length ∧
      tokenText q = nf.text ∧
      (∀ nf' : NumberForm, nf'.ok = true → nf'.text <+: ascii "123.abs" →
        nf'.text.length ≤ nf.text.length)) ∧
    (wrenNextTokens exampleLibc 8 3 (startParser (ascii "123.abs"))).map
        (fun r => r.1.map Token.view) =
      some [⟨TOKEN_NUMBER, 0, 3, 1, some (Value.NUM_VAL (WrenNum.strtod (ascii "123.")))⟩,
        ⟨TOKEN_DOT, 3, 1, 1, none⟩,
        ⟨TOKEN_NAME, 4, 3, 1, some (Value.OBJ_STRING [97, 98, 115])⟩] ∧
    (wrenNextTokens exampleLibc 8 3 (startParser (ascii "1.e5"))).map
        (fun r => r.1.map Token.view) =
      some [⟨TOKEN_NUMBER, 0, 1, 1, some (Value.NUM_VAL (WrenNum.strtod (ascii "1.e5")))⟩,
        ⟨TOKEN_DOT, 1, 1, 1, none⟩,
        ⟨TOKEN_NAME, 2, 2, 1, some (Value.OBJ_STRING [101, 53])⟩] :=
  ⟨(number_literal exampleLibc (startParser (ascii "123.abs")) 49 [50, 51, 46, 97, 98, 115] 8
      (by decide) (by decide) (by decide) (by decide) (by decide)).imp
      (fun _ h => h.imp (fun _ h' =>
        ⟨h'.1, h'.2.1, h'.2.2.1, h'.2.2.2.1, h'.2.2.2.2.1, h'.2.2.2.2.2.1,
          h'.2.2.2.2.2.2.2.2.1⟩)),
    by decide, by decide⟩

/-! ## Slices of the source and the newlines in them -/

theorem slice_self (src : List Nat) (a : Nat) : slice src a a = [] := by
  simp [slice]

theorem slice_append (src : List Nat) {a b c : Nat} (h1 : a ≤ b) (h2 : b ≤ c) :
    slice src a c = slice src a b ++ slice src b c := by
  unfold slice
  have e1 : c - a = (b - a) + (c - b) := by omega
  have e2 : List.drop b src = List.drop (b - a) (List.drop a src) := by
    rw [List.drop_drop]; congr 1; omega
  rw [e1, List.take_add, e2]

theorem newlines_append (a b : List Nat) : newlines (a ++ b) = newlines a + newlines b := by
  simp [newlines]

theorem slice_one (src : List Nat) (a : Nat) :
    newlines (slice src a (a + 1)) = if charAt src a = 10 then 1 else 0 := by
  have hc : charAt src a = (src.drop a).getD 0 0 := by
    have := charAt_add src a 0
    simpa using this
  rw [hc]
  unfold slice newlines
  cases src.drop a with
  | nil => simp
  | cons x t =>
    by_cases hx : x = 10
    · subst hx; simp
    · simp [hx, List.count_singleton]

theorem newlines_slice_zero (src : List Nat) (a : Nat) :
    ∀ (d : Nat), (∀ i, a ≤ i → i < a + d → charAt src i ≠ 10) → newlines (slice src a (a + d)) = 0
  | 0, _ => by simp [slice_self, newlines]
  | d + 1, h => by
    rw [slice_append src (show a ≤ a + d by omega) (show a + d ≤ a + (d + 1) by omega),
      newlines_append, newlines_slice_zero src a d (fun i h1 h2 => h i h1 (by omega)),
      show a + (d + 1) = (a + d) + 1 by omega, slice_one, if_neg (h (a + d) (by omega) (by omega))]

theorem newlines_slice_none (src : List Nat) {a b : Nat}
    (h : ∀ i, a ≤ i → i < b → charAt src i ≠ 10) : newlines (slice src a b) = 0 := by
  by_cases hab : a ≤ b
  · obtain ⟨d, rfl⟩ : ∃ d, b = a + d := ⟨b - a, by omega⟩
    exact newlines_slice_zero src a d h
  · have : b - a = 0 := by omega
    simp [slice, this, newlines]

theorem take_slice (src : List Nat) {a b : Nat} (h : a ≤ b) :
    src.take b = src.take a ++ slice src a b := by
  have := slice_append src (Nat.zero_le a) h
  simpa [slice] using this

/-! ## Parsers further on in the source -/

theorem Reach.reachHere (P : Nat → Bool) (p : Parser) : Reach P p p :=
  ⟨rfl, rfl, rfl, le_refl _, id, fun i h1 h2 => absurd h2 (by omega)⟩

theorem Reach.reachThen {P : Nat → Bool} {p q r : Parser} (h1 : Reach P p q) (h2 : Reach P q r) :
    Reach P p r := by
  obtain ⟨a1, a2, a3, a4, a5, a6⟩ := h1
  obtain ⟨b1, b2, b3, b4, b5, b6⟩ := h2
  refine ⟨b1.trans a1, b2.trans a2, b3.trans a3, le_trans a4 b4, ?_, ?_⟩
  · intro h
    have := a5 h
    rw [a1] at b5
    exact b5 this
  · intro i hi1 hi2
    by_cases hq : i < q.currentChar
    · exact a6 i hi1 hq
    · rw [a1] at b6
      exact b6 i (by omega) hi2

theorem Reach.reachMono {P Q : Nat → Bool} {p q : Parser} (h : Reach P p q)
    (hPQ : ∀ c, P c = true → Q c = true) : Reach Q p q :=
  ⟨h.1, h.2.1, h.2.2.1, h.2.2.2.1, h.2.2.2.2.1, fun i h1 h2 => hPQ _ (h.2.2.2.2.2 i h1 h2)⟩

theorem Counted.countedHere (p : Parser) : Counted p p := by
  simp [Counted, slice_self, newlines]

theorem Counted.countedThen {p q r : Parser} (hs : q.source = p.source)
    (h1 : p.currentChar ≤ q.currentChar) (h2 : q.currentChar ≤ r.currentChar)
    (c1 : Counted p q) (c2 : Counted q r) : Counted p r := by
  unfold Counted at *
  rw [c2, c1, hs, slice_append p.source h1 h2, newlines_append]
  push_cast
  ring

theorem Span.spanHere (P : Nat → Bool) (p : Parser) : Span P p p :=
  ⟨Reach.reachHere P p, Counted.countedHere p⟩

theorem Span.spanThen {P : Nat → Bool} {p q r : Parser} (h1 : Span P p q) (h2 : Span P q r) :
    Span P p r :=
  ⟨h1.1.reachThen h2.1, Counted.countedThen h1.1.1 h1.1.2.2.2.1 h2.1.2.2.2.1 h1.2 h2.2⟩

theorem Span.spanMono {P Q : Nat → Bool} {p q : Parser} (h : Span P p q)
    (hPQ : ∀ c, P c = true → Q c = true) : Span Q p q :=
  ⟨h.1.reachMono hPQ, h.2⟩

/-- A change of the fields that hold no position leaves the parser where it
is. -/
theorem span_same (P : Nat → Bool) {p q : Parser} (h1 : q.source = p.source)
    (h2 : q.tokenStart = p.tokenStart) (h3 : q.numParens = p.numParens)
    (h4 : q.currentChar = p.currentChar) (h5 : q.currentLine = p.currentLine) : Span P p q := by
  refine ⟨⟨h1, h2, h3, by omega, by rw [h4]; exact id, fun i a b => absurd b (by omega)⟩, ?_⟩
  simp [Counted, h4, h5, slice_self, newlines]

theorem counted_nextChar (p : Parser) : Counted p (nextChar p).2 := by
  simp only [Counted, nextChar, slice_one, peekChar]
  split_ifs <;> simp

theorem span_nextChar (P : Nat → Bool) (p : Parser) (hP : P (peekChar p) = true)
    (h0 : peekChar p ≠ 0) : Span P p (nextChar p).2 := by
  refine ⟨⟨rfl, rfl, rfl, Nat.le_succ _, fun _ => currentChar_lt_length h0, ?_⟩,
    counted_nextChar p⟩
  intro i h1 h2
  have : i = p.currentChar := by
    have : (nextChar p).2.currentChar = p.currentChar + 1 := rfl
    omega
  rw [this]
  exact hP

theorem span_matchChar (P : Nat → Bool) (p : Parser) (c : Nat) (hP : P c = true) (h0 : c ≠ 0) :
    Span P p (matchChar p c).2 := by
  unfold matchChar
  split_ifs with h
  · exact Span.spanHere P p
  · simp only [ne_eq, not_not] at h
    exact span_nextChar P p (by rw [h]; exact hP) (by rw [h]; exact h0)

theorem span_lexError (P : Nat → Bool) (p : Parser) (m : String) : Span P p (lexError p m) := by
  refine span_same P ?_ ?_ ?_ ?_ ?_ <;>
    (simp only [lexError, wrenPrintError]; split_ifs <;> rfl)

theorem span_makeToken (P : Nat → Bool) (p : Parser) (T : TokenType) :
    Span P p (makeToken p T) :=
  span_same P rfl rfl rfl rfl rfl

/-! ## The loops of the lexer -/

theorem skipWhile_span (cond : Nat → Bool) (h0 : cond 0 = false) :
    ∀ (f : Nat) (p q : Parser), skipWhile cond f p = some q →
      Span cond p q ∧ cond (peekChar q) = false
  | 0, _, _, h => by simp [skipWhile] at h
  | f + 1, p, q, h => by
    rw [skipWhile] at h
    split_ifs at h with hc
    · have hne : peekChar p ≠ 0 := by
        intro hz; rw [hz, h0] at hc; cases hc
      obtain ⟨h1, h2⟩ := skipWhile_span cond h0 f _ q h
      exact ⟨(span_nextChar cond p hc hne).spanThen h1, h2⟩
    · cases h
      exact ⟨Span.spanHere cond p, by simpa using hc⟩

theorem skipBlockCommentLoop_span :
    ∀ (f : Nat) (p q : Parser) (n : Int), skipBlockCommentLoop f p n = some q →
      Span (fun _ => true) p q
  | 0, _, _, _, h => by simp [skipBlockCommentLoop] at h
  | f + 1, p, q, n, h => by
    rw [skipBlockCommentLoop] at h
    split_ifs at h with h1 h2 h3 h4
    · cases h; exact span_lexError _ p _
    · have s1 := span_nextChar (fun _ => true) p rfl h2
      have hn : peekChar (nextChar p).2 ≠ 0 := by
        have := h3.2
        simp only [peekNextChar, h2, if_false] at this
        show charAt p.source (p.currentChar + 1) ≠ 0
        rw [this]; decide
      exact (s1.spanThen (span_nextChar _ _ rfl hn)).spanThen (skipBlockCommentLoop_span f _ q _ h)
    · have s1 := span_nextChar (fun _ => true) p rfl h2
      have hn : peekChar (nextChar p).2 ≠ 0 := by
        have := h4.2
        simp only [peekNextChar, h2, if_false] at this
        show charAt p.source (p.currentChar + 1) ≠ 0
        rw [this]; decide
      exact (s1.spanThen (span_nextChar _ _ rfl hn)).spanThen (skipBlockCommentLoop_span f _ q _ h)
    · exact (span_nextChar (fun _ => true) p rfl h2).spanThen
        (skipBlockCommentLoop_span f _ q _ h)
    · cases h; exact Span.spanHere _ p

theorem readNameLoop_span :
    ∀ (f : Nat) (p : Parser) (s : List Nat) (r : Parser × List Nat),
      readNameLoop f p s = some r → Span notNewline p r.1
  | 0, _, _, _, h => by simp [readNameLoop] at h
  | f + 1, p, s, r, h => by
    rw [readNameLoop] at h
    split_ifs at h with hc
    · have hne : peekChar p ≠ 0 := by
        intro hz; rw [hz] at hc; exact absurd hc (by decide)
      have h10 : notNewline (peekChar p) = true := by
        simp only [notNewline, decide_eq_true_eq]
        intro hz; rw [hz] at hc; exact absurd hc (by decide)
      exact (span_nextChar notNewline p h10 hne).spanThen (readNameLoop_span f _ _ r h)
    · cases h; exact Span.spanHere _ p

theorem readName_span {f : Nat} {p q : Parser} {T : TokenType} {c : Nat}
    (h : readName f p T c = some q) : Span notNewline p q := by
  simp only [readName, Option.map_eq_some'] at h
  obtain ⟨r, h1, rfl⟩ := h
  exact (readNameLoop_span f p _ r h1).spanThen (span_same _ rfl rfl rfl rfl rfl)

theorem isHexChar_ne {c : Nat} (h : isHexChar c = true) : c ≠ 0 ∧ c ≠ 10 := by
  obtain ⟨v, hv⟩ := Option.isSome_iff_exists.mp h
  exact ⟨(hexDigitValue_char hv).1, (hexDigitValue_char hv).2.1⟩

/-- A hexadecimal digit is read, or the character is put back with its
newline counted. -/
theorem readHexDigit_cases (p : Parser) :
    ((readHexDigit p).1 ≠ -1 ∧ isHexChar (peekChar p) = true ∧
      (readHexDigit p).2 = (nextChar p).2) ∨
    ((readHexDigit p).1 = -1 ∧ isHexChar (peekChar p) = false ∧
      (readHexDigit p).2 = { p with
        currentLine := if peekChar p = 10 then p.currentLine + 1 else p.currentLine }) := by
  simp only [readHexDigit, isHexChar, hexDigitValue, show (nextChar p).1 = peekChar p from rfl]
  by_cases h1 : 48 ≤ peekChar p ∧ peekChar p ≤ 57
  · left
    simp only [h1, and_self, if_true, Option.isSome_some, and_true]
    omega
  · by_cases h2 : 97 ≤ peekChar p ∧ peekChar p ≤ 102
    · left
      simp only [h1, h2, and_self, if_true, if_false, Option.isSome_some, and_true]
      omega
    · by_cases h3 : 65 ≤ peekChar p ∧ peekChar p ≤ 70
      · left
        simp only [h1, h2, h3, and_self, if_true, if_false, Option.isSome_some, and_true]
        omega
      · right
        simp only [h1, h2, h3, if_false, Option.isSome_none, true_and]
        simp [unreadChar, nextChar]

/-- The loop of `readHexNumber`: hexadecimal digits are read up to a character
that is not one, and the line counter counts that character if it is a
newline. -/
theorem readHexDigits_reach :
    ∀ (f : Nat) (p q : Parser), readHexDigits f p = some q →
      Reach isHexChar p q ∧ isHexChar (peekChar q) = false ∧
      q.currentLine = p.currentLine + (if peekChar q = 10 then 1 else 0)
  | 0, _, _, h => by simp [readHexDigits] at h
  | f + 1, p, q, h => by
    rw [readHexDigits] at h
    rcases readHexDigit_cases p with ⟨h1, h2, h3⟩ | ⟨h1, h2, h3⟩
    · simp only [h1, ne_eq, not_false_eq_true, if_true, h3] at h
      obtain ⟨a, b, c⟩ := readHexDigits_reach f _ q h
      have hc := isHexChar_ne h2
      have sp := span_nextChar isHexChar p h2 hc.1
      refine ⟨sp.1.reachThen a, b, ?_⟩
      rw [c]
      have : (nextChar p).2.currentLine = p.currentLine := by
        simp [nextChar, hc.2]
      rw [this]
    · simp only [h1, ne_eq, not_true_eq_false, if_false, h3, Option.some.injEq] at h
      have e1 : q.currentChar = p.currentChar := by rw [← h]
      have e2 : q.source = p.source := by rw [← h]
      have e3 : q.tokenStart = p.tokenStart := by rw [← h]
      have e4 : q.numParens = p.numParens := by rw [← h]
      have e5 : q.currentLine = (if peekChar p = 10 then p.currentLine + 1 else p.currentLine) := by
        rw [← h]
      have e6 : peekChar q = peekChar p := by rw [← h]; rfl
      refine ⟨⟨e2, e3, e4, by omega, by rw [e1]; exact id, fun i a b => absurd b (by omega)⟩,
        by rw [e6]; exact h2, ?_⟩
      rw [e5, e6]
      split_ifs <;> simp

/-! ## Numbers and names further on -/

theorem isDigit_notNewline : ∀ c, isDigit c = true → notNewline c = true := by
  intro c h
  simp only [notNewline, decide_eq_true_eq]
  rintro rfl
  cases h

theorem makeNumber_span (P : Nat → Bool) (libc : Libc) (p : Parser) (isHex : Bool) :
    Span P p (makeNumber libc p isHex) := by
  refine span_same P ?_ ?_ ?_ ?_ ?_ <;>
    (simp only [makeNumber, makeToken, lexError, wrenPrintError]; split_ifs <;> rfl)

theorem exponent_span {f : Nat} {p q : Parser}
    (hr : (let m1 := matchChar p 101
      let m2 := if m1.1 then m1 else matchChar m1.2 69
      if m2.1 then
        let m3 := matchChar m2.2 43
        let parser := if !m3.1 then (matchChar m3.2 45).2 else m3.2
        let parser :=
          if !isDigit (peekChar parser) then lexError parser "Unterminated scientific notation."
          else parser
        skipWhile isDigit f parser
      else some m2.2) = some q) : Span notNewline p q := by
  dsimp only at hr
  have o1 := span_matchChar notNewline p 101 (by decide) (by decide)
  have o2 : Span notNewline p (if (matchChar p 101).1 then matchChar p 101
      else matchChar (matchChar p 101).2 69).2 := by
    split_ifs
    · exact o1
    · exact o1.spanThen (span_matchChar notNewline _ 69 (by decide) (by decide))
  generalize (if (matchChar p 101).1 then matchChar p 101
    else matchChar (matchChar p 101).2 69) = m at hr o2
  by_cases hm : m.1 = true
  · rw [if_pos hm] at hr
    have o3 := o2.spanThen (span_matchChar notNewline m.2 43 (by decide) (by decide))
    have o4 : Span notNewline p (if !(matchChar m.2 43).1 then (matchChar (matchChar m.2 43).2 45).2
        else (matchChar m.2 43).2) := by
      split_ifs
      · exact o3.spanThen (span_matchChar notNewline _ 45 (by decide) (by decide))
      · exact o3
    generalize (if !(matchChar m.2 43).1 then (matchChar (matchChar m.2 43).2 45).2
      else (matchChar m.2 43).2) = x at hr o4
    have o5 : Span notNewline p
        (if !isDigit (peekChar x) then lexError x "Unterminated scientific notation." else x) := by
      split_ifs
      · exact o4.spanThen (span_lexError _ _ _)
      · exact o4
    exact o5.spanThen ((skipWhile_span isDigit (by decide) f _ _ hr).1.spanMono isDigit_notNewline)
  · rw [if_neg hm] at hr
    cases hr; exact o2

theorem readNumber_span {libc : Libc} {f : Nat} {p q : Parser}
    (h : readNumber libc f p = some q) : Span notNewline p q := by
  simp only [readNumber, Option.bind_eq_some, Option.map_eq_some'] at h
  obtain ⟨p1, h1, p2, h2, p3, h3, rfl⟩ := h
  have o1 := (skipWhile_span isDigit (by decide) f _ _ h1).1.spanMono isDigit_notNewline
  have o2 : Span notNewline p1 p2 := by
    split_ifs at h2 with hc
    · have hp : peekChar p1 = 46 := hc.1
      exact (span_nextChar notNewline p1 (by rw [hp]; decide) (by rw [hp]; decide)).spanThen
        ((skipWhile_span isDigit (by decide) f _ _ h2).1.spanMono isDigit_notNewline)
    · cases h2; exact Span.spanHere _ _
  exact ((o1.spanThen o2).spanThen (exponent_span h3)).spanThen (makeNumber_span _ libc p3 false)

/-- Function `readHexNumber`, entered at the `x`: the `x` and hexadecimal
digits are read, and the line counter counts the character after them if it
is a newline. -/
theorem readHexNumber_reach {libc : Libc} {f : Nat} {p q : Parser} (hx : peekChar p = 120)
    (h : readHexNumber libc f p = some q) :
    Reach notNewline p q ∧
    q.currentLine = p.currentLine + (if peekChar q = 10 then 1 else 0) := by
  simp only [readHexNumber, Option.map_eq_some'] at h
  obtain ⟨p1, h1, rfl⟩ := h
  obtain ⟨a, _, c⟩ := readHexDigits_reach f _ _ h1
  have s0 := span_nextChar notNewline p (by rw [hx]; decide) (by rw [hx]; decide)
  have a' : Reach notNewline (nextChar p).2 p1 :=
    a.reachMono (fun c hc => by
      simp only [notNewline, decide_eq_true_eq]
      exact (isHexChar_ne hc).2)
  have sm := makeNumber_span notNewline libc p1 true
  refine ⟨(s0.1.reachThen a').reachThen sm.1, ?_⟩
  have hl : (makeNumber libc p1 true).currentLine = p1.currentLine := by
    have := sm.2
    simp only [Counted, sm.1.1] at this
    have e : (makeNumber libc p1 true).currentChar = p1.currentChar := by
      have h1 := sm.1.2.2.2.1
      have h2 := sm.1
      simp only [makeNumber, makeToken, lexError, wrenPrintError]; split_ifs <;> rfl
    rw [e, slice_self] at this
    simpa [newlines] using this
  have hp : peekChar (makeNumber libc p1 true) = peekChar p1 := by
    simp only [peekChar, makeNumber, makeToken, lexError, wrenPrintError]; split_ifs <;> rfl
  have hn : (nextChar p).2.currentLine = p.currentLine := by
    simp [nextChar, hx]
  rw [hl, hp, c, hn]

/-! ## String literals further on -/

theorem lexError_flag (p : Parser) (m : String) : (lexError p m).hasError = true := by
  simp only [lexError, wrenPrintError]
  split_ifs <;> rfl

theorem tidy_of_error {p q : Parser} (he : q.hasError = true) : Tidy p q := by
  intro h; rw [he] at h; cases h

theorem tidy_of_span {P : Nat → Bool} {p q : Parser} (h : Span P p q) : Tidy p q :=
  fun _ => ⟨h.1.2.2.2.1, h.1.2.2.2.2.1, h.2⟩

theorem Tidy.tidyThen {p q r : Parser} (h1 : Tidy p q) (h2 : Tidy q r) (hs : q.source = p.source)
    (hk : Kept q r) : Tidy p r := by
  intro he
  have hq : q.hasError = false := by
    cases hb : q.hasError with
    | false => rfl
    | true => rw [hk.2.2.2.2.2.2.1 hb] at he; cases he
  obtain ⟨a1, a2, a3⟩ := h1 hq
  obtain ⟨b1, b2, b3⟩ := h2 he
  refine ⟨le_trans a1 b1, ?_, Counted.countedThen hs a1 b1 a3 b3⟩
  intro h
  rw [hs] at b2
  exact b2 (a2 h)

theorem Fine.fineHere (p : Parser) : Fine p p :=
  ⟨rfl, rfl, tidy_of_span (Span.spanHere (fun _ => true) p)⟩

theorem Fine.fineThen {p q r : Parser} (h1 : Fine p q) (h2 : Fine q r) (hk : Kept q r) :
    Fine p r :=
  ⟨h2.1.trans h1.1, h2.2.1.trans h1.2.1, h1.2.2.tidyThen h2.2.2 h1.1 hk⟩

theorem fine_of_span {P : Nat → Bool} {p q : Parser} (h : Span P p q) : Fine p q :=
  ⟨h.1.1, h.1.2.1, tidy_of_span h⟩

theorem kept_flag {p q : Parser} (hk : Kept p q) (h : p.hasError = true) : q.hasError = true :=
  hk.2.2.2.2.2.2.1 h

theorem readHexEscape_tidy (n : Nat) :
    ∀ (p : Parser) (v : Nat) (d : String), Tidy p (readHexEscape n p v d).2 := by
  induction n with
  | zero => intro p v d; exact tidy_of_span (Span.spanHere (fun _ => true) p)
  | succ n ih =>
    intro p v d
    simp only [readHexEscape]
    split_ifs with h1 h2
    · exact tidy_of_error (by simp [unreadChar, lexError_flag])
    · exact tidy_of_error (lexError_flag _ _)
    · rcases readHexDigit_cases p with ⟨_, c2, c3⟩ | ⟨c1, _, _⟩
      · rw [c3]
        have sp := span_nextChar (fun _ => true) p rfl (isHexChar_ne c2).1
        have := ih (nextChar p).2 ((v * 16 ||| (readHexDigit p).1.toNat) % 2 ^ 32) d
        exact (tidy_of_span sp).tidyThen this rfl (readHexEscape_kept n _ _ _)
      · exact absurd c1 h2

theorem readEscape_tidy (p : Parser) (s : List Nat) (c : Nat) : Tidy p (readEscape p s c).1 := by
  apply readEscape_elim (fun r => Tidy p r.1)
  · intro b; exact tidy_of_span (Span.spanHere (fun _ => true) p)
  · intro n; exact readHexEscape_tidy n p 0 _
  · exact readHexEscape_tidy 2 p 0 _
  · intro m; exact tidy_of_error (lexError_flag p m)

theorem readEscape_nul (p : Parser) (s : List Nat) :
    (readEscape p s 0).1.hasError = true := by
  simp [readEscape, lexError_flag]

theorem readStringStep_tidy (p : Parser) (s : List Nat) :
    Tidy p (readStringStep p s).parser := by
  simp only [readStringStep, show (nextChar p).1 = peekChar p from rfl]
  by_cases h1 : peekChar p = 34
  · simp only [h1, if_true]
    exact tidy_of_span (span_nextChar (fun _ => true) p rfl (by rw [h1]; decide))
  by_cases h2 : peekChar p = 13
  · simp only [h1, h2, if_false, if_true]
    exact tidy_of_span (span_nextChar (fun _ => true) p rfl (by rw [h2]; decide))
  by_cases h3 : peekChar p = 0
  · simp only [h1, h2, h3, if_false, if_true]
    exact tidy_of_error (by simp [StringStep.parser, unreadChar, lexError_flag])
  have s1 := span_nextChar (fun _ => true) p rfl h3
  by_cases h4 : peekChar p = 37 ∧ (nextChar p).2.numParens < MAX_INTERPOLATION_NESTING
  · simp only [h1, h2, h3, h4, and_self, if_false, if_true]
    by_cases h40 : (nextChar (nextChar p).2).1 = 40
    · simp only [h40, ne_eq, not_true_eq_false, if_false]
      have hp : peekChar (nextChar p).2 = 40 := h40
      have s2 := span_nextChar (fun _ => true) (nextChar p).2 rfl (by rw [hp]; decide)
      intro he
      exact tidy_of_span (s1.spanThen s2) he
    · simp only [h40, ne_eq, not_false_eq_true, if_true]
      exact tidy_of_error (lexError_flag _ _)
  · simp only [h1, h2, h3, h4, if_false]
    by_cases h37 : peekChar p = 37
    · have hne : (37 : Nat) ≠ 92 := by decide
      simp only [h37, if_true, hne, if_false]
      exact tidy_of_error (lexError_flag _ _)
    · simp only [h37, if_false]
      by_cases h92 : peekChar p = 92
      · simp only [h92, if_true]
        show Tidy p (readEscape (nextChar (nextChar p).2).2 s (nextChar (nextChar p).2).1).1
        by_cases hz : (nextChar (nextChar p).2).1 = 0
        · rw [hz]
          exact tidy_of_error (readEscape_nul _ _)
        · have s2 := span_nextChar (fun _ => true) (nextChar p).2 rfl hz
          exact (tidy_of_span (s1.spanThen s2)).tidyThen (readEscape_tidy _ _ _) rfl
            (readEscape_kept _ _ _)
      · simp only [h92, if_false]
        exact tidy_of_span s1

theorem readStringStep_fine (p : Parser) (s : List Nat) :
    Fine p (readStringStep p s).parser := by
  refine ⟨?_, ?_, readStringStep_tidy p s⟩
  · cases hstep : readStringStep p s with
    | done q s' t => exact (readStringStep_done hstep).1
    | again q s' => exact (readStringStep_again hstep).1.1
  · cases hstep : readStringStep p s with
    | done q s' t => exact (readStringStep_done hstep).2.1
    | again q s' => exact (readStringStep_again hstep).1.2.2.2

theorem readStringLoop_fine :
    ∀ (f : Nat) (p q : Parser) (s s' : List Nat) (t : TokenType),
      readStringLoop f p s = some (q, s', t) → Fine p q
  | 0, _, _, _, _, _, h => by simp [readStringLoop] at h
  | f + 1, p, q, s, s', t, h => by
    rw [readStringLoop] at h
    have hf := readStringStep_fine p s
    cases hstep : readStringStep p s with
    | done q1 s1 t1 =>
      rw [hstep] at h hf
      cases h
      exact hf
    | again q1 s1 =>
      rw [hstep] at h hf
      exact hf.fineThen (readStringLoop_fine f _ _ _ _ _ h) (readStringLoop_kept f _ _ _ _ _ h)

theorem readString_fine {f : Nat} {p q : Parser} (h : readString f p = some q) :
    Fine p q ∧ q.next.start = p.tokenStart ∧
    q.next.length = (q.currentChar : Int) - (p.tokenStart : Int) ∧
    q.next.line = q.currentLine ∧ stringType q.next.type = true := by
  simp only [readString, Option.map_eq_some'] at h
  obtain ⟨⟨p1, s1, t1⟩, h1, rfl⟩ := h
  have hf := readStringLoop_fine f _ _ _ _ _ h1
  have ht := readStringLoop_type f _ _ _ _ _ h1
  have hne : t1 ≠ TOKEN_LINE := by
    rcases ht with rfl | rfl <;> decide
  refine ⟨hf.fineThen (fine_of_span (span_same (fun _ => true) rfl rfl rfl rfl rfl))
    ((kept_setNext p1 _).next (kept_makeToken _ _)), ?_, ?_, ?_, ?_⟩
  · simp [makeToken, hf.2.1]
  · simp [makeToken, hf.2.1]
  · simp [makeToken, hne]
  · rcases ht with rfl | rfl <;> rfl

theorem readRawStringLoop_frame :
    ∀ (f : Nat) (p q : Parser) (l l' : RawLocals),
      readRawStringLoop f p l = some (q, l') → q.source = p.source ∧ q.tokenStart = p.tokenStart
  | 0, _, _, _, _, h => by simp [readRawStringLoop] at h
  | f + 1, p, q, l, l', h => by
    rw [readRawStringLoop] at h
    dsimp only at h
    split_ifs at h
    · exact readRawStringLoop_frame f (nextChar p).2 _ _ _ h
    all_goals first
      | (cases h; exact ⟨rfl, rfl⟩)
      | (cases h
         constructor <;> (simp only [unreadChar, lexError, wrenPrintError]; split_ifs <;> rfl))
      | exact readRawStringLoop_frame f (nextChar p).2 _ _ _ h

/-- The loop of `readRawString`: unless an error has been reported, the body
is read up to the three closing quotes, the first of them included. -/
theorem readRawStringLoop_tidy :
    ∀ (f : Nat) (p q : Parser) (l l' : RawLocals),
      readRawStringLoop f p l = some (q, l') →
        Tidy p q ∧ (q.hasError = false → peekChar q = 34 ∧ peekNextChar q = 34)
  | 0, _, _, _, _, h => by simp [readRawStringLoop] at h
  | f + 1, p, q, l, l', h => by
    rw [readRawStringLoop] at h
    dsimp only at h
    have next : ∀ l0, (nextChar p).1 ≠ 0 → readRawStringLoop f (nextChar p).2 l0 = some (q, l') →
        Tidy p q ∧ (q.hasError = false → peekChar q = 34 ∧ peekNextChar q = 34) := by
      intro l0 hne hr
      obtain ⟨a, b⟩ := readRawStringLoop_tidy f _ _ _ _ hr
      exact ⟨(tidy_of_span (span_nextChar (fun _ => true) p rfl hne)).tidyThen a rfl
        (readRawStringLoop_kept f _ _ _ _ hr), b⟩
    by_cases h13 : (nextChar p).1 = 13
    · rw [if_pos h13] at h
      exact next _ (by rw [h13]; decide) h
    · rw [if_neg h13] at h
      by_cases h2 : (nextChar p).1 = 34 ∧ peekChar (nextChar p).2 = 34 ∧
          peekNextChar (nextChar p).2 = 34
      · rw [if_pos h2] at h
        cases h
        exact ⟨tidy_of_span (span_nextChar (fun _ => true) p rfl
          (by have := h2.1; change peekChar p = 34 at this; rw [this]; decide)),
          fun _ => h2.2⟩
      · rw [if_neg h2] at h
        by_cases h3 : (nextChar p).1 = 0 ∨ peekChar (nextChar p).2 = 0 ∨
            peekNextChar (nextChar p).2 = 0
        · rw [if_pos h3] at h
          cases h
          have he : (unreadChar (lexError (nextChar p).2 "Unterminated raw string.")).hasError =
              true := by simp [unreadChar, lexError_flag]
          exact ⟨tidy_of_error he, fun h => by rw [he] at h; cases h⟩
        · rw [if_neg h3] at h
          exact next _ (fun hz => h3 (Or.inl hz)) h

theorem readRawString_fine {f : Nat} {p q : Parser} (hq : peekChar p = 34 ∧ peekNextChar p = 34)
    (h : readRawString f p = some q) :
    Fine p q ∧ q.next.start = p.tokenStart ∧
    q.next.length = (q.currentChar : Int) - (p.tokenStart : Int) ∧
    q.next.line = q.currentLine ∧ stringType q.next.type = true := by
  simp only [readRawString, Option.map_eq_some'] at h
  obtain ⟨⟨p1, l1⟩, h1, rfl⟩ := h
  have hfr := readRawStringLoop_frame f _ _ _ _ h1
  obtain ⟨ht, hpk⟩ := readRawStringLoop_tidy f _ _ _ _ h1
  have hk := readRawStringLoop_kept f _ _ _ _ h1
  have hs : p1.source = p.source := hfr.1
  have hts : p1.tokenStart = p.tokenStart := hfr.2
  -- the two quotes after the first
  have hn : peekChar (nextChar p).2 = 34 := by
    have := hq.2
    simp only [peekNextChar, hq.1] at this
    exact this
  have s0 := (span_nextChar (fun _ => true) p rfl (by rw [hq.1]; decide)).spanThen
    (span_nextChar (fun _ => true) (nextChar p).2 rfl (by rw [hn]; decide))
  refine ⟨⟨hs, hts, ?_⟩, ?_, ?_, rfl, rfl⟩
  · intro he
    have he1 : p1.hasError = false := he
    obtain ⟨k1, k2⟩ := hpk he1
    have k3 : peekChar (nextChar p1).2 = 34 := by
      simp only [peekNextChar, k1] at k2
      exact k2
    have s2 := (span_nextChar (fun _ => true) p1 rfl (by rw [k1]; decide)).spanThen
      (span_nextChar (fun _ => true) (nextChar p1).2 rfl (by rw [k3]; decide))
    have t1 : Tidy p p1 := (tidy_of_span s0).tidyThen ht rfl hk
    exact (t1.tidyThen (tidy_of_span s2) hs ((kept_nextChar p1).next (kept_nextChar _))) he1
  · simp only [makeToken]
    exact hts
  · simp only [makeToken]
    rw [show (nextChar (nextChar p1).2).2.tokenStart = p.tokenStart from hts]

/-! ## One token -/

theorem punct_facts {T : TokenType} (h : T.punct = true) :
    stringType T = false ∧ T ≠ TOKEN_ERROR ∧ T ≠ TOKEN_EOF ∧ T ≠ TOKEN_NUMBER := by
  revert h
  cases T <;> decide

theorem word_facts {T : TokenType} (h : T.word = true) :
    stringType T = false ∧ T ≠ TOKEN_ERROR ∧ T ≠ TOKEN_EOF ∧ T ≠ TOKEN_NUMBER ∧
      T ≠ TOKEN_LINE := by
  revert h
  cases T <;> decide

theorem keywordType_in (text : List Nat) (T : TokenType) :
    ∀ ks : List Keyword, keywordType text T ks = T ∨ ∃ k ∈ ks, keywordType text T ks = k.tokenType
  | [] => Or.inl rfl
  | k :: ks => by
    simp only [keywordType]
    split_ifs
    · exact Or.inr ⟨k, List.mem_cons_self _ _, rfl⟩
    · rcases keywordType_in text T ks with h | ⟨k', hk, h⟩
      · exact Or.inl h
      · exact Or.inr ⟨k', List.mem_cons_of_mem _ hk, h⟩

theorem keywords_word : ∀ k ∈ keywords, k.tokenType.word = true := by decide

theorem readName_word {f : Nat} {p q : Parser} {T : TokenType} {c : Nat} (hT : T.word = true)
    (h : readName f p T c = some q) : q.next.type.word = true := by
  simp only [readName, Option.map_eq_some'] at h
  obtain ⟨r, _, rfl⟩ := h
  show (keywordType _ T keywords).word = true
  rcases keywordType_in (tokenText r.1) T keywords with h | ⟨k, hk, h⟩
  · rw [h]; exact hT
  · rw [h]; exact keywords_word k hk

theorem makeNumber_type (libc : Libc) (p : Parser) (isHex : Bool) :
    (makeNumber libc p isHex).next.type = TOKEN_NUMBER := by
  simp only [makeNumber, makeToken]

theorem readNumber_type {libc : Libc} {f : Nat} {p q : Parser}
    (h : readNumber libc f p = some q) : q.next.type = TOKEN_NUMBER := by
  simp only [readNumber, Option.bind_eq_some, Option.map_eq_some'] at h
  obtain ⟨p1, h1, p2, h2, p3, h3, rfl⟩ := h
  exact makeNumber_type libc p3 false

theorem readHexNumber_type {libc : Libc} {f : Nat} {p q : Parser}
    (h : readHexNumber libc f p = some q) : q.next.type = TOKEN_NUMBER := by
  simp only [readHexNumber, Option.map_eq_some'] at h
  obtain ⟨p1, h1, rfl⟩ := h
  exact makeNumber_type libc p1 true

theorem noComment_at {src : List Nat} (h : noComment src = true) {i : Nat} (hi : i < src.length) :
    ¬(charAt src i = 47 ∧ (charAt src (i + 1) = 47 ∨ charAt src (i + 1) = 42)) ∧
    ¬(charAt src i = 35 ∧ charAt src (i + 1) = 33 ∧ charAt src (i + 2) = 47) := by
  simp only [noComment, List.all_eq_true, List.mem_range] at h
  have := h i hi
  simp only [Bool.and_eq_true, Bool.not_eq_true', Bool.and_eq_false_imp, Bool.or_eq_false_iff,
    decide_eq_true_eq, decide_eq_false_iff_not, Bool.or_eq_true] at this
  constructor
  · rintro ⟨a, b | b⟩
    · exact (this.1 a).1 b
    · exact (this.1 a).2 b
  · rintro ⟨a, b, c⟩
    exact this.2 ⟨a, b⟩ c

theorem noBlockComment_at {src : List Nat} (h : noBlockComment src = true) {i : Nat}
    (hi : i < src.length) : ¬(charAt src i = 47 ∧ charAt src (i + 1) = 42) := by
  simp only [noBlockComment, List.all_eq_true, List.mem_range] at h
  have := h i hi
  simp only [Bool.not_eq_true', Bool.and_eq_false_imp, decide_eq_true_eq,
    decide_eq_false_iff_not] at this
  rintro ⟨a, b⟩
  exact this a b

theorem charAt_lt {src : List Nat} {i : Nat} (h : charAt src i ≠ 0) : i < src.length := by
  by_contra hge
  exact h (charAt_length src (by omega))

theorem onward_of_span {P : Nat → Bool} {p q : Parser} (h : Span P p q) : Onward p q :=
  ⟨h.1.2.1, h.1.2.2.2.1⟩

theorem counted_none {p q : Parser} (h : Reach notNewline p q) (hl : q.currentLine = p.currentLine) :
    Counted p q := by
  unfold Counted
  rw [newlines_slice_none p.source (fun i h1 h2 => by
    have := h.2.2.2.2.2 i h1 h2
    simpa [notNewline] using this), hl]
  simp

theorem hexSlip_zero {q : Parser} (h : ¬(q.next.type = TOKEN_NUMBER ∧
    charAt q.source q.next.start = 48 ∧ charAt q.source (q.next.start + 1) = 120)) :
    hexSlip q = 0 := by
  simp only [hexSlip, hexThenNewline, Bool.and_eq_true, decide_eq_true_eq]
  rw [if_neg]
  rintro ⟨⟨⟨a, b⟩, c⟩, _⟩
  exact h ⟨a, b, c⟩

/-- The step of the switch for a token that is not a string, the characters
of which hold a newline only if it is a LINE token. -/
theorem step_token {p q : Parser} {c : Nat} (hc : c = charAt p.source p.tokenStart)
    (hcc : p.currentChar = p.tokenStart + 1)
    (hs : Span notNewline p q) (ht : TokenAt p q)
    (hT : stringType q.next.type = false ∧ q.next.type ≠ TOKEN_ERROR ∧ q.next.type ≠ TOKEN_EOF)
    (hL : (q.next.type = TOKEN_LINE ∧ q.currentChar = p.currentChar ∧ c = 10) ∨
      (q.next.type ≠ TOKEN_LINE ∧ c ≠ 10))
    (hN : q.next.type = TOKEN_NUMBER → ¬(c = 48 ∧ peekChar p = 120)) :
    SwitchStep p c (SwitchExit.ret q) := by
  have hslip : hexSlip q = 0 := by
    apply hexSlip_zero
    rintro ⟨a, b, d⟩
    rw [hs.1.1, ht.2.1] at b d
    refine hN a ⟨by rw [hc]; exact b, ?_⟩
    rw [← hcc] at d
    exact d
  simp only [SwitchStep]
  refine ⟨hs.1.1, fun _ => hs.1.2.2.1, (fun h => by rw [hT.1] at h; cases h), fun _ =>
    ⟨hs.1.2.2.2.1, hs.1.2.2.2.2.1, fun _ => ⟨ht.2.1, ht.2.2.1, ht.2.2.2⟩,
      fun h => absurd h hT.2.1, ?_, hT.2.2, ?_, ?_⟩⟩
  · intro h
    rcases hL with ⟨_, a, b⟩ | ⟨a, _⟩
    · exact ⟨a, b⟩
    · exact absurd h a
  · intro _ h
    rcases hL with ⟨a, _, _⟩ | ⟨_, b⟩
    · exact absurd a h
    · refine ⟨b, fun i h1 h2 => ?_⟩
      have := hs.1.2.2.2.2.2 i h1 h2
      simpa [notNewline] using this
  · rw [hslip, hs.2]
    simp

/-- The step of the switch for a string literal, read from a parser `x` that
stands where `p` does. -/
theorem step_string {p x q : Parser} {c : Nat}
    (hf : Fine x q ∧ q.next.start = x.tokenStart ∧
      q.next.length = (q.currentChar : Int) - (x.tokenStart : Int) ∧
      q.next.line = q.currentLine ∧ stringType q.next.type = true)
    (hx : x.source = p.source ∧ x.tokenStart = p.tokenStart ∧ x.currentChar = p.currentChar ∧
      x.currentLine = p.currentLine)
    (hor : 0 < p.numParens ∨ c = 34) : SwitchStep p c (SwitchExit.ret q) := by
  obtain ⟨⟨f1, f2, f3⟩, t1, t2, t3, t4⟩ := hf
  obtain ⟨x1, x2, x3, x4⟩ := hx
  have ne : ∀ T : TokenType, stringType T = false → q.next.type ≠ T := by
    intro T hT h
    rw [h, hT] at t4
    cases t4
  simp only [SwitchStep]
  refine ⟨f1.trans x1, (fun h => by rw [t4] at h; cases h), fun _ => hor, fun he => ?_⟩
  obtain ⟨a, b, d⟩ := f3 (he t4)
  rw [x1, x3] at b
  refine ⟨by rw [← x3]; exact a, b, fun _ => ⟨t1.trans x2, by rw [t2, x2], ?_⟩,
    fun h => absurd h (ne TOKEN_ERROR rfl), fun h => absurd h (ne TOKEN_LINE rfl),
    ne TOKEN_EOF rfl, (fun h => by rw [t4] at h; cases h), ?_⟩
  · rw [t3, tokenLine, if_neg (ne TOKEN_LINE rfl)]
  · rw [hexSlip_zero (fun h => ne TOKEN_NUMBER rfl h.1)]
    unfold Counted at d
    rw [d, x1, x3, x4]
    simp

theorem step_ret {p : Parser} {c : Nat} {g : Option Parser}
    (h : ∀ q, g = some q → SwitchStep p c (SwitchExit.ret q)) :
    ∀ r, g.map SwitchExit.ret = some r → SwitchStep p c r := by
  intro r hr
  cases g with
  | none => cases hr
  | some x => cases hr; exact h x rfl

theorem step_brk {p : Parser} {c : Nat} {g : Option Parser}
    (h : ∀ q, g = some q → SwitchStep p c (SwitchExit.brk q)) :
    ∀ r, g.map SwitchExit.brk = some r → SwitchStep p c r := by
  intro r hr
  cases g with
  | none => cases hr
  | some x => cases hr; exact h x rfl

/-! ## The switch of the token loop, step by step -/

theorem isSpace_notNewline : ∀ c, isSpace c = true → notNewline c = true := by
  intro c h
  rcases isSpace_cases h with rfl | rfl | rfl <;> decide

theorem lineCond_notNewline :
    ∀ c, (fun c : Nat => decide (c ≠ 10) && decide (c ≠ 0)) c = true → notNewline c = true := by
  intro c h
  simp only [Bool.and_eq_true, decide_eq_true_eq] at h
  simp [notNewline, h.1]

/-- What the switch of the token loop does (`SwitchStep`), entered after the
character `c` at the start of the token has been read. -/
theorem lexSwitch_step (libc : Libc) (f : Nat) (p : Parser) (c : Nat)
    (hc : c = charAt p.source p.tokenStart) (hcc : p.currentChar = p.tokenStart + 1)
    (hc0 : c ≠ 0) :
    ∀ r, lexSwitch libc f p c = some r → SwitchStep p c r := by
  have hlt : p.tokenStart < p.source.length := charAt_lt (by rw [← hc]; exact hc0)
  have hpk : peekChar p = charAt p.source (p.tokenStart + 1) := by rw [peekChar, hcc]
  have tok : ∀ (x : Parser) (T : TokenType), Span notNewline p x → T.punct = true →
      ((T = TOKEN_LINE ∧ x.currentChar = p.currentChar ∧ c = 10) ∨ (T ≠ TOKEN_LINE ∧ c ≠ 10)) →
      SwitchStep p c (SwitchExit.ret (makeToken x T)) := by
    intro x T hx hT hL
    have pf := punct_facts hT
    exact step_token hc hcc (hx.spanThen (span_makeToken _ x T))
      (tokenAt_makeToken (onward_of_span hx) T) ⟨pf.1, pf.2.1, pf.2.2.1⟩ hL
      (fun h => absurd h pf.2.2.2)
  have paren : ∀ (x : Parser) (T : TokenType), Span notNewline p x →
      (T = TOKEN_LEFT_PAREN ∨ T = TOKEN_RIGHT_PAREN) → c ≠ 10 →
      SwitchStep p c (SwitchExit.ret (makeToken x T)) := by
    intro x T hx hT h10
    have pf : stringType T = false ∧ T ≠ TOKEN_ERROR ∧ T ≠ TOKEN_EOF ∧ T ≠ TOKEN_NUMBER ∧
        T ≠ TOKEN_LINE := by
      rcases hT with rfl | rfl <;> decide
    exact step_token hc hcc (hx.spanThen (span_makeToken _ x T))
      (tokenAt_makeToken (onward_of_span hx) T) ⟨pf.1, pf.2.1, pf.2.2.1⟩
      (Or.inr ⟨pf.2.2.2.2, h10⟩) (fun h => absurd h pf.2.2.2.1)
  have name : ∀ (T : TokenType) (q : Parser), T.word = true → c ≠ 10 →
      readName f p T c = some q → SwitchStep p c (SwitchExit.ret q) := by
    intro T q hT h10 hq
    have wf := word_facts (readName_word hT hq)
    exact step_token hc hcc (readName_span hq) (readName_tokenAt hq) ⟨wf.1, wf.2.1, wf.2.2.1⟩
      (Or.inr ⟨wf.2.2.2.2, h10⟩) (fun h => absurd h wf.2.2.2.1)
  have number : ∀ q : Parser, c ≠ 10 → ¬(c = 48 ∧ peekChar p = 120) →
      readNumber libc f p = some q → SwitchStep p c (SwitchExit.ret q) := by
    intro q h10 hx hq
    have ht := readNumber_type hq
    exact step_token hc hcc (readNumber_span hq) (readNumber_tokenAt hq)
      ⟨by rw [ht]; rfl, by rw [ht]; decide, by rw [ht]; decide⟩
      (Or.inr ⟨by rw [ht]; decide, h10⟩) (fun _ => hx)
  have skip : ∀ (q : Parser) (P : Nat → Bool), Span P p q →
      (noComment p.source = true → isSpace c = true ∧ ∀ d, P d = true → isSpace d = true) →
      (noBlockComment p.source = true → c ≠ 10 ∧ ∀ d, P d = true → notNewline d = true) →
      SwitchStep p c (SwitchExit.brk q) := by
    intro q P hs h1 h2
    exact ⟨hs.spanMono (fun _ _ => rfl), fun h => ⟨(h1 h).1, hs.1.reachMono (h1 h).2⟩,
      fun h => ⟨(h2 h).1, hs.1.reachMono (h2 h).2⟩⟩
  refine lexSwitch_cases (fun g => ∀ r, g p = some r → SwitchStep p c r) libc f c ?_ ?_ ?_ ?_ ?_ ?_
    ?_ ?_ ?_ ?_ ?_ ?_ ?_ ?_ ?_
  · -- (
    intro h40 r hr
    cases hr
    refine paren _ _ ?_ (Or.inl rfl) (by omega)
    split_ifs
    · exact span_same _ rfl rfl rfl rfl rfl
    · exact Span.spanHere _ p
  · -- )
    intro h41
    dsimp only
    split_ifs with h1 h2
    · exact step_ret (fun q hq => step_string (readString_fine hq) ⟨rfl, rfl, rfl, rfl⟩
        (Or.inl h1))
    · intro r hr; cases hr
      exact paren _ _ (span_same _ rfl rfl rfl rfl rfl) (Or.inr rfl) (by omega)
    · intro r hr; cases hr
      exact paren _ _ (Span.spanHere _ p) (Or.inr rfl) (by omega)
  · -- one character
    intro T hT hL r hr
    cases hr
    refine tok p T (Span.spanHere _ p) hT ?_
    by_cases h : T = TOKEN_LINE
    · exact Or.inl ⟨h, rfl, hL.mp h⟩
    · exact Or.inr ⟨h, fun h10 => h (hL.mpr h10)⟩
  · -- #
    intro h35
    dsimp only
    split_ifs with h1
    · refine step_brk (fun q hq => ?_)
      have hs := (skipWhile_span _ (by decide) f p q hq).1
      refine skip q _ hs (fun hn => ?_) (fun _ => ⟨by omega, lineCond_notNewline⟩)
      exfalso
      refine (noComment_at hn hlt).2 ⟨by rw [← hc]; exact h35, by rw [← hpk]; exact h1.2.1, ?_⟩
      have := h1.2.2
      simp only [peekNextChar, h1.2.1] at this
      rw [hcc] at this
      exact this
    · intro r hr; cases hr
      exact tok p _ (Span.spanHere _ p) rfl (Or.inr ⟨by decide, by omega⟩)
  · -- two characters
    intro d two one hd0 hd10 h2 h1 n2 n1 h10 r hr
    cases hr
    have hs := span_matchChar notNewline p d (by simp [notNewline, hd10]) hd0
    simp only [twoCharToken]
    split_ifs
    · exact tok _ _ hs h2 (Or.inr ⟨n2, h10⟩)
    · exact tok _ _ hs h1 (Or.inr ⟨n1, h10⟩)
  · -- .
    intro h46
    dsimp only
    have hs := span_matchChar notNewline p 46 (by decide) (by decide)
    split_ifs
    · intro r hr; cases hr
      have hs2 := hs.spanThen (span_matchChar notNewline (matchChar p 46).2 46 (by decide)
        (by decide))
      simp only [twoCharToken]
      split_ifs
      · exact tok _ _ hs2 rfl (Or.inr ⟨by decide, by omega⟩)
      · exact tok _ _ hs2 rfl (Or.inr ⟨by decide, by omega⟩)
    · intro r hr; cases hr
      exact tok _ _ hs rfl (Or.inr ⟨by decide, by omega⟩)
  · -- /
    intro h47
    dsimp only
    have hs := span_matchChar (fun _ => true) p 47 rfl (by decide)
    split_ifs with h1 h2
    · refine step_brk (fun q hq => ?_)
      have hs1 := (skipWhile_span _ (by decide) f _ q hq).1
      have hm : peekChar p = 47 := by
        by_contra hne
        rw [matchChar_miss p hne] at h1
        cases h1
      have hs2 : Span notNewline p q :=
        (span_matchChar notNewline p 47 (by decide) (by decide)).spanThen
          (hs1.spanMono lineCond_notNewline)
      refine skip q _ hs2 (fun hn => ?_) (fun _ => ⟨by omega, fun _ h => h⟩)
      exfalso
      exact (noComment_at hn hlt).1 ⟨by rw [← hc]; exact h47, Or.inl (by rw [← hpk]; exact hm)⟩
    · refine step_brk (fun q hq => ?_)
      have hm : peekChar p = 42 := by
        have hne : peekChar p ≠ 47 := by
          intro h
          apply h1
          simp [matchChar, h]
        rw [matchChar_miss p hne] at h2
        by_contra hne2
        rw [matchChar_miss p hne2] at h2
        cases h2
      have hs2 : Span (fun _ => true) p q :=
        (hs.spanThen (span_matchChar (fun _ => true) _ 42 rfl (by decide))).spanThen
          (skipBlockCommentLoop_span f _ q _ hq)
      refine ⟨hs2, fun hn => ?_, fun hn => ?_⟩
      · exfalso
        exact (noComment_at hn hlt).1 ⟨by rw [← hc]; exact h47, Or.inr (by rw [← hpk]; exact hm)⟩
      · exfalso
        exact noBlockComment_at hn hlt ⟨by rw [← hc]; exact h47, by rw [← hpk]; exact hm⟩
    · intro r hr; cases hr
      have hs2 := (span_matchChar notNewline p 47 (by decide) (by decide)).spanThen
        (span_matchChar notNewline (matchChar p 47).2 42 (by decide) (by decide))
      exact tok _ _ hs2 rfl (Or.inr ⟨by decide, by omega⟩)
  · -- < and >
    intro d T two one hd0 hd10 hT h2 h1 nT n2 n1 h10
    dsimp only
    have hs := span_matchChar notNewline p d (by simp [notNewline, hd10]) hd0
    split_ifs
    · intro r hr; cases hr
      exact tok _ _ hs hT (Or.inr ⟨nT, h10⟩)
    · intro r hr; cases hr
      have hs2 := hs.spanThen (span_matchChar notNewline (matchChar p d).2 61 (by decide)
        (by decide))
      simp only [twoCharToken]
      split_ifs
      · exact tok _ _ hs2 h2 (Or.inr ⟨n2, h10⟩)
      · exact tok _ _ hs2 h1 (Or.inr ⟨n1, h10⟩)
  · -- whitespace
    intro hsp
    refine step_brk (fun q hq => ?_)
    have hs := (skipWhile_span _ (by decide) f p q hq).1
    have hcs : isSpace c = true := by
      rcases hsp with rfl | rfl | rfl <;> decide
    exact skip q _ hs (fun _ => ⟨hcs, fun _ h => h⟩)
      (fun _ => ⟨by rcases hsp with rfl | rfl | rfl <;> decide, isSpace_notNewline⟩)
  · -- "
    intro h34
    dsimp only
    split_ifs with h1
    · exact step_ret (fun q hq => step_string (readRawString_fine h1 hq) ⟨rfl, rfl, rfl, rfl⟩
        (Or.inr h34))
    · exact step_ret (fun q hq => step_string (readString_fine hq) ⟨rfl, rfl, rfl, rfl⟩
        (Or.inr h34))
  · -- _
    intro h95
    refine step_ret (fun q hq => name _ q ?_ (by omega) hq)
    split_ifs <;> rfl
  · -- 0
    intro h48
    dsimp only
    split_ifs with h1
    · refine step_ret (fun q hq => ?_)
      obtain ⟨hr, hl⟩ := readHexNumber_reach h1 hq
      have ht := readHexNumber_tokenAt hq
      have hty := readHexNumber_type hq
      have hslip : hexSlip q = if peekChar q = 10 then 1 else 0 := by
        have e1 : charAt q.source q.next.start = 48 := by
          rw [hr.1, ht.2.1, ← hc]; exact h48
        have e2 : charAt q.source (q.next.start + 1) = 120 := by
          rw [hr.1, ht.2.1, ← hpk]; exact h1
        have e3 : q.next.start + q.next.length.toNat = q.currentChar := by
          rw [ht.2.1, ht.2.2.1]
          have := hr.2.2.2.1
          omega
        simp only [hexSlip, hexThenNewline, hty, e1, e2, e3, decide_True, Bool.and_self,
          Bool.true_and, decide_eq_true_eq, peekChar]
      simp only [SwitchStep]
      refine ⟨hr.1, fun _ => hr.2.2.1, (fun h => by rw [hty] at h; cases h), fun _ =>
        ⟨hr.2.2.2.1, hr.2.2.2.2.1, fun _ => ⟨ht.2.1, ht.2.2.1, ht.2.2.2⟩,
          (fun h => by rw [hty] at h; cases h), (fun h => by rw [hty] at h; cases h),
          (by rw [hty]; decide), fun _ _ => ⟨by omega, fun i a b => ?_⟩, ?_⟩⟩
      · have := hr.2.2.2.2.2 i a b
        simpa [notNewline] using this
      · rw [hslip, hl, newlines_slice_none p.source (fun i a b => by
          have := hr.2.2.2.2.2 i a b
          simpa [notNewline] using this)]
        simp
    · exact step_ret (fun q hq => number q (by omega) (fun h => h1 h.2) hq)
  · -- names
    intro hn
    refine step_ret (fun q hq => name TOKEN_NAME q rfl ?_ hq)
    rintro rfl; cases hn
  · -- digits
    intro hd h48
    refine step_ret (fun q hq => number q ?_ (fun h => h48 h.1) hq)
    rintro rfl; cases hd
  · -- an invalid character
    intro h10 m r hr
    cases hr
    have hs := span_lexError notNewline p m
    have hcc' : (lexError p m).currentChar = p.currentChar := by
      simp only [lexError, wrenPrintError]; split_ifs <;> rfl
    have hl' : (lexError p m).currentLine = p.currentLine := by
      simp only [lexError, wrenPrintError]; split_ifs <;> rfl
    simp only [SwitchStep]
    refine ⟨hs.1.1, fun _ => hs.1.2.2.1, (fun h => by cases h), fun _ =>
      ⟨by rw [hcc'], by rw [hcc']; exact id, fun h => absurd rfl h,
        fun _ => ⟨hcc', h10, lexError_flag p m⟩, (fun h => by cases h), (by decide),
        fun _ _ => ⟨h10, fun i a b => ?_⟩, ?_⟩⟩
    · rw [hcc'] at b; omega
    · rw [hexSlip_zero (fun h => by cases h.1), hl', hcc', slice_self]
      simp [newlines]

/-! ## The token loop, step by step -/

theorem mem_of_charAt {src : List Nat} {i c : Nat} (h : charAt src i = c) (hc : c ≠ 0) :
    c ∈ src := by
  have hlt : i < src.length := charAt_lt (by rw [h]; exact hc)
  have : src[i] = c := by
    simpa [charAt, List.getD_eq_getElem?_getD, List.getElem?_eq_getElem hlt] using h
  rw [← this]
  exact List.getElem_mem _

theorem newlines_cons_slice (src : List Nat) {a b : Nat} (h : a + 1 ≤ b) :
    (newlines (slice src a b) : Int) =
      (if charAt src a = 10 then 1 else 0) + (newlines (slice src (a + 1) b) : Nat) := by
  rw [slice_append src (Nat.le_succ a) h, newlines_append, slice_one]
  split_ifs <;> simp

/-- What one run of the token loop does (`LexStep`). -/
theorem lexToken_step (libc : Libc) :
    ∀ (f : Nat) (p q : Parser), lexToken libc f p = some q → LexStep p q
  | 0, _, _, h => by simp [lexToken] at h
  | f + 1, p, q, h => by
    rw [lexToken] at h
    split_ifs at h with hp
    · dsimp only at h
      have hlt := currentChar_lt_length hp
      have hstep := lexSwitch_step libc f (nextChar { p with tokenStart := p.currentChar }).2
        (nextChar { p with tokenStart := p.currentChar }).1 rfl rfl hp
      -- the parser after the first character
      have e1 : (nextChar { p with tokenStart := p.currentChar }).2.source = p.source := rfl
      have e2 : (nextChar { p with tokenStart := p.currentChar }).2.tokenStart = p.currentChar :=
        rfl
      have e3 : (nextChar { p with tokenStart := p.currentChar }).2.currentChar =
          p.currentChar + 1 := rfl
      have e4 : (nextChar { p with tokenStart := p.currentChar }).2.numParens = p.numParens := rfl
      have e5 : (nextChar { p with tokenStart := p.currentChar }).2.currentLine =
          p.currentLine + (if charAt p.source p.currentChar = 10 then 1 else 0) := by
        show (if peekChar p = 10 then p.currentLine + 1 else p.currentLine) = _
        rw [peekChar]
        split_ifs <;> simp
      have e6 : (nextChar { p with tokenStart := p.currentChar }).1 =
          charAt p.source p.currentChar := rfl
      generalize (nextChar { p with tokenStart := p.currentChar }).2 = p1 at h hstep e1 e2 e3 e4 e5
      generalize (nextChar { p with tokenStart := p.currentChar }).1 = c at h hstep e6
      have hc0 : c ≠ 0 := by rw [e6]; exact hp
      cases hr : lexSwitch libc f p1 c with
      | none => rw [hr] at h; cases h
      | some r =>
        rw [hr] at h
        have hs := hstep r hr
        cases r with
        | ret q1 =>
          cases h
          simp only [SwitchStep] at hs
          obtain ⟨s1, s2, s3, s4⟩ := hs
          refine ⟨s1.trans e1, fun ht => (s2 ht).trans e4, fun ht => ?_, fun hok => ?_⟩
          · rcases s3 ht with h1 | h1
            · left; rw [← e4]; exact h1
            · right
              exact mem_of_charAt (e6.symm.trans h1) (by decide)
          · obtain ⟨a1, a2, a3, a4, a5, a6, a7, a8⟩ := s4 hok
            rw [e1, e3] at a2
            rw [e3] at a1
            refine ⟨p.currentChar, le_refl _, by omega, fun _ => a2 (by omega),
              fun _ i h1 h2 => absurd h2 (by omega), fun _ i h1 h2 => absurd h2 (by omega),
              ⟨?_, ?_, ?_, ?_, ?_, ?_⟩, ?_⟩
            · intro hne
              obtain ⟨b1, b2, b3⟩ := a3 hne
              exact ⟨b1.trans e2, by rw [b2, e2], b3⟩
            · intro he
              obtain ⟨b1, b2, b3⟩ := a4 he
              exact ⟨by rw [b1, e3], by rw [s1, e1, ← e6]; exact b2, b3⟩
            · intro hl
              obtain ⟨b1, b2⟩ := a5 hl
              exact ⟨by rw [b1, e3], by rw [s1, e1, ← e6]; exact b2⟩
            · intro he; exact absurd he a6
            · intro _; omega
            · intro ht hl i h1 h2
              obtain ⟨b1, b2⟩ := a7 ht hl
              rw [s1, e1]
              by_cases hi : i = p.currentChar
              · rw [hi, ← e6]; exact b1
              · rw [e1, e3] at b2
                exact b2 i (by omega) h2
            · rw [a8, e5, e1, e3, newlines_cons_slice p.source (show p.currentChar + 1 ≤ _ from a1)]
              ring
        | brk q1 =>
          have ih := lexToken_step libc f q1 q h
          simp only [SwitchStep] at hs
          obtain ⟨⟨sr, sc⟩, g1, g2⟩ := hs
          obtain ⟨r1, r2, r3, r4, r5, r6⟩ := sr
          obtain ⟨i1, i2, i3, i4⟩ := ih
          have hsrc : q1.source = p.source := r1.trans e1
          rw [e3] at r4
          rw [e1, e3] at r5
          refine ⟨i1.trans hsrc, fun ht => (i2 ht).trans (r3.trans e4), fun ht => ?_,
            fun hok => ?_⟩
          · rcases i3 ht with h1 | h1
            · left; rw [← e4, ← r3]; exact h1
            · right; rw [← hsrc]; exact h1
          · obtain ⟨s, a1, a2, a3, a4, a5, a6, a7⟩ := i4 hok
            rw [hsrc] at a3 a4 a5 a7
            refine ⟨s, by omega, a2, fun _ => a3 (r5 (by omega)), ?_, ?_, a6, ?_⟩
            · intro hn i h1 h2
              obtain ⟨b1, b2⟩ := g1 (by rw [e1]; exact hn)
              by_cases hi : i = p.currentChar
              · rw [hi, ← e6]; exact b1
              · by_cases hi2 : i < q1.currentChar
                · have := b2.2.2.2.2.2 i (by rw [e3]; omega) hi2
                  rw [e1] at this
                  exact this
                · exact a4 hn i (by omega) h2
            · intro hn i h1 h2
              obtain ⟨b1, b2⟩ := g2 (by rw [e1]; exact hn)
              by_cases hi : i = p.currentChar
              · rw [hi, ← e6]; exact b1
              · by_cases hi2 : i < q1.currentChar
                · have := b2.2.2.2.2.2 i (by rw [e3]; omega) hi2
                  rw [e1] at this
                  simpa [notNewline] using this
                · exact a5 hn i (by omega) h2
            · unfold Counted at sc
              rw [e1, e3] at sc
              rw [a7, sc, e5, newlines_cons_slice p.source (show p.currentChar + 1 ≤ _ by omega),
                slice_append p.source (show p.currentChar + 1 ≤ q1.currentChar from r4)
                  (show q1.currentChar ≤ q.currentChar by omega), newlines_append]
              push_cast
              ring
    · cases h
      simp only [ne_eq, not_not] at hp
      refine ⟨rfl, fun _ => rfl, (fun ht => by cases ht), fun _ => ⟨p.currentChar, le_refl _,
        le_refl _, id, fun _ i h1 h2 => absurd h2 (by omega),
        fun _ i h1 h2 => absurd h2 (by omega), ⟨?_, ?_, ?_, ?_, ?_, ?_⟩, ?_⟩⟩
      · intro _
        refine ⟨rfl, ?_, rfl⟩
        show ((p.currentChar : Int) - (p.currentChar : Int)) = _
        rfl
      · intro he; cases he
      · intro he; cases he
      · intro _; exact ⟨rfl, hp⟩
      · intro he; exact absurd rfl he
      · intro _ _ i h1 h2
        exact absurd h2 (by show ¬ i < p.currentChar; omega)
      · show p.currentLine = p.currentLine + (newlines (slice p.source p.currentChar
          p.currentChar) : Nat) + hexSlip _
        rw [slice_self, hexSlip_zero (fun h => by cases h.1)]
        simp [newlines]

/-! ## Runs of calls of `wrenNextToken` -/

/-- A call of `wrenNextToken` either finds the EOF token in `next` and only
shifts the tokens, or runs the token loop. -/
theorem wrenNextToken_step {libc : Libc} {f : Nat} {p p1 : Parser}
    (h : wrenNextToken libc f p = some p1) :
    (p.next.type = TOKEN_EOF ∧ p1 = { p with previous := p.current, current := p.next }) ∨
    (p.next.type ≠ TOKEN_EOF ∧ LexStep p p1) := by
  by_cases he : p.next.type = TOKEN_EOF
  · left
    simp only [wrenNextToken, if_pos he, Option.some.injEq] at h
    exact ⟨he, h.symm⟩
  · right
    rw [wrenNextToken_lex libc f p he] at h
    have := lexToken_step libc f { p with previous := p.current, current := p.next } p1 h
    exact ⟨he, this⟩

theorem run_succ {libc : Libc} {f n : Nat} {p q : Parser} {ts : List Token}
    (h : wrenNextTokens libc f (n + 1) p = some (ts, q)) :
    ∃ p1 ts1, wrenNextToken libc f p = some p1 ∧ wrenNextTokens libc f n p1 = some (ts1, q) ∧
      ts = p1.next :: ts1 := by
  simp only [wrenNextTokens, Option.bind_eq_some, Option.map_eq_some'] at h
  obtain ⟨p1, h1, r, h2, h3⟩ := h
  cases h3
  exact ⟨p1, r.1, h1, h2, rfl⟩

theorem okRun_of_flag (libc : Libc) (f : Nat) :
    ∀ (n : Nat) (p q : Parser) (ts : List Token), wrenNextTokens libc f n p = some (ts, q) →
      q.hasError = false → OkRun libc f n p
  | 0, _, _, _, _, _ => trivial
  | n + 1, p, q, ts, h, he => by
    obtain ⟨p1, ts1, h1, h2, _⟩ := run_succ h
    intro p1' h1'
    rw [h1] at h1'
    cases h1'
    have hf : p1.hasError = false := by
      cases hb : p1.hasError with
      | false => rfl
      | true => rw [(wrenNextTokens_flag libc f n p1 q ts1 h2).2 hb] at he; cases he
    exact ⟨fun _ => hf, okRun_of_flag libc f n p1 q ts1 h2 he⟩

theorem okRun_of_noQuote (libc : Libc) (f : Nat) :
    ∀ (n : Nat) (p : Parser), 34 ∉ p.source → p.numParens = 0 → OkRun libc f n p
  | 0, _, _, _ => trivial
  | n + 1, p, hq, hn => by
    intro p1 h1
    rcases wrenNextToken_step h1 with ⟨he, rfl⟩ | ⟨_, hs⟩
    · refine ⟨fun h => ?_, okRun_of_noQuote libc f n _ hq hn⟩
      rw [show ({ p with previous := p.current, current := p.next } : Parser).next.type =
        TOKEN_EOF from he] at h
      cases h
    · obtain ⟨s1, s2, s3, _⟩ := hs
      have hns : stringType p1.next.type = false := by
        cases hb : stringType p1.next.type with
        | false => rfl
        | true =>
          rcases s3 hb with h | h
          · omega
          · exact absurd h hq
      refine ⟨(fun h => by rw [hns] at h; cases h),
        okRun_of_noQuote libc f n p1 (by rw [s1]; exact hq) ((s2 hns).trans hn)⟩

/-- The slice of a token that ends inside the source. -/
theorem text_eq_slice (src : List Nat) (t : Token) (h : t.start + t.length.toNat ≤ src.length) :
    Token.text src t = slice src t.start (t.start + t.length.toNat) := by
  unfold Token.text slice
  apply List.ext_getElem
  · simp; omega
  · intro i h1 h2
    simp only [List.length_map, List.length_range] at h1
    simp only [List.getElem_map, List.getElem_range, List.getElem_take, List.getElem_drop]
    simp [charAt, List.getD_eq_getElem?_getD, List.getElem?_eq_getElem (show t.start + i < src.length by omega)]

theorem mem_slice {src : List Nat} {a b c : Nat} (h : c ∈ slice src a b) :
    ∃ i, a ≤ i ∧ i < b ∧ charAt src i = c := by
  unfold slice at h
  obtain ⟨i, hi, rfl⟩ := List.getElem_of_mem h
  simp only [List.length_take, List.length_drop] at hi
  refine ⟨a + i, by omega, by omega, ?_⟩
  simp only [List.getElem_take, List.getElem_drop]
  simp [charAt, List.getD_eq_getElem?_getD, List.getElem?_eq_getElem (show a + i < src.length by omega)]

theorem lineCount_cons (t : Token) (ts : List Token) :
    lineCount (t :: ts) = (if t.type = TOKEN_LINE then 1 else 0) + lineCount ts := by
  simp only [lineCount, List.countP_cons, decide_eq_true_eq]
  omega

theorem stringType_cases {T : TokenType} (h : stringType T = true) :
    T ≠ TOKEN_LINE ∧ T ≠ TOKEN_ERROR ∧ T ≠ TOKEN_EOF ∧ T ≠ TOKEN_NUMBER := by
  revert h
  cases T <;> decide

/-- The newlines in the slice of a token: one in a LINE token, those of the
text in a string token, none in any other token. -/
theorem token_newlines {q : Parser} {s : Nat} (h : TokenShape q s) (hs : s ≤ q.currentChar)
    (hlen : q.currentChar ≤ q.source.length) :
    newlines (slice q.source s q.currentChar) =
      (if q.next.type = TOKEN_LINE then 1 else 0) +
      (if stringType q.next.type then newlines (Token.text q.source q.next) else 0) := by
  obtain ⟨h1, h2, h3, h4, h5, h6⟩ := h
  by_cases hst : stringType q.next.type = true
  · have hc := stringType_cases hst
    obtain ⟨a, b, _⟩ := h1 hc.2.1
    have hl : q.next.start + q.next.length.toNat = q.currentChar := by
      rw [a, b]; omega
    rw [if_neg hc.1, if_pos hst, text_eq_slice _ _ (by rw [hl]; exact hlen), hl, a]
    simp
  · simp only [Bool.not_eq_true] at hst
    rw [hst]
    simp only [Bool.false_eq_true, if_false, Nat.add_zero]
    by_cases hl : q.next.type = TOKEN_LINE
    · obtain ⟨a, b⟩ := h3 hl
      rw [if_pos hl, a, slice_one, if_pos b]
    · rw [if_neg hl]
      exact newlines_slice_none _ (h6 hst hl)

/-- The newlines read in a run of calls: one for each LINE token, and those
inside the string tokens, when the source has no block comment. -/
theorem run_newlines (libc : Libc) (f : Nat) :
    ∀ (n : Nat) (p q : Parser) (ts : List Token), wrenNextTokens libc f n p = some (ts, q) →
      OkRun libc f n p → noBlockComment p.source = true →
      p.currentChar ≤ p.source.length →
      (p.next.type = TOKEN_EOF → charAt p.source p.currentChar = 0) →
      q.source = p.source ∧ p.currentChar ≤ q.currentChar ∧ q.currentChar ≤ p.source.length ∧
      (q.next.type = TOKEN_EOF → charAt p.source q.currentChar = 0) ∧
      newlines (slice p.source p.currentChar q.currentChar) =
        lineCount ts + stringNewlines p.source ts
  | 0, p, q, ts, h, _, _, hlen, he => by
    simp only [wrenNextTokens, Option.some.injEq, Prod.mk.injEq] at h
    obtain ⟨rfl, rfl⟩ := h
    exact ⟨rfl, le_refl _, hlen, he, by simp [slice_self, newlines, lineCount, stringNewlines]⟩
  | n + 1, p, q, ts, h, hok, hnb, hlen, he => by
    obtain ⟨p1, ts1, h1, h2, rfl⟩ := run_succ h
    obtain ⟨ok1, ok2⟩ := hok p1 h1
    rcases wrenNextToken_step h1 with ⟨hE, rfl⟩ | ⟨_, hs⟩
    · obtain ⟨a1, a2, a3, a4, a5⟩ := run_newlines libc f n _ q ts1 h2 ok2 hnb hlen he
      refine ⟨a1, a2, a3, a4, ?_⟩
      rw [lineCount_cons, stringNewlines]
      have e1 : ({ p with previous := p.current, current := p.next } : Parser).next.type =
          TOKEN_EOF := hE
      rw [e1, show stringType TOKEN_EOF = false from rfl]
      simp only [reduceCtorEq, if_false, Nat.zero_add, Bool.false_eq_true]
      exact a5
    · obtain ⟨s1, _, _, s4⟩ := hs
      obtain ⟨s, b1, b2, b3, _, b5, b6, _⟩ := s4 ok1
      have hl1 : p1.currentChar ≤ p1.source.length := by rw [s1]; exact b3 hlen
      obtain ⟨a1, a2, a3, a4, a5⟩ := run_newlines libc f n p1 q ts1 h2 ok2
        (by rw [s1]; exact hnb) hl1 (fun h => by rw [(b6.2.2.2.1 h).1]; exact (b6.2.2.2.1 h).2)
      rw [s1] at a3 a4 a5
      refine ⟨a1.trans s1, by omega, a3, a4, ?_⟩
      have tn := token_newlines b6 b2 hl1
      rw [s1] at tn
      rw [slice_append p.source (show p.currentChar ≤ p1.currentChar by omega) a2,
        slice_append p.source b1 b2, newlines_append, newlines_append, a5, tn,
        newlines_slice_none p.source (b5 hnb), lineCount_cons, stringNewlines]
      omega

/-! ## LINE tokens and newlines -/

/-- A run of more calls than there are characters left ends with the EOF
token. -/
theorem run_eof (libc : Libc) (f : Nat) :
    ∀ (n : Nat) (p q : Parser) (ts : List Token), wrenNextTokens libc f n p = some (ts, q) →
      OkRun libc f n p → p.currentChar ≤ p.source.length →
      (p.next.type = TOKEN_EOF ∨ p.source.length < p.currentChar + n) →
      q.next.type = TOKEN_EOF
  | 0, p, q, ts, h, _, hlen, hn => by
    simp only [wrenNextTokens, Option.some.injEq, Prod.mk.injEq] at h
    obtain ⟨_, rfl⟩ := h
    rcases hn with h | h
    · exact h
    · omega
  | n + 1, p, q, ts, h, hok, hlen, hn => by
    obtain ⟨p1, ts1, h1, h2, rfl⟩ := run_succ h
    obtain ⟨ok1, ok2⟩ := hok p1 h1
    rcases wrenNextToken_step h1 with ⟨hE, rfl⟩ | ⟨hne, hs⟩
    · exact run_eof libc f n _ q ts1 h2 ok2 hlen (Or.inl hE)
    · obtain ⟨s1, _, _, s4⟩ := hs
      obtain ⟨s, b1, b2, b3, _, _, b6, _⟩ := s4 ok1
      have hl1 : p1.currentChar ≤ p1.source.length := by rw [s1]; exact b3 hlen
      refine run_eof libc f n p1 q ts1 h2 ok2 hl1 ?_
      by_cases he : p1.next.type = TOKEN_EOF
      · exact Or.inl he
      · right
        have := b6.2.2.2.2.1 he
        rcases hn with h | h
        · exact absurd h hne
        · rw [s1]; omega

theorem run_no_strings (libc : Libc) (f : Nat) :
    ∀ (n : Nat) (p q : Parser) (ts : List Token), wrenNextTokens libc f n p = some (ts, q) →
      34 ∉ p.source → p.numParens = 0 → ∀ t ∈ ts, stringType t.type = false
  | 0, p, q, ts, h, _, _ => by
    simp only [wrenNextTokens, Option.some.injEq, Prod.mk.injEq] at h
    obtain ⟨rfl, _⟩ := h
    intro t ht
    cases ht
  | n + 1, p, q, ts, h, hq, hn => by
    obtain ⟨p1, ts1, h1, h2, rfl⟩ := run_succ h
    have hfirst : stringType p1.next.type = false ∧ p1.source = p.source ∧ p1.numParens = 0 := by
      rcases wrenNextToken_step h1 with ⟨hE, rfl⟩ | ⟨_, hs⟩
      · refine ⟨?_, rfl, hn⟩
        rw [show ({ p with previous := p.current, current := p.next } : Parser).next.type =
          TOKEN_EOF from hE]
        rfl
      · obtain ⟨s1, s2, s3, _⟩ := hs
        have hns : stringType p1.next.type = false := by
          cases hb : stringType p1.next.type with
          | false => rfl
          | true =>
            rcases s3 hb with h | h
            · omega
            · exact absurd h hq
        exact ⟨hns, s1, (s2 hns).trans hn⟩
    intro t ht
    rcases List.mem_cons.mp ht with rfl | ht
    · exact hfirst.1
    · exact run_no_strings libc f n p1 q ts1 h2 (by rw [hfirst.2.1]; exact hq) hfirst.2.2 t ht

theorem stringNewlines_none (src : List Nat) :
    ∀ ts : List Token, (∀ t ∈ ts, stringType t.type = false) → stringNewlines src ts = 0
  | [], _ => rfl
  | t :: ts, h => by
    rw [stringNewlines, h t (List.mem_cons_self _ _),
      stringNewlines_none src ts (fun x hx => h x (List.mem_cons_of_mem _ hx))]
    simp

theorem okRun_clean (libc : Libc) (f : Nat) {n : Nat} {p q : Parser} {ts : List Token}
    (h : wrenNextTokens libc f n p = some (ts, q)) (hn : p.numParens = 0)
    (hc : q.hasError = false ∨ 34 ∉ p.source) : OkRun libc f n p := by
  rcases hc with hc | hc
  · exact okRun_of_flag libc f n p q ts h hc
  · exact okRun_of_noQuote libc f n p hc hn

theorem slice_all (src : List Nat) : slice src 0 src.length = src := by
  simp [slice]

theorem eof_at_end {src : List Nat} (h0 : 0 ∉ src) {i : Nat} (hi : i ≤ src.length)
    (hz : charAt src i = 0) : i = src.length := by
  by_contra hne
  exact charAt_ne_zero h0 (show i < src.length by omega) hz

/-- A source on which C13 fails: the block comment `/*`, newline, `*/` has one
newline and is lexed to the EOF token alone; and the string literal made of a
quote, a newline and a quote has one newline and is lexed to a STRING token
and the EOF token.  Neither run has a LINE token. -/
theorem line_tokens_count_fails :
    (∃ ts q, wrenNextTokens exampleLibc 8 1 (startParser [47, 42, 10, 42, 47]) = some (ts, q) ∧
      q.next.type = TOKEN_EOF ∧ lineCount ts = 0 ∧ newlines [47, 42, 10, 42, 47] = 1) ∧
    (∃ ts q, wrenNextTokens exampleLibc 8 2 (startParser [34, 10, 34]) = some (ts, q) ∧
      q.next.type = TOKEN_EOF ∧ lineCount ts = 0 ∧ newlines [34, 10, 34] = 1) := by
  constructor
  · refine ⟨_, _, rfl, ?_, ?_, ?_⟩ <;> decide
  · refine ⟨_, _, rfl, ?_, ?_, ?_⟩ <;> decide

/-! ## The lines of the tokens -/

/-- The lines of the tokens of a run in which the line counter starts right
and no hexadecimal literal is directly followed by a newline. -/
theorem run_lines (libc : Libc) (f : Nat) :
    ∀ (n : Nat) (p q : Parser) (ts : List Token), wrenNextTokens libc f n p = some (ts, q) →
      OkRun libc f n p → (∀ t ∈ ts, hexThenNewline p.source t = false) →
      p.currentChar ≤ p.source.length →
      p.currentLine = 1 + (newlines (p.source.take p.currentChar) : Nat) →
      (p.next.type = TOKEN_EOF → lineRight p.source p.next) →
      ∀ t ∈ ts, t.type ≠ TOKEN_ERROR → lineRight p.source t
  | 0, p, q, ts, h, _, _, _, _, _ => by
    simp only [wrenNextTokens, Option.some.injEq, Prod.mk.injEq] at h
    obtain ⟨rfl, _⟩ := h
    intro t ht
    cases ht
  | n + 1, p, q, ts, h, hok, hhex, hlen, hacc, he => by
    obtain ⟨p1, ts1, h1, h2, rfl⟩ := run_succ h
    obtain ⟨ok1, ok2⟩ := hok p1 h1
    have hhex1 := hhex p1.next (List.mem_cons_self _ _)
    have hhex2 : ∀ t ∈ ts1, hexThenNewline p.source t = false :=
      fun t ht => hhex t (List.mem_cons_of_mem _ ht)
    rcases wrenNextToken_step h1 with ⟨hE, rfl⟩ | ⟨_, hs⟩
    · have ih := run_lines libc f n _ q ts1 h2 ok2 hhex2 hlen hacc he
      intro t ht hne
      rcases List.mem_cons.mp ht with rfl | ht
      · exact he hE
      · exact ih t ht hne
    · obtain ⟨s1, _, _, s4⟩ := hs
      obtain ⟨s, b1, b2, b3, _, _, b6, b7⟩ := s4 ok1
      have hl1 : p1.currentChar ≤ p1.source.length := by rw [s1]; exact b3 hlen
      have hslip : hexSlip p1 = 0 := by
        simp only [hexSlip, s1, hhex1, Bool.false_eq_true, if_false]
      have tn := token_newlines b6 b2 hl1
      rw [s1] at tn
      -- the line counter after the token
      have hline : p1.currentLine = 1 + (newlines (p.source.take s) : Nat) +
          (newlines (slice p.source s p1.currentChar) : Nat) := by
        rw [b7, hslip, hacc, take_slice p.source b1,
          slice_append p.source b1 b2, newlines_append, newlines_append]
        push_cast
        ring
      have hacc1 : p1.currentLine = 1 + (newlines (p1.source.take p1.currentChar) : Nat) := by
        rw [hline, s1, take_slice p.source b2, newlines_append]
        push_cast
        ring
      have hright : p1.next.type ≠ TOKEN_ERROR → lineRight p.source p1.next := by
        intro hne
        obtain ⟨c1, c2, c3⟩ := b6.1 hne
        unfold lineRight
        rw [c3, c1, hline, tn, tokenLine]
        by_cases hst : stringType p1.next.type = true
        · have hl := (stringType_cases hst).1
          simp [hst, hl]
        · have hst' : stringType p1.next.type = false := by simpa using hst
          by_cases hl : p1.next.type = TOKEN_LINE
          · simp [hl, show stringType TOKEN_LINE = false from rfl]
          · simp [hst', hl]
      have ih := run_lines libc f n p1 q ts1 h2 ok2 (by rw [s1]; exact hhex2) hl1 hacc1
        (fun h => by rw [s1]; exact hright (by rw [h]; decide))
      intro t ht hne
      rcases List.mem_cons.mp ht with rfl | ht
      · exact hright hne
      · have := ih t ht hne
        rw [s1] at this
        exact this

/-- A source on which C16 fails: the string literal made of a quote, `a`, a
newline, `b` and a quote is one STRING token that starts at index 0, on line
1 (no newline stands before it), and its line field is 2, the line on which
it ends. -/
theorem token_lines_fails :
    ∃ ts q, wrenNextTokens exampleLibc 8 1 (startParser [34, 97, 10, 98, 34]) = some (ts, q) ∧
      q.next.type = TOKEN_STRING ∧ q.next.type ≠ TOKEN_ERROR ∧ q.next.start = 0 ∧
      q.next.line = 2 ∧ 1 + newlines (([34, 97, 10, 98, 34] : List Nat).take 0) = 1 := by
  refine ⟨_, _, rfl, ?_, ?_, ?_, ?_, ?_⟩ <;> decide

/-- C16, amended: the line field of a token is the line on which the token
ends.  For every source lexed from the start, the calls of `wrenNextToken`
return, and in every run in which no error is reported, or whose source has
no double quote, and in which no hexadecimal literal is directly followed by
a newline (after which the line counter is one too high), every token other
than TOKEN_ERROR has the line field `1 + (newlines before its first
character)`, plus, for a STRING or INTERPOLATION token, the number of
newlines inside its slice (`lineRight`). -/
theorem token_lines (libc : Libc) (p : Parser) (fuel : Nat)
    (hfresh : p.fresh) (hfuel : p.source.length + 2 ≤ fuel) :
    (∀ n, ∃ ts q, wrenNextTokens libc fuel n p = some (ts, q) ∧ ts.length = n) ∧
    (∀ n ts q, wrenNextTokens libc fuel n p = some (ts, q) →
      (q.hasError = false ∨ 34 ∉ p.source) →
      (∀ t ∈ ts, hexThenNewline p.source t = false) →
      ∀ t ∈ ts, t.type ≠ TOKEN_ERROR → lineRight p.source t) := by
  obtain ⟨hcc, hline, hnum, hne⟩ := hfresh
  refine ⟨fun n => wrenNextTokens_returns libc fuel n p hfuel, ?_⟩
  intro n ts q hrun hclean hhex
  have hok := okRun_clean libc fuel hrun hnum hclean
  exact run_lines libc fuel n p q ts hrun hok hhex (by omega)
    (by rw [hline, hcc]; simp [newlines]) (fun h => absurd h hne)

/-- Witness for C16: in the source `a`, newline, quote, `b`, newline, `c`,
quote, `d` the NAME `a` has line 1, the LINE token line 1, the STRING token,
which starts on line 2 and holds a newline, has line 3, and the NAME `d` has
line 3. -/
theorem token_lines_witness :
    (startParser (ascii "a\n\"b\nc\"d")).fresh ∧
    ∃ ts q, wrenNextTokens exampleLibc 11 4 (startParser (ascii "a\n\"b\nc\"d")) = some (ts, q) ∧
      ts.map (fun t => (t.type, t.start, t.line)) =
        [(TOKEN_NAME, 0, 1), (TOKEN_LINE, 1, 1), (TOKEN_STRING, 2, 3), (TOKEN_NAME, 7, 3)] ∧
      ∀ t ∈ ts, t.type ≠ TOKEN_ERROR → lineRight (ascii "a\n\"b\nc\"d") t :=
  ⟨⟨rfl, rfl, rfl, by decide⟩,
    _, _, rfl, by decide,
    (token_lines exampleLibc (startParser (ascii "a\n\"b\nc\"d")) 11
      ⟨rfl, rfl, rfl, by decide⟩ (by decide)).2 4 _ _ rfl (Or.inl (by decide)) (by decide)⟩

/-! ## Lex, then reconstruct -/

theorem callErrorFn_errorFn (vm : WrenVM) (type : WrenErrorType) (module : Option String)
    (line : Int) (message : String) :
    (callErrorFn vm type module line message).errorFn = vm.errorFn := rfl

theorem stackTraceLoop_calls (fiber : ObjFiber) :
    ∀ (n : Nat) (vm : WrenVM), n ≤ fiber.frames.length →
      (stackTraceLoop fiber n vm).errorFn = vm.errorFn ∧
      (stackTraceLoop fiber n vm).errorCalls =
        vm.errorCalls ++ (fiber.frames.take n).reverse.filterMap traceEvent
  | 0, vm, _ => by simp [stackTraceLoop]
  | i + 1, vm, h => by
    have hi : i < fiber.frames.length := by omega
    have htake : (fiber.frames.take (i + 1)).reverse =
        fiber.frames[i] :: (fiber.frames.take i).reverse := by
      rw [List.take_succ, List.getElem?_eq_getElem hi]
      simp
    rw [stackTraceLoop, List.getElem?_eq_getElem hi, htake, List.filterMap_cons]
    dsimp only
    cases hm : fiber.frames[i].fn.module with
    | none =>
      have ht : traceEvent fiber.frames[i] = none := by simp [traceEvent, hm]
      rw [ht]
      exact stackTraceLoop_calls fiber i vm (by omega)
    | some module =>
      cases hn : module.name with
      | none =>
        have ht : traceEvent fiber.frames[i] = none := by simp [traceEvent, hm, hn]
        simp only [hn, ht]
        exact stackTraceLoop_calls fiber i vm (by omega)
      | some name =>
        have ht : traceEvent fiber.frames[i] =
            some ⟨WrenErrorType.WREN_ERROR_STACK_TRACE, some name,
              intBufferAt fiber.frames[i].fn.debug.sourceLines ((fiber.frames[i].ip : Int) - 1),
              fiber.frames[i].fn.debug.name⟩ := by
          simp [traceEvent, hm, hn]
        simp only [hn, ht]
        have ih := stackTraceLoop_calls fiber i
          (callErrorFn vm WrenErrorType.WREN_ERROR_STACK_TRACE (some name)
            (intBufferAt fiber.frames[i].fn.debug.sourceLines ((fiber.frames[i].ip : Int) - 1))
            fiber.frames[i].fn.debug.name) (by omega)
        refine ⟨ih.1, ?_⟩
        rw [ih.2]
        simp [callErrorFn]

/-- C20: with a non-NULL `errorFn`, `wrenDebugPrintStackTrace` makes first one
WREN_ERROR_RUNTIME call with module NULL, line -1 and the error string of the
fiber (or `[error object]` when the error is not a string), and then, for the
frames from index `numFrames - 1` down to 0, one WREN_ERROR_STACK_TRACE call
for each frame whose function has a module with a name, with that name, the
line recorded for the byte at `ip - 1` and the debug name of the function;
the other frames make no call.  With `errorFn` NULL nothing is called. -/
theorem stack_trace_callbacks (vm : WrenVM) (fiber : ObjFiber)
    (hlen : fiber.numFrames ≤ fiber.frames.length) :
    (vm.errorFn = true →
      (wrenDebugPrintStackTrace vm fiber).errorCalls =
        vm.errorCalls ++
          ⟨WrenErrorType.WREN_ERROR_RUNTIME, none, -1, runtimeMessage fiber⟩ ::
            (fiber.frames.take fiber.numFrames).reverse.filterMap traceEvent) ∧
    (vm.errorFn = false → wrenDebugPrintStackTrace vm fiber = vm) ∧
    (wrenDebugPrintStackTrace vm fiber).errorFn = vm.errorFn := by
  refine ⟨fun h => ?_, fun h => by simp [wrenDebugPrintStackTrace, h], ?_⟩
  · simp only [wrenDebugPrintStackTrace, h, Bool.not_true, Bool.false_eq_true, if_false]
    cases he : fiber.error <;>
      simp [(stackTraceLoop_calls fiber fiber.numFrames _ hlen).2, callErrorFn, runtimeMessage, he]
  · by_cases h : vm.errorFn = true
    · simp only [wrenDebugPrintStackTrace, h, Bool.not_true, Bool.false_eq_true, if_false]
      cases he : fiber.error <;>
        simp [(stackTraceLoop_calls fiber fiber.numFrames _ hlen).1, callErrorFn, h]
    · simp [wrenDebugPrintStackTrace, h]

/-- Witness for C20: a fiber with the error string `boom` and four frames in
use (a function `f` of module `main` at the bottom, an API stub, a function
of the unnamed core module, and a function `g` of module `main` on top) gives
the runtime event and the trace events of `g` and `f`, in that order. -/
theorem stack_trace_callbacks_witness :
    exampleFiber.numFrames ≤ exampleFiber.frames.length ∧
    (wrenDebugPrintStackTrace ⟨true, []⟩ exampleFiber).errorCalls =
      [ ⟨WrenErrorType.WREN_ERROR_RUNTIME, none, -1, "boom"⟩,
        ⟨WrenErrorType.WREN_ERROR_STACK_TRACE, some "main", 7, "g"⟩,
        ⟨WrenErrorType.WREN_ERROR_STACK_TRACE, some "main", 3, "f"⟩ ] ∧
    wrenDebugPrintStackTrace ⟨false, []⟩ exampleFiber = ⟨false, []⟩ :=
  ⟨by decide,
    ((stack_trace_callbacks ⟨true, []⟩ exampleFiber (by decide)).1 rfl).trans (by decide),
    (stack_trace_callbacks ⟨false, []⟩ exampleFiber (by decide)).2.1 rfl⟩

/-! ## Trace entries after a runtime error -/

theorem traceEvent_named (frame : CallFrame) :
    (traceEvent frame).isSome = frame.named := by
  unfold traceEvent CallFrame.named
  cases frame.fn.module with
  | none => rfl
  | some module => cases h : module.name <;> simp [h]

theorem traceEvent_type {frame : CallFrame} {e : ErrorCall} (h : traceEvent frame = some e) :
    e.type = WrenErrorType.WREN_ERROR_STACK_TRACE := by
  unfold traceEvent at h
  cases hm : frame.fn.module with
  | none => simp [hm] at h
  | some module =>
    cases hn : module.name with
    | none => simp [hm, hn] at h
    | some name =>
      simp only [hm, hn, Option.some.injEq] at h
      rw [← h]

theorem filterMap_traceEvent (frames : List CallFrame) :
    (frames.filterMap traceEvent).length = frames.countP CallFrame.named ∧
    ∀ e ∈ frames.filterMap traceEvent, e.type = WrenErrorType.WREN_ERROR_STACK_TRACE := by
  induction frames with
  | nil => simp
  | cons a l ih =>
    have hn := traceEvent_named a
    cases ht : traceEvent a with
    | none =>
      rw [ht] at hn
      have hn' : a.named = false := by simpa using hn.symm
      rw [List.filterMap_cons, ht, List.countP_cons, hn']
      exact ⟨by simpa using ih.1, ih.2⟩
    | some e =>
      rw [ht] at hn
      have hn' : a.named = true := by simpa using hn.symm
      simp only [List.filterMap_cons, ht, List.countP_cons, hn', List.length_cons, ih.1,
        if_true, List.mem_cons, forall_eq_or_imp, true_and]
      exact ⟨traceEvent_type ht, ih.2⟩

/-- Fibers on which C21 fails: a fiber with no frame in use, and a fiber whose
frames in use are an API stub and a function of the unnamed core module.  With
a non-NULL `errorFn`, `wrenDebugPrintStackTrace` makes the
WREN_ERROR_RUNTIME call and no WREN_ERROR_STACK_TRACE call after it. -/
theorem trace_entries_follow_fails :
    (wrenDebugPrintStackTrace ⟨true, []⟩ ⟨Value.OBJ_STRING (ascii "boom"), [], 0⟩).errorCalls =
      [⟨WrenErrorType.WREN_ERROR_RUNTIME, none, -1, "boom"⟩] ∧
    coreFiber.numFrames = 2 ∧
    (wrenDebugPrintStackTrace ⟨true, []⟩ coreFiber).errorCalls =
      [⟨WrenErrorType.WREN_ERROR_RUNTIME, none, -1, "boom"⟩] := by
  decide

/-- C21, amended: every runtime error reported by `wrenDebugPrintStackTrace`
is followed immediately by zero or more stack trace entries, one for each
frame in use whose function has a module with a name.  For every fiber, when
`errorFn` is not NULL the calls made are the WREN_ERROR_RUNTIME call followed
by WREN_ERROR_STACK_TRACE calls only, as many as there are such frames; so
the runtime error is followed by at least one stack trace entry exactly when
the fiber has a frame in use whose function has a named module. -/
theorem trace_entries_follow (vm : WrenVM) (fiber : ObjFiber)
    (hlen : fiber.numFrames ≤ fiber.frames.length) (hfn : vm.errorFn = true) :
    ∃ trace : List ErrorCall,
      (wrenDebugPrintStackTrace vm fiber).errorCalls =
        vm.errorCalls ++ ⟨WrenErrorType.WREN_ERROR_RUNTIME, none, -1, runtimeMessage fiber⟩ :: trace ∧
      (∀ e ∈ trace, e.type = WrenErrorType.WREN_ERROR_STACK_TRACE) ∧
      trace.length = (fiber.frames.take fiber.numFrames).countP CallFrame.named ∧
      (1 ≤ trace.length ↔ ∃ frame ∈ fiber.frames.take fiber.numFrames, frame.named = true) := by
  have hf := filterMap_traceEvent (fiber.frames.take fiber.numFrames).reverse
  refine ⟨(fiber.frames.take fiber.numFrames).reverse.filterMap traceEvent, ?_, hf.2, ?_, ?_⟩
  · simp only [wrenDebugPrintStackTrace, hfn, Bool.not_true, Bool.false_eq_true, if_false]
    cases he : fiber.error <;>
      simp [(stackTraceLoop_calls fiber fiber.numFrames _ hlen).2, callErrorFn, runtimeMessage, he]
  · rw [hf.1, List.countP_reverse]
  · rw [hf.1, List.countP_reverse, Nat.succ_le_iff, List.countP_pos_iff]

/-- Witness for C21: the fiber with four frames in use, two of them of the
module `main`, gives the runtime event followed by two stack trace entries. -/
theorem trace_entries_follow_witness :
    exampleFiber.numFrames ≤ exampleFiber.frames.length ∧
    ∃ trace : List ErrorCall,
      (wrenDebugPrintStackTrace ⟨true, []⟩ exampleFiber).errorCalls =
        [] ++ ⟨WrenErrorType.WREN_ERROR_RUNTIME, none, -1, "boom"⟩ :: trace ∧
      trace.length = 2 := by
  obtain ⟨trace, h1, _, h3, _⟩ :=
    trace_entries_follow ⟨true, []⟩ exampleFiber (by decide) rfl
  exact ⟨by decide, trace, h1.trans (by simp; rfl), h3.trans (by decide)⟩

/-! ## The opcode table -/

set_option maxRecDepth 100000 in
/-- C23: in the numbering of the opcodes by their order in wren_opcodes.h,
each STORE instruction comes directly after its LOAD instruction
(`STORE_LOCAL`, `STORE_UPVALUE`, `STORE_MODULE_VAR`, `STORE_FIELD_THIS`,
`STORE_FIELD`), the two of a pair have the same declared size, and `END` is
the last opcode of the table (the names of the table are distinct). -/
theorem store_follows_load :
    CODE "STORE_LOCAL" = CODE "LOAD_LOCAL" + 1 ∧
    CODE "STORE_UPVALUE" = CODE "LOAD_UPVALUE" + 1 ∧
    CODE "STORE_MODULE_VAR" = CODE "LOAD_MODULE_VAR" + 1 ∧
    CODE "STORE_FIELD_THIS" = CODE "LOAD_FIELD_THIS" + 1 ∧
    CODE "STORE_FIELD" = CODE "LOAD_FIELD" + 1 ∧
    (declaredSize "LOAD_LOCAL" = some BYTE_ARG ∧ declaredSize "STORE_LOCAL" = some BYTE_ARG) ∧
    (declaredSize "LOAD_UPVALUE" = some BYTE_ARG ∧ declaredSize "STORE_UPVALUE" = some BYTE_ARG) ∧
    (declaredSize "LOAD_MODULE_VAR" = some SHORT_ARG ∧
      declaredSize "STORE_MODULE_VAR" = some SHORT_ARG) ∧
    (declaredSize "LOAD_FIELD_THIS" = some BYTE_ARG ∧
      declaredSize "STORE_FIELD_THIS" = some BYTE_ARG) ∧
    (declaredSize "LOAD_FIELD" = some BYTE_ARG ∧ declaredSize "STORE_FIELD" = some BYTE_ARG) ∧
    CODE "END" + 1 = opcodes.length ∧
    opcodes.getLast? = some (OPCODE "END" NO_ARG 0) ∧
    (opcodes.map Opcode.name).Nodup := by
  refine ⟨?_, ?_, ?_, ?_, ?_, ⟨?_, ?_⟩, ⟨?_, ?_⟩, ⟨?_, ?_⟩, ⟨?_, ?_⟩, ⟨?_, ?_⟩, ?_, ?_, ?_⟩ <;>
    decide

set_option maxRecDepth 100000 in
/-- C24: the number of arguments of a call is recoverable from its opcode.
For every `n` from 0 to 16, `CALL_n` is `CALL_0 + n` and `SUPER_n` is
`SUPER_0 + n` in the numbering of the opcodes, `CALL_n` has the declared size
3 (`SHORT_ARG`) and `SUPER_n` the declared size 5 (`SHORT_ARG2`), and both
have the declared stack effect `-n`; and `LOAD_LOCAL_n` is `LOAD_LOCAL_0 + n`
for every `n` from 0 to 8. -/
theorem call_arity_from_opcode :
    (∀ n, n ≤ 16 →
      CODE ("CALL_" ++ toString n) = CODE "CALL_0" + n ∧
      CODE ("SUPER_" ++ toString n) = CODE "SUPER_0" + n ∧
      CODE ("SUPER_" ++ toString n) < opcodes.length ∧
      declaredSize ("CALL_" ++ toString n) = some 3 ∧
      declaredSize ("SUPER_" ++ toString n) = some 5 ∧
      declaredEffect ("CALL_" ++ toString n) = some (-(n : Int)) ∧
      declaredEffect ("SUPER_" ++ toString n) = some (-(n : Int))) ∧
    (∀ n, n ≤ 8 → CODE ("LOAD_LOCAL_" ++ toString n) = CODE "LOAD_LOCAL_0" + n ∧
      CODE ("LOAD_LOCAL_" ++ toString n) < opcodes.length) ∧
    SHORT_ARG = 3 ∧ SHORT_ARG2 = 5 := by
  decide

set_option maxRecDepth 100000 in
/-- Witness for C24: `CALL_16` is the opcode `CALL_0 + 16`, and `SUPER_3` has
the stack effect -3. -/
theorem call_arity_from_opcode_witness :
    (16 : Nat) ≤ 16 ∧ "CALL_" ++ toString 16 = "CALL_16" ∧
    CODE ("CALL_" ++ toString 16) = CODE "CALL_0" + 16 ∧
    "SUPER_" ++ toString 3 = "SUPER_3" ∧
    declaredEffect ("SUPER_" ++ toString 3) = some (-((3 : Nat) : Int)) :=
  ⟨by decide, by decide, (call_arity_from_opcode.1 16 (by decide)).1, by decide,
    (call_arity_from_opcode.1 3 (by decide)).2.2.2.2.2.2⟩

/-! ## Instruction sizes in the disassembler -/

theorem dumpUpvalues_offset (bytecode : List Nat) :
    ∀ (n j i : Nat) (out : List Printed), (dumpUpvalues bytecode n j i out).1 = i + 2 * n
  | 0, _, _, _ => rfl
  | n + 1, j, i, out => by
    rw [dumpUpvalues]
    simp only [READ_BYTE]
    rw [dumpUpvalues_offset bytecode n]
    omega

theorem fst_ite {α β : Type} (c : Prop) [Decidable c] (a b : α × β) :
    (if c then a else b).1 = if c then a.1 else b.1 := by
  split_ifs <;> rfl

theorem ite_shift (c : Prop) [Decidable c] {a b a' b' i : Nat} (h1 : a = i + a')
    (h2 : b = i + b') : (if c then a else b) = i + (if c then a' else b') := by
  split_ifs
  · exact h1
  · exact h2

set_option maxRecDepth 100000 in
/-- The numbers of the opcodes, in the order of the table. -/
theorem code_numbers : (opcodes.map Opcode.name).map CODE = List.range 83 := by decide

set_option maxRecDepth 100000 in

/-- The number of argument bytes that the switch of `dumpInstruction` reads
does not depend on the offset, on the bytes of the code or on the tables of
names and constants, for every opcode but `CLOSURE`. -/
theorem dumpSwitch_shift (methodNames : List String) (fn : FnCode) (code i : Nat)
    (h : code ≠ 71) :
    (dumpSwitch methodNames fn code i).1 = i + (dumpSwitch [] ⟨[], [], [], []⟩ code 0).1 := by
  have hc := code_numbers
  rw [show List.range 83 =
      [0, 1, 2, 3, 4, 5, 6, 7, 8, 9, 10, 11, 12, 13, 14, 15, 16, 17, 18, 19, 20, 21, 22, 23, 24,
      25, 26, 27, 28, 29, 30, 31, 32, 33, 34, 35, 36, 37, 38, 39, 40, 41, 42, 43, 44, 45, 46,
      47, 48, 49, 50, 51, 52, 53, 54, 55, 56, 57, 58, 59, 60, 61, 62, 63, 64, 65, 66, 67, 68,
      69, 70, 71, 72, 73, 74, 75, 76, 77, 78, 79, 80, 81, 82] from by decide] at hc
  simp only [opcodes, OPCODE, List.map_cons, List.map_nil, List.cons.injEq, and_true] at hc
  simp only [dumpSwitch, hc]
  simp only [READ_BYTE, READ_SHORT, fst_ite]
  clear hc
  repeat first
    | rw [if_neg h, if_neg h]
    | refine ite_shift _ (by omega) ?_
  omega

set_option maxRecDepth 100000 in
theorem dumpSwitch_sizes :
    ∀ code, code < 83 → code ≠ 71 → (dumpSwitch [] ⟨[], [], [], []⟩ code 0).1 ∈ [0, 1, 2, 4] := by
  decide

set_option maxRecDepth 100000 in
/-- The number of bytes that the switch reads after each opcode of the table
but `CLOSURE`, against the declared size. -/
theorem dumpSwitch_table :
    ∀ code, code < 83 → code ≠ 71 →
      (((dumpSwitch [] ⟨[], [], [], []⟩ code 0).1 : Nat) : Int) + 1 =
        (opcodes.getD code (OPCODE "" 0 0)).size := by
  decide

set_option maxRecDepth 100000 in
/-- Each line of the table is found again through the number of its name. -/
theorem code_of_mem :
    ∀ op ∈ opcodes, CODE op.name < 83 ∧ opcodes.getD (CODE op.name) (OPCODE "" 0 0) = op ∧
      (CODE op.name = 71 → op.name = "CLOSURE") ∧ (CODE op.name = 82 → op.name = "END") := by
  decide

set_option maxRecDepth 100000 in
theorem code_closure_end : CODE "CLOSURE" = 71 ∧ CODE "END" = 82 := by decide

/-- C22: the disassembler agrees with the opcode table on the sizes of the
instructions.  For every opcode of wren_opcodes.h other than `CLOSURE` and
`END`, `dumpInstruction` at an offset `i` that holds the opcode returns the
size declared for it in the table, whatever the bytes after it, the tables of
constants and names and `lastLine` are; the declared sizes are 1 for
`NO_ARG`, 2 for `BYTE_ARG`, 3 for `SHORT_ARG` and 5 for `SHORT_ARG2`.  For
`CLOSURE` it returns 3 plus twice the number of upvalues of the function
constant named by the two bytes after the opcode (a number of upvalues is
not negative), and for `END` it returns -1. -/
theorem dump_instruction_sizes (methodNames : List String) (fn : FnCode) (i : Nat)
    (lastLine : Option Int) :
    (∀ op ∈ opcodes, op.name ≠ "CLOSURE" → op.name ≠ "END" → byteAt fn.code i = CODE op.name →
      (dumpInstruction methodNames fn i lastLine).result = op.size ∧
      (op.size = NO_ARG ∨ op.size = BYTE_ARG ∨ op.size = SHORT_ARG ∨ op.size = SHORT_ARG2)) ∧
    (NO_ARG = 1 ∧ BYTE_ARG = 2 ∧ SHORT_ARG = 3 ∧ SHORT_ARG2 = 5) ∧
    (byteAt fn.code i = CODE "CLOSURE" →
      0 ≤ (fn.constants.getD (READ_SHORT fn.code (i + 1)).1 ⟨Value.NULL_VAL, 0⟩).numUpvalues →
      (dumpInstruction methodNames fn i lastLine).result =
        3 + 2 * (fn.constants.getD (READ_SHORT fn.code (i + 1)).1 ⟨Value.NULL_VAL, 0⟩).numUpvalues) ∧
    (byteAt fn.code i = CODE "END" → (dumpInstruction methodNames fn i lastLine).result = -1) := by
  refine ⟨?_, by decide, ?_, ?_⟩
  · intro op hop hc he hb
    obtain ⟨h1, h2, h3, h4⟩ := code_of_mem op hop
    have h71 : CODE op.name ≠ 71 := fun h => hc (h3 h)
    have h82 : CODE op.name ≠ CODE "END" := by
      rw [code_closure_end.2]
      exact fun h => he (h4 h)
    have ht := dumpSwitch_table (CODE op.name) h1 h71
    rw [h2] at ht
    have hs := dumpSwitch_shift methodNames fn (CODE op.name) (i + 1) h71
    constructor
    · simp only [dumpInstruction, hb, if_neg h82, hs]
      rw [← ht]
      push_cast
      ring
    · rw [← ht]
      have hk := dumpSwitch_sizes (CODE op.name) h1 h71
      generalize (dumpSwitch [] ⟨[], [], [], []⟩ (CODE op.name) 0).1 = k at hk
      simp only [List.mem_cons, List.mem_singleton, List.not_mem_nil, or_false] at hk
      simp only [NO_ARG, BYTE_ARG, SHORT_ARG, SHORT_ARG2]
      omega
  · intro hb hn
    have h82 : (71 : Nat) ≠ CODE "END" := by rw [code_closure_end.2]; decide
    rw [code_closure_end.1] at hb
    have hsw : (dumpSwitch methodNames fn 71 (i + 1)).1 =
        i + 1 + 2 + 2 * (fn.constants.getD (READ_SHORT fn.code (i + 1)).1
          ⟨Value.NULL_VAL, 0⟩).numUpvalues.toNat := by
      have hc := code_numbers
      rw [show List.range 83 =
          [0, 1, 2, 3, 4, 5, 6, 7, 8, 9, 10, 11, 12, 13, 14, 15, 16, 17, 18, 19, 20, 21, 22, 23,
          24, 25, 26, 27, 28, 29, 30, 31, 32, 33, 34, 35, 36, 37, 38, 39, 40, 41, 42, 43, 44,
          45, 46, 47, 48, 49, 50, 51, 52, 53, 54, 55, 56, 57, 58, 59, 60, 61, 62, 63, 64, 65,
          66, 67, 68, 69, 70, 71, 72, 73, 74, 75, 76, 77, 78, 79, 80, 81, 82] from by decide] at hc
      simp only [opcodes, OPCODE, List.map_cons, List.map_nil, List.cons.injEq, and_true] at hc
      simp only [dumpSwitch, hc]
      simp only [fst_ite, dumpUpvalues_offset, READ_SHORT]
      simp
    simp only [dumpInstruction, hb, if_neg h82, hsw]
    push_cast
    rw [Int.toNat_of_nonneg hn]
    ring
  · intro hb
    simp [dumpInstruction, hb]

/-- Witness for C22: in the code `CLOSURE 0` (two upvalues), `CALL_2 7`,
`RETURN`, `END`, the instruction at offset 0 has size 7, the one at offset 7
size 3, the one at offset 10 size 1, and `END` gives -1. -/
theorem dump_instruction_sizes_witness :
    (⟨"CALL_2", 3, -2⟩ : Opcode) ∈ opcodes ∧ byteAt exampleCode.code 7 = CODE "CALL_2" ∧
    (dumpInstruction [] exampleCode 7 none).result = 3 ∧
    (dumpInstruction [] exampleCode 0 none).result = 7 ∧
    (dumpInstruction [] exampleCode 11 none).result = -1 :=
  ⟨by decide, by decide,
    ((dump_instruction_sizes [] exampleCode 7 none).1 ⟨"CALL_2", 3, -2⟩ (by decide) (by decide)
      (by decide) (by decide)).1,
    ((dump_instruction_sizes [] exampleCode 0 none).2.2.1 (by decide) (by decide)).trans
      (by decide),
    (dump_instruction_sizes [] exampleCode 11 none).2.2.2 (by decide)⟩

/-! ## Binding the foreign classes of the API test -/

theorem cstr_cons (x : Nat) (a : List Nat) :
    cstr (x :: a) = if x = 0 then [] else x :: cstr a := by
  unfold cstr
  rw [List.takeWhile_cons]
  by_cases h : x = 0 <;> simp [h]

/-- The function `strcmp` gives 0 exactly for two buffers that hold the same
C string. -/
theorem strcmp_eq_zero : ∀ (a b : List Nat), strcmp a b = 0 ↔ cstr a = cstr b
  | [], [] => by simp [strcmp, cstr]
  | [], y :: b => by
    rw [strcmp, cstr_cons]
    by_cases hy : y = 0
    · simp [hy, cstr]
    · simp [hy, cstr]
  | x :: a, [] => by
    rw [strcmp, cstr_cons]
    by_cases hx : x = 0
    · simp [hx, cstr]
    · simp [hx, cstr]
  | x :: a, y :: b => by
    rw [strcmp, cstr_cons, cstr_cons]
    by_cases hxy : x = y
    · subst hxy
      by_cases hx : x = 0
      · simp [hx]
      · simp [hx, strcmp_eq_zero a b]
    · have : (x : Int) - (y : Int) ≠ 0 := by omega
      by_cases hx : x = 0
      · have hy : y ≠ 0 := fun h => hxy (by rw [hx, h])
        simp [hx, hy, hxy]
        omega
      · by_cases hy : y = 0
        · simp [hx, hy]
        · simp [hx, hy, hxy, this]

/-- C25: `foreignClassBindClass` resolves an allocator and an optional
finalizer by the name of the class.  For the names `Counter`, `Point` and
`BadClass` it sets `methods.allocate` only (to `counterAllocate`,
`pointAllocate`, `badClassAllocate`) and leaves `methods.finalize` as it is;
for `Resource` it sets `allocate` to `resourceAllocate` and `finalize` to
`resourceFinalize`; for every other name it leaves the record as it is. -/
theorem bind_foreign_class (className : List Nat) (methods : WrenForeignClassMethods) :
    (cstr className = ascii "Counter" →
      foreignClassBindClass className methods =
        ⟨some AllocateFn.counterAllocate, methods.finalize⟩) ∧
    (cstr className = ascii "Point" →
      foreignClassBindClass className methods =
        ⟨some AllocateFn.pointAllocate, methods.finalize⟩) ∧
    (cstr className = ascii "BadClass" →
      foreignClassBindClass className methods =
        ⟨some AllocateFn.badClassAllocate, methods.finalize⟩) ∧
    (cstr className = ascii "Resource" →
      foreignClassBindClass className methods =
        ⟨some AllocateFn.resourceAllocate, some FinalizeFn.resourceFinalize⟩) ∧
    (cstr className ≠ ascii "Counter" → cstr className ≠ ascii "Point" →
      cstr className ≠ ascii "Resource" → cstr className ≠ ascii "BadClass" →
      foreignClassBindClass className methods = methods) := by
  have e1 : cstr (ascii "Counter") = ascii "Counter" := by decide
  have e2 : cstr (ascii "Point") = ascii "Point" := by decide
  have e3 : cstr (ascii "Resource") = ascii "Resource" := by decide
  have e4 : cstr (ascii "BadClass") = ascii "BadClass" := by decide
  simp only [foreignClassBindClass, strcmp_eq_zero, e1, e2, e3, e4]
  refine ⟨fun h => ?_, fun h => ?_, fun h => ?_, fun h => ?_, fun h1 h2 h3 h4 => ?_⟩
  · rw [if_pos h]
  · rw [if_neg (by rw [h]; decide), if_pos h]
  · rw [if_neg (by rw [h]; decide), if_neg (by rw [h]; decide), if_neg (by rw [h]; decide),
      if_pos h]
  · rw [if_neg (by rw [h]; decide), if_neg (by rw [h]; decide), if_pos h]
  · rw [if_neg h1, if_neg h2, if_neg h3, if_neg h4]

/-- Witness for C25: the buffer that holds `Resource` and its terminating NUL
gets both functions, and the name `Other` changes nothing. -/
theorem bind_foreign_class_witness :
    cstr (ascii "Resource" ++ [0]) = ascii "Resource" ∧
    foreignClassBindClass (ascii "Resource" ++ [0]) ⟨none, none⟩ =
      ⟨some AllocateFn.resourceAllocate, some FinalizeFn.resourceFinalize⟩ ∧
    foreignClassBindClass (ascii "Other") ⟨some (AllocateFn.other 1), some (FinalizeFn.other 2)⟩ =
      ⟨some (AllocateFn.other 1), some (FinalizeFn.other 2)⟩ :=
  ⟨by decide,
    (bind_foreign_class (ascii "Resource" ++ [0]) ⟨none, none⟩).2.2.2.1 (by decide),
    (bind_foreign_class (ascii "Other") ⟨some (AllocateFn.other 1), some (FinalizeFn.other 2)⟩).2.2.2.2
      (by decide) (by decide) (by decide) (by decide)⟩

/-! ## Reading past the end of the source -/

/-- C26 fails on the source made of a quote and a backslash (2 characters,
the terminating NUL at index 2): the first call of `wrenNextToken` reads the
NUL as the escaped character and leaves `currentChar` at 3, behind the NUL,
with a STRING token of length 3.  So does an interpolation marker at the end
(a quote and `%`), and an unterminated raw string (three quotes and `a`, 4
characters) leaves `currentChar` at 5 with a token of length 5.  What lies in
memory behind the terminator is then lexed: with the bytes quote, `a` behind
the NUL, the second token is the NAME `a` at index 4. -/
theorem reads_past_end :
    ((wrenNextToken exampleLibc 9 (startParser (ascii "\"\\"))).map
        (fun q => (q.currentChar, q.next.type, q.next.start, q.next.length, q.hasError)) =
      some (3, TOKEN_STRING, 0, 3, true) ∧ (ascii "\"\\").length = 2) ∧
    ((wrenNextToken exampleLibc 9 (startParser (ascii "\"%"))).map
        (fun q => (q.currentChar, q.next.type, q.next.start, q.next.length, q.hasError)) =
      some (3, TOKEN_INTERPOLATION, 0, 3, true) ∧ (ascii "\"%").length = 2) ∧
    ((wrenNextToken exampleLibc 9 (startParser (ascii "\"\"\"a"))).map
        (fun q => (q.currentChar, q.next.type, q.next.start, q.next.length, q.hasError)) =
      some (5, TOKEN_STRING, 0, 5, true) ∧ (ascii "\"\"\"a").length = 4) ∧
    (wrenNextTokens exampleLibc 9 2 (startParser (ascii "\"\\" ++ 0 :: ascii "\"a"))).map
        (fun r => r.1.map (fun t => (t.type, t.start, t.length))) =
      some [(TOKEN_STRING, 0, 4), (TOKEN_NAME, 4, 1)] := by
  refine ⟨⟨?_, rfl⟩, ⟨?_, rfl⟩, ⟨?_, rfl⟩, ?_⟩ <;> decide

/-! ## The line counter -/

/-- C27 fails on the source `0x1` followed by a newline: after the first call
of `wrenNextToken`, `currentChar` is 3, no newline stands before it, and
`currentLine` is 2 (no error is reported).  It also fails on the raw string
opened by three quotes and holding only a newline: after the first call
`currentLine` is 3 and the source has one newline. -/
theorem line_counter_drifts :
    ((wrenNextToken exampleLibc 9 (startParser (ascii "0x1\n"))).map
        (fun q => (q.currentChar, q.currentLine, q.hasError)) = some (3, 2, false) ∧
      1 + (newlines ((ascii "0x1\n").take 3) : Int) = 1) ∧
    ((wrenNextToken exampleLibc 9 (startParser (ascii "\"\"\"\n"))).map
        (fun q => (q.currentChar, q.currentLine, q.hasError)) = some (5, 3, true) ∧
      1 + (newlines (ascii "\"\"\"\n") : Int) = 2) := by
  refine ⟨⟨?_, ?_⟩, ⟨?_, ?_⟩⟩ <;> decide

/-! ## Progress of the lexer -/

theorem Ahead.aheadHere (p : Parser) : Ahead p p := ⟨le_refl _, rfl, rfl⟩

theorem Ahead.aheadThen {p q r : Parser} (h1 : Ahead p q) (h2 : Ahead q r) : Ahead p r :=
  ⟨le_trans h1.1 h2.1, h2.2.1.trans h1.2.1, h2.2.2.trans h1.2.2⟩

theorem ahead_nextChar (p : Parser) : Ahead p (nextChar p).2 := ⟨Nat.le_succ _, rfl, rfl⟩

theorem ahead_matchChar (p : Parser) (c : Nat) : Ahead p (matchChar p c).2 := by
  unfold matchChar
  split_ifs
  · exact Ahead.aheadHere p
  · exact ahead_nextChar p

theorem ahead_lexError (p : Parser) (m : String) : Ahead p (lexError p m) := by
  have h := lexError_fields p m
  exact ⟨le_of_eq h.2.2.1.symm, h.1, h.2.1⟩

theorem ahead_makeToken (p : Parser) (T : TokenType) : Ahead p (makeToken p T) :=
  ⟨le_refl _, rfl, rfl⟩

theorem ahead_setNext (p : Parser) (t : Token) : Ahead p { p with next := t } :=
  ⟨le_refl _, rfl, rfl⟩

theorem ahead_twoCharToken (p : Parser) (c : Nat) (two one : TokenType) :
    Ahead p (twoCharToken p c two one) :=
  (ahead_matchChar p c).aheadThen (ahead_makeToken _ _)

theorem skipWhile_ahead (cond : Nat → Bool) :
    ∀ (f : Nat) (p q : Parser), skipWhile cond f p = some q → Ahead p q
  | 0, _, _, h => by simp [skipWhile] at h
  | f + 1, p, q, h => by
    rw [skipWhile] at h
    split_ifs at h with hc
    · exact (ahead_nextChar p).aheadThen (skipWhile_ahead cond f _ _ h)
    · cases h; exact Ahead.aheadHere p

theorem skipBlockCommentLoop_ahead :
    ∀ (f : Nat) (p q : Parser) (n : Int), skipBlockCommentLoop f p n = some q → Ahead p q
  | 0, _, _, _, h => by simp [skipBlockCommentLoop] at h
  | f + 1, p, q, n, h => by
    rw [skipBlockCommentLoop] at h
    split_ifs at h
    · cases h; exact ahead_lexError p _
    · exact ((ahead_nextChar p).aheadThen (ahead_nextChar _)).aheadThen
        (skipBlockCommentLoop_ahead f _ _ _ h)
    · exact ((ahead_nextChar p).aheadThen (ahead_nextChar _)).aheadThen
        (skipBlockCommentLoop_ahead f _ _ _ h)
    · exact (ahead_nextChar p).aheadThen (skipBlockCommentLoop_ahead f _ _ _ h)
    · cases h; exact Ahead.aheadHere p

theorem readHexDigit_ahead (p : Parser) : Ahead p (readHexDigit p).2 := by
  simp only [readHexDigit]
  split_ifs
  · exact ahead_nextChar p
  · exact ahead_nextChar p
  · exact ahead_nextChar p
  · exact ⟨by simp [unreadChar, nextChar], rfl, rfl⟩

theorem readHexDigits_ahead :
    ∀ (f : Nat) (p q : Parser), readHexDigits f p = some q → Ahead p q
  | 0, _, _, h => by simp [readHexDigits] at h
  | f + 1, p, q, h => by
    rw [readHexDigits] at h
    split_ifs at h with hc
    · exact (readHexDigit_ahead p).aheadThen (readHexDigits_ahead f _ _ h)
    · cases h; exact readHexDigit_ahead p

theorem makeNumber_ahead (libc : Libc) (p : Parser) (isHex : Bool) :
    Ahead p (makeNumber libc p isHex) := by
  unfold Ahead
  simp only [makeNumber, makeToken]
  split_ifs <;> simp [(lexError_fields _ _).1, (lexError_fields _ _).2.1,
    (lexError_fields _ _).2.2.1]

theorem readHexNumber_ahead {libc : Libc} {f : Nat} {p q : Parser}
    (h : readHexNumber libc f p = some q) : Ahead p q := by
  simp only [readHexNumber, Option.map_eq_some'] at h
  obtain ⟨p1, h1, rfl⟩ := h
  exact ((ahead_nextChar p).aheadThen (readHexDigits_ahead f _ _ h1)).aheadThen (makeNumber_ahead libc p1 true)

theorem readNameLoop_ahead :
    ∀ (f : Nat) (p q : Parser) (s t : List Nat), readNameLoop f p s = some (q, t) → Ahead p q
  | 0, _, _, _, _, h => by simp [readNameLoop] at h
  | f + 1, p, q, s, t, h => by
    rw [readNameLoop] at h
    split_ifs at h with hc
    · exact (ahead_nextChar p).aheadThen (readNameLoop_ahead f _ _ _ _ h)
    · cases h; exact Ahead.aheadHere p

theorem readName_ahead {f : Nat} {p q : Parser} {T : TokenType} {c : Nat}
    (h : readName f p T c = some q) : Ahead p q := by
  simp only [readName, Option.map_eq_some'] at h
  obtain ⟨⟨p1, s1⟩, h1, rfl⟩ := h
  exact ((readNameLoop_ahead f _ _ _ _ h1).aheadThen (ahead_setNext p1 _)).aheadThen (ahead_makeToken _ _)

theorem exponent_ahead {f : Nat} {p q : Parser}
    (hr : (let m1 := matchChar p 101
      let m2 := if m1.1 then m1 else matchChar m1.2 69
      if m2.1 then
        let m3 := matchChar m2.2 43
        let parser := if !m3.1 then (matchChar m3.2 45).2 else m3.2
        let parser :=
          if !isDigit (peekChar parser) then lexError parser "Unterminated scientific notation."
          else parser
        skipWhile isDigit f parser
      else some m2.2) = some q) : Ahead p q := by
  dsimp only at hr
  have o1 := ahead_matchChar p 101
  have o2 : Ahead p (if (matchChar p 101).1 then matchChar p 101
      else matchChar (matchChar p 101).2 69).2 := by
    split_ifs
    · exact o1
    · exact o1.aheadThen (ahead_matchChar _ 69)
  generalize (if (matchChar p 101).1 then matchChar p 101
    else matchChar (matchChar p 101).2 69) = m at hr o2
  by_cases hm : m.1 = true
  · rw [if_pos hm] at hr
    have o3 := o2.aheadThen (ahead_matchChar m.2 43)
    have o4 : Ahead p (if !(matchChar m.2 43).1 then (matchChar (matchChar m.2 43).2 45).2
        else (matchChar m.2 43).2) := by
      split_ifs
      · exact o3.aheadThen (ahead_matchChar _ 45)
      · exact o3
    generalize (if !(matchChar m.2 43).1 then (matchChar (matchChar m.2 43).2 45).2
      else (matchChar m.2 43).2) = x at hr o4
    have o5 : Ahead p
        (if !isDigit (peekChar x) then lexError x "Unterminated scientific notation." else x) := by
      split_ifs
      · exact o4.aheadThen (ahead_lexError _ _)
      · exact o4
    exact o5.aheadThen (skipWhile_ahead _ f _ _ hr)
  · rw [if_neg hm] at hr
    cases hr; exact o2

theorem readNumber_ahead {libc : Libc} {f : Nat} {p q : Parser}
    (h : readNumber libc f p = some q) : Ahead p q := by
  simp only [readNumber, Option.bind_eq_some, Option.map_eq_some'] at h
  obtain ⟨p1, h1, p2, h2, p3, h3, rfl⟩ := h
  have o1 := skipWhile_ahead _ f _ _ h1
  have o2 : Ahead p1 p2 := by
    split_ifs at h2
    · exact (ahead_nextChar p1).aheadThen (skipWhile_ahead _ f _ _ h2)
    · cases h2; exact Ahead.aheadHere _
  exact ((o1.aheadThen o2).aheadThen (exponent_ahead h3)).aheadThen (makeNumber_ahead libc p3 false)

theorem readRawStringLoop_ahead :
    ∀ (f : Nat) (p q : Parser) (l l' : RawLocals),
      readRawStringLoop f p l = some (q, l') → Ahead p q
  | 0, _, _, _, _, h => by simp [readRawStringLoop] at h
  | f + 1, p, q, l, l', h => by
    rw [readRawStringLoop] at h
    dsimp only at h
    have k1 := ahead_nextChar p
    split_ifs at h
    · exact k1.aheadThen (readRawStringLoop_ahead f (nextChar p).2 _ _ _ h)
    all_goals first
      | (cases h; exact k1)
      | (cases h
         have e := lexError_fields (nextChar p).2 "Unterminated raw string."
         exact ⟨by simp [unreadChar, e.2.2.1, nextChar], by simp [unreadChar, e.1, nextChar],
           by simp [unreadChar, e.2.1, nextChar]⟩)
      | exact k1.aheadThen (readRawStringLoop_ahead f (nextChar p).2 _ _ _ h)

theorem readRawString_ahead {f : Nat} {p q : Parser} (h : readRawString f p = some q) :
    Ahead p q := by
  simp only [readRawString, Option.map_eq_some'] at h
  obtain ⟨⟨p1, l1⟩, h1, rfl⟩ := h
  exact ((((((ahead_nextChar p).aheadThen (ahead_nextChar _)).aheadThen
    (readRawStringLoop_ahead f _ _ _ _ h1)).aheadThen (ahead_nextChar _)).aheadThen
    (ahead_nextChar _)).aheadThen (ahead_setNext _ _)).aheadThen (ahead_makeToken _ _)

/-! ## The stack of open interpolations -/

/-- What a string literal does to the position and to the stack: the parser
is at least as far, and either the stack is as before or one level has been
pushed, below the limit, with the count 1. -/
theorem readStringStep_push {p q : Parser} {s s' : List Nat} {t : TokenType}
    (h : readStringStep p s = StringStep.done q s' t) :
    p.currentChar ≤ q.currentChar ∧
      ((q.numParens = p.numParens ∧ q.parens = p.parens) ∨
       (p.numParens < MAX_INTERPOLATION_NESTING ∧ q.numParens = p.numParens + 1 ∧
          q.parens = p.parens.set p.numParens 1)) := by
  simp only [readStringStep, show (nextChar p).1 = peekChar p from rfl] at h
  split_ifs at h with h1 h2 h3 h4 h5 h6 <;> cases h
  · exact ⟨Nat.le_succ _, Or.inl ⟨rfl, rfl⟩⟩
  · have e := lexError_fields (nextChar p).2 "Unterminated string."
    exact ⟨by simp [unreadChar, e.2.2.1, nextChar],
      Or.inl ⟨by simp [unreadChar, e.1, nextChar], by simp [unreadChar, e.2.1, nextChar]⟩⟩
  · have e := lexError_fields (nextChar (nextChar p).2).2 "Expect '(' after '%'."
    refine ⟨?_, Or.inr ⟨h4.2, ?_, ?_⟩⟩
    · show p.currentChar ≤ (lexError (nextChar (nextChar p).2).2 _).currentChar
      rw [e.2.2.1]; simp [nextChar]; omega
    · show (lexError (nextChar (nextChar p).2).2 _).numParens + 1 = p.numParens + 1
      rw [e.1]; rfl
    · show (lexError (nextChar (nextChar p).2).2 _).parens.set
        (lexError (nextChar (nextChar p).2).2 _).numParens 1 = p.parens.set p.numParens 1
      rw [e.1, e.2.1]; rfl
  · exact ⟨by simp [nextChar]; omega, Or.inr ⟨h4.2, rfl, rfl⟩⟩

theorem readStringLoop_push :
    ∀ (f : Nat) (p q : Parser) (s s' : List Nat) (t : TokenType),
      readStringLoop f p s = some (q, s', t) →
      p.currentChar ≤ q.currentChar ∧
        ((q.numParens = p.numParens ∧ q.parens = p.parens) ∨
         (p.numParens < MAX_INTERPOLATION_NESTING ∧ q.numParens = p.numParens + 1 ∧
            q.parens = p.parens.set p.numParens 1))
  | 0, _, _, _, _, _, h => by simp [readStringLoop] at h
  | f + 1, p, q, s, s', t, h => by
    rw [readStringLoop] at h
    cases hstep : readStringStep p s with
    | done q1 s1 t1 =>
      rw [hstep] at h
      cases h
      exact readStringStep_push hstep
    | again q1 s1 =>
      rw [hstep] at h
      have ha := readStringStep_again hstep
      have ih := readStringLoop_push f q1 q s1 s' t h
      obtain ⟨-, hn, hp, -⟩ := ha.1
      rw [hn, hp] at ih
      exact ⟨by omega, ih.2⟩

theorem Moved.movedHere (p : Parser) : Moved p p :=
  ⟨le_refl _, rfl, fun h _ => ⟨h, fun _ _ => rfl⟩⟩

theorem Moved.movedThen {p q r : Parser} (h1 : Moved p q) (h2 : Moved q r) : Moved p r := by
  refine ⟨le_trans h1.1 h2.1, h2.2.1.trans h1.2.1, fun hp hl => ?_⟩
  obtain ⟨a1, a2⟩ := h1.2.2 hp hl
  obtain ⟨b1, b2⟩ := h2.2.2 a1 (by rw [h1.2.1]; exact hl)
  exact ⟨b1, fun i hi => (b2 i hi).trans (a2 i hi)⟩

theorem moved_of_ahead {p q : Parser} (h : Ahead p q) : Moved p q := by
  obtain ⟨h1, h2, h3⟩ := h
  refine ⟨h1, by rw [h3], fun hp _ => ⟨?_, fun i _ => by rw [h3]⟩⟩
  unfold ParensOk at hp ⊢
  rw [h2, h3]
  exact hp

theorem parensOk_push {p q : Parser} (hp : ParensOk p)
    (hl : MAX_INTERPOLATION_NESTING ≤ p.parens.length)
    (hlt : p.numParens < MAX_INTERPOLATION_NESTING) (hn : q.numParens = p.numParens + 1)
    (hq : q.parens = p.parens.set p.numParens 1) :
    ParensOk q ∧ ∀ i, MAX_INTERPOLATION_NESTING ≤ i → q.parens.getD i 0 = p.parens.getD i 0 := by
  refine ⟨⟨by rw [hn]; omega, fun i hi => ?_⟩, fun i hi => ?_⟩
  · rw [hq, List.getD_eq_getElem?_getD, List.getElem?_set]
    by_cases he : p.numParens = i
    · rw [if_pos he, if_pos (by omega)]; simp
    · rw [if_neg he, ← List.getD_eq_getElem?_getD]
      exact hp.2 i (by omega)
  · rw [hq, List.getD_eq_getElem?_getD, List.getElem?_set, if_neg (by omega),
      ← List.getD_eq_getElem?_getD]

theorem readString_moved {f : Nat} {p q : Parser} (h : readString f p = some q) : Moved p q := by
  simp only [readString, Option.map_eq_some'] at h
  obtain ⟨⟨p1, s1, t1⟩, h1, rfl⟩ := h
  obtain ⟨hc, hs⟩ := readStringLoop_push f _ _ _ _ _ h1
  refine ⟨hc, ?_, fun hp hl => ?_⟩
  · show p1.parens.length = p.parens.length
    rcases hs with ⟨_, h3⟩ | ⟨_, _, h3⟩
    · rw [h3]
    · rw [h3, List.length_set]
  · rcases hs with ⟨h2, h3⟩ | ⟨h2, h3, h4⟩
    · refine ⟨⟨?_, ?_⟩, fun i _ => ?_⟩
      · show p1.numParens ≤ _; rw [h2]; exact hp.1
      · show ∀ i, i < p1.numParens → 1 ≤ p1.parens.getD i 0
        rw [h2, h3]; exact hp.2
      · show p1.parens.getD i 0 = _; rw [h3]
    · exact parensOk_push (q := makeToken { p1 with next := { p1.next with
        value := Value.OBJ_STRING s1 } } t1) hp hl h2 h3 h4

theorem moved_map {p : Parser} {g : Option Parser} (k : Parser → SwitchExit)
    (hk : ∀ q, (k q).parser = q) (h : ∀ q, g = some q → Moved p q) :
    ∀ r, g.map k = some r → Moved p r.parser := by
  intro r hr
  cases g with
  | none => cases hr
  | some x => cases hr; rw [hk]; exact h x rfl

/-- Changing the count on top of the stack to a value that is at least 1. -/
theorem moved_setTop (p : Parser) (v : Int)
    (hv : ParensOk p → MAX_INTERPOLATION_NESTING ≤ p.parens.length → 0 < p.numParens → 1 ≤ v) :
    Moved p { p with parens := p.parens.set (p.numParens - 1) v } := by
  refine ⟨le_refl _, by simp, fun hp hl => ⟨⟨hp.1, fun i hi => ?_⟩, fun i hi => ?_⟩⟩
  · show 1 ≤ (p.parens.set (p.numParens - 1) v).getD i 0
    have hi' : i < p.numParens := hi
    have h8 : p.numParens ≤ 8 := hp.1
    have hl' : 8 ≤ p.parens.length := hl
    rw [List.getD_eq_getElem?_getD, List.getElem?_set]
    by_cases he : p.numParens - 1 = i
    · rw [if_pos he, if_pos (by omega)]
      exact hv hp hl (by omega)
    · rw [if_neg he, ← List.getD_eq_getElem?_getD]
      exact hp.2 i hi'
  · show (p.parens.set (p.numParens - 1) v).getD i 0 = p.parens.getD i 0
    have h8 : p.numParens ≤ 8 := hp.1
    have hi' : 8 ≤ i := hi
    rw [List.getD_eq_getElem?_getD, List.getElem?_set, if_neg (by omega),
      ← List.getD_eq_getElem?_getD]

/-- Closing the level on top of the stack, whatever count is left in it. -/
theorem moved_pop (p : Parser) (v : Int) :
    Moved p { p with parens := p.parens.set (p.numParens - 1) v, numParens := p.numParens - 1 } := by
  refine ⟨le_refl _, by simp, fun hp hl => ⟨⟨le_trans (Nat.sub_le _ _) hp.1, fun i hi => ?_⟩,
    fun i hi => ?_⟩⟩
  · show 1 ≤ (p.parens.set (p.numParens - 1) v).getD i 0
    have hi' : i < p.numParens - 1 := hi
    rw [List.getD_eq_getElem?_getD, List.getElem?_set, if_neg (by omega),
      ← List.getD_eq_getElem?_getD]
    exact hp.2 i (by omega)
  · show (p.parens.set (p.numParens - 1) v).getD i 0 = p.parens.getD i 0
    have h8 : p.numParens ≤ 8 := hp.1
    have hi' : 8 ≤ i := hi
    rw [List.getD_eq_getElem?_getD, List.getElem?_set, if_neg (by omega),
      ← List.getD_eq_getElem?_getD]

/-- The switch of the token loop leaves the parser at least as far as it was
and keeps the invariant of the stack of open interpolations. -/
theorem lexSwitch_moved (libc : Libc) (f : Nat) (p : Parser) (c : Nat) :
    ∀ r, lexSwitch libc f p c = some r → Moved p r.parser := by
  refine lexSwitch_cases (fun g => ∀ r, g p = some r → Moved p r.parser) libc f c ?_ ?_ ?_ ?_ ?_ ?_
    ?_ ?_ ?_ ?_ ?_ ?_ ?_ ?_ ?_
  · intro _ r hr
    cases hr
    refine Moved.movedThen ?_ (moved_of_ahead (ahead_makeToken _ _))
    split_ifs
    · exact moved_setTop p _ (fun hp _ hn => by
        have := hp.2 (p.numParens - 1) (by omega); omega)
    · exact Moved.movedHere p
  · intro _
    dsimp only
    split_ifs with h1 h2
    · refine moved_map _ (fun _ => rfl) (fun q hq => ?_)
      exact (moved_pop p _).movedThen (readString_moved hq)
    · intro r hr
      cases hr
      refine Moved.movedThen ?_ (moved_of_ahead (ahead_makeToken _ _))
      refine moved_setTop p _ (fun hp hl hn => ?_)
      have h8 : p.numParens ≤ 8 := hp.1
      have hl' : 8 ≤ p.parens.length := hl
      have h1' := hp.2 (p.numParens - 1) (by omega)
      have h2' : (p.parens.set (p.numParens - 1) (p.parens.getD (p.numParens - 1) 0 - 1)).getD
          (p.numParens - 1) 0 ≠ 0 := h2
      rw [List.getD_eq_getElem?_getD, List.getElem?_set, if_pos rfl, if_pos (by omega)] at h2'
      simp only [Option.getD_some] at h2'
      omega
    · intro r hr; cases hr; exact moved_of_ahead (ahead_makeToken _ _)
  · intro T _ _ r hr; cases hr; exact moved_of_ahead (ahead_makeToken _ _)
  · intro _
    dsimp only
    split_ifs
    · exact moved_map _ (fun _ => rfl) (fun q hq => moved_of_ahead (skipWhile_ahead _ f _ _ hq))
    · intro r hr; cases hr; exact moved_of_ahead (ahead_makeToken _ _)
  · intro d two one _ _ _ _ _ _ _ r hr
    cases hr
    exact moved_of_ahead (ahead_twoCharToken p d two one)
  · intro _
    dsimp only
    split_ifs
    · intro r hr; cases hr
      exact moved_of_ahead ((ahead_matchChar p 46).aheadThen (ahead_twoCharToken _ _ _ _))
    · intro r hr; cases hr
      exact moved_of_ahead ((ahead_matchChar p 46).aheadThen (ahead_makeToken _ _))
  · intro _
    dsimp only
    split_ifs
    · exact moved_map _ (fun _ => rfl) (fun q hq =>
        moved_of_ahead ((ahead_matchChar p 47).aheadThen (skipWhile_ahead _ f _ _ hq)))
    · exact moved_map _ (fun _ => rfl) (fun q hq =>
        moved_of_ahead (((ahead_matchChar p 47).aheadThen (ahead_matchChar _ 42)).aheadThen
          (skipBlockCommentLoop_ahead f _ _ _ hq)))
    · intro r hr; cases hr
      exact moved_of_ahead (((ahead_matchChar p 47).aheadThen (ahead_matchChar _ 42)).aheadThen
        (ahead_makeToken _ _))
  · intro d T two one _ _ _ _ _ _ _ _ _
    dsimp only
    split_ifs
    · intro r hr; cases hr
      exact moved_of_ahead ((ahead_matchChar p d).aheadThen (ahead_makeToken _ _))
    · intro r hr; cases hr
      exact moved_of_ahead ((ahead_matchChar p d).aheadThen (ahead_twoCharToken _ _ _ _))
  · intro _
    exact moved_map _ (fun _ => rfl) (fun q hq => moved_of_ahead (skipWhile_ahead _ f _ _ hq))
  · intro _
    dsimp only
    split_ifs
    · exact moved_map _ (fun _ => rfl) (fun q hq => moved_of_ahead (readRawString_ahead hq))
    · exact moved_map _ (fun _ => rfl) (fun q hq => readString_moved hq)
  · intro _
    exact moved_map _ (fun _ => rfl) (fun q hq => moved_of_ahead (readName_ahead hq))
  · intro _
    dsimp only
    split_ifs
    · exact moved_map _ (fun _ => rfl) (fun q hq => moved_of_ahead (readHexNumber_ahead hq))
    · exact moved_map _ (fun _ => rfl) (fun q hq => moved_of_ahead (readNumber_ahead hq))
  · intro _
    exact moved_map _ (fun _ => rfl) (fun q hq => moved_of_ahead (readName_ahead hq))
  · intro _ _
    exact moved_map _ (fun _ => rfl) (fun q hq => moved_of_ahead (readNumber_ahead hq))
  · intro _ m r hr
    cases hr
    exact moved_of_ahead ((ahead_lexError p m).aheadThen (ahead_setNext _ _))

/-- The token loop keeps the invariant of the stack, and either makes the EOF
token or reads at least one character of the source. -/
theorem lexToken_moved (libc : Libc) :
    ∀ (f : Nat) (p q : Parser), lexToken libc f p = some q →
      Moved p q ∧ (q.next.type = TOKEN_EOF ∨
        (p.currentChar < p.source.length ∧ p.currentChar + 1 ≤ q.currentChar))
  | 0, _, _, h => by simp [lexToken] at h
  | f + 1, p, q, h => by
    rw [lexToken] at h
    split_ifs at h with hp
    · dsimp only at h
      have hlt := currentChar_lt_length hp
      have hs := lexSwitch_moved libc f (nextChar { p with tokenStart := p.currentChar }).2
        (nextChar { p with tokenStart := p.currentChar }).1
      have k0 : Moved p (nextChar { p with tokenStart := p.currentChar }).2 :=
        moved_of_ahead ⟨Nat.le_succ _, rfl, rfl⟩
      have hc : (nextChar { p with tokenStart := p.currentChar }).2.currentChar =
          p.currentChar + 1 := rfl
      cases hr : lexSwitch libc f (nextChar { p with tokenStart := p.currentChar }).2
          (nextChar { p with tokenStart := p.currentChar }).1 with
      | none => rw [hr] at h; cases h
      | some r =>
        rw [hr] at h
        have hk := hs r hr
        cases r with
        | ret q1 =>
          cases h
          have := hk.1
          exact ⟨k0.movedThen hk, Or.inr ⟨hlt, by rw [hc] at this; exact this⟩⟩
        | brk q1 =>
          have ih := lexToken_moved libc f q1 q h
          have h1 : p.currentChar + 1 ≤ q1.currentChar := by
            have := hk.1; rw [hc] at this; exact this
          refine ⟨(k0.movedThen hk).movedThen ih.1, ?_⟩
          rcases ih.2 with he | ⟨_, h2⟩
          · exact Or.inl he
          · have h2' : q1.currentChar + 1 ≤ q.currentChar := h2
            exact Or.inr ⟨hlt, by omega⟩
    · cases h
      exact ⟨moved_of_ahead ⟨le_refl _, rfl, rfl⟩, Or.inl rfl⟩

/-- One call of `wrenNextToken` keeps the invariant of the stack; when `next`
is not EOF before the call it makes the EOF token or reads at least one
character. -/
theorem wrenNextToken_moved {libc : Libc} {f : Nat} {p q : Parser}
    (h : wrenNextToken libc f p = some q) :
    Moved p q ∧ (p.next.type = TOKEN_EOF → q.next.type = TOKEN_EOF) ∧
      (q.next.type = TOKEN_EOF ∨
        (p.currentChar < p.source.length ∧ p.currentChar + 1 ≤ q.currentChar)) := by
  by_cases he : p.next.type = TOKEN_EOF
  · simp only [wrenNextToken, if_pos he, Option.some.injEq] at h
    subst h
    exact ⟨moved_of_ahead ⟨le_refl _, rfl, rfl⟩, fun _ => he, Or.inl he⟩
  · rw [wrenNextToken_lex libc f p he] at h
    have := lexToken_moved libc f { p with previous := p.current, current := p.next } q h
    exact ⟨⟨this.1.1, this.1.2.1, this.1.2.2⟩, fun h' => absurd h' he, this.2⟩

/-- Successive calls of `wrenNextToken` keep the invariant of the stack, and
reach the EOF token when there are more calls than characters left. -/
theorem run_moved (libc : Libc) (f : Nat) :
    ∀ (n : Nat) (p q : Parser) (ts : List Token), wrenNextTokens libc f n p = some (ts, q) →
      Moved p q ∧
      ((p.next.type = TOKEN_EOF ∨ (1 ≤ n ∧ p.source.length < p.currentChar + n)) →
        q.next.type = TOKEN_EOF)
  | 0, p, q, ts, h => by
    simp only [wrenNextTokens, Option.some.injEq, Prod.mk.injEq] at h
    obtain ⟨_, rfl⟩ := h
    refine ⟨Moved.movedHere p, fun hn => ?_⟩
    rcases hn with h | h
    · exact h
    · omega
  | n + 1, p, q, ts, h => by
    obtain ⟨p1, ts1, h1, h2, rfl⟩ := run_succ h
    have hm := wrenNextToken_moved h1
    have hsrc := (wrenNextToken_keeps h1).1
    have ih := run_moved libc f n p1 q ts1 h2
    refine ⟨hm.1.movedThen ih.1, fun hn => ih.2 ?_⟩
    rcases hn with he | ⟨_, hl⟩
    · exact Or.inl (hm.2.1 he)
    · rcases hm.2.2 with he | ⟨hlt, hstep⟩
      · exact Or.inl he
      · right
        rw [hsrc]
        constructor <;> omega

/-- C28: the invariant of the stack of open interpolations.  If
`numParens` is at most 8 and `parens[i]` is at least 1 for every `i` below
`numParens` before a call of `wrenNextToken` (the array `parens` having its 8
entries, or more for what lies behind it), the call returns and the same
holds after it, for every source, and so after any number of calls; no entry
at an index outside 0 to 7 is changed, so the lexer never writes `parens`
outside the array, and never leaves an open level with a count of zero or
less. -/
theorem interpolation_stack_invariant (libc : Libc) (fuel : Nat) (p : Parser)
    (hlen : MAX_INTERPOLATION_NESTING ≤ p.parens.length) (hok : ParensOk p)
    (hfuel : p.source.length + 2 ≤ fuel) :
    (∃ q, wrenNextToken libc fuel p = some q) ∧
    (∀ q, wrenNextToken libc fuel p = some q →
      ParensOk q ∧ q.parens.length = p.parens.length ∧
      ∀ i, MAX_INTERPOLATION_NESTING ≤ i → q.parens.getD i 0 = p.parens.getD i 0) ∧
    (∀ n ts q, wrenNextTokens libc fuel n p = some (ts, q) →
      ParensOk q ∧ q.parens.length = p.parens.length ∧
      ∀ i, MAX_INTERPOLATION_NESTING ≤ i → q.parens.getD i 0 = p.parens.getD i 0) := by
  refine ⟨wrenNextToken_returns libc fuel p (by omega), fun q hq => ?_, fun n ts q hq => ?_⟩
  · have hm := (wrenNextToken_moved hq).1
    exact ⟨(hm.2.2 hok hlen).1, hm.2.1, (hm.2.2 hok hlen).2⟩
  · have hm := (run_moved libc fuel n p q ts hq).1
    exact ⟨(hm.2.2 hok hlen).1, hm.2.1, (hm.2.2 hok hlen).2⟩

/-- Witness for C28: inside one open interpolation with the count 1, the text
`(a))` is lexed by four calls; the count goes to 2 and back to 1, and the
last parenthesis closes the level. -/
theorem interpolation_stack_invariant_witness :
    MAX_INTERPOLATION_NESTING ≤ (interpParser (ascii "(a))\"") 1).parens.length ∧
    ParensOk (interpParser (ascii "(a))\"") 1) ∧
    ∃ ts q, wrenNextTokens exampleLibc 7 4 (interpParser (ascii "(a))\"") 1) = some (ts, q) ∧
      ts.map (fun t => t.type) =
        [TOKEN_LEFT_PAREN, TOKEN_NAME, TOKEN_RIGHT_PAREN, TOKEN_STRING] ∧
      q.numParens = 0 ∧ ParensOk q :=
  ⟨by decide, ⟨by decide, by decide⟩, _, _, rfl, by decide, by decide,
    ((interpolation_stack_invariant exampleLibc 7 (interpParser (ascii "(a))\"") 1) (by decide)
      ⟨by decide, by decide⟩ (by decide)).2.2 4 _ _ rfl).1⟩

/-- C29 fails on the source made of a quote and a backslash (`n = 2`
characters, the terminating NUL at index 2).  The first call of
`wrenNextToken` reads the NUL as the escaped character and goes on behind the
end of the source, so what the next calls lex is the memory behind the
terminator.  With the bytes quote, space, `a`, space, `b`, space, `c`, NUL
there, the first call ends the string at the quote behind the terminator
(`currentChar` is 4), and after `n + 1 = 3` calls the token made is the NAME
`b` at index 7, not EOF; the EOF token is made by the fifth call, at the NUL
at index 10.  (Each call still leaves `currentChar` further on.) -/
theorem eof_behind_the_end :
    (ascii "\"\\").length = 2 ∧
    (wrenNextTokens exampleLibc 12 1
        (startParser (ascii "\"\\" ++ 0 :: ascii "\" a b c" ++ [0]))).map
      (fun r => (r.1.map (fun t => (t.type, t.start, t.length)), r.2.currentChar)) =
      some ([(TOKEN_STRING, 0, 4)], 4) ∧
    (wrenNextTokens exampleLibc 12 3
        (startParser (ascii "\"\\" ++ 0 :: ascii "\" a b c" ++ [0]))).map
      (fun r => (r.1.map (fun t => (t.type, t.start, t.length)), r.2.currentChar)) =
      some ([(TOKEN_STRING, 0, 4), (TOKEN_NAME, 5, 1), (TOKEN_NAME, 7, 1)], 8) ∧
    (wrenNextTokens exampleLibc 12 5
        (startParser (ascii "\"\\" ++ 0 :: ascii "\" a b c" ++ [0]))).map
      (fun r => (r.1.map (fun t => (t.type, t.start, t.length)), r.2.currentChar)) =
      some ([(TOKEN_STRING, 0, 4), (TOKEN_NAME, 5, 1), (TOKEN_NAME, 7, 1), (TOKEN_NAME, 9, 1),
        (TOKEN_EOF, 10, 0)], 10) := by
  refine ⟨rfl, ?_, ?_, ?_⟩ <;> decide

/-! ## Nested block comments -/

theorem peekNextChar_rest {p : Parser} {c : Nat} {s : List Nat} (h : p.rest = c :: s)
    (hc : c ≠ 0) : peekNextChar p = s.headD 0 := by
  rw [peekNextChar_eq, h]
  cases s <;> simp [hc]

theorem nextChar_two (p : Parser) {c d : Nat} {s : List Nat} (h : p.rest = c :: d :: s)
    (hc : c ≠ 10) (hd : d ≠ 10) : (nextChar (nextChar p).2).2 = p.advance 2 0 := by
  have h1 := nextChar_advance0 p h hc
  have h2 : (nextChar p).2.rest = d :: s := nextChar_rest_cons h
  rw [nextChar_advance0 _ h2 hd, h1, advance_advance]

theorem closesN_nest {n : Nat} {s t : List Nat} (h : ClosesN (n + 2) s t) :
    ClosesN (n + 1) (47 :: 42 :: s) t := by
  obtain ⟨u1, h1, u, h2, h3⟩ := h
  exact ⟨u, Closes.nest h1 h2, h3⟩

/-- The loop of `skipBlockComment`, inside `n` open comments, in front of a
text that closes them: it stops just after the `*/` that closes the outermost
one, and has changed nothing but the position and the line counter. -/
theorem skipBlockCommentLoop_closes :
    ∀ (f n : Nat) (p : Parser) (t : List Nat), ClosesN n p.rest t → p.rest.length + 1 ≤ f →
      ∃ text, p.rest = text ++ t ∧
        skipBlockCommentLoop f p (n : Int) = some (p.advance text.length (newlines text))
  | 0, _, _, _, _, hf => by omega
  | f + 1, 0, p, t, h, _ => by
    refine ⟨[], by simpa [ClosesN] using h, ?_⟩
    rw [skipBlockCommentLoop]
    simp [advance_zero, newlines]
  | f + 1, n + 1, p, t, h, hf => by
    obtain ⟨u, hc, hn⟩ := h
    rw [skipBlockCommentLoop, if_pos (by omega)]
    generalize hrest : p.rest = s0 at hc
    cases hc with
    | close =>
      have hp : peekChar p = 42 := peekChar_cons hrest
      have hq : peekNextChar p = 47 := peekNextChar_cons hrest (by decide)
      rw [if_neg (by rw [hp]; decide), if_neg (by rw [hp]; simp), if_pos ⟨hp, hq⟩,
        nextChar_two p hrest (by decide) (by decide)]
      have hr : (p.advance 2 0).rest = u := advance_rest p [42, 47] u 0 hrest
      obtain ⟨text, h1, h2⟩ := skipBlockCommentLoop_closes f n (p.advance 2 0) t
        (by rw [hr]; exact hn) (by rw [hr]; rw [hrest] at hf; simp at hf; omega)
      refine ⟨42 :: 47 :: text, ?_, ?_⟩
      · rw [← hr, h1]; rfl
      · have : ((n + 1 : Nat) : Int) - 1 = (n : Int) := by push_cast; ring
        have e1 : (42 :: 47 :: text).length = 2 + text.length := by simp; omega
        have e2 : newlines (42 :: 47 :: text) = 0 + newlines text := by simp [newlines]
        rw [this, h2, advance_advance, e1, e2]
    | @nest s u1 _ h1 h2 =>
      have hp : peekChar p = 47 := peekChar_cons hrest
      have hq : peekNextChar p = 42 := peekNextChar_cons hrest (by decide)
      rw [if_neg (by rw [hp]; decide), if_pos ⟨hp, hq⟩,
        nextChar_two p hrest (by decide) (by decide)]
      have hr : (p.advance 2 0).rest = s := advance_rest p [47, 42] s 0 hrest
      obtain ⟨text, h3, h4⟩ := skipBlockCommentLoop_closes f (n + 2) (p.advance 2 0) t
        (by rw [hr]; exact ⟨_, h1, _, h2, hn⟩) (by rw [hr]; rw [hrest] at hf; simp at hf; omega)
      refine ⟨47 :: 42 :: text, ?_, ?_⟩
      · rw [← hr, h3]; rfl
      · have : ((n + 1 : Nat) : Int) + 1 = ((n + 2 : Nat) : Int) := by push_cast; ring
        have e1 : (47 :: 42 :: text).length = 2 + text.length := by simp; omega
        have e2 : newlines (47 :: 42 :: text) = 0 + newlines text := by simp [newlines]
        rw [this, h4, advance_advance, e1, e2]
    | @char c s _ hc0 hn1 hn2 h1 =>
      have hp : peekChar p = c := peekChar_cons hrest
      have hq : peekNextChar p = s.headD 0 := peekNextChar_rest hrest hc0
      rw [if_neg (by rw [hp]; exact hc0), if_neg (by rw [hp, hq]; exact hn1),
        if_neg (by rw [hp, hq]; exact hn2), nextChar_advance p hrest]
      have hr : (p.advance 1 (newlines [c])).rest = s := advance_rest p [c] s _ hrest
      obtain ⟨text, h3, h4⟩ := skipBlockCommentLoop_closes f (n + 1) (p.advance 1 (newlines [c])) t
        (by rw [hr]; exact ⟨_, h1, hn⟩) (by rw [hr]; rw [hrest] at hf; simp at hf; omega)
      refine ⟨c :: text, ?_, ?_⟩
      · rw [← hr, h3]; rfl
      · have e1 : (c :: text).length = 1 + text.length := by simp; omega
        have e2 : newlines (c :: text) = newlines [c] + newlines text := by
          simp [newlines, List.count_cons, Nat.add_comm]
        rw [h4, advance_advance, e1, e2]

/-- The loop of `skipBlockComment`, inside `n` open comments, in front of a
text that does not close them: it reads up to the end of the source (the
first NUL) and reports the error there. -/
theorem skipBlockCommentLoop_open :
    ∀ (f n : Nat) (p : Parser), 1 ≤ n → (∀ t, ¬ClosesN n p.rest t) → p.rest.length + 1 ≤ f →
      skipBlockCommentLoop f p (n : Int) =
        some (lexError (p.advance (cstr p.rest).length (newlines (cstr p.rest)))
          "Unterminated block comment.")
  | 0, _, _, _, _, hf => by omega
  | f + 1, n, p, hn, hno, hf => by
    rw [skipBlockCommentLoop, if_pos (by omega)]
    cases hrest : p.rest with
    | nil =>
      rw [if_pos (peekChar_nil hrest)]
      simp [cstr, newlines, advance_zero]
    | cons c s =>
      have hp : peekChar p = c := peekChar_cons hrest
      by_cases hc0 : c = 0
      · rw [if_pos (by rw [hp]; exact hc0), cstr_cons, if_pos hc0]
        simp [newlines, advance_zero]
      have hq : peekNextChar p = s.headD 0 := peekNextChar_rest hrest hc0
      rw [hrest] at hno hf
      rw [if_neg (by rw [hp]; exact hc0), hp, hq, cstr_cons, if_neg hc0]
      by_cases h1 : c = 47 ∧ s.headD 0 = 42
      · rw [if_pos h1]
        obtain ⟨rfl, h42⟩ := h1
        cases s with
        | nil => simp at h42
        | cons d s2 =>
          have hd : d = 42 := by simpa using h42
          subst hd
          rw [nextChar_two p hrest (by decide) (by decide)]
          have hr : (p.advance 2 0).rest = s2 := advance_rest p [47, 42] s2 0 hrest
          have ih := skipBlockCommentLoop_open f (n + 1) (p.advance 2 0) (by omega)
            (by
              rw [hr]
              intro t ht
              obtain ⟨m, rfl⟩ : ∃ m, n = m + 1 := ⟨n - 1, by omega⟩
              exact hno t (closesN_nest ht))
            (by rw [hr]; simp at hf; omega)
          have e0 : ((n : Nat) : Int) + 1 = ((n + 1 : Nat) : Int) := by push_cast; ring
          rw [e0, ih, hr, advance_advance, cstr_cons, if_neg (by decide)]
          have e1 : (47 :: 42 :: cstr s2).length = 2 + (cstr s2).length := by simp; omega
          have e2 : newlines (47 :: 42 :: cstr s2) = 0 + newlines (cstr s2) := by
            simp [newlines]
          rw [e1, e2]
      rw [if_neg h1]
      by_cases h2 : c = 42 ∧ s.headD 0 = 47
      · rw [if_pos h2]
        obtain ⟨rfl, h47⟩ := h2
        cases s with
        | nil => simp at h47
        | cons d s2 =>
          have hd : d = 47 := by simpa using h47
          subst hd
          rw [nextChar_two p hrest (by decide) (by decide)]
          have hr : (p.advance 2 0).rest = s2 := advance_rest p [42, 47] s2 0 hrest
          obtain ⟨m, rfl⟩ : ∃ m, n = m + 1 := ⟨n - 1, by omega⟩
          have hm : 1 ≤ m := by
            by_contra h0
            have : m = 0 := by omega
            subst this
            exact hno s2 ⟨s2, Closes.close s2, rfl⟩
          have ih := skipBlockCommentLoop_open f m (p.advance 2 0) hm
            (by
              rw [hr]
              intro t ht
              exact hno t ⟨s2, Closes.close s2, ht⟩)
            (by rw [hr]; simp at hf; omega)
          have e0 : ((m + 1 : Nat) : Int) - 1 = (m : Int) := by push_cast; ring
          rw [e0, ih, hr, advance_advance, cstr_cons, if_neg (by decide)]
          have e1 : (42 :: 47 :: cstr s2).length = 2 + (cstr s2).length := by simp; omega
          have e2 : newlines (42 :: 47 :: cstr s2) = 0 + newlines (cstr s2) := by
            simp [newlines]
          rw [e1, e2]
      rw [if_neg h2, nextChar_advance p hrest]
      have hr : (p.advance 1 (newlines [c])).rest = s := advance_rest p [c] s _ hrest
      have ih := skipBlockCommentLoop_open f n (p.advance 1 (newlines [c])) hn
        (by
          rw [hr]
          intro t ht
          obtain ⟨m, rfl⟩ : ∃ m, n = m + 1 := ⟨n - 1, by omega⟩
          obtain ⟨u, hu, hm⟩ := ht
          exact hno t ⟨u, Closes.char hc0 h1 h2 hu, hm⟩)
        (by rw [hr]; simp at hf; omega)
      have e1 : (c :: cstr s).length = 1 + (cstr s).length := by simp; omega
      have e2 : newlines (c :: cstr s) = newlines [c] + newlines (cstr s) := by
        simp [newlines, List.count_cons, Nat.add_comm]
      rw [ih, hr, advance_advance, e1, e2]

theorem lexSwitch_comment (libc : Libc) (f : Nat) (p : Parser) {s : List Nat}
    (h : p.rest = 42 :: s) :
    lexSwitch libc f p 47 = (skipBlockComment f (p.advance 1 0)).map SwitchExit.brk := by
  have hp : peekChar p = 42 := peekChar_cons h
  have h1 : matchChar p 47 = (false, p) := matchChar_miss p (by rw [hp]; decide)
  have h2 : matchChar p 42 = (true, p.advance 1 0) := matchChar_hit p h (by decide)
  simp [lexSwitch, h1, h2]

/-- The token loop in front of a block comment: the comment is skipped by
`skipBlockComment`, entered just after the opening, and the loop goes on. -/
theorem lexToken_comment (libc : Libc) (f : Nat) (p0 : Parser) {s : List Nat}
    (h : p0.rest = 47 :: 42 :: s) :
    lexToken libc (f + 1) p0 =
      (skipBlockComment f (({ p0 with tokenStart := p0.currentChar } : Parser).advance 2 0)).bind
        (lexToken libc f) := by
  rw [lexToken_cons0 libc f h (by decide) (by decide)]
  have h1 : ({ p0 with tokenStart := p0.currentChar, currentChar := p0.currentChar + 1 } :
      Parser).rest = 42 :: s := by
    have := nextChar_rest_cons h
    simpa [Parser.rest, nextChar] using this
  rw [lexSwitch_comment libc f _ h1]
  have h2 : ({ p0 with tokenStart := p0.currentChar, currentChar := p0.currentChar + 1 } :
      Parser).advance 1 0 = ({ p0 with tokenStart := p0.currentChar } : Parser).advance 2 0 := by
    simp [Parser.advance]
  rw [h2]
  cases skipBlockComment f (({ p0 with tokenStart := p0.currentChar } : Parser).advance 2 0) <;> rfl

theorem cstr_split (l : List Nat) : ∃ r, l = cstr l ++ r ∧ r.getD 0 0 = 0 := by
  induction l with
  | nil => exact ⟨[], rfl, rfl⟩
  | cons c l ih =>
    rw [cstr_cons]
    by_cases hc : c = 0
    · rw [if_pos hc]
      exact ⟨c :: l, rfl, by simp [hc]⟩
    · rw [if_neg hc]
      obtain ⟨r, h1, h2⟩ := ih
      exact ⟨r, by rw [List.cons_append, ← h1], h2⟩

theorem cstr_all {l : List Nat} (h : 0 ∉ l) : cstr l = l := by
  unfold cstr
  rw [List.takeWhile_eq_self_iff]
  intro c hc
  have : c ≠ 0 := fun h0 => h (h0 ▸ hc)
  simpa using this

/-- C30: block comments nest.  `skipBlockComment`, entered just after an
opening `/*` in front of a text that holds the `*/` balancing it (each inner
`/*` being closed by its own `*/` first), returns with `currentChar` just
after that `*/`, having changed nothing but the position and the line
counter: no token is made for the comment and no error is reported, and the
token loop goes on from there.  If the source ends before the balancing `*/`
it reports `Unterminated block comment.`, stops at the end of the source (the
NUL), and the next token is TOKEN_EOF. -/
theorem block_comments_nest (libc : Libc) (fuel : Nat) (p : Parser)
    (hfuel : p.rest.length + 2 ≤ fuel) :
    (∀ t, Closes p.rest t →
      ∃ text q, p.rest = text ++ t ∧ q = p.advance text.length (newlines text) ∧
        skipBlockComment fuel p = some q ∧ q.rest = t ∧ q.next = p.next ∧
        q.hasError = p.hasError ∧ q.vm = p.vm ∧
        ∀ p0 : Parser, p0.rest = 47 :: 42 :: p.rest →
          p = ({ p0 with tokenStart := p0.currentChar } : Parser).advance 2 0 →
          lexToken libc (fuel + 1) p0 = lexToken libc fuel q) ∧
    ((∀ t, ¬Closes p.rest t) →
      ∃ q, skipBlockComment fuel p = some q ∧
        q = lexError (p.advance (cstr p.rest).length (newlines (cstr p.rest)))
          "Unterminated block comment." ∧
        q.currentChar = p.currentChar + (cstr p.rest).length ∧ peekChar q = 0 ∧
        (0 ∉ p.rest → p.currentChar ≤ p.source.length → q.currentChar = p.source.length) ∧
        q.hasError = true ∧ q.next = p.next ∧
        ∀ p0 : Parser, p0.rest = 47 :: 42 :: p.rest →
          p = ({ p0 with tokenStart := p0.currentChar } : Parser).advance 2 0 →
          ∃ r, lexToken libc (fuel + 1) p0 = some r ∧ r.next.type = TOKEN_EOF ∧
            r.next.start = q.currentChar ∧ r.currentChar = q.currentChar ∧
            r.hasError = true) := by
  constructor
  · intro t ht
    obtain ⟨text, h1, h2⟩ := skipBlockCommentLoop_closes fuel 1 p t ⟨t, ht, rfl⟩ (by omega)
    refine ⟨text, _, h1, rfl, h2, advance_rest p text t _ h1, rfl, rfl, rfl, ?_⟩
    intro p0 h0 hp
    rw [lexToken_comment libc fuel p0 h0, ← hp]
    show (skipBlockComment fuel p).bind (lexToken libc fuel) = _
    rw [show skipBlockComment fuel p = _ from h2]
    rfl
  · intro hno
    have h2 := skipBlockCommentLoop_open fuel 1 p (le_refl _)
      (fun t ht => by
        obtain ⟨u, hu, rfl⟩ := ht
        exact hno u hu) (by omega)
    obtain ⟨r, hr1, hr2⟩ := cstr_split p.rest
    have hrest : (lexError (p.advance (cstr p.rest).length (newlines (cstr p.rest)))
        "Unterminated block comment.").rest = r := by
      rw [lexError_rest]
      exact advance_rest p (cstr p.rest) r _ hr1
    have hpeek : peekChar (lexError (p.advance (cstr p.rest).length (newlines (cstr p.rest)))
        "Unterminated block comment.") = 0 := by
      rw [peekChar_eq, hrest]; exact hr2
    have hcc : (lexError (p.advance (cstr p.rest).length (newlines (cstr p.rest)))
        "Unterminated block comment.").currentChar = p.currentChar + (cstr p.rest).length := by
      rw [(lexError_fields _ _).2.2.1]; rfl
    refine ⟨_, h2, rfl, hcc, hpeek, fun h0 hle => ?_, (lexError_fields _ _).2.2.2.2.2.2.2.2.2.2.2.2,
      by rw [(lexError_fields _ _).2.2.2.2.2.2.1]; rfl, ?_⟩
    · rw [hcc, cstr_all h0]
      simp only [Parser.rest, List.length_drop]
      omega
    · intro p0 h0 hp
      obtain ⟨f, rfl⟩ : ∃ f, fuel = f + 1 := ⟨fuel - 1, by omega⟩
      rw [lexToken_comment libc (f + 1) p0 h0, ← hp]
      rw [show skipBlockComment (f + 1) p = _ from h2]
      simp only [Option.some_bind]
      rw [lexToken, if_neg (by rw [hpeek]; simp)]
      exact ⟨_, rfl, rfl, rfl, rfl, (lexError_fields _ _).2.2.2.2.2.2.2.2.2.2.2.2⟩

/-- Witness for C30: after the opening of `/*a/*b*/c*/d` the comment ends at
the second `*/`, in front of `d`, and no error is reported; after the
opening of `/*a/*b*/` the source ends before the balancing `*/`, the error is
reported at the end of the source, index 8. -/
theorem block_comments_nest_witness :
    Closes (ascii "a/*b*/c*/d") (ascii "d") ∧
    (∃ q, skipBlockComment 12 ((startParser (ascii "/*a/*b*/c*/d")).advance 2 0) = some q ∧
      q.rest = ascii "d" ∧ q.hasError = false) ∧
    (∀ t, ¬Closes (ascii "a/*b*/") t) ∧
    (∃ q, skipBlockComment 12 ((startParser (ascii "/*a/*b*/")).advance 2 0) = some q ∧
      q.currentChar = 8 ∧ q.hasError = true) := by
  have hc : Closes (ascii "a/*b*/c*/d") (ascii "d") :=
    Closes.char (by decide) (by decide) (by decide)
      (Closes.nest (Closes.char (by decide) (by decide) (by decide) (Closes.close _))
        (Closes.char (by decide) (by decide) (by decide) (Closes.close _)))
  have hn : ∀ t, ¬Closes (ascii "a/*b*/") t := by
    intro t h
    have h' : Closes [97, 47, 42, 98, 42, 47] t := h
    clear h
    cases h' with
    | char _ _ _ h1 =>
      cases h1 with
      | nest h2 h3 =>
        cases h2 with
        | char _ _ _ h4 =>
          cases h4 with
          | close => cases h3
          | char _ _ hx _ => exact hx ⟨rfl, rfl⟩
      | char _ hx _ _ => exact hx ⟨rfl, rfl⟩
  obtain ⟨text, q, _, _, h3, h4, _, h6, _⟩ :=
    (block_comments_nest exampleLibc 12 ((startParser (ascii "/*a/*b*/c*/d")).advance 2 0)
      (by decide)).1 (ascii "d") hc
  obtain ⟨r, k1, _, k3, _, _, k6, _⟩ :=
    (block_comments_nest exampleLibc 12 ((startParser (ascii "/*a/*b*/")).advance 2 0)
      (by decide)).2 hn
  exact ⟨hc, ⟨q, h3, h4, h6⟩, hn, ⟨r, k1, by rw [k3]; decide, k6⟩⟩

/-! ## Characters that start no token -/

set_option maxHeartbeats 1000000 in
theorem lexSwitch_invalid (libc : Libc) (f : Nat) (p : Parser) (c : Nat)
    (hc : startsNoToken c = true) :
    lexSwitch libc f p c = some (SwitchExit.ret
      { lexError p (invalidMessage c) with
        next := { (lexError p (invalidMessage c)).next with type := TOKEN_ERROR, length := 0 } }) := by
  simp only [startsNoToken, switchChars, Bool.and_eq_true, decide_eq_true_eq, List.mem_cons,
    List.mem_singleton, List.not_mem_nil, or_false, not_or, Bool.not_eq_true', ne_eq] at hc
  obtain ⟨⟨⟨h0, hs⟩, hn⟩, hd⟩ := hc
  obtain ⟨a1, a2, a3, a4, a5, a6, a7, a8, a9, a10, a11, a12, a13, a14, a15, a16, a17, a18, a19,
    a20, a21, a22, a23, a24, a25, a26, a27, a28, a29, a30, a31⟩ := hs
  simp only [lexSwitch, a1, a2, a3, a4, a5, a6, a7, a8, a9, a10, a11, a12, a13, a14, a15, a16,
    a17, a18, a19, a20, a21, a22, a23, a24, a25, a26, a27, a28, a29, a30, a31, hn, hd, if_false,
    or_self, Bool.false_eq_true, invalidMessage]
  split_ifs <;> rfl

set_option maxRecDepth 100000 in
/-- The bytes named by the claim start no token: `@`, `$`, `;`, the backslash,
the single quote, the backtick, the control characters other than TAB, LF and
CR, DEL, and every byte from 0x80 on. -/
theorem startsNoToken_examples :
    (∀ c ∈ [64, 36, 59, 92, 39, 96, 127], startsNoToken c = true) ∧
    (∀ c, c < 256 → 128 ≤ c → startsNoToken c = true) ∧
    (∀ c, c < 32 → c ≠ 0 → c ≠ 9 → c ≠ 10 → c ≠ 13 → startsNoToken c = true) := by
  decide

/-- C31: a character that can start no token (a byte that has no `case` in
the `switch` of `wrenNextToken` and is neither a letter, an underscore nor a
digit) makes the call report an error (`Invalid character` for the bytes 32
to 126, `Invalid byte` otherwise), set `hasError` and produce a TOKEN_ERROR of
length 0, while exactly that one byte is consumed; the other fields of the
token are left as they were, and the following call lexes from the next
character. -/
theorem invalid_character (libc : Libc) (fuel : Nat) (p : Parser) (c : Nat) (r : List Nat)
    (hne : p.next.type ≠ TOKEN_EOF) (hsrc : p.rest = c :: r) (hc : startsNoToken c = true) :
    ∃ q, wrenNextToken libc (fuel + 1) p = some q ∧
      q.next.type = TOKEN_ERROR ∧ q.next.length = 0 ∧ q.hasError = true ∧
      q.currentChar = p.currentChar + 1 ∧ q.rest = r ∧ q.currentLine = p.currentLine ∧
      q.vm.errorCalls = p.vm.errorCalls ++
        (if p.printErrors = true ∧ p.vm.errorFn = true then
          [⟨WrenErrorType.WREN_ERROR_COMPILE, some (p.module.name.getD "<unknown>"),
            p.currentLine, "Error: " ++ invalidMessage c⟩]
        else []) ∧
      (invalidMessage c = if 32 ≤ c ∧ c ≤ 126 then "Invalid character '" ++ fmtChar c ++ "'."
        else "Invalid byte 0x" ++ fmtHex (c % 256) ++ ".") ∧
      q.next.start = p.next.start ∧ q.next.line = p.next.line ∧ q.next.value = p.next.value ∧
      q.previous = p.current ∧ q.current = p.next ∧
      q.numParens = p.numParens ∧ q.parens = p.parens ∧
      ∀ f, wrenNextToken libc f q =
        lexToken libc f { q with previous := q.current, current := q.next } := by
  have h0 : c ≠ 0 := by
    intro h
    subst h
    simp [startsNoToken] at hc
  have h10 : c ≠ 10 := by
    intro h
    subst h
    simp [startsNoToken, switchChars] at hc
  rw [wrenNextToken_lex libc _ p hne]
  have hsrc' : ({ p with previous := p.current, current := p.next } : Parser).rest = c :: r := hsrc
  rw [lexToken_cons0 libc fuel hsrc' h0 h10, lexSwitch_invalid libc fuel _ c hc]
  refine ⟨_, rfl, rfl, rfl, (lexError_fields _ _).2.2.2.2.2.2.2.2.2.2.2.2, ?_, ?_, ?_, ?_, rfl,
    ?_, ?_, ?_, ?_, ?_, ?_, ?_, ?_⟩
  · exact (lexError_fields _ _).2.2.1
  · show (lexError _ _).source.drop (lexError _ _).currentChar = r
    rw [(lexError_fields _ _).2.2.1, (lexError_fields _ _).2.2.2.2.1]
    have := nextChar_rest_cons hsrc
    simpa [Parser.rest, nextChar] using this
  · exact (lexError_fields _ _).2.2.2.1
  · cases hm : p.module.name <;> cases hpe : p.printErrors <;> cases hfn : p.vm.errorFn <;>
      simp [lexError, wrenPrintError, hm, hpe, hfn, error_message_assoc]
  · show (lexError _ _).next.start = _
    rw [(lexError_fields _ _).2.2.2.2.2.2.1]
  · show (lexError _ _).next.line = _
    rw [(lexError_fields _ _).2.2.2.2.2.2.1]
  · show (lexError _ _).next.value = _
    rw [(lexError_fields _ _).2.2.2.2.2.2.1]
  · exact (lexError_fields _ _).2.2.2.2.2.2.2.2.1
  · exact (lexError_fields _ _).2.2.2.2.2.2.2.1
  · exact (lexError_fields _ _).1
  · exact (lexError_fields _ _).2.1
  · intro f
    exact wrenNextToken_lex libc f _ (by show TOKEN_ERROR ≠ TOKEN_EOF; decide)

/-- Witness for C31: in the source `a@b` the second call makes a TOKEN_ERROR
of length 0 with the error `Invalid character '@'.`, and the third call lexes
the name `b`; the byte 0xE9 gives `Invalid byte 0xe9.`. -/
theorem invalid_character_witness :
    startsNoToken 64 = true ∧
    (∃ q, wrenNextToken exampleLibc 5
        { startParser (ascii "a@b") with currentChar := 1 } = some q ∧
      q.next.type = TOKEN_ERROR ∧ q.next.length = 0 ∧ q.hasError = true ∧ q.currentChar = 2 ∧
      q.vm.errorCalls =
        [⟨WrenErrorType.WREN_ERROR_COMPILE, some "main", 1, "Error: Invalid character '@'."⟩]) ∧
    (wrenNextTokens exampleLibc 5 3 (startParser (ascii "a@b"))).map
        (fun r => r.1.map (fun t => (t.type, t.length))) =
      some [(TOKEN_NAME, 1), (TOKEN_ERROR, 0), (TOKEN_NAME, 1)] ∧
    invalidMessage 233 = "Invalid byte 0xe9." := by
  obtain ⟨q, h1, h2, h3, h4, h5, _, _, h8, _⟩ :=
    invalid_character exampleLibc 4 { startParser (ascii "a@b") with currentChar := 1 } 64 [98]
      (by decide) (by decide) (by decide)
  exact ⟨by decide, ⟨q, h1, h2, h3, h4, h5, h8.trans (by decide)⟩, by decide, by decide⟩

/-! ## Two-byte arguments and jump targets in the disassembler -/

/-- The short read by `READ_SHORT()` from two bytes is the big-endian
number. -/
theorem read_short_value (bytecode : List Nat) (i : Nat) (h0 : byteAt bytecode i < 256)
    (h1 : byteAt bytecode (i + 1) < 256) :
    (READ_SHORT bytecode i).1 = 256 * byteAt bytecode i + byteAt bytecode (i + 1) ∧
    (READ_SHORT bytecode i).1 ≤ 65535 ∧ (READ_SHORT bytecode i).2 = i + 2 := by
  have e : (byteAt bytecode i <<< 8) ||| byteAt bytecode (i + 1) =
      256 * byteAt bytecode i + byteAt bytecode (i + 1) := by
    have := Nat.mul_add_lt_is_or (i := 8) (b := byteAt bytecode (i + 1)) (by simpa using h1)
      (byteAt bytecode i)
    rw [Nat.shiftLeft_eq, Nat.mul_comm, ← this]
  simp only [READ_SHORT, e]
  refine ⟨trivial, by omega, trivial⟩

set_option maxRecDepth 100000 in
/-- The number of each opcode. -/
theorem code_values :
    CODE "CONSTANT" = 0 ∧ CODE "ICONSTANT" = 1 ∧ CODE "NULL" = 2 ∧ CODE "FALSE" = 3 ∧
    CODE "TRUE" = 4 ∧ CODE "LOAD_LOCAL_0" = 5 ∧ CODE "LOAD_LOCAL_1" = 6 ∧
    CODE "LOAD_LOCAL_2" = 7 ∧ CODE "LOAD_LOCAL_3" = 8 ∧ CODE "LOAD_LOCAL_4" = 9 ∧
    CODE "LOAD_LOCAL_5" = 10 ∧ CODE "LOAD_LOCAL_6" = 11 ∧ CODE "LOAD_LOCAL_7" = 12 ∧
    CODE "LOAD_LOCAL_8" = 13 ∧ CODE "LOAD_LOCAL" = 14 ∧ CODE "STORE_LOCAL" = 15 ∧
    CODE "LOAD_UPVALUE" = 16 ∧ CODE "STORE_UPVALUE" = 17 ∧ CODE "LOAD_MODULE_VAR" = 18 ∧
    CODE "STORE_MODULE_VAR" = 19 ∧ CODE "LOAD_FIELD_THIS" = 20 ∧ CODE "STORE_FIELD_THIS" = 21 ∧
    CODE "LOAD_FIELD" = 22 ∧ CODE "STORE_FIELD" = 23 ∧ CODE "POP" = 24 ∧ CODE "CALL_0" = 25 ∧
    CODE "CALL_1" = 26 ∧ CODE "CALL_2" = 27 ∧ CODE "CALL_3" = 28 ∧ CODE "CALL_4" = 29 ∧
    CODE "CALL_5" = 30 ∧ CODE "CALL_6" = 31 ∧ CODE "CALL_7" = 32 ∧ CODE "CALL_8" = 33 ∧
    CODE "CALL_9" = 34 ∧ CODE "CALL_10" = 35 ∧ CODE "CALL_11" = 36 ∧ CODE "CALL_12" = 37 ∧
    CODE "CALL_13" = 38 ∧ CODE "CALL_14" = 39 ∧ CODE "CALL_15" = 40 ∧ CODE "CALL_16" = 41 ∧
    CODE "SUPER_0" = 42 ∧ CODE "SUPER_1" = 43 ∧ CODE "SUPER_2" = 44 ∧ CODE "SUPER_3" = 45 ∧
    CODE "SUPER_4" = 46 ∧ CODE "SUPER_5" = 47 ∧ CODE "SUPER_6" = 48 ∧ CODE "SUPER_7" = 49 ∧
    CODE "SUPER_8" = 50 ∧ CODE "SUPER_9" = 51 ∧ CODE "SUPER_10" = 52 ∧ CODE "SUPER_11" = 53 ∧
    CODE "SUPER_12" = 54 ∧ CODE "SUPER_13" = 55 ∧ CODE "SUPER_14" = 56 ∧ CODE "SUPER_15" = 57 ∧
    CODE "SUPER_16" = 58 ∧ CODE "JUMP" = 59 ∧ CODE "LOOP" = 60 ∧ CODE "JUMP_IF" = 61 ∧
    CODE "ADD" = 62 ∧ CODE "SUB" = 63 ∧ CODE "MUL" = 64 ∧ CODE "DIV" = 65 ∧ CODE "MOD" = 66 ∧
    CODE "AND" = 67 ∧ CODE "OR" = 68 ∧ CODE "CLOSE_UPVALUE" = 69 ∧ CODE "RETURN" = 70 ∧
    CODE "CLOSURE" = 71 ∧ CODE "CONSTRUCT" = 72 ∧ CODE "FOREIGN_CONSTRUCT" = 73 ∧
    CODE "CLASS" = 74 ∧ CODE "END_CLASS" = 75 ∧ CODE "FOREIGN_CLASS" = 76 ∧
    CODE "METHOD_INSTANCE" = 77 ∧ CODE "METHOD_STATIC" = 78 ∧ CODE "END_MODULE" = 79 ∧
    CODE "IMPORT_MODULE" = 80 ∧ CODE "IMPORT_VARIABLE" = 81 ∧ CODE "END" = 82 := by
  have hc := code_numbers
  rw [show List.range 83 =
      [0, 1, 2, 3, 4, 5, 6, 7, 8, 9, 10, 11, 12, 13, 14, 15, 16, 17, 18, 19, 20, 21, 22, 23, 24,
      25, 26, 27, 28, 29, 30, 31, 32, 33, 34, 35, 36, 37, 38, 39, 40, 41, 42, 43, 44, 45, 46,
      47, 48, 49, 50, 51, 52, 53, 54, 55, 56, 57, 58, 59, 60, 61, 62, 63, 64, 65, 66, 67, 68,
      69, 70, 71, 72, 73, 74, 75, 76, 77, 78, 79, 80, 81, 82] from by decide] at hc
  simpa only [opcodes, OPCODE, List.map_cons, List.map_nil, List.cons.injEq, and_true] using hc

set_option maxRecDepth 100000 in
theorem jump_names :
    opcodeName 59 = "JUMP" ∧ opcodeName 60 = "LOOP" ∧ opcodeName 61 = "JUMP_IF" ∧
    opcodeName 67 = "AND" ∧ opcodeName 68 = "OR" := by
  decide

/-- The switch of `dumpInstruction` on a forward jump. -/
theorem dumpSwitch_jump (methodNames : List String) (fn : FnCode) (code i : Nat)
    (h : code = 59 ∨ code = 61 ∨ code = 67 ∨ code = 68) :
    dumpSwitch methodNames fn code i =
      ((READ_SHORT fn.code i).2, [Printed.printf "%-16s %5d to %d\n"
        [PrintArg.str (opcodeName code), PrintArg.int (READ_SHORT fn.code i).1,
          PrintArg.int (((READ_SHORT fn.code i).2 : Int) + (READ_SHORT fn.code i).1)]]) := by
  have hc := code_values
  simp only [dumpSwitch, hc]
  rcases h with rfl | rfl | rfl | rfl <;> simp

/-- The switch of `dumpInstruction` on `LOOP`. -/
theorem dumpSwitch_loop (methodNames : List String) (fn : FnCode) (i : Nat) :
    dumpSwitch methodNames fn 60 i =
      ((READ_SHORT fn.code i).2, [Printed.printf "%-16s %5d to %d\n"
        [PrintArg.str (opcodeName 60), PrintArg.int (READ_SHORT fn.code i).1,
          PrintArg.int (((READ_SHORT fn.code i).2 : Int) - (READ_SHORT fn.code i).1)]]) := by
  have hc := code_values
  simp only [dumpSwitch, hc]
  simp

/-- What `dumpInstruction` prints and returns on a forward jump. -/
theorem dumpInstruction_jump (methodNames : List String) (fn : FnCode) (i : Nat)
    (lastLine : Option Int) (code : Nat) (hcode : byteAt fn.code i = code)
    (h : code = 59 ∨ code = 61 ∨ code = 67 ∨ code = 68) :
    (dumpInstruction methodNames fn i lastLine).out.getLast? =
      some (Printed.printf "%-16s %5d to %d\n"
        [PrintArg.str (opcodeName code), PrintArg.int (READ_SHORT fn.code (i + 1)).1,
          PrintArg.int ((i : Int) + 3 + (READ_SHORT fn.code (i + 1)).1)]) ∧
    (dumpInstruction methodNames fn i lastLine).result = 3 := by
  have hc := code_values
  have he : code ≠ 82 := by omega
  simp only [dumpInstruction, hcode, dumpSwitch_jump methodNames fn code (i + 1) h, hc, if_neg he,
    READ_SHORT, List.getLast?_append, List.getLast?_singleton]
  refine ⟨?_, by push_cast; omega⟩
  rw [Option.or_some]
  congr 4

/-- What `dumpInstruction` prints and returns on `LOOP`. -/
theorem dumpInstruction_loop (methodNames : List String) (fn : FnCode) (i : Nat)
    (lastLine : Option Int) (hcode : byteAt fn.code i = 60) :
    (dumpInstruction methodNames fn i lastLine).out.getLast? =
      some (Printed.printf "%-16s %5d to %d\n"
        [PrintArg.str (opcodeName 60), PrintArg.int (READ_SHORT fn.code (i + 1)).1,
          PrintArg.int ((i : Int) + 3 - (READ_SHORT fn.code (i + 1)).1)]) ∧
    (dumpInstruction methodNames fn i lastLine).result = 3 := by
  have hc := code_values
  have he : (60 : Nat) ≠ 82 := by omega
  simp only [dumpInstruction, hcode, dumpSwitch_loop methodNames fn (i + 1), hc, if_neg he,
    READ_SHORT, List.getLast?_append, List.getLast?_singleton]
  refine ⟨?_, by push_cast; omega⟩
  rw [Option.or_some]
  congr 4

/-- C33: the disassembler decodes a two-byte argument big-endian and shows a
jump target relative to the end of the instruction. For an instruction at
offset `i` of the code whose two argument bytes `b0`, `b1` are bytes (below
256), `READ_SHORT` entered just after the opcode yields the offset
`256 * b0 + b1`, which is at most 65535, and leaves the position at `i + 3`;
when the opcode is JUMP, JUMP_IF, AND or OR the last call of `printf` made by
`dumpInstruction` prints the name of the opcode, the offset and the target
`i + 3 + offset`; when it is LOOP it prints the target `i + 3 - offset`, an
`int` that may be negative; in both cases `dumpInstruction` returns 3. -/
theorem jump_targets (methodNames : List String) (fn : FnCode) (i : Nat)
    (lastLine : Option Int) (h0 : byteAt fn.code (i + 1) < 256)
    (h1 : byteAt fn.code (i + 2) < 256) :
    (READ_SHORT fn.code (i + 1)).1 = 256 * byteAt fn.code (i + 1) + byteAt fn.code (i + 2) ∧
    (READ_SHORT fn.code (i + 1)).1 ≤ 65535 ∧
    (READ_SHORT fn.code (i + 1)).2 = i + 3 ∧
    (∀ name ∈ ["JUMP", "JUMP_IF", "AND", "OR"], byteAt fn.code i = CODE name →
      (dumpInstruction methodNames fn i lastLine).out.getLast? =
        some (Printed.printf "%-16s %5d to %d\n"
          [PrintArg.str name,
            PrintArg.int ((256 * byteAt fn.code (i + 1) + byteAt fn.code (i + 2) : Nat) : Int),
            PrintArg.int ((i : Int) + 3 +
              ((256 * byteAt fn.code (i + 1) + byteAt fn.code (i + 2) : Nat) : Int))]) ∧
      (dumpInstruction methodNames fn i lastLine).result = 3) ∧
    (byteAt fn.code i = CODE "LOOP" →
      (dumpInstruction methodNames fn i lastLine).out.getLast? =
        some (Printed.printf "%-16s %5d to %d\n"
          [PrintArg.str "LOOP",
            PrintArg.int ((256 * byteAt fn.code (i + 1) + byteAt fn.code (i + 2) : Nat) : Int),
            PrintArg.int ((i : Int) + 3 -
              ((256 * byteAt fn.code (i + 1) + byteAt fn.code (i + 2) : Nat) : Int))]) ∧
      (dumpInstruction methodNames fn i lastLine).result = 3) := by
  have hs := read_short_value fn.code (i + 1) h0 h1
  have hc := code_values
  have hn := jump_names
  refine ⟨hs.1, hs.2.1, hs.2.2, ?_, ?_⟩
  · intro name hname hcode
    simp only [List.mem_cons, List.mem_singleton, List.not_mem_nil, or_false] at hname
    rw [← hs.1]
    rcases hname with rfl | rfl | rfl | rfl
    · simp only [hc] at hcode
      have := dumpInstruction_jump methodNames fn i lastLine 59 hcode (by omega)
      rwa [hn.1] at this
    · simp only [hc] at hcode
      have := dumpInstruction_jump methodNames fn i lastLine 61 hcode (by omega)
      rwa [hn.2.2.1] at this
    · simp only [hc] at hcode
      have := dumpInstruction_jump methodNames fn i lastLine 67 hcode (by omega)
      rwa [hn.2.2.2.1] at this
    · simp only [hc] at hcode
      have := dumpInstruction_jump methodNames fn i lastLine 68 hcode (by omega)
      rwa [hn.2.2.2.2] at this
  · intro hcode
    rw [← hs.1]
    simp only [hc] at hcode
    have := dumpInstruction_loop methodNames fn i lastLine hcode
    rwa [hn.2.1] at this

set_option maxRecDepth 100000 in
theorem jump_targets_witness :
    byteAt jumpCode.code (0 + 1) < 256 ∧ byteAt jumpCode.code (0 + 2) < 256 ∧
    byteAt jumpCode.code 0 = CODE "JUMP" ∧
    (dumpInstruction [] jumpCode 0 none).out.getLast? =
      some (Printed.printf "%-16s %5d to %d\n"
        [PrintArg.str "JUMP", PrintArg.int 258, PrintArg.int 261]) ∧
    byteAt jumpCode.code (3 + 1) < 256 ∧ byteAt jumpCode.code (3 + 2) < 256 ∧
    byteAt jumpCode.code 3 = CODE "LOOP" ∧
    (dumpInstruction [] jumpCode 3 (some 1)).out.getLast? =
      some (Printed.printf "%-16s %5d to %d\n"
        [PrintArg.str "LOOP", PrintArg.int 3, PrintArg.int 3]) :=
  ⟨by decide, by decide, by decide,
    ((jump_targets [] jumpCode 0 none (by decide) (by decide)).2.2.2.1 "JUMP" (by decide)
      (by decide)).1,
    by decide, by decide, by decide,
    ((jump_targets [] jumpCode 3 (some 1) (by decide) (by decide)).2.2.2.2 (by decide)).1⟩

/-! ## The bits of a number -/

/-- Reading a pattern as a number and the number back as bits is the pattern
cut to 64 bits. -/
theorem toBits_fromBits (b : Nat) : wrenNumberToBits (wrenNumberFromBits b) = b % 2 ^ 64 := by
  simp only [wrenNumberToBits, wrenNumberFromBits, WrenDoubleBits.setNum, WrenDoubleBits.num,
    WrenDoubleBits.setBits64]
  norm_num
  omega

/-- Writing a number as bits and reading the bits back is the number. -/
theorem fromBits_toBits (d : Double) (h : d.valid) :
    wrenNumberFromBits (wrenNumberToBits d) = d := by
  obtain ⟨s, e, m⟩ := d
  simp only [Double.valid] at h
  obtain ⟨h1, h2, h3⟩ := h
  simp only [wrenNumberToBits, wrenNumberFromBits, WrenDoubleBits.setNum, WrenDoubleBits.num,
    WrenDoubleBits.setBits64, Double.mk.injEq]
  norm_num at h1 h2 h3 ⊢
  refine ⟨?_, ?_, ?_⟩ <;> omega

/-- The patterns from `WREN_DOUBLE_QNAN_POS_MIN_BITS` to
`WREN_DOUBLE_QNAN_POS_MAX_BITS` are those of the positive quiet NaNs. -/
theorem qnan_range (b : Nat) (h : b < 2 ^ 64) :
    (WREN_DOUBLE_QNAN_POS_MIN_BITS ≤ b ∧ b ≤ WREN_DOUBLE_QNAN_POS_MAX_BITS) ↔
      (wrenNumberFromBits b).positiveQuietNaN := by
  simp only [wrenNumberFromBits, WrenDoubleBits.num, WrenDoubleBits.setBits64,
    Double.positiveQuietNaN, WREN_DOUBLE_QNAN_POS_MIN_BITS, WREN_DOUBLE_QNAN_POS_MAX_BITS]
  norm_num at h ⊢
  constructor
  · rintro ⟨h1, h2⟩
    refine ⟨?_, ?_, ?_⟩ <;> omega
  · rintro ⟨h1, h2, h3⟩
    constructor <;> omega

/-- C34: in the default 64-bit configuration `wrenNumberFromBits` and
`wrenNumberToBits` reinterpret the same 64 bits and are mutually inverse:
`wrenNumberToBits (wrenNumberFromBits b) = b` for every 64-bit pattern `b`
(so the payload of a NaN survives), and `wrenNumberFromBits (wrenNumberToBits d) = d`
for every number `d`; `WREN_NUMBER_NAN` has the pattern `0x7FF8000000000000`,
which lies in the closed range from `WREN_DOUBLE_QNAN_POS_MIN_BITS` to
`WREN_DOUBLE_QNAN_POS_MAX_BITS`, and the patterns of that range are exactly
those with sign bit 0, all 11 exponent bits set and the top mantissa bit set. -/
theorem number_bits_round_trip :
    (∀ b, b < 2 ^ 64 → wrenNumberToBits (wrenNumberFromBits b) = b) ∧
    (∀ d : Double, d.valid → wrenNumberFromBits (wrenNumberToBits d) = d) ∧
    wrenNumberToBits WREN_NUMBER_NAN = 0x7FF8000000000000 ∧
    WREN_DOUBLE_QNAN_POS_MIN_BITS ≤ wrenNumberToBits WREN_NUMBER_NAN ∧
    wrenNumberToBits WREN_NUMBER_NAN ≤ WREN_DOUBLE_QNAN_POS_MAX_BITS ∧
    (∀ b, b < 2 ^ 64 →
      ((WREN_DOUBLE_QNAN_POS_MIN_BITS ≤ b ∧ b ≤ WREN_DOUBLE_QNAN_POS_MAX_BITS) ↔
        (wrenNumberFromBits b).positiveQuietNaN)) := by
  have hnan : wrenNumberToBits WREN_NUMBER_NAN = 0x7FF8000000000000 := by
    rw [WREN_NUMBER_NAN, toBits_fromBits]
    simp only [WREN_DOUBLE_QNAN_POS_MIN_BITS]
    norm_num
  refine ⟨fun b hb => ?_, fromBits_toBits, hnan, ?_, ?_, qnan_range⟩
  · rw [toBits_fromBits, Nat.mod_eq_of_lt hb]
  · rw [hnan]; simp only [WREN_DOUBLE_QNAN_POS_MIN_BITS]; norm_num
  · rw [hnan]; simp only [WREN_DOUBLE_QNAN_POS_MAX_BITS]; norm_num

theorem number_bits_round_trip_witness :
    0x7FF8000000000123 < 2 ^ 64 ∧
    wrenNumberToBits (wrenNumberFromBits 0x7FF8000000000123) = 0x7FF8000000000123 ∧
    wrenNumberFromBits 0x7FF8000000000123 = ⟨0, 2047, 2 ^ 51 + 0x123⟩ ∧
    (⟨0, 2047, 2 ^ 51 + 0x123⟩ : Double).valid ∧
    wrenNumberFromBits (wrenNumberToBits ⟨0, 2047, 2 ^ 51 + 0x123⟩) =
      ⟨0, 2047, 2 ^ 51 + 0x123⟩ ∧
    (wrenNumberFromBits 0x7FF8000000000123).positiveQuietNaN ∧
    0xFFF8000000000000 < 2 ^ 64 ∧
    ¬ (wrenNumberFromBits 0xFFF8000000000000).positiveQuietNaN :=
  ⟨by norm_num, number_bits_round_trip.1 _ (by norm_num), by decide,
    by simp [Double.valid],
    number_bits_round_trip.2.1 _ (by simp [Double.valid]),
    (number_bits_round_trip.2.2.2.2.2 _ (by norm_num)).1
      (by simp [WREN_DOUBLE_QNAN_POS_MIN_BITS, WREN_DOUBLE_QNAN_POS_MAX_BITS]),
    by norm_num,
    fun hq => absurd ((number_bits_round_trip.2.2.2.2.2 0xFFF8000000000000 (by norm_num)).2 hq).2
      (by simp [WREN_DOUBLE_QNAN_POS_MAX_BITS])⟩

/-! ## A byte escape cut short by the closing quote -/

theorem unreadChar_lexError (p : Parser) (n : Nat) (m : String) :
    unreadChar (lexError (p.advance (n + 1) 0) m) = lexError (p.advance n 0) m := by
  simp only [unreadChar, lexError, wrenPrintError, Parser.advance]
  split_ifs <;> simp

/-- The escape `\x` followed by fewer than two hexadecimal digits and the
closing quote: the error is reported, the byte of the digits read is added
and the parser is left on the character before the quote. -/
theorem readStringStep_incomplete (p : Parser) (s digits r : List Nat)
    (hsrc : p.rest = 92 :: 120 :: digits ++ 34 :: r) (hd : digits.length < 2)
    (hh : ∀ d ∈ digits, (hexDigitValue d).isSome = true) :
    readStringStep p s =
      StringStep.again
        (lexError (p.advance (1 + digits.length) 0) "Incomplete byte escape sequence.")
        (s ++ [hexValue digits]) := by
  have e1 := nextChar_advance0 p hsrc (by decide)
  have hr1 : (p.advance 1 0).rest = 120 :: digits ++ 34 :: r := advance_rest p [92] _ _ hsrc
  have f2 := nextChar_fst _ hr1
  have e2 := nextChar_advance0 _ hr1 (by decide)
  have hr2 : (p.advance 2 0).rest = digits ++ 34 :: r := advance_rest p [92, 120] _ _ hsrc
  have hmsg : "Incomplete " ++ "byte" ++ " escape sequence." =
      "Incomplete byte escape sequence." := by decide
  rcases digits with _ | ⟨h, _ | ⟨h2, t⟩⟩
  · have hp : peekChar (p.advance 2 0) = 34 := peekChar_cons hr2
    simp [readStringStep, nextChar_fst p hsrc, e1, e2, f2, readEscape, advance_advance,
      readHexEscape, hp, hmsg, unreadChar_lexError, hexValue]
  · obtain ⟨v, hv⟩ := Option.isSome_iff_exists.mp (hh h (List.mem_cons_self _ _))
    have hc := hexDigitValue_char hv
    have hlt := hexDigitValue_lt hv
    have hp : peekChar (p.advance 2 0) = h := peekChar_cons hr2
    have hd1 := readHexDigit_hex0 _ hr2 hv
    have hr3 : (p.advance 3 0).rest = 34 :: r := advance_rest p [92, 120, h] _ _ hsrc
    have hp3 : peekChar (p.advance 3 0) = 34 := peekChar_cons hr3
    have hval : v % 4294967296 % 256 = v := by omega
    simp [readStringStep, nextChar_fst p hsrc, e1, e2, f2, readEscape, advance_advance,
      readHexEscape, hp, hmsg, unreadChar_lexError, hexValue, hd1, hc.1, hc.2.2, hp3, hv, hval]
  · simp at hd
    omega

theorem readStringLoop_incomplete (pre : List StrItem) (digits : List Nat) (fuel : Nat)
    (p : Parser) (s tail : List Nat)
    (hsrc : p.rest = bodyText pre ++ 92 :: 120 :: digits ++ 34 :: tail)
    (hpre : ∀ it ∈ pre, it.ok = true) (hd : digits.length < 2)
    (hh : ∀ d ∈ digits, (hexDigitValue d).isSome = true)
    (hfuel : pre.length + 3 ≤ fuel) :
    readStringLoop fuel p s =
      some ((lexError (p.advance ((bodyText pre).length + (1 + digits.length))
          (newlines (bodyText pre))) "Incomplete byte escape sequence.").advance 2 0,
        s ++ bodyValue pre ++ [hexValue digits, digits.getLastD 120], TOKEN_STRING) := by
  obtain ⟨g, rfl⟩ : ∃ g, fuel = pre.length + (g + 1) := ⟨fuel - pre.length - 1, by omega⟩
  have hsrc' : p.rest = bodyText pre ++ (92 :: 120 :: digits ++ 34 :: tail) := by
    simpa using hsrc
  rw [readStringLoop_run pre (g + 1) p s _ hsrc' hpre]
  have hr1 := advance_rest p (bodyText pre) _ (newlines (bodyText pre)) hsrc'
  have hstep := readStringStep_incomplete _ (s ++ bodyValue pre) digits tail hr1 hd hh
  have hlast : (StrItem.plain (digits.getLastD 120)).ok = true ∧
      digits.getLastD 120 ≠ 10 ∧
      (92 :: 120 :: digits ++ 34 :: tail : List Nat) =
        (92 :: 120 :: digits).take (1 + digits.length) ++
          (digits.getLastD 120 :: 34 :: tail) ∧
      ((92 :: 120 :: digits).take (1 + digits.length)).length = 1 + digits.length := by
    rcases digits with _ | ⟨h, _ | ⟨h2, t⟩⟩
    · exact ⟨by decide, by decide, rfl, rfl⟩
    · obtain ⟨v, hv⟩ := Option.isSome_iff_exists.mp (hh h (List.mem_cons_self _ _))
      have hc := hexDigitValue_char hv
      have h4 : h ≠ 92 ∧ h ≠ 37 ∧ h ≠ 13 := by
        unfold hexDigitValue at hv
        split_ifs at hv <;> omega
      refine ⟨by simp [StrItem.ok, hc.1, hc.2.2, h4.1, h4.2.1, h4.2.2], hc.2.1, rfl, rfl⟩
    · simp at hd
      omega
  obtain ⟨hok, h10, hsplit, hlen⟩ := hlast
  have hr2 := advance_rest (p.advance (bodyText pre).length (newlines (bodyText pre)))
    ((92 :: 120 :: digits).take (1 + digits.length)) _ 0 (hr1.trans hsplit)
  rw [hlen] at hr2
  have hr3 := (lexError_rest _ "Incomplete byte escape sequence.").trans hr2
  have hloop := readStringLoop_items [StrItem.plain (digits.getLastD 120)] g
    (lexError ((p.advance (bodyText pre).length (newlines (bodyText pre))).advance
      (1 + digits.length) 0) "Incomplete byte escape sequence.")
    (s ++ bodyValue pre ++ [hexValue digits]) tail (by simpa [bodyText, StrItem.text] using hr3)
    (by simpa using hok) (by simp; omega)
  rw [readStringLoop, hstep]
  simp only []
  rw [hloop]
  have h10b : digits.getLast?.getD 120 ≠ 10 := by simpa [List.getLastD_eq_getLast?] using h10
  simp [bodyText, bodyValue, StrItem.text, StrItem.bytes, newlines, h10b, advance_advance,
    List.count_singleton]

theorem lexToken_incomplete (libc : Libc) (p : Parser) (pre : List StrItem)
    (digits tail : List Nat) (fuel : Nat)
    (hsrc : p.rest = 34 :: bodyText pre ++ 92 :: 120 :: digits ++ 34 :: tail)
    (hpre : ∀ it ∈ pre, it.ok = true) (hd : digits.length < 2)
    (hh : ∀ d ∈ digits, (hexDigitValue d).isSome = true)
    (hfuel : pre.length + 4 ≤ fuel) :
    ∃ r, lexToken libc fuel p = some r ∧
      r.rest = tail ∧
      r.next.type = TOKEN_STRING ∧
      r.next.value = Value.OBJ_STRING (bodyValue pre ++ [hexValue digits, digits.getLastD 120]) ∧
      r.next.start = p.currentChar ∧
      r.next.length = (bodyText pre).length + digits.length + 4 ∧
      r.currentChar = p.currentChar + ((bodyText pre).length + digits.length + 4) ∧
      r.hasError = true ∧
      r.vm.errorCalls = p.vm.errorCalls ++
        (if p.printErrors = true ∧ p.vm.errorFn = true then
          [⟨WrenErrorType.WREN_ERROR_COMPILE, some (p.module.name.getD "<unknown>"),
            p.currentLine + (newlines (bodyText pre) : Nat),
            "Error: Incomplete byte escape sequence."⟩]
        else []) ∧
      r.numParens = p.numParens ∧ r.parens = p.parens ∧
      r.current = p.current ∧ r.previous = p.previous := by
  obtain ⟨f, rfl⟩ : ∃ f, fuel = f + 1 := ⟨fuel - 1, by omega⟩
  have hsrc' : p.rest = 34 :: (bodyText pre ++ 92 :: 120 :: digits ++ 34 :: tail) := by
    simpa using hsrc
  have hnr : ∀ t, bodyText pre ++ 92 :: 120 :: digits ++ 34 :: tail ≠ 34 :: 34 :: t := by
    intro t ht
    by_cases hi : pre = []
    · subst hi
      simp [bodyText] at ht
    · obtain ⟨c, u, hb, hc, _⟩ := bodyText_head pre hpre hi
      rw [hb] at ht
      simp at ht
      exact hc ht.1
  rw [lexToken_quote libc f _ _ hsrc' hnr]
  have hr0 : ({ p with tokenStart := p.currentChar } : Parser).rest =
      34 :: (bodyText pre ++ 92 :: 120 :: digits ++ 34 :: tail) := hsrc'
  have hr1 := advance_rest _ [34] _ 0 hr0
  simp only [List.length_singleton] at hr1
  have hloop := readStringLoop_incomplete pre digits f _ [] tail hr1 hpre hd hh (by omega)
  have hrest : ((lexError (({ p with tokenStart := p.currentChar } : Parser).advance 1 0 |>.advance
      ((bodyText pre).length + (1 + digits.length)) (newlines (bodyText pre)))
        "Incomplete byte escape sequence.").advance 2 0).rest = tail := by
    have e : (34 :: (bodyText pre ++ 92 :: 120 :: digits ++ 34 :: tail) : List Nat) =
        (34 :: (bodyText pre ++ 92 :: 120 :: digits ++ [34])) ++ tail := by simp
    have h3 := advance_rest ({ p with tokenStart := p.currentChar } : Parser)
      (34 :: (bodyText pre ++ 92 :: 120 :: digits ++ [34])) tail (newlines (bodyText pre))
      (hr0.trans e)
    have hl : (34 :: (bodyText pre ++ 92 :: 120 :: digits ++ [34]) : List Nat).length =
        1 + ((bodyText pre).length + (1 + digits.length)) + 2 := by
      simp; omega
    rw [hl] at h3
    rw [← h3]
    simp only [Parser.rest, Parser.advance, (lexError_fields _ _).2.2.1, (lexError_fields _ _).2.2.2.2.1]
    simp [Nat.add_assoc]
  simp only [readString, hloop, Option.map_some']
  have hmsg : "Error: " ++ "Incomplete byte escape sequence." =
      "Error: Incomplete byte escape sequence." := by decide
  refine ⟨_, rfl, hrest, ?_⟩
  cases hm : p.module.name <;> cases hpe : p.printErrors <;> cases hfn : p.vm.errorFn <;>
    simp [makeToken, Parser.advance, lexError, wrenPrintError, hm, hpe, hfn, hmsg] <;>
    omega

/-- C32: when a `\x` escape in an ordinary string literal is cut short by the
closing quote after fewer than two hexadecimal digits, the literal (whose
elements before the escape are well-formed) is still lexed by one call of
`wrenNextToken` as one TOKEN_STRING that ends at that quote: the rest of the
source is what follows the quote, the error "Incomplete byte escape
sequence." is reported once and `hasError` is set, and the value is made of
the bytes before the escape, one byte with the value of the digits read (0
when there is none) and the character just before the quote (the digit, or
the letter `x` when there is no digit), which is lexed a second time as an
ordinary character. -/
theorem incomplete_byte_escape (libc : Libc) (p : Parser) (pre : List StrItem)
    (digits tail : List Nat) (fuel : Nat)
    (hne : p.next.type ≠ TOKEN_EOF)
    (hsrc : p.rest = 34 :: bodyText pre ++ 92 :: 120 :: digits ++ 34 :: tail)
    (hpre : ∀ it ∈ pre, it.ok = true) (hd : digits.length < 2)
    (hh : ∀ d ∈ digits, (hexDigitValue d).isSome = true)
    (hfuel : pre.length + 4 ≤ fuel) :
    ∃ r, wrenNextToken libc fuel p = some r ∧
      r.rest = tail ∧
      r.next.type = TOKEN_STRING ∧
      r.next.value = Value.OBJ_STRING (bodyValue pre ++ [hexValue digits, digits.getLastD 120]) ∧
      r.next.start = p.currentChar ∧
      r.next.length = (bodyText pre).length + digits.length + 4 ∧
      r.currentChar = p.currentChar + ((bodyText pre).length + digits.length + 4) ∧
      r.hasError = true ∧
      r.vm.errorCalls = p.vm.errorCalls ++
        (if p.printErrors = true ∧ p.vm.errorFn = true then
          [⟨WrenErrorType.WREN_ERROR_COMPILE, some (p.module.name.getD "<unknown>"),
            p.currentLine + (newlines (bodyText pre) : Nat),
            "Error: Incomplete byte escape sequence."⟩]
        else []) ∧
      r.numParens = p.numParens ∧ r.parens = p.parens := by
  rw [wrenNextToken_lex libc _ p hne]
  obtain ⟨r, h1, h2, h3, h4, h5, h6, h7, h8, h9, h10, h11, _⟩ :=
    lexToken_incomplete libc { p with previous := p.current, current := p.next } pre digits tail
      fuel hsrc hpre hd hh hfuel
  exact ⟨r, h1, h2, h3, h4, h5, h6, h7, h8, h9, h10, h11⟩

/-- Witness for C32: the literal with body `\x4` has the value `[0x04, 0x34]`
and the literal with body `\x` has the value `[0x00, 0x78]`; both report the
error. -/
theorem incomplete_byte_escape_witness :
    (∃ r, wrenNextToken exampleLibc 4 (startParser (ascii "\"\\x4\"")) = some r ∧
      r.rest = [] ∧ r.next.type = TOKEN_STRING ∧
      r.next.value = Value.OBJ_STRING [0x04, 0x34] ∧ r.next.length = 5 ∧
      r.hasError = true ∧
      r.vm.errorCalls = [⟨WrenErrorType.WREN_ERROR_COMPILE, some "main", 1,
        "Error: Incomplete byte escape sequence."⟩]) ∧
    (∃ r, wrenNextToken exampleLibc 4 (startParser (ascii "\"\\x\" ")) = some r ∧
      r.rest = [32] ∧ r.next.type = TOKEN_STRING ∧
      r.next.value = Value.OBJ_STRING [0x00, 0x78] ∧ r.next.length = 4 ∧
      r.hasError = true ∧
      r.vm.errorCalls = [⟨WrenErrorType.WREN_ERROR_COMPILE, some "main", 1,
        "Error: Incomplete byte escape sequence."⟩]) := by
  obtain ⟨r, h1, h2, h3, h4, _, h6, _, h8, h9, _⟩ :=
    incomplete_byte_escape exampleLibc (startParser (ascii "\"\\x4\"")) [] [52] [] 4
      (by decide) (by decide) (by decide) (by decide) (by decide) (by decide)
  obtain ⟨q, k1, k2, k3, k4, _, k6, _, k8, k9, _⟩ :=
    incomplete_byte_escape exampleLibc (startParser (ascii "\"\\x\" ")) [] [] [32] 4
      (by decide) (by decide) (by decide) (by decide) (by decide) (by decide)
  refine ⟨⟨r, h1, h2, h3, ?_, ?_, h8, ?_⟩, ⟨q, k1, k2, k3, ?_, ?_, k8, ?_⟩⟩
  · rw [h4]; decide
  · rw [h6]; decide
  · rw [h9]; decide
  · rw [k4]; decide
  · rw [k6]; decide
  · rw [k9]; decide

/-! ## The value of a hexadecimal escape -/

/-- On `digits` hexadecimal digits `readHexEscape` reads exactly these,
reports nothing, and returns the pattern built from `value` digit by digit. -/
theorem readHexEscape_digits (ds : List Nat) :
    ∀ (p : Parser) (v : Nat) (d : String) (r : List Nat), p.rest = ds ++ r →
      (∀ c ∈ ds, (hexDigitValue c).isSome = true) →
      readHexEscape ds.length p v d =
        (ds.foldl (fun acc c => ((acc * 16) ||| (hexDigitValue c).getD 0) % 2 ^ 32) v,
          p.advance ds.length 0) := by
  induction ds with
  | nil => intro p v d r _ _; simp [readHexEscape, advance_zero]
  | cons h t ih =>
    intro p v d r hsrc hh
    obtain ⟨x, hx⟩ := Option.isSome_iff_exists.mp (hh h (List.mem_cons_self _ _))
    have hc := hexDigitValue_char hx
    have hsrc' : p.rest = h :: (t ++ r) := by simpa using hsrc
    have pk : peekChar p = h := peekChar_cons hsrc'
    have e1 := readHexDigit_hex0 p hsrc' hx
    have hr1 : (p.advance 1 0).rest = t ++ r := advance_rest p [h] _ _ hsrc'
    have := ih (p.advance 1 0) (((v * 16) ||| x) % 2 ^ 32) d r hr1
      (fun c hc => hh c (List.mem_cons_of_mem _ hc))
    have hx1 : ((x : Int) = -1) ↔ False := by
      constructor
      · intro hneg; omega
      · exact False.elim
    simp only [List.length_cons, readHexEscape, pk, hc.1, hc.2.2, or_self, if_false, e1, hx1,
      Int.toNat_ofNat, this, advance_advance, List.foldl_cons, hx, Option.getD_some]
    simp [Nat.add_comm]

theorem hexPattern_value (ds : List Nat) (hh : ∀ c ∈ ds, (hexDigitValue c).isSome = true) :
    ∀ v w : Nat, v = w % 2 ^ 32 →
      ds.foldl (fun acc c => ((acc * 16) ||| (hexDigitValue c).getD 0) % 2 ^ 32) v =
        ds.foldl (fun acc c => acc * 16 + (hexDigitValue c).getD 0) w % 2 ^ 32 := by
  induction ds with
  | nil => intro v w h; simpa using h
  | cons h t ih =>
    intro v w hv
    obtain ⟨x, hx⟩ := Option.isSome_iff_exists.mp (hh h (List.mem_cons_self _ _))
    have hlt := hexDigitValue_lt hx
    simp only [List.foldl_cons, hx, Option.getD_some]
    apply ih (fun c hc => hh c (List.mem_cons_of_mem _ hc))
    have e := Nat.mul_add_lt_is_or (i := 4) (b := x) (by simpa using hlt) v
    rw [Nat.mul_comm v 16, show (16 : Nat) = 2 ^ 4 from rfl, ← e, hv]
    omega

/-- The value `readHexEscape` returns on hexadecimal digits: the number they
denote, cut to the 32 bits of an `int`, which is that number when it is
below `2 ^ 31`. -/
theorem readHexEscape_value (ds : List Nat) (p : Parser) (d : String) (r : List Nat)
    (hsrc : p.rest = ds ++ r) (hh : ∀ c ∈ ds, (hexDigitValue c).isSome = true) :
    readHexEscape ds.length p 0 d = (hexValue ds % 2 ^ 32, p.advance ds.length 0) ∧
    (hexValue ds < 2 ^ 31 →
      int32OfBits (readHexEscape ds.length p 0 d).1 = (hexValue ds : Int)) := by
  have h1 := readHexEscape_digits ds p 0 d r hsrc hh
  rw [hexPattern_value ds hh 0 0 rfl] at h1
  refine ⟨h1, fun hlt => ?_⟩
  rw [h1]
  simp only [int32OfBits, hexValue] at hlt ⊢
  have : List.foldl (fun acc c => acc * 16 + (hexDigitValue c).getD 0) 0 ds % 2 ^ 32 % 2 ^ 32 =
      List.foldl (fun acc c => acc * 16 + (hexDigitValue c).getD 0) 0 ds := by omega
  rw [this, if_pos hlt]

set_option maxRecDepth 100000 in
/-- C35: on the eight hexadecimal digits `FFFFFFFF` of the literal
`"\UFFFFFFFF"` the function `readHexEscape` consumes the eight characters and
reports no error, but the value it returns is not the number `0xFFFFFFFF`
the digits denote: the 32-bit `int` holds the pattern of that number, which
is -1, a negative value.  The same happens from `80000000` on; the digits
`7FFFFFFF` still give `0x7FFFFFFF`. -/
theorem hex_escape_overflows :
    ({ startParser (ascii "\"\\UFFFFFFFF\"") with currentChar := 3 } : Parser).rest =
      ascii "FFFFFFFF\"" ∧
    hexValue (ascii "FFFFFFFF") = 0xFFFFFFFF ∧
    int32OfBits (readHexEscape 8
      { startParser (ascii "\"\\UFFFFFFFF\"") with currentChar := 3 } 0 "Unicode").1 = -1 ∧
    (readHexEscape 8
      { startParser (ascii "\"\\UFFFFFFFF\"") with currentChar := 3 } 0 "Unicode").2.currentChar =
        11 ∧
    (readHexEscape 8
      { startParser (ascii "\"\\UFFFFFFFF\"") with currentChar := 3 } 0 "Unicode").2.hasError =
        false ∧
    (readHexEscape 8
      { startParser (ascii "\"\\UFFFFFFFF\"") with currentChar := 3 } 0 "Unicode").2.vm.errorCalls =
        [] ∧
    hexValue (ascii "80000000") = 0x80000000 ∧
    int32OfBits (readHexEscape 8
      { startParser (ascii "\"\\U80000000\"") with currentChar := 3 } 0 "Unicode").1 =
        -2147483648 ∧
    int32OfBits (readHexEscape 8
      { startParser (ascii "\"\\U7FFFFFFF\"") with currentChar := 3 } 0 "Unicode").1 =
        0x7FFFFFFF := by
  refine ⟨?_, ?_, ?_, ?_, ?_, ?_, ?_, ?_, ?_⟩ <;> decide

/-! ## The text of a block comment -/

theorem closes_ne_nil {s t : List Nat} (h : Closes s t) : s ≠ [] := by
  cases h <;> simp

theorem headD_append_of_ne_nil {s : List Nat} (x : List Nat) (h : s ≠ []) :
    (s ++ x).headD 0 = s.headD 0 := by
  cases s with
  | nil => exact absurd rfl h
  | cons c s => rfl

/-- A text that closes a block comment still does in front of more text. -/
theorem closes_append {s t : List Nat} (h : Closes s t) (x : List Nat) :
    Closes (s ++ x) (t ++ x) := by
  induction h with
  | close t => exact Closes.close (t ++ x)
  | nest _ _ ih1 ih2 => exact Closes.nest ih1 ih2
  | char h0 h1 h2 hc ih =>
    have e := headD_append_of_ne_nil x (closes_ne_nil hc)
    refine Closes.char h0 ?_ ?_ ih
    · show ¬(_ = 47 ∧ (_ ++ x).headD 0 = 42)
      rw [e]; exact h1
    · show ¬(_ = 42 ∧ (_ ++ x).headD 0 = 47)
      rw [e]; exact h2

/-- The comment text in front of the text left after a block comment. -/
theorem closes_split {s t : List Nat} (h : Closes s t) :
    ∃ text, s = text ++ t ∧ Closes text [] := by
  induction h with
  | close t => exact ⟨[42, 47], rfl, Closes.close []⟩
  | @nest s u t _ _ ih1 ih2 =>
    obtain ⟨t1, e1, c1⟩ := ih1
    obtain ⟨t2, e2, c2⟩ := ih2
    refine ⟨47 :: 42 :: (t1 ++ t2), by rw [e1, e2]; simp, ?_⟩
    have := closes_append c1 t2
    rw [List.nil_append] at this
    exact Closes.nest this c2
  | @char c s t h0 h1 h2 hc ih =>
    obtain ⟨t1, e1, c1⟩ := ih
    refine ⟨c :: t1, by rw [e1]; rfl, Closes.char h0 ?_ ?_ c1⟩
    · rw [e1, headD_append_of_ne_nil t (closes_ne_nil c1)] at h1; exact h1
    · rw [e1, headD_append_of_ne_nil t (closes_ne_nil c1)] at h2; exact h2

/-- A text that holds no balancing `*/` holds none in front of its first
NUL. -/
theorem not_closes_cstr {s : List Nat} (h : ∀ t, ¬Closes s t) : ∀ u, ¬Closes (cstr s) u := by
  intro u hu
  obtain ⟨r, hr, _⟩ := cstr_split s
  have := closes_append hu r
  rw [← hr] at this
  exact h _ this

theorem not_mem_cstr (s : List Nat) : 0 ∉ cstr s := by
  intro h
  have := List.mem_takeWhile_imp h
  simp at this

/-! ## Slices and the rest of the source -/

theorem slice_rest {p : Parser} {text t : List Nat} (h : p.rest = text ++ t) :
    slice p.source p.currentChar (p.currentChar + text.length) = text := by
  unfold slice
  have : p.source.drop p.currentChar = text ++ t := h
  rw [this]
  simp

theorem slice_cons (src : List Nat) {a b : Nat} (ha : a < src.length) (hb : a < b) :
    slice src a b = charAt src a :: slice src (a + 1) b := by
  rw [slice_append src (Nat.le_succ a) (show a + 1 ≤ b from hb)]
  have : slice src a (a + 1) = [charAt src a] := by
    unfold slice
    rw [show a + 1 - a = 1 by omega, List.drop_eq_getElem_cons ha]
    simp [charAt, List.getD_eq_getElem?_getD, List.getElem?_eq_getElem ha, List.take]
  rw [this]
  rfl

theorem slice_forall {P : Nat → Bool} {p q : Parser} (h : Reach P p q) :
    ∀ c ∈ slice p.source p.currentChar q.currentChar, P c = true := by
  intro c hc
  obtain ⟨i, h1, h2, rfl⟩ := mem_slice hc
  exact h.2.2.2.2.2 i h1 h2

theorem gapText_spaces (l : List Nat) : gapText (l.map Skip.space) = l := by
  induction l with
  | nil => rfl
  | cons c l ih =>
    simp only [gapText, List.map_cons, List.flatMap_cons, Skip.text] at ih ⊢
    rw [ih]; rfl

theorem gapText_append (a b : List Skip) : gapText (a ++ b) = gapText a ++ gapText b := by
  simp [gapText]

/-! ## What the switch of the token loop skips -/

theorem rest_of_peek {p : Parser} {c : Nat} (h : peekChar p = c) (hc : c ≠ 0) :
    ∃ s, p.rest = c :: s := by
  rw [peekChar_eq] at h
  cases hr : p.rest with
  | nil => rw [hr] at h; simp at h; exact absurd h.symm hc
  | cons d s => rw [hr] at h; simp at h; exact ⟨s, by rw [h]⟩

theorem rest_length (p : Parser) : p.rest.length = p.source.length - p.currentChar := by
  simp [Parser.rest]

/-- A line comment, read by `skipLineComment` from `p`, whose first
characters, from index `a` on, have been read already. -/
theorem skip_line {f : Nat} {p q : Parser} (h : skipLineComment f p = some q) {a : Nat}
    (ha : a ≤ p.currentChar) (hlen : p.currentChar ≤ p.source.length)
    (hpre : ∀ i, a ≤ i → i < p.currentChar → charAt p.source i ≠ 10 ∧ charAt p.source i ≠ 0) :
    q.source = p.source ∧ p.currentChar ≤ q.currentChar ∧ q.currentChar ≤ p.source.length ∧
    (peekChar q = 10 ∨ peekChar q = 0) ∧
    10 ∉ slice p.source a q.currentChar ∧ 0 ∉ slice p.source a q.currentChar := by
  obtain ⟨⟨hr, _⟩, hstop⟩ := skipWhile_span _ (by decide) f p q h
  obtain ⟨r1, r2, r3, r4, r5, r6⟩ := hr
  have hmem : ∀ c ∈ slice p.source a q.currentChar, c ≠ 10 ∧ c ≠ 0 := by
    intro c hc
    obtain ⟨i, h1, h2, rfl⟩ := mem_slice hc
    by_cases hi : i < p.currentChar
    · exact hpre i h1 hi
    · have := r6 i (by omega) h2
      simpa using this
  refine ⟨r1, r4, r5 hlen, ?_, fun h10 => (hmem 10 h10).1 rfl, fun h0 => (hmem 0 h0).2 rfl⟩
  · simp only [Bool.and_eq_false_iff, decide_eq_false_iff_not, not_not] at hstop
    exact hstop

/-- What the switch of the token loop skips when it is left by `break`: the
text from the start of the token to the current character is whitespace, a
line comment or a block comment. -/
theorem lexSwitch_skip (libc : Libc) (f : Nat) (p : Parser) (c : Nat)
    (hc : c = charAt p.source p.tokenStart) (hcc : p.currentChar = p.tokenStart + 1)
    (hc0 : c ≠ 0) (hf : p.rest.length + 1 ≤ f) :
    ∀ q, lexSwitch libc f p c = some (SwitchExit.brk q) →
      ∃ items : List Skip, (∀ it ∈ items, it.ok) ∧
        slice p.source p.tokenStart q.currentChar = gapText items ∧
        (q.hasError = false → ∀ it ∈ items, it.ended = true) := by
  have hlt : p.tokenStart < p.source.length := charAt_lt (by rw [← hc]; exact hc0)
  have hlen : p.currentChar ≤ p.source.length := by omega
  have noret : ∀ (g : Option Parser) (q : Parser),
      g.map SwitchExit.ret = some (SwitchExit.brk q) → False := by
    intro g q h
    cases g <;> simp at h
  refine lexSwitch_cases (fun g => ∀ q, g p = some (SwitchExit.brk q) →
    ∃ items : List Skip, (∀ it ∈ items, it.ok) ∧
      slice p.source p.tokenStart q.currentChar = gapText items ∧
      (q.hasError = false → ∀ it ∈ items, it.ended = true)) libc f c ?_ ?_ ?_ ?_ ?_
    ?_ ?_ ?_ ?_ ?_ ?_ ?_ ?_ ?_ ?_
  · intro _ q hq; simp at hq
  · intro _ q hq
    dsimp only at hq
    split_ifs at hq
    · exact (noret _ _ hq).elim
    · simp at hq
    · simp at hq
  · intro T _ _ q hq; simp at hq
  · -- #
    intro h35 q hq
    dsimp only at hq
    split_ifs at hq with h1
    · obtain ⟨x, hx, hxq⟩ := Option.map_eq_some'.mp hq
      cases hxq
      obtain ⟨_, hp33, hp47⟩ := h1
      have c1 : charAt p.source (p.tokenStart + 1) = 33 := by rw [← hcc]; exact hp33
      have c2 : charAt p.source (p.tokenStart + 2) = 47 := by
        simp only [peekNextChar, hp33] at hp47
        rw [hcc] at hp47
        simpa using hp47
      obtain ⟨s1, s2, s3, s4, s5, s6⟩ := skip_line hx (a := p.tokenStart) (by omega) hlen
        (fun i h1 h2 => by
          have : i = p.tokenStart := by omega
          rw [this, ← hc, h35]; decide)
      have hq3 : p.tokenStart + 3 ≤ q.currentChar := by
        by_contra hlt3
        have : q.currentChar = p.tokenStart + 1 ∨ q.currentChar = p.tokenStart + 2 := by omega
        rcases this with e | e
        · rcases s4 with h | h <;> rw [peekChar, s1, e, c1] at h <;> simp at h
        · rcases s4 with h | h <;> rw [peekChar, s1, e, c2] at h <;> simp at h
      refine ⟨[Skip.lineComment (slice p.source p.tokenStart q.currentChar)], ?_, ?_, ?_⟩
      · intro it hit
        simp only [List.mem_singleton] at hit
        subst hit
        refine ⟨⟨slice p.source (p.tokenStart + 3) q.currentChar, Or.inr ?_⟩, s5, s6⟩
        rw [slice_cons p.source hlt (by omega), slice_cons p.source (by omega) (by omega),
          slice_cons p.source (charAt_lt (by rw [c2]; decide)) (by omega), ← hc, h35, c1, c2]
      · simp [gapText, Skip.text]
      · intro _ it hit
        simp only [List.mem_singleton] at hit
        subst hit
        rfl
    · simp at hq
  · intro d two one _ _ _ _ _ _ _ q hq; simp at hq
  · intro _ q hq
    dsimp only at hq
    split_ifs at hq <;> simp at hq
  · -- /
    intro h47 q hq
    dsimp only at hq
    by_cases hp : peekChar p = 47
    · have hm : matchChar p 47 = (true, (nextChar p).2) := by simp [matchChar, hp]
      rw [hm] at hq
      simp only [if_true] at hq
      obtain ⟨x, hx, hxq⟩ := Option.map_eq_some'.mp hq
      cases hxq
      have e1 : (nextChar p).2.source = p.source := rfl
      have e2 : (nextChar p).2.currentChar = p.tokenStart + 2 := by
        show p.currentChar + 1 = _
        omega
      have c1 : charAt p.source (p.tokenStart + 1) = 47 := by rw [← hcc]; exact hp
      have hl2 : p.tokenStart + 1 < p.source.length := charAt_lt (by rw [c1]; decide)
      obtain ⟨s1, s2, s3, s4, s5, s6⟩ := skip_line hx (a := p.tokenStart) (by rw [e2]; omega)
        (by rw [e1, e2]; omega)
        (fun i h1 h2 => by
          rw [e2] at h2
          rw [e1]
          have : i = p.tokenStart ∨ i = p.tokenStart + 1 := by omega
          rcases this with rfl | rfl
          · rw [← hc, h47]; decide
          · rw [c1]; decide)
      rw [e1] at s1 s3 s5 s6
      rw [e2] at s2
      refine ⟨[Skip.lineComment (slice p.source p.tokenStart q.currentChar)], ?_, ?_, ?_⟩
      · intro it hit
        simp only [List.mem_singleton] at hit
        subst hit
        refine ⟨⟨slice p.source (p.tokenStart + 2) q.currentChar, Or.inl ?_⟩, s5, s6⟩
        rw [slice_cons p.source hlt (by omega), slice_cons p.source hl2 (by omega), ← hc, h47, c1]
      · simp [gapText, Skip.text]
      · intro _ it hit
        simp only [List.mem_singleton] at hit
        subst hit
        rfl
    · have hm : matchChar p 47 = (false, p) := matchChar_miss p hp
      rw [hm] at hq
      simp only [Bool.false_eq_true, if_false] at hq
      by_cases hp2 : peekChar p = 42
      · obtain ⟨s, hs⟩ := rest_of_peek hp2 (by decide)
        have hm2 : matchChar p 42 = (true, p.advance 1 0) := matchChar_hit p hs (by decide)
        rw [hm2] at hq
        simp only [if_true] at hq
        obtain ⟨x, hx, hxq⟩ := Option.map_eq_some'.mp hq
        cases hxq
        have hr2 : (p.advance 1 0).rest = s := advance_rest p [42] s 0 hs
        have hfs : s.length + 1 ≤ f := by
          rw [hs] at hf
          simp only [List.length_cons] at hf
          omega
        have hhead : slice p.source p.tokenStart (p.tokenStart + 1) = [47] := by
          rw [slice_cons p.source hlt (by omega), slice_self, ← hc, h47]
        by_cases hcl : ∃ t, Closes s t
        · obtain ⟨t, ht⟩ := hcl
          obtain ⟨text, h1, h2⟩ := skipBlockCommentLoop_closes f 1 (p.advance 1 0) t
            (by rw [hr2]; exact ⟨t, ht, rfl⟩) (by rw [hr2]; exact hfs)
          rw [hr2] at h1
          have hx' : skipBlockCommentLoop f (p.advance 1 0) ((1 : Nat) : Int) = some q := hx
          rw [h2] at hx'
          cases hx'
          obtain ⟨text', e', c'⟩ := closes_split ht
          have htt : text' = text := List.append_cancel_right (e'.symm.trans h1)
          subst htt
          have hsl := @slice_rest p (42 :: text') t (by rw [hs, h1]; rfl)
          refine ⟨[Skip.blockComment (47 :: 42 :: text')], ?_, ?_, ?_⟩
          · intro it hit
            simp only [List.mem_singleton] at hit
            subst hit
            exact ⟨text', rfl, c'⟩
          · show slice p.source p.tokenStart (p.currentChar + 1 + text'.length) = _
            rw [slice_append p.source (show p.tokenStart ≤ p.tokenStart + 1 by omega)
              (show p.tokenStart + 1 ≤ p.currentChar + 1 + text'.length by omega), hhead]
            rw [hcc] at hsl
            simp only [List.length_cons] at hsl
            rw [hcc, show p.tokenStart + 1 + 1 + text'.length = p.tokenStart + 1 + (text'.length + 1)
              by omega, hsl]
            simp [gapText, Skip.text]
          · intro _ it hit
            simp only [List.mem_singleton] at hit
            subst hit
            rfl
        · have hno : ∀ t, ¬Closes s t := fun t ht => hcl ⟨t, ht⟩
          have h2 := skipBlockCommentLoop_open f 1 (p.advance 1 0) (le_refl _)
            (by
              rw [hr2]
              rintro t ⟨u, hu, _⟩
              exact hno u hu)
            (by rw [hr2]; exact hfs)
          rw [hr2] at h2
          have hx' : skipBlockCommentLoop f (p.advance 1 0) ((1 : Nat) : Int) = some q := hx
          rw [h2] at hx'
          cases hx'
          obtain ⟨r, hr, _⟩ := cstr_split s
          have hsl := @slice_rest p (42 :: cstr s) r
            (by rw [hs]; rw [List.cons_append, ← hr])
          refine ⟨[Skip.openComment (47 :: 42 :: cstr s)], ?_, ?_, ?_⟩
          · intro it hit
            simp only [List.mem_singleton] at hit
            subst hit
            exact ⟨cstr s, rfl, not_closes_cstr hno, not_mem_cstr s⟩
          · have ecc : (lexError ((p.advance 1 0).advance (cstr s).length (newlines (cstr s)))
                "Unterminated block comment.").currentChar =
                p.tokenStart + 1 + ((cstr s).length + 1) := by
              rw [(lexError_fields _ _).2.2.1]
              simp only [Parser.advance]
              omega
            rw [ecc, slice_append p.source (show p.tokenStart ≤ p.tokenStart + 1 by omega)
              (show p.tokenStart + 1 ≤ p.tokenStart + 1 + ((cstr s).length + 1) by omega), hhead]
            rw [hcc] at hsl
            simp only [List.length_cons] at hsl
            rw [hsl]
            simp [gapText, Skip.text]
          · intro he
            rw [(lexError_fields _ _).2.2.2.2.2.2.2.2.2.2.2.2] at he
            cases he
      · have hm2 : matchChar p 42 = (false, p) := matchChar_miss p hp2
        rw [hm2] at hq
        simp at hq
  · intro d T two one _ _ _ _ _ _ _ _ _ q hq
    dsimp only at hq
    split_ifs at hq <;> simp at hq
  · -- whitespace
    intro hsp q hq
    obtain ⟨x, hx, hxq⟩ := Option.map_eq_some'.mp hq
    cases hxq
    obtain ⟨⟨hr, _⟩, _⟩ := skipWhile_span _ (by decide) f p q hx
    obtain ⟨r1, r2, r3, r4, r5, r6⟩ := hr
    refine ⟨(slice p.source p.tokenStart q.currentChar).map Skip.space, ?_,
      (gapText_spaces _).symm, ?_⟩
    · intro it hit
      obtain ⟨d, hd, rfl⟩ := List.mem_map.mp hit
      show isSpace d = true
      obtain ⟨i, h1, h2, rfl⟩ := mem_slice hd
      by_cases hi : i = p.tokenStart
      · rw [hi, ← hc]; rcases hsp with rfl | rfl | rfl <;> decide
      · have := r6 i (by omega) h2
        simpa [isSpace] using this
    · intro _ it hit
      obtain ⟨d, _, rfl⟩ := List.mem_map.mp hit
      rfl
  · intro _ q hq
    dsimp only at hq
    split_ifs at hq <;> exact (noret _ _ hq).elim
  · intro _ q hq; exact (noret _ _ hq).elim
  · intro _ q hq
    dsimp only at hq
    split_ifs at hq <;> exact (noret _ _ hq).elim
  · intro _ q hq; exact (noret _ _ hq).elim
  · intro _ _ q hq; exact (noret _ _ hq).elim
  · intro _ m q hq; simp at hq

/-! ## What the token loop skips in front of a token -/

/-- What one run of the token loop skips in front of the token it makes: the
text from the current character to the start `s` of the token is made of
whitespace and comments; a block comment among them is left open only when an
error is reported. -/
theorem lexToken_gap (libc : Libc) :
    ∀ (f : Nat) (p q : Parser), lexToken libc f p = some q → p.rest.length + 2 ≤ f →
      (stringType q.next.type = true → q.hasError = false) →
      ∃ (s : Nat) (items : List Skip), p.currentChar ≤ s ∧ (∀ it ∈ items, it.ok) ∧
        slice p.source p.currentChar s = gapText items ∧
        (q.hasError = false → ∀ it ∈ items, it.ended = true) ∧
        (q.next.type ≠ TOKEN_ERROR → q.next.start = s) ∧
        (q.next.type = TOKEN_ERROR → q.currentChar = s + 1)
  | 0, _, _, h, _, _ => by simp [lexToken] at h
  | f + 1, p, q, h, hf, hok => by
    rw [lexToken] at h
    have hn1 : ∀ it ∈ ([] : List Skip), it.ok := fun it hit => by cases hit
    have hn2 : ∀ it ∈ ([] : List Skip), it.ended = true := fun it hit => by cases hit
    split_ifs at h with hp
    · dsimp only at h
      have hlt := currentChar_lt_length hp
      have hstep := lexSwitch_step libc f (nextChar { p with tokenStart := p.currentChar }).2
        (nextChar { p with tokenStart := p.currentChar }).1 rfl rfl hp
      have hskip := lexSwitch_skip libc f (nextChar { p with tokenStart := p.currentChar }).2
        (nextChar { p with tokenStart := p.currentChar }).1 rfl rfl hp
      have e1 : (nextChar { p with tokenStart := p.currentChar }).2.source = p.source := rfl
      have e2 : (nextChar { p with tokenStart := p.currentChar }).2.tokenStart = p.currentChar :=
        rfl
      have e3 : (nextChar { p with tokenStart := p.currentChar }).2.currentChar =
          p.currentChar + 1 := rfl
      generalize (nextChar { p with tokenStart := p.currentChar }).2 = p1 at h hstep hskip e1 e2 e3
      generalize (nextChar { p with tokenStart := p.currentChar }).1 = c at h hstep hskip
      have hrl := rest_length p
      have hrl1 := rest_length p1
      rw [e1, e3] at hrl1
      cases hr : lexSwitch libc f p1 c with
      | none => rw [hr] at h; cases h
      | some r =>
        rw [hr] at h
        have hs := hstep r hr
        cases r with
        | ret q1 =>
          cases h
          simp only [SwitchStep] at hs
          obtain ⟨s1, s2, s3, s4⟩ := hs
          obtain ⟨a1, a2, a3, a4, a5, a6, a7, a8⟩ := s4 hok
          refine ⟨p.currentChar, [], le_refl _, hn1, by simp [slice_self, gapText], fun _ => hn2,
            fun hne => ?_, fun he => ?_⟩
          · rw [(a3 hne).1, e2]
          · rw [(a4 he).1, e3]
        | brk q1 =>
          simp only [SwitchStep] at hs
          obtain ⟨⟨sr, _⟩, _, _⟩ := hs
          obtain ⟨r1, r2, r3, r4, r5, r6⟩ := sr
          obtain ⟨items1, i1, i2, i3⟩ := hskip (by omega) q1 hr
          have hsrc : q1.source = p.source := r1.trans e1
          rw [e3] at r4
          have hrlq := rest_length q1
          rw [hsrc] at hrlq
          obtain ⟨s, items2, j1, j2, j3, j4, j5, j6⟩ := lexToken_gap libc f q1 q h (by omega) hok
          have hk := lexToken_kept libc f q1 q h
          rw [hsrc] at j3
          rw [e1, e2] at i2
          refine ⟨s, items1 ++ items2, by omega, ?_, ?_, ?_, j5, j6⟩
          · intro it hit
            rcases List.mem_append.mp hit with h1 | h1
            · exact i1 it h1
            · exact j2 it h1
          · rw [slice_append p.source (show p.currentChar ≤ q1.currentChar by omega) j1, i2, j3,
              gapText_append]
          · intro hq it hit
            rcases List.mem_append.mp hit with h1 | h1
            · refine i3 ?_ it h1
              cases hb : q1.hasError with
              | false => rfl
              | true => rw [kept_flag hk hb] at hq; cases hq
            · exact j4 hq it h1
    · cases h
      refine ⟨p.currentChar, [], le_refl _, hn1, by simp [slice_self, gapText], fun _ => hn2,
        fun _ => rfl, fun he => ?_⟩
      cases he

/-! ## The skipped text in a run of calls -/

/-- The newlines of skipped text are those inside its block comments. -/
theorem newlines_gapText (items : List Skip) (h : ∀ it ∈ items, it.ok) :
    newlines (gapText items) = commentNewlines items := by
  induction items with
  | nil => rfl
  | cons it items ih =>
    have h1 := h it (List.mem_cons_self _ _)
    have h2 := ih (fun x hx => h x (List.mem_cons_of_mem _ hx))
    have e : gapText (it :: items) = it.text ++ gapText items := by
      simp [gapText]
    have e2 : commentNewlines (it :: items) = it.commentNewlines + commentNewlines items := by
      simp [commentNewlines]
    rw [e, e2, newlines_append, h2]
    congr 1
    cases it with
    | space c =>
      simp only [Skip.ok] at h1
      have : c ≠ 10 := by rintro rfl; simp [isSpace] at h1
      simp [Skip.text, Skip.commentNewlines, newlines, this, List.count_singleton]
    | lineComment t =>
      simp only [Skip.ok] at h1
      simp only [Skip.text, Skip.commentNewlines, newlines]
      exact List.count_eq_zero_of_not_mem h1.2.1
    | blockComment t => rfl
    | openComment t => rfl

/-- A call of `wrenNextToken` that does not find the EOF token in `next` runs
the token loop on the parser with the tokens shifted. -/
theorem wrenNextToken_loop {libc : Libc} {f : Nat} {p p1 : Parser}
    (h : wrenNextToken libc f p = some p1) (hne : p.next.type ≠ TOKEN_EOF) :
    lexToken libc f { p with previous := p.current, current := p.next } = some p1 := by
  rw [wrenNextToken_lex libc f p hne] at h
  exact h

/-- The pieces of a run of calls: the text read is made of the stretches
skipped in front of each token and of the text of each token, and its
newlines are those of the LINE tokens, those inside the string tokens and
those inside the block comments skipped. -/
theorem run_pieces (libc : Libc) (f : Nat) :
    ∀ (n : Nat) (p q : Parser) (ts : List Token), wrenNextTokens libc f n p = some (ts, q) →
      OkRun libc f n p → p.currentChar ≤ p.source.length → p.rest.length + 2 ≤ f →
      (p.next.type = TOKEN_EOF → p.next.length = 0 ∧ charAt p.source p.currentChar = 0) →
      ∃ pieces, Pieces p.source pieces ts ∧
        piecesText pieces = slice p.source p.currentChar q.currentChar ∧
        p.currentChar ≤ q.currentChar ∧ q.currentChar ≤ p.source.length ∧
        (q.next.type = TOKEN_EOF → charAt p.source q.currentChar = 0) ∧
        newlines (slice p.source p.currentChar q.currentChar) =
          lineCount ts + stringNewlines p.source ts + piecesCommentNewlines pieces
  | 0, p, q, ts, h, _, hlen, _, he => by
    simp only [wrenNextTokens, Option.some.injEq, Prod.mk.injEq] at h
    obtain ⟨rfl, rfl⟩ := h
    exact ⟨[], List.Forall₂.nil, by simp [piecesText, slice_self], le_refl _, hlen,
      fun h => (he h).2, by simp [slice_self, newlines, lineCount, stringNewlines, piecesCommentNewlines]⟩
  | n + 1, p, q, ts, h, hok, hlen, hfuel, he => by
    obtain ⟨p1, ts1, h1, h2, rfl⟩ := run_succ h
    obtain ⟨ok1, ok2⟩ := hok p1 h1
    rcases wrenNextToken_step h1 with ⟨hE, rfl⟩ | ⟨hne, hs⟩
    · obtain ⟨pieces, a1, a2, a3, a4, a6, a5⟩ := run_pieces libc f n _ q ts1 h2 ok2 hlen hfuel he
      have e2 := (he hE).1
      have t0 : Token.text p.source p.next = [] := by
        simp [Token.text, e2]
      have hn1 : ∀ it ∈ ([] : List Skip), it.ok := fun it hit => by cases hit
      have hm : Token.madeOf p.source p.next [] := by
        refine ⟨fun _ => t0.symm, fun h => ?_⟩
        rw [hE] at h
        cases h
      have hp : Pieces p.source (([], []) :: pieces) (p.next :: ts1) :=
        List.Forall₂.cons ⟨hn1, hm⟩ a1
      refine ⟨([], []) :: pieces, hp, ?_, a3, a4, a6, ?_⟩
      · simpa [piecesText, gapText] using a2
      · rw [lineCount_cons, stringNewlines]
        have e1 : ({ p with previous := p.current, current := p.next } : Parser).next.type =
            TOKEN_EOF := hE
        rw [e1, show stringType TOKEN_EOF = false from rfl]
        simp only [reduceCtorEq, if_false, Nat.zero_add, Bool.false_eq_true]
        simpa [piecesCommentNewlines, commentNewlines] using a5
    · have hloop := wrenNextToken_loop h1 hne
      obtain ⟨s1, _, _, s4⟩ := hs
      obtain ⟨s, b1, b2, b3, _, _, b6, _⟩ := s4 ok1
      obtain ⟨s', items, g1, g2, g3, _, g5, g6⟩ := lexToken_gap libc f _ p1 hloop hfuel ok1
      have hl1 : p1.currentChar ≤ p1.source.length := by rw [s1]; exact b3 hlen
      have hss : s' = s := by
        by_cases hte : p1.next.type = TOKEN_ERROR
        · have := (b6.2.1 hte).1
          have := g6 hte
          omega
        · exact (g5 hte).symm.trans (b6.1 hte).1
      subst hss
      have hr := rest_length p
      have hr1 := rest_length p1
      rw [s1] at hr1 hl1
      have e : ({ p with previous := p.current, current := p.next } : Parser).source =
        p.source := rfl
      rw [e] at hr1 hl1
      obtain ⟨pieces, a1, a2, a3, a4, a6, a5⟩ := run_pieces libc f n p1 q ts1 h2 ok2
        (by rw [s1]; exact hl1)
        (by
          have : p.currentChar ≤ p1.currentChar := by omega
          omega)
        (fun h => by
          have hte : p1.next.type ≠ TOKEN_ERROR := by rw [h]; decide
          obtain ⟨_, c2, _⟩ := b6.1 hte
          obtain ⟨d1, d2⟩ := b6.2.2.2.1 h
          exact ⟨by rw [c2, d1]; simp, by rw [d1]; exact d2⟩)
      rw [s1] at a1 a2 a4 a5 a6
      have hmade : Token.madeOf p.source p1.next (slice p.source s' p1.currentChar) := by
        constructor
        · intro hte
          obtain ⟨c1, c2, _⟩ := b6.1 hte
          have hpos : p1.next.start + p1.next.length.toNat = p1.currentChar := by
            rw [c1, c2]; omega
          rw [text_eq_slice _ _ (by rw [hpos]; exact hl1), hpos, c1]
        · intro hte
          obtain ⟨d1, d2, _⟩ := b6.2.1 hte
          rw [s1] at d2
          refine ⟨charAt p.source s', ?_, d2⟩
          rw [d1, slice_cons p.source (by omega) (by omega), slice_self]
      have hp : Pieces p.source ((items, slice p.source s' p1.currentChar) :: pieces)
          (p1.next :: ts1) := List.Forall₂.cons ⟨g2, hmade⟩ a1
      refine ⟨(items, slice p.source s' p1.currentChar) :: pieces, hp, ?_, by omega, a4, a6, ?_⟩
      · have e3 : piecesText ((items, slice p.source s' p1.currentChar) :: pieces) =
            gapText items ++ slice p.source s' p1.currentChar ++ piecesText pieces := by
          simp [piecesText]
        rw [e3, a2, ← g3]
        show slice p.source p.currentChar s' ++ _ ++ _ = _
        rw [← slice_append p.source g1 b2, ← slice_append p.source (by omega) a3]
      · have tn := token_newlines b6 b2 (by rw [s1]; exact hl1)
        rw [s1] at tn
        have gn := newlines_gapText items g2
        rw [← g3] at gn
        have e4 : piecesCommentNewlines ((items, slice p.source s' p1.currentChar) :: pieces) =
            commentNewlines items + piecesCommentNewlines pieces := by
          simp [piecesCommentNewlines]
        have gn' : newlines (slice p.source p.currentChar s') = commentNewlines items := gn
        rw [slice_append p.source (show p.currentChar ≤ p1.currentChar by omega) a3,
          slice_append p.source (show p.currentChar ≤ s' from g1) b2, newlines_append,
          newlines_append, a5, tn, gn', lineCount_cons, stringNewlines, e4]
        omega

/-! ## LINE tokens and newlines, with block comments -/

/-- C13, amended: the lexer emits a LINE token for every newline outside block
comments and string literals.  For every source without NUL, lexed from the
start: the calls of `wrenNextToken` return (with fuel for the length of the
source), and in every run in which no error is reported, or whose source has
no double quote, the EOF token is reached after at most `length + 1` calls,
and when it is reached the source is made of pieces, one for each token: the
whitespace and comments skipped in front of the token (`Skip`) and the text
of the token; and the number of newlines of the source is the number of LINE
tokens plus the number of newlines inside the slices of the STRING and
INTERPOLATION tokens plus the number of newlines inside the block comments
skipped.  So for a source without a block comment the number of newlines is
the number of LINE tokens plus those inside the string tokens, and for a
source with neither a block comment nor a double quote it is the number of
LINE tokens. -/
theorem line_tokens_count (libc : Libc) (p : Parser) (fuel : Nat)
    (hfresh : p.fresh) (h0 : 0 ∉ p.source) (hfuel : p.source.length + 2 ≤ fuel) :
    (∀ n, ∃ ts q, wrenNextTokens libc fuel n p = some (ts, q) ∧ ts.length = n) ∧
    (∀ n ts q, wrenNextTokens libc fuel n p = some (ts, q) →
      (q.hasError = false ∨ 34 ∉ p.source) →
      (p.source.length < n → q.next.type = TOKEN_EOF) ∧
      (q.next.type = TOKEN_EOF →
        (∃ pieces, Pieces p.source pieces ts ∧ piecesText pieces = p.source ∧
          newlines p.source =
            lineCount ts + stringNewlines p.source ts + piecesCommentNewlines pieces) ∧
        (noBlockComment p.source = true →
          newlines p.source = lineCount ts + stringNewlines p.source ts) ∧
        (34 ∉ p.source → stringNewlines p.source ts = 0) ∧
        (noBlockComment p.source = true → 34 ∉ p.source →
          lineCount ts = newlines p.source))) := by
  obtain ⟨hcc, _, hnum, hne⟩ := hfresh
  refine ⟨fun n => wrenNextTokens_returns libc fuel n p hfuel, ?_⟩
  intro n ts q hrun hclean
  have hok := okRun_clean libc fuel hrun hnum hclean
  have hlen : p.currentChar ≤ p.source.length := by omega
  have hrl := rest_length p
  refine ⟨fun hn => run_eof libc fuel n p q ts hrun hok hlen (Or.inr (by omega)), ?_⟩
  intro hE
  obtain ⟨pieces, a1, a2, a3, a4, a5, a6⟩ := run_pieces libc fuel n p q ts hrun hok hlen
    (by omega) (fun h => absurd h hne)
  have hend := eof_at_end h0 a4 (a5 hE)
  rw [hcc, hend, slice_all] at a2 a6
  have hnb : noBlockComment p.source = true →
      newlines p.source = lineCount ts + stringNewlines p.source ts := by
    intro hnb
    obtain ⟨_, _, _, _, b5⟩ := run_newlines libc fuel n p q ts hrun hok hnb hlen
      (fun h => absurd h hne)
    rw [hcc, hend, slice_all] at b5
    exact b5
  have hns : 34 ∉ p.source → stringNewlines p.source ts = 0 := fun hq =>
    stringNewlines_none _ _ (run_no_strings libc fuel n p q ts hrun hq hnum)
  refine ⟨⟨pieces, a1, a2, a6⟩, hnb, hns, fun h1 h2 => ?_⟩
  rw [hnb h1, hns h2]
  simp

/-- Witness for C13: the source `a`, a block comment holding a newline, a
string holding a newline, and a newline is lexed to the EOF token by four
calls; of its three newlines one is a LINE token, one is inside the string
token and one is inside the block comment. -/
theorem line_tokens_count_witness :
    (startParser (ascii "a/*\n*/\"b\nc\"\n")).fresh ∧
    ∃ ts q, wrenNextTokens exampleLibc 15 4 (startParser (ascii "a/*\n*/\"b\nc\"\n")) =
        some (ts, q) ∧
      q.next.type = TOKEN_EOF ∧
      ts.map (fun t => t.type) = [TOKEN_NAME, TOKEN_STRING, TOKEN_LINE, TOKEN_EOF] ∧
      newlines (ascii "a/*\n*/\"b\nc\"\n") = 3 ∧ lineCount ts = 1 ∧
      stringNewlines (ascii "a/*\n*/\"b\nc\"\n") ts = 1 ∧
      ∃ pieces, Pieces (ascii "a/*\n*/\"b\nc\"\n") pieces ts ∧
        piecesText pieces = ascii "a/*\n*/\"b\nc\"\n" ∧
        newlines (ascii "a/*\n*/\"b\nc\"\n") =
          lineCount ts + stringNewlines (ascii "a/*\n*/\"b\nc\"\n") ts +
            piecesCommentNewlines pieces :=
  ⟨⟨rfl, rfl, rfl, by decide⟩,
    _, _, rfl, by decide, by decide, by decide, by decide, by decide,
    ((line_tokens_count exampleLibc (startParser (ascii "a/*\n*/\"b\nc\"\n")) 15
      ⟨rfl, rfl, rfl, by decide⟩ (by decide) (by decide)).2 4 _ _ rfl
        (Or.inl (by decide))).2 (by decide) |>.1⟩

/-! ## Lex, then reconstruct, with comments -/

end Wren
